import Mathlib

/-!
# Indexed min-heap, Prim and Dijkstra (a3-2)

A shallow embedding of `minheap.c` and `graph_algos.c`.

Modelling conventions
* C `int` values are `Int`.  Heap index arithmetic (`2 * i`, `size + 1`) is
  taken without overflow; the arithmetic on priorities and weights,
  Dijkstra's `u_dist + weight_uv` and the subtraction in `makePath`, wraps at
  32 bits (`wrap32`).
* An array is a total map `Int → α` together with its allocated length; every
  read and write checks the index against that length.
* Every function returns an `Option`: `none` stands for a run that does not
  return normally (`exit(1)`, an access outside an allocation, a NULL
  dereference, or a loop that has used up its fuel).
* Pointers to heaps and records are taken to be non-NULL; `malloc` succeeds.
  Memory that `malloc` returns uninitialised is passed in as a parameter
  (`junk`), so that theorems hold whatever it contains.
* Loops are recursive functions on a fuel counter; the entry points supply
  a fuel that the theorems show to be sufficient.  The loop of `makePath` has
  no bound in the source, so its fuel is a parameter and its result type
  (`PathRun`) tells a return from `exit(1)` and from a run still going on.
-/

namespace CSCB63

/-! ## minheap.c -/

/-- Heap node: a priority and the ID it belongs to. -/
structure HeapNode where
  priority : Int
  id : Int
deriving DecidableEq

/-- The heap: `arr` has `capacity + 1` slots (slot 0 unused), `indexMap` has
`capacity` slots. -/
structure MinHeap where
  size : Int
  capacity : Int
  arr : Int → HeapNode
  indexMap : Int → Int

/-- Result of `find_min`. -/
structure MinNode where
  priority : Int
  nodeIndex : Int
deriving DecidableEq

def ROOT_INDEX : Int := 1

def NOTHING : Int := -1

/-- Read of `heap->arr[nodeIndex]`. -/
def nodeAt (heap : MinHeap) (nodeIndex : Int) : Option HeapNode :=
  if 0 ≤ nodeIndex ∧ nodeIndex ≤ heap.capacity then some (heap.arr nodeIndex) else none

/-- Read of `heap->arr[nodeIndex].priority`. -/
def priorityAt (heap : MinHeap) (nodeIndex : Int) : Option Int :=
  if 0 ≤ nodeIndex ∧ nodeIndex ≤ heap.capacity then some (heap.arr nodeIndex).priority else none

/-- Read of `heap->arr[nodeIndex].id`. -/
def idAt (heap : MinHeap) (nodeIndex : Int) : Option Int :=
  if 0 ≤ nodeIndex ∧ nodeIndex ≤ heap.capacity then some (heap.arr nodeIndex).id else none

/-- Read of `heap->indexMap[id]`. -/
def indexOf (heap : MinHeap) (id : Int) : Option Int :=
  if 0 ≤ id ∧ id < heap.capacity then some (heap.indexMap id) else none

/-- Write `heap->arr[nodeIndex] = node`. -/
def setNodeAt (heap : MinHeap) (nodeIndex : Int) (node : HeapNode) : Option MinHeap :=
  if 0 ≤ nodeIndex ∧ nodeIndex ≤ heap.capacity then
    some { heap with arr := Function.update heap.arr nodeIndex node }
  else none

/-- Write `heap->arr[nodeIndex].priority = priority`. -/
def setPriorityAt (heap : MinHeap) (nodeIndex : Int) (priority : Int) : Option MinHeap :=
  if 0 ≤ nodeIndex ∧ nodeIndex ≤ heap.capacity then
    some { heap with
      arr := Function.update heap.arr nodeIndex { heap.arr nodeIndex with priority := priority } }
  else none

/-- Write `heap->arr[nodeIndex].id = id`. -/
def setIdAt (heap : MinHeap) (nodeIndex : Int) (id : Int) : Option MinHeap :=
  if 0 ≤ nodeIndex ∧ nodeIndex ≤ heap.capacity then
    some { heap with arr := Function.update heap.arr nodeIndex { heap.arr nodeIndex with id := id } }
  else none

/-- Write `heap->indexMap[id] = nodeIndex`. -/
def setIndexOf (heap : MinHeap) (id : Int) (nodeIndex : Int) : Option MinHeap :=
  if 0 ≤ id ∧ id < heap.capacity then
    some { heap with indexMap := Function.update heap.indexMap id nodeIndex }
  else none

/-- The tests are made in the order of the source, so `arr` is read only for
an index in `1..size` and `indexMap` only for an ID in `[0, capacity)`. -/
def isValidIndex (heap : MinHeap) (maybeIdx : Int) : Option Bool :=
  if maybeIdx < 1 ∨ maybeIdx > heap.size then some false
  else do
    let maybeId ← idAt heap maybeIdx
    if maybeId < 0 ∨ maybeId ≥ heap.capacity then pure false
    else do
      let idx ← indexOf heap maybeId
      if idx ≠ maybeIdx then pure false else pure true

/-- On an invalid index the source calls `exit(1)`: the result is `none`. -/
def leftIdx (heap : MinHeap) (nodeIndex : Int) : Option Int := do
  let valid ← isValidIndex heap nodeIndex
  if valid = false then none
  else
    let left_child := 2 * nodeIndex
    if left_child > heap.size then pure NOTHING else pure left_child

/-- On an invalid index the source calls `exit(1)`: the result is `none`. -/
def rightIdx (heap : MinHeap) (nodeIndex : Int) : Option Int := do
  let valid ← isValidIndex heap nodeIndex
  if valid = false then none
  else
    let right_child := 2 * nodeIndex + 1
    if right_child > heap.size then pure NOTHING else pure right_child

/-- On an invalid index the source calls `exit(1)`: the result is `none`.  The
index is at least 1 where the division is reached, so C's `/` and Lean's agree. -/
def parentIdx (heap : MinHeap) (nodeIndex : Int) : Option Int := do
  let valid ← isValidIndex heap nodeIndex
  if valid = false then none
  else if nodeIndex = ROOT_INDEX then pure NOTHING
  else pure (nodeIndex / 2)

/-- The second validity test is made only when the first one passes, as with
the `||` of the source. -/
def swap (heap : MinHeap) (index1 index2 : Int) : Option MinHeap := do
  let valid1 ← isValidIndex heap index1
  if valid1 = false then pure heap
  else do
    let valid2 ← isValidIndex heap index2
    if valid2 = false then pure heap
    else do
      let temp_container ← nodeAt heap index1
      let other ← nodeAt heap index2
      let heap1 ← setNodeAt heap index1 other
      let heap2 ← setNodeAt heap1 index2 temp_container
      let id1 ← idAt heap2 index1
      let heap3 ← setIndexOf heap2 id1 index1
      let id2 ← idAt heap3 index2
      setIndexOf heap3 id2 index2

/-- The `while` loop of `bubbleUp`; one unit of fuel per test of the loop
condition. -/
def bubbleUpLoop : Nat → MinHeap → Int → Int → Option MinHeap
  | 0, _, _, _ => none
  | fuel + 1, heap, nodeIndex, parentIndex =>
    if parentIndex = NOTHING then some heap
    else do
      let valid ← isValidIndex heap nodeIndex
      if valid = false then pure heap
      else do
        let p ← priorityAt heap nodeIndex
        let q ← priorityAt heap parentIndex
        if p < q then do
          let heap1 ← swap heap nodeIndex parentIndex
          let parentIndex1 ← parentIdx heap1 parentIndex
          bubbleUpLoop fuel heap1 parentIndex parentIndex1
        else pure heap

/-- The loop halves the index at each round, so `nodeIndex` units of fuel are
enough. -/
def bubbleUp (heap : MinHeap) (nodeIndex : Int) : Option MinHeap := do
  let valid ← isValidIndex heap nodeIndex
  if valid = false then pure heap
  else do
    let parentIndex ← parentIdx heap nodeIndex
    bubbleUpLoop nodeIndex.toNat heap nodeIndex parentIndex

/-- With two children of equal priority the right child is returned: the
source tests `priority(left) < priority(right)`. -/
def find_min (heap : MinHeap) (nodeIndex : Int) : Option MinNode := do
  let valid ← isValidIndex heap nodeIndex
  if valid = false then none
  else do
    let left_child ← leftIdx heap nodeIndex
    let right_child ← rightIdx heap nodeIndex
    if left_child = NOTHING then do
      let p ← priorityAt heap nodeIndex
      pure { priority := p, nodeIndex := nodeIndex }
    else if right_child = NOTHING then do
      let p ← priorityAt heap left_child
      pure { priority := p, nodeIndex := left_child }
    else do
      let pl ← priorityAt heap left_child
      let pr ← priorityAt heap right_child
      if pl < pr then pure { priority := pl, nodeIndex := left_child }
      else pure { priority := pr, nodeIndex := right_child }

/-- The `while` loop of `bubbleDown`; one unit of fuel per test of the loop
condition. -/
def bubbleDownLoop : Nat → MinHeap → Int → MinNode → Option MinHeap
  | 0, _, _, _ => none
  | fuel + 1, heap, nodeIndex, min_node_info => do
    let valid ← isValidIndex heap nodeIndex
    if valid = false then pure heap
    else do
      let p ← priorityAt heap nodeIndex
      if p > min_node_info.priority then do
        let heap1 ← swap heap nodeIndex min_node_info.nodeIndex
        let info1 ← find_min heap1 min_node_info.nodeIndex
        bubbleDownLoop fuel heap1 min_node_info.nodeIndex info1
      else pure heap

/-- The loop moves to a larger index at each round, so `size` units of fuel are
enough. -/
def bubbleDown (heap : MinHeap) : Option MinHeap :=
  if heap.size < 1 then some heap
  else do
    let min_node_info ← find_min heap ROOT_INDEX
    bubbleDownLoop heap.size.toNat heap ROOT_INDEX min_node_info

def getMin (heap : MinHeap) : Option HeapNode := nodeAt heap ROOT_INDEX

/-- Returns the removed node together with the heap after the call. -/
def extractMin (heap : MinHeap) : Option (HeapNode × MinHeap) := do
  let minNode ← getMin heap
  let last ← nodeAt heap heap.size
  let heap1 ← setNodeAt heap 1 last
  let rootId ← idAt heap1 ROOT_INDEX
  let heap2 ← setIndexOf heap1 rootId ROOT_INDEX
  let heap3 := { heap2 with size := heap2.size - 1 }
  let heap4 ← bubbleDown heap3
  pure (minNode, heap4)

/-- The two field writes of the source are made one after the other. -/
def insert (heap : MinHeap) (priority id : Int) : Option MinHeap := do
  let heap0 := { heap with size := heap.size + 1 }
  let nodeIndex := heap0.size
  let heap1 ← setPriorityAt heap0 nodeIndex priority
  let heap2 ← setIdAt heap1 nodeIndex id
  let heap3 ← setIndexOf heap2 id nodeIndex
  bubbleUp heap3 nodeIndex

def getPriority (heap : MinHeap) (id : Int) : Option Int := do
  let index ← indexOf heap id
  priorityAt heap index

/-- Returns the boolean result together with the heap after the call. -/
def decreasePriority (heap : MinHeap) (id newPriority : Int) : Option (Bool × MinHeap) :=
  if id < 0 ∨ id ≥ heap.capacity then some (false, heap)
  else do
    let index ← indexOf heap id
    let valid ← isValidIndex heap index
    if valid = false then pure (false, heap)
    else do
      let oldPriority ← getPriority heap id
      if oldPriority ≤ newPriority then pure (false, heap)
      else do
        let heap1 ← setPriorityAt heap index newPriority
        let heap2 ← bubbleUp heap1 index
        pure (true, heap2)

/-- The parameter `junk` is the content of the freshly allocated `arr`. -/
def newHeap (capacity : Int) (junk : Int → HeapNode) : MinHeap :=
  { size := 0, capacity := capacity, arr := junk, indexMap := fun _ => NOTHING }

/-! ## graph.c and graph_algos.c -/

structure Edge where
  fromVertex : Int
  toVertex : Int
  weight : Int
deriving DecidableEq

/-- A vertex: its ID and its adjacency list (the `EdgeList` chain as a list).
The `value` pointer plays no role in the algorithms. -/
structure Vertex where
  id : Int
  adjList : List Edge

/-- The graph: `vertices` has `numVertices` slots; `none` is a NULL slot. -/
structure Graph where
  numVertices : Int
  numEdges : Int
  vertices : Int → Option Vertex

def INT_MAX : Int := 2147483647

/-- Signed 32-bit wraparound of `int` arithmetic. -/
def wrap32 (x : Int) : Int := (x + 2147483648) % 4294967296 - 2147483648

/-- The `finished`, `predecessors` and `tree` arrays have `numVertices` slots
each. -/
structure Records where
  numVertices : Int
  heap : MinHeap
  finished : Int → Bool
  predecessors : Int → Int
  tree : Int → Edge
  numTreeEdges : Int

/-- Read of `graph->vertices[id]`, the vertex behind the pointer. -/
def vertexAt (graph : Graph) (id : Int) : Option Vertex :=
  if 0 ≤ id ∧ id < graph.numVertices then graph.vertices id else none

/-- Read of `records->finished[id]`. -/
def finishedAt (records : Records) (id : Int) : Option Bool :=
  if 0 ≤ id ∧ id < records.numVertices then some (records.finished id) else none

/-- Write `records->finished[id] = true`. -/
def setFinished (records : Records) (id : Int) : Option Records :=
  if 0 ≤ id ∧ id < records.numVertices then
    some { records with finished := Function.update records.finished id true }
  else none

/-- Read of `records->predecessors[id]`. -/
def predecessorAt (records : Records) (id : Int) : Option Int :=
  if 0 ≤ id ∧ id < records.numVertices then some (records.predecessors id) else none

/-- Write `records->predecessors[id] = pred`. -/
def setPredecessor (records : Records) (id pred : Int) : Option Records :=
  if 0 ≤ id ∧ id < records.numVertices then
    some { records with predecessors := Function.update records.predecessors id pred }
  else none

/-- The heap pointer is non-NULL, which leaves the test `size == 0`. -/
def isEmpty (heap : MinHeap) : Bool := decide (heap.size = 0)

/-- The `for` loop of `initHeap`: `count` iterations starting at `i`. -/
def initHeapLoop (startVertex : Int) : Nat → Int → MinHeap → Option MinHeap
  | 0, _, heap => some heap
  | count + 1, i, heap => do
    let heap1 ← if i = startVertex then insert heap 0 i else insert heap INT_MAX i
    initHeapLoop startVertex count (i + 1) heap1

/-- The parameter `junk` is the uninitialised content of the heap array.  The
graph is non-NULL here: both callers test it first. -/
def initHeap (graph : Graph) (startVertex : Int) (junk : Int → HeapNode) : Option MinHeap :=
  let ver_num := graph.numVertices
  let heap := newHeap ver_num junk
  initHeapLoop startVertex ver_num.toNat 0 heap

/-- The parameter `junkTree` is the uninitialised content of the tree
buffer.  The two initialising loops fill every slot of `finished` and
`predecessors`. -/
def initRecords (graph : Graph) (startVertex : Int) (junk : Int → HeapNode)
    (junkTree : Int → Edge) : Option Records := do
  let ver_num := graph.numVertices
  let heap ← initHeap graph startVertex junk
  if isEmpty heap then none
  else
    pure { numVertices := ver_num
           numTreeEdges := 0
           heap := heap
           finished := fun _ => false
           predecessors := fun _ => NOTHING
           tree := junkTree }

/-- The guard of the source keeps the write inside the buffer; the three field
writes are one update of the slot. -/
def addTreeEdge (records : Records) (ind fromVertex toVertex weight : Int) : Records :=
  if ind < 0 ∨ ind > records.numVertices - 1 then records
  else
    { records with
      tree := Function.update records.tree ind
        { fromVertex := fromVertex, toVertex := toVertex, weight := weight } }

/-- The inner `while (u_adj != NULL)` loop of `getMSTprim`. -/
def primRelax (uid : Int) : List Edge → Records → Option Records
  | [], records => some records
  | edge :: u_adj, records => do
    let vid := edge.toVertex
    let weight_uv := edge.weight
    let fin ← finishedAt records vid
    if fin = true then primRelax uid u_adj records
    else do
      let p ← getPriority records.heap vid
      if weight_uv < p then do
        let (_, heap1) ← decreasePriority records.heap vid weight_uv
        let records1 ← setPredecessor { records with heap := heap1 } vid uid
        primRelax uid u_adj records1
      else primRelax uid u_adj records

/-- The outer `while (!isEmpty(records->heap))` loop of `getMSTprim`; one unit
of fuel per test of the loop condition. -/
def primLoop (graph : Graph) : Nat → Records → Option Records
  | 0, _ => none
  | fuel + 1, records =>
    if isEmpty records.heap then some records
    else do
      let (u, heap1) ← extractMin records.heap
      let uid := u.id
      let records1 ← setFinished { records with heap := heap1 } uid
      let pred ← predecessorAt records1 uid
      let records2 :=
        if pred ≠ NOTHING then
          { addTreeEdge records1 records1.numTreeEdges uid pred u.priority with
            numTreeEdges := records1.numTreeEdges + 1 }
        else records1
      let u_vertex ← vertexAt graph uid
      let records3 ← primRelax uid u_vertex.adjList records2
      primLoop graph fuel records3

/-- The records of `getMSTprim` at loop exit, for a non-NULL graph and a
start vertex in range. -/
def primRun (graph : Graph) (startVertex : Int) (junk : Int → HeapNode)
    (junkTree : Int → Edge) : Option Records := do
  let records ← initRecords graph startVertex junk junkTree
  primLoop graph (graph.numVertices.toNat + 1) records

/-- The outer `Option` is `none` when the run does not return; the inner one
is `none` for a NULL result. -/
def getMSTprim (graph : Option Graph) (startVertex : Int) (junk : Int → HeapNode)
    (junkTree : Int → Edge) : Option (Option (Int → Edge)) :=
  match graph with
  | none => some none
  | some g =>
    if startVertex < 0 ∨ startVertex ≥ g.numVertices then some none
    else do
      let records ← primRun g startVertex junk junkTree
      pure (some records.tree)

/-- The inner `while (u_adj != NULL)` loop of `getDistanceTreeDijkstra`. -/
def dijkstraRelax (uid u_dist : Int) : List Edge → Records → Option Records
  | [], records => some records
  | edge :: u_adj, records => do
    let vid := edge.toVertex
    let weight_uv := edge.weight
    let new_dist := wrap32 (u_dist + weight_uv)
    let fin ← finishedAt records vid
    if fin = true then dijkstraRelax uid u_dist u_adj records
    else do
      let p ← getPriority records.heap vid
      if new_dist < p then do
        let (_, heap1) ← decreasePriority records.heap vid new_dist
        let records1 ← setPredecessor { records with heap := heap1 } vid uid
        dijkstraRelax uid u_dist u_adj records1
      else dijkstraRelax uid u_dist u_adj records

/-- The outer loop of `getDistanceTreeDijkstra`; one unit of fuel per test of
the loop condition. -/
def dijkstraLoop (graph : Graph) (startVertex : Int) : Nat → Records → Option Records
  | 0, _ => none
  | fuel + 1, records =>
    if isEmpty records.heap then some records
    else do
      let (u, heap1) ← extractMin records.heap
      let uid := u.id
      let u_dist := u.priority
      let records1 ← setFinished { records with heap := heap1 } uid
      let records2 ←
        if uid = startVertex then pure (addTreeEdge records1 uid uid uid 0)
        else do
          let pred ← predecessorAt records1 uid
          pure (addTreeEdge records1 uid uid pred u_dist)
      let u_vertex ← vertexAt graph uid
      let records3 ← dijkstraRelax uid u_dist u_vertex.adjList records2
      dijkstraLoop graph startVertex fuel records3

/-- The records of `getDistanceTreeDijkstra` at loop exit, for a non-NULL
graph and a start vertex in range. -/
def dijkstraRun (graph : Graph) (startVertex : Int) (junk : Int → HeapNode)
    (junkTree : Int → Edge) : Option Records := do
  let records ← initRecords graph startVertex junk junkTree
  dijkstraLoop graph startVertex (graph.numVertices.toNat + 1) records

/-- The outer `Option` is `none` when the run does not return; the inner one
is `none` for a NULL result. -/
def getDistanceTreeDijkstra (graph : Option Graph) (startVertex : Int)
    (junk : Int → HeapNode) (junkTree : Int → Edge) : Option (Option (Int → Edge)) :=
  match graph with
  | none => some none
  | some g =>
    if startVertex < 0 ∨ startVertex ≥ g.numVertices then some none
    else do
      let records ← dijkstraRun g startVertex junk junkTree
      pure (some records.tree)

/-- The weight test comes first: a negative weight ends the run (`exit(1)`),
and no edge is produced. -/
def newEdge (fromVertex toVertex weight : Int) : Option Edge :=
  if weight < 0 then none
  else some { fromVertex := fromVertex, toVertex := toVertex, weight := weight }

/-- How a run of `makePath` ends.  A returned `EdgeList*` is the list of its
edges, NULL being the empty list. -/
inductive PathRun where
  | returned (path : List Edge)
  | exited
  | unfinished
deriving DecidableEq

/-- The scan `while (distTree_index >= 0 && distTree_index < numVertices)` of
`makePath`, `count` entries starting at `distTree_index`: the first entry
whose `fromVertex` is `current_vertex`. -/
def findEntry (distTree : Int → Edge) (current_vertex : Int) : Nat → Int → Option Edge
  | 0, _ => none
  | count + 1, distTree_index =>
    if (distTree distTree_index).fromVertex = current_vertex then some (distTree distTree_index)
    else findEntry distTree current_vertex count (distTree_index + 1)

/-- The `for` loop of `makePath` that sets `pre_weight`, `count` entries
starting at `i`; `pre_weight` stays 0 when no entry matches. -/
def preWeight (distTree : Int → Edge) (toVertex : Int) : Nat → Int → Int
  | 0, _ => 0
  | count + 1, i =>
    if (distTree i).fromVertex = toVertex then (distTree i).weight
    else preWeight distTree toVertex count (i + 1)

/-- The loop `while (current_vertex != startVertex)` of `makePath`; one unit
of fuel per test of the loop condition, `path` is the list built so far. -/
def makePathLoop (distTree : Int → Edge) (numVertices startVertex : Int) :
    Nat → Int → List Edge → PathRun
  | 0, _, _ => PathRun.unfinished
  | fuel + 1, current_vertex, path =>
    if current_vertex = startVertex then PathRun.returned path
    else
      match findEntry distTree current_vertex numVertices.toNat 0 with
      | none => PathRun.returned []
      | some current_distTree_edge =>
        let pre_weight := preWeight distTree current_distTree_edge.toVertex numVertices.toNat 0
        match newEdge current_distTree_edge.fromVertex current_distTree_edge.toVertex
            (wrap32 (current_distTree_edge.weight - pre_weight)) with
        | none => PathRun.exited
        | some edge =>
          makePathLoop distTree numVertices startVertex fuel current_distTree_edge.toVertex
            (path ++ [edge])

/-- The source puts no bound on its loop, so the fuel is a parameter.
`distTree` is `none` for a NULL pointer, and has `numVertices` entries
otherwise. -/
def makePath (fuel : Nat) (distTree : Option (Int → Edge)) (numVertices vertex startVertex : Int) :
    PathRun :=
  if vertex < 0 ∨ vertex ≥ numVertices ∨ startVertex < 0 ∨ startVertex ≥ numVertices then
    PathRun.exited
  else
    match distTree with
    | none => PathRun.returned []
    | some tree =>
      if vertex = startVertex then PathRun.returned []
      else makePathLoop tree numVertices startVertex fuel vertex []

/-- The `for` loop of `getShortestPaths`, `count` iterations starting at
`vertexId`. -/
def getShortestPathsLoop (fuel : Nat) (distTree : Int → Edge) (numVertices startVertex : Int) :
    Nat → Int → (Int → List Edge) → Option (Int → List Edge)
  | 0, _, paths => some paths
  | count + 1, vertexId, paths =>
    if vertexId = startVertex then
      getShortestPathsLoop fuel distTree numVertices startVertex count (vertexId + 1)
        (Function.update paths vertexId [])
    else
      match makePath fuel (some distTree) numVertices vertexId startVertex with
      | PathRun.returned path =>
        getShortestPathsLoop fuel distTree numVertices startVertex count (vertexId + 1)
          (Function.update paths vertexId path)
      | _ => none

/-- The parameter `fuel` bounds each call of `makePath`; `junkPaths` is the
uninitialised content of the `paths` array.  The outer `Option` is `none`
when the run does not return, the inner one is `none` for a NULL result. -/
def getShortestPaths (fuel : Nat) (distTree : Option (Int → Edge)) (numVertices startVertex : Int)
    (junkPaths : Int → List Edge) : Option (Option (Int → List Edge)) :=
  match distTree with
  | none => some none
  | some tree =>
    if startVertex < 0 ∨ startVertex ≥ numVertices then some none
    else
      (getShortestPathsLoop fuel tree numVertices startVertex numVertices.toNat 0 junkPaths).map
        some

/-! ## Specification vocabulary

Predicates the theorems are stated with, the values the loops are shown to
compute, the loop invariants, and the concrete inputs of the examples. -/

/-- Map consistency: for every occupied slot `s`, reading `arr[s].id` and then
`indexMap` at that ID is defined and gives back `s`. -/
def mapConsistent (h : MinHeap) : Prop :=
  ∀ s, 1 ≤ s → s ≤ h.size → (idAt h s).bind (indexOf h) = some s

/-- Heap order: every occupied slot `s ≥ 2` has a priority no smaller than that
of its parent slot `s / 2`. -/
def heapOrder (h : MinHeap) : Prop :=
  ∀ s, 2 ≤ s → s ≤ h.size → (h.arr (s / 2)).priority ≤ (h.arr s).priority

/-- Slot `s` is inside `arr`, holds an ID inside `indexMap`, and the map sends
that ID back to `s`. -/
def SlotOk (h : MinHeap) (s : Int) : Prop :=
  s ≤ h.capacity ∧ 0 ≤ (h.arr s).id ∧ (h.arr s).id < h.capacity ∧ h.indexMap (h.arr s).id = s

/-- The heap `swap` returns for two different valid indices `i` and `j`. -/
def swapped (h : MinHeap) (i j : Int) : MinHeap :=
  { h with
    arr := Function.update (Function.update h.arr i (h.arr j)) j (h.arr i)
    indexMap := Function.update (Function.update h.indexMap (h.arr j).id i) (h.arr i).id j }

/-- Loop invariant of `bubbleUp` at slot `k`: heap order holds on every edge
except the one above `k`, and the children of `k` are no smaller than the
parent of `k`. -/
def UpInv (h : MinHeap) (k : Int) : Prop :=
  (∀ s, 2 ≤ s → s ≤ h.size → s ≠ k → (h.arr (s / 2)).priority ≤ (h.arr s).priority) ∧
  (∀ s, 2 ≤ s → s ≤ h.size → s / 2 = k → 2 ≤ k →
    (h.arr (k / 2)).priority ≤ (h.arr s).priority)

/-- Every occupied slot is consistent: map consistency, spelled out on the
fields. -/
def AllOk (h : MinHeap) : Prop := ∀ s, 1 ≤ s → s ≤ h.size → SlotOk h s

/-- The two heaps hold the same nodes in their occupied slots, and agree on
the map entries of IDs that are not stored. -/
def SameEntries (h h' : MinHeap) : Prop :=
  h'.size = h.size ∧ h'.capacity = h.capacity ∧
  (∀ n, (∃ s, 1 ≤ s ∧ s ≤ h'.size ∧ h'.arr s = n) ↔ (∃ s, 1 ≤ s ∧ s ≤ h.size ∧ h.arr s = n)) ∧
  (∀ id, (∀ s, 1 ≤ s → s ≤ h.size → (h.arr s).id ≠ id) → h'.indexMap id = h.indexMap id) ∧
  (∀ s, (s < 1 ∨ h.size < s) → h'.arr s = h.arr s)

/-- The value `find_min` computes at an occupied slot `k`. -/
def minChild (h : MinHeap) (k : Int) : MinNode :=
  if 2 * k > h.size then { priority := (h.arr k).priority, nodeIndex := k }
  else if 2 * k + 1 > h.size then { priority := (h.arr (2 * k)).priority, nodeIndex := 2 * k }
  else if (h.arr (2 * k)).priority < (h.arr (2 * k + 1)).priority then
    { priority := (h.arr (2 * k)).priority, nodeIndex := 2 * k }
  else { priority := (h.arr (2 * k + 1)).priority, nodeIndex := 2 * k + 1 }

/-- Loop invariant of `bubbleDown` at slot `k`: heap order holds on every edge
except those below `k`, and the children of `k` are no smaller than the
parent of `k`. -/
def DownInv (h : MinHeap) (k : Int) : Prop :=
  (∀ s, 2 ≤ s → s ≤ h.size → s / 2 ≠ k → (h.arr (s / 2)).priority ≤ (h.arr s).priority) ∧
  (∀ s, 2 ≤ s → s ≤ h.size → s / 2 = k → 2 ≤ k →
    (h.arr (k / 2)).priority ≤ (h.arr s).priority)

/-- Node `n` sits in an occupied slot of `h`. -/
def Stored (h : MinHeap) (n : HeapNode) : Prop := ∃ s, 1 ≤ s ∧ s ≤ h.size ∧ h.arr s = n

/-- The nodes in the occupied slots of a heap, in slot order. -/
def entries (h : MinHeap) : List HeapNode :=
  (List.range h.size.toNat).map fun (i : Nat) => h.arr ((i : Int) + 1)

/-- The heap in `extractMin` just before `bubbleDown` is called. -/
def moveLast (h : MinHeap) : MinHeap :=
  { h with
    arr := Function.update h.arr 1 (h.arr h.size)
    indexMap := Function.update h.indexMap (h.arr h.size).id 1
    size := h.size - 1 }

/-- The heap in `insert` just before `bubbleUp` is called. -/
def appended (h : MinHeap) (p id : Int) : MinHeap :=
  { h with
    size := h.size + 1
    arr := Function.update h.arr (h.size + 1) { priority := p, id := id }
    indexMap := Function.update h.indexMap id (h.size + 1) }

/-- The heap in `decreasePriority` just before `bubbleUp` is called. -/
def lowered (h : MinHeap) (k p : Int) : MinHeap :=
  { h with arr := Function.update h.arr k { h.arr k with priority := p } }

/-- A heap with two entries, `(5, 0)` at the root and `(7, 1)` below it, and
room for a third ID. -/
def sampleHeap : MinHeap :=
  { size := 2
    capacity := 3
    arr := fun s => if s = 1 then { priority := 5, id := 0 }
      else if s = 2 then { priority := 7, id := 1 } else { priority := 0, id := 0 }
    indexMap := fun i => if i = 0 then 1 else if i = 1 then 2 else NOTHING }

/-- `n` successive calls of `extractMin`, collecting the returned nodes in
call order. -/
def extractAll : Nat → MinHeap → Option (List HeapNode × MinHeap)
  | 0, heap => some ([], heap)
  | n + 1, heap => do
    let (minNode, heap1) ← extractMin heap
    let (rest, heap2) ← extractAll n heap1
    pure (minNode :: rest, heap2)

/-- The run `newHeap(2)`, `insert(5, 0)`, `insert(7, 1)`, `extractMin`. -/
def twoInsertsOneExtract : Option (HeapNode × MinHeap) := do
  let heap1 ← insert (newHeap 2 (fun _ => { priority := 0, id := 0 })) 5 0
  let heap2 ← insert heap1 7 1
  extractMin heap2

/-- The allocated cells of a heap of capacity 2. -/
def cells2 (h : MinHeap) : Int × Int × List HeapNode × List Int :=
  (h.size, h.capacity, [h.arr 0, h.arr 1, h.arr 2], [h.indexMap 0, h.indexMap 1])

/-- The heap that `twoInsertsOneExtract` leaves: ID 1 alone, at the root; the
map entry of the removed ID 0 still reads 1. -/
def staleHeap : MinHeap :=
  { size := 1
    capacity := 2
    arr := fun s => if s = 1 ∨ s = 2 then { priority := 7, id := 1 }
      else { priority := 0, id := 0 }
    indexMap := fun _ => 1 }

/-- The priority `initHeap` gives to vertex `v`. -/
def initPriority (startVertex v : Int) : Int := if v = startVertex then 0 else INT_MAX

/-- The invariant both traversals keep on their records, for a graph of `n`
vertices: the heap is well-formed and stores exactly the unfinished
vertices. -/
structure RecInv (n : Int) (r : Records) : Prop where
  nv : r.numVertices = n
  cap : r.heap.capacity = n
  ok : AllOk r.heap
  ho : heapOrder r.heap
  size0 : 0 ≤ r.heap.size
  fin : ∀ v, 0 ≤ v → v < n → (r.finished v = false ↔ ∃ p, Stored r.heap { priority := p, id := v })

/-- Both inner loops, with the candidate priority of an edge as a parameter:
`cand w = w` for Prim, `cand w = wrap32 (u_dist + w)` for Dijkstra. -/
def relaxLoop (cand : Int → Int) (uid : Int) : List Edge → Records → Option Records
  | [], records => some records
  | edge :: u_adj, records => do
    let fin ← finishedAt records edge.toVertex
    if fin = true then relaxLoop cand uid u_adj records
    else do
      let p ← getPriority records.heap edge.toVertex
      if cand edge.weight < p then do
        let (_, heap1) ← decreasePriority records.heap edge.toVertex (cand edge.weight)
        let records1 ← setPredecessor { records with heap := heap1 } edge.toVertex uid
        relaxLoop cand uid u_adj records1
      else relaxLoop cand uid u_adj records

/-- The priority of vertex `v` after the inner loop has gone through `adj`,
when it was `p` before. -/
def relaxed (cand : Int → Int) : List Edge → Int → Int → Int
  | [], _, p => p
  | e :: rest, v, p =>
    relaxed cand rest v (if e.toVertex = v ∧ cand e.weight < p then cand e.weight else p)

/-- The records after `extractMin` and `finished[uid] = true`. -/
def afterExtract (r : Records) (h1 : MinHeap) : Records :=
  { r with heap := h1, finished := Function.update r.finished (r.heap.arr 1).id true }

/-- The adjacency list of vertex `a`; empty when there is no such vertex. -/
def adjOf (g : Graph) (a : Int) : List Edge :=
  match vertexAt g a with
  | some vtx => vtx.adjList
  | none => []

/-- The adjacency list of `a` has an edge to `b` of weight `w`. -/
def IsEdge (g : Graph) (a b w : Int) : Prop :=
  ∃ e ∈ adjOf g a, e.toVertex = b ∧ e.weight = w

/-- Every vertex slot in range is non-NULL and every adjacency target is a
vertex ID. -/
structure GraphOk (g : Graph) : Prop where
  vertex : ∀ v, 0 ≤ v → v < g.numVertices → ∃ vtx, g.vertices v = some vtx
  target : ∀ v, ∀ e ∈ adjOf g v, 0 ≤ e.toVertex ∧ e.toVertex < g.numVertices

/-- `v` can be reached from `s` along directed edges. -/
def Reach (g : Graph) (s v : Int) : Prop :=
  Relation.ReflTransGen (fun a b => ∃ w, IsEdge g a b w) s v

/-- The vertices in the tree before edge `i` is recorded: the source and the
children (`fromVertex`) of the edges recorded earlier. -/
def InTree (tree : Int → Edge) (s i x : Int) : Prop :=
  x = s ∨ ∃ j, 0 ≤ j ∧ j < i ∧ (tree j).fromVertex = x

/-- Loop invariant of `getMSTprim` from the second iteration on, for a graph
all of whose vertices are reachable from the source `s`. -/
structure PrimInv (g : Graph) (s : Int) (t0 : Int → Edge) (r : Records) : Prop where
  recs : RecInv g.numVertices r
  started : r.finished s = true
  count : r.numTreeEdges + r.heap.size + 1 = g.numVertices
  k0 : 0 ≤ r.numTreeEdges
  finIff : ∀ v, 0 ≤ v → v < g.numVertices →
    (r.finished v = true ↔ InTree r.tree s r.numTreeEdges v)
  prio : ∀ v p, Stored r.heap { priority := p, id := v } →
    (r.predecessors v = NOTHING → p = INT_MAX) ∧
    (r.predecessors v ≠ NOTHING →
      r.finished (r.predecessors v) = true ∧ IsEdge g (r.predecessors v) v p) ∧
    (∀ u w, r.finished u = true → IsEdge g u v w → p ≤ w)
  edges : ∀ i, 0 ≤ i → i < r.numTreeEdges →
    (0 ≤ (r.tree i).fromVertex ∧ (r.tree i).fromVertex < g.numVertices) ∧
    ¬ InTree r.tree s i (r.tree i).fromVertex ∧
    InTree r.tree s i (r.tree i).toVertex ∧
    IsEdge g (r.tree i).toVertex (r.tree i).fromVertex (r.tree i).weight ∧
    (∀ x y w, InTree r.tree s i x → ¬ InTree r.tree s i y → IsEdge g x y w →
      (r.tree i).weight ≤ w)
  rest : ∀ i, r.numTreeEdges ≤ i → r.tree i = t0 i

/-- The records of `getMSTprim` after the extracted vertex has been finished
and its tree edge recorded. -/
def primRecorded (r : Records) (h1 : MinHeap) : Records :=
  { r with
    heap := h1
    finished := Function.update r.finished (r.heap.arr 1).id true
    tree := Function.update r.tree r.numTreeEdges
      { fromVertex := (r.heap.arr 1).id
        toVertex := r.predecessors (r.heap.arr 1).id
        weight := (r.heap.arr 1).priority }
    numTreeEdges := r.numTreeEdges + 1 }

/-- The four-vertex graph of the scenarios, with the adjacency lists of
vertices 0 to 3 as parameters. -/
def scenarioGraph (a0 a1 a2 a3 : List Edge) : Graph :=
  { numVertices := 4
    numEdges := 10
    vertices := fun i =>
      if i = 0 then some { id := 0, adjList := a0 }
      else if i = 1 then some { id := 1, adjList := a1 }
      else if i = 2 then some { id := 2, adjList := a2 }
      else if i = 3 then some { id := 3, adjList := a3 }
      else none }

/-- Adjacency list of vertex 0 in the scenarios. -/
def scenarioAdj0 : List Edge :=
  [{ fromVertex := 0, toVertex := 1, weight := 4 }, { fromVertex := 0, toVertex := 2, weight := 1 }]

/-- Adjacency list of vertex 1 in the scenarios. -/
def scenarioAdj1 : List Edge :=
  [{ fromVertex := 1, toVertex := 0, weight := 4 }, { fromVertex := 1, toVertex := 2, weight := 2 },
   { fromVertex := 1, toVertex := 3, weight := 1 }]

/-- Adjacency list of vertex 2 in the scenarios. -/
def scenarioAdj2 : List Edge :=
  [{ fromVertex := 2, toVertex := 0, weight := 1 }, { fromVertex := 2, toVertex := 1, weight := 2 },
   { fromVertex := 2, toVertex := 3, weight := 5 }]

/-- Adjacency list of vertex 3 in the scenarios. -/
def scenarioAdj3 : List Edge :=
  [{ fromVertex := 3, toVertex := 1, weight := 1 }, { fromVertex := 3, toVertex := 2, weight := 5 }]

/-- The edges of the scenario graph as (from, to, weight) triples. -/
def scenarioTriples : List (Int × Int × Int) :=
  [(0, 1, 4), (0, 2, 1), (1, 0, 4), (1, 2, 2), (1, 3, 1), (2, 0, 1), (2, 1, 2), (2, 3, 5),
   (3, 1, 1), (3, 2, 5)]

/-- Some edge of the list joins `a` and `b`, in either direction. -/
def LAdj (L : List Edge) (a b : Int) : Prop :=
  ∃ e ∈ L, (e.fromVertex = a ∧ e.toVertex = b) ∨ (e.fromVertex = b ∧ e.toVertex = a)

/-- `a` and `b` are joined by a chain of edges of the list. -/
def LReach (L : List Edge) (a b : Int) : Prop := Relation.ReflTransGen (LAdj L) a b

/-- Sum of the weights of the edges of the list. -/
def totalWeight (L : List Edge) : Int := (L.map Edge.weight).sum

/-- The entry joins two vertices that the graph joins by an edge of the same
weight. -/
def GraphEdge (g : Graph) (e : Edge) : Prop :=
  IsEdge g e.fromVertex e.toVertex e.weight ∨ IsEdge g e.toVertex e.fromVertex e.weight

/-- The source or the child (`fromVertex`) of an edge of the list. -/
def InList (P : List Edge) (s x : Int) : Prop := x = s ∨ ∃ e ∈ P, e.fromVertex = x

/-- An edge list grown the way Prim grows it: each new edge joins a vertex
outside the tree to one inside, and is a lightest graph edge leaving the
tree. -/
inductive Greedy (g : Graph) (s : Int) : List Edge → Prop
  | nil : Greedy g s []
  | snoc (P : List Edge) (e : Edge) : Greedy g s P → ¬ InList P s e.fromVertex →
      InList P s e.toVertex →
      (∀ x y w, InList P s x → ¬ InList P s y → IsEdge g x y w → e.weight ≤ w) →
      Greedy g s (P ++ [e])

/-- The first `k` entries of a tree buffer, in order. -/
def treePrefix (tree : Int → Edge) (k : Nat) : List Edge :=
  (List.range k).map fun (i : Nat) => tree (i : Int)

/-- The edge list consists of graph edges and joins every two vertices. -/
def Spanning (g : Graph) (L : List Edge) : Prop :=
  (∀ e ∈ L, GraphEdge g e) ∧
  ∀ u v, 0 ≤ u → u < g.numVertices → 0 ≤ v → v < g.numVertices → LReach L u v

/-- A spanning tree: a spanning, connected edge list with `numVertices - 1`
edges. -/
def IsSpanningTree (g : Graph) (L : List Edge) : Prop :=
  Spanning g L ∧ (L.length : Int) + 1 = g.numVertices

/-- `Path g s vs v d`: a directed path from `s` to `v` of total weight `d`;
`vs` lists the vertices on it, last one first. -/
inductive Path (g : Graph) (s : Int) : List Int → Int → Int → Prop
  | nil : Path g s [s] s 0
  | snoc {vs : List Int} {b c d w : Int} : Path g s vs b d → IsEdge g b c w →
      Path g s (c :: vs) c (d + w)

/-- `d` is the weight of a path without repeated vertices from `s` to `v`,
and no path from `s` to `v` weighs less. -/
def IsDist (g : Graph) (s v d : Int) : Prop :=
  (∃ vs, Path g s vs v d ∧ vs.Nodup) ∧ ∀ vs d', Path g s vs v d' → d ≤ d'

/-- Loop invariant of `getDistanceTreeDijkstra`.  Until the first vertex of
priority `INT_MAX` is extracted, priorities are weights of paths through
finished vertices; from then on every reachable vertex is finished and its
tree entry no longer changes. -/
structure DijInv (g : Graph) (s : Int) (r : Records) : Prop where
  recs : RecInv g.numVertices r
  final : ∀ v, 0 ≤ v → v < g.numVertices → r.finished v = true → Reach g s v →
    (∃ vs, Path g s vs v (r.tree v).weight ∧ vs.Nodup ∧ ∀ x ∈ vs, r.finished x = true) ∧
    (∀ vs d, Path g s vs v d → (r.tree v).weight ≤ d)
  phase : (∀ v, 0 ≤ v → v < g.numVertices → Reach g s v → r.finished v = true) ∨
    ((∀ v, 0 ≤ v → v < g.numVertices → r.finished v = true → Reach g s v) ∧
     (∀ v p, Stored r.heap { priority := p, id := v } →
        p = INT_MAX ∨ (p < INT_MAX ∧ ∃ vs, Path g s vs v p ∧ vs.Nodup ∧
          ∀ x ∈ vs, x ≠ v → r.finished x = true)) ∧
     (∀ v p, Stored r.heap { priority := p, id := v } →
        ∀ u w, r.finished u = true → IsEdge g u v w → p ≤ (r.tree u).weight + w) ∧
     (r.finished s = false → Stored r.heap { priority := 0, id := s }))

/-- The tree entry `getDistanceTreeDijkstra` writes for the extracted vertex. -/
def dijEntry (s : Int) (r : Records) : Edge :=
  if (r.heap.arr 1).id = s then
    { fromVertex := (r.heap.arr 1).id, toVertex := (r.heap.arr 1).id, weight := 0 }
  else
    { fromVertex := (r.heap.arr 1).id
      toVertex := r.predecessors (r.heap.arr 1).id
      weight := (r.heap.arr 1).priority }

/-- The records of `getDistanceTreeDijkstra` after the extracted vertex has
been finished and its tree entry written. -/
def dijRecorded (s : Int) (r : Records) (h1 : MinHeap) : Records :=
  { r with
    heap := h1
    finished := Function.update r.finished (r.heap.arr 1).id true
    tree := Function.update r.tree (r.heap.arr 1).id (dijEntry s r) }

/-- One iteration of the outer loop of `getMSTprim`: the node it extracts and
the records at the end of the body. -/
def primIter (graph : Graph) (records : Records) : Option (HeapNode × Records) := do
  let (u, heap1) ← extractMin records.heap
  let uid := u.id
  let records1 ← setFinished { records with heap := heap1 } uid
  let pred ← predecessorAt records1 uid
  let records2 :=
    if pred ≠ NOTHING then
      { addTreeEdge records1 records1.numTreeEdges uid pred u.priority with
        numTreeEdges := records1.numTreeEdges + 1 }
    else records1
  let u_vertex ← vertexAt graph uid
  let records3 ← primRelax uid u_vertex.adjList records2
  pure (u, records3)

/-- One iteration of the outer loop of `getDistanceTreeDijkstra`: the node it
extracts and the records at the end of the body. -/
def dijkstraIter (graph : Graph) (startVertex : Int) (records : Records) :
    Option (HeapNode × Records) := do
  let (u, heap1) ← extractMin records.heap
  let uid := u.id
  let u_dist := u.priority
  let records1 ← setFinished { records with heap := heap1 } uid
  let records2 ←
    if uid = startVertex then pure (addTreeEdge records1 uid uid uid 0)
    else do
      let pred ← predecessorAt records1 uid
      pure (addTreeEdge records1 uid uid pred u_dist)
  let u_vertex ← vertexAt graph uid
  let records3 ← dijkstraRelax uid u_dist u_vertex.adjList records2
  pure (u, records3)

/-- An outer loop with body `iter`, together with its history: for every
iteration, the records at its start and the node it extracts; then the records
at loop exit. -/
def loopTrace (iter : Records → Option (HeapNode × Records)) :
    Nat → Records → Option (List (Records × HeapNode) × Records)
  | 0, _ => none
  | fuel + 1, records =>
    if isEmpty records.heap then some ([], records)
    else do
      let (u, records3) ← iter records
      let (log, last) ← loopTrace iter fuel records3
      pure ((records, u) :: log, last)

/-- The run of `getMSTprim` with its history. -/
def primTrace (graph : Graph) (startVertex : Int) (junk : Int → HeapNode)
    (junkTree : Int → Edge) : Option (List (Records × HeapNode) × Records) := do
  let records ← initRecords graph startVertex junk junkTree
  loopTrace (primIter graph) (graph.numVertices.toNat + 1) records

/-- The run of `getDistanceTreeDijkstra` with its history. -/
def dijkstraTrace (graph : Graph) (startVertex : Int) (junk : Int → HeapNode)
    (junkTree : Int → Edge) : Option (List (Records × HeapNode) × Records) := do
  let records ← initRecords graph startVertex junk junkTree
  loopTrace (dijkstraIter graph startVertex) (graph.numVertices.toNat + 1) records

/-- The records of `getMSTprim` when the inner loop starts. -/
def primMid (r : Records) (h1 : MinHeap) : Records :=
  if r.predecessors (r.heap.arr 1).id ≠ NOTHING then
    { addTreeEdge (afterExtract r h1) r.numTreeEdges (r.heap.arr 1).id
        (r.predecessors (r.heap.arr 1).id) (r.heap.arr 1).priority with
      numTreeEdges := r.numTreeEdges + 1 }
  else afterExtract r h1

/-- Loop invariant of `getDistanceTreeDijkstra` that holds on every graph: the
layout of the entries written so far, and the link between the priority of a
vertex and its predecessor.  `rank v` is the number of the iteration that
finished `v`. -/
structure DijTree (g : Graph) (s : Int) (rank : Int → Nat) (r : Records) : Prop where
  recs : RecInv g.numVertices r
  sz : r.heap.size ≤ g.numVertices
  start : r.finished s = false → ∀ v, 0 ≤ v → v < g.numVertices →
    Stored r.heap { priority := initPriority s v, id := v } ∧ r.predecessors v = NOTHING
  root : r.finished s = true → r.tree s = { fromVertex := s, toVertex := s, weight := 0 }
  lay : ∀ v, 0 ≤ v → v < g.numVertices → r.finished v = true → v ≠ s →
    (r.tree v).fromVertex = v ∧ (r.tree v).toVertex = r.predecessors v
  rk : ∀ v, 0 ≤ v → v < g.numVertices → r.finished v = true →
    1 ≤ rank v ∧ (rank v : Int) + r.heap.size ≤ g.numVertices
  linkF : ∀ v, 0 ≤ v → v < g.numVertices → r.finished v = true → v ≠ s →
    (r.predecessors v = NOTHING ∧ (r.tree v).weight = INT_MAX) ∨
    (r.finished (r.predecessors v) = true ∧ rank (r.predecessors v) < rank v ∧
      ∃ w, IsEdge g (r.predecessors v) v w ∧
        (r.tree v).weight = wrap32 ((r.tree (r.predecessors v)).weight + w))
  linkS : ∀ v p, Stored r.heap { priority := p, id := v } → v ≠ s →
    (r.predecessors v = NOTHING ∧ p = INT_MAX) ∨
    (r.finished (r.predecessors v) = true ∧
      ∃ w, IsEdge g (r.predecessors v) v w ∧
        p = wrap32 ((r.tree (r.predecessors v)).weight + w))

/-- What the outer loops leave alone: a finished vertex stays finished and
keeps its tree entry and its predecessor. -/
def Keeps (r r' : Records) : Prop :=
  ∀ v, r.finished v = true →
    r'.finished v = true ∧ r'.tree v = r.tree v ∧ r'.predecessors v = r.predecessors v

/-- Loop invariant of `getMSTprim` that holds on every graph with weights
below `INT_MAX`.  While a vertex reachable from the source is unfinished
(second case of `phase`), the vertices out of reach are untouched. -/
structure PrimGen (g : Graph) (s : Int) (r : Records) : Prop where
  recs : RecInv g.numVertices r
  sz : r.heap.size ≤ g.numVertices
  k0 : 0 ≤ r.numTreeEdges
  cnt : r.finished s = true → r.numTreeEdges + r.heap.size + 1 ≤ g.numVertices
  start : r.finished s = false → r.numTreeEdges = 0 ∧ ∀ v, 0 ≤ v → v < g.numVertices →
    Stored r.heap { priority := initPriority s v, id := v } ∧ r.predecessors v = NOTHING
  pedge : ∀ v p, Stored r.heap { priority := p, id := v } → r.predecessors v ≠ NOTHING →
    r.finished (r.predecessors v) = true ∧ IsEdge g (r.predecessors v) v p
  edges : ∀ i, 0 ≤ i → i < r.numTreeEdges →
    IsEdge g (r.tree i).toVertex (r.tree i).fromVertex (r.tree i).weight ∧
    (Reach g s (r.tree i).fromVertex → Reach g s (r.tree i).toVertex)
  phase : (∀ v, 0 ≤ v → v < g.numVertices → Reach g s v → r.finished v = true) ∨
    ((∀ v, 0 ≤ v → v < g.numVertices → r.finished v = true → Reach g s v) ∧
     (∀ v, 0 ≤ v → v < g.numVertices → ¬ Reach g s v → r.predecessors v = NOTHING) ∧
     (∀ v p, Stored r.heap { priority := p, id := v } → r.predecessors v = NOTHING →
        p = initPriority s v) ∧
     (∀ v p, Stored r.heap { priority := p, id := v } →
        ∀ u w, r.finished u = true → IsEdge g u v w → p ≤ w) ∧
     (∀ i, 0 ≤ i → i < r.numTreeEdges →
        Reach g s (r.tree i).fromVertex ∧ Reach g s (r.tree i).toVertex))

/-- Three vertices: vertex 0 has no edge, vertices 1 and 2 are joined by an
edge of weight 1 (in both adjacency lists). -/
def splitGraph : Graph :=
  { numVertices := 3
    numEdges := 2
    vertices := fun i =>
      if i = 0 then some { id := 0, adjList := [] }
      else if i = 1 then some { id := 1, adjList := [{ fromVertex := 1, toVertex := 2, weight := 1 }] }
      else if i = 2 then some { id := 2, adjList := [{ fromVertex := 2, toVertex := 1, weight := 1 }] }
      else none }

/-- Content of a fresh heap array in the examples. -/
def zeroNodes : Int → HeapNode := fun _ => { priority := 0, id := 0 }

/-- Content of a fresh tree buffer in the examples. -/
def zeroEdges : Int → Edge := fun _ => { fromVertex := 0, toVertex := 0, weight := 0 }

/-- The predecessor of a vertex reachable from the source is reachable. -/
def DijPred (g : Graph) (s : Int) (r : Records) : Prop :=
  ∀ v, 0 ≤ v → v < g.numVertices → Reach g s v → r.predecessors v ≠ NOTHING →
    Reach g s (r.predecessors v)

/-- What `makePath` relies on in a distance tree `T` of the graph `g` for the
source `s`: entry `v` is at index `v`; the `toVertex` links of a vertex
reachable from `s` lead to `s` along graph edges whose weight is the
difference of the two entries; those of a vertex out of reach lead to an
entry with `toVertex == NOTHING`.  `rank` decreases along the links. -/
structure PathTree (g : Graph) (s : Int) (T : Int → Edge) (rank : Int → Nat) : Prop where
  lay : ∀ v, 0 ≤ v → v < g.numVertices → (T v).fromVertex = v
  rk : ∀ v, 0 ≤ v → v < g.numVertices → 1 ≤ rank v ∧ (rank v : Int) ≤ g.numVertices
  src : (T s).weight = 0
  up : ∀ v, 0 ≤ v → v < g.numVertices → v ≠ s → Reach g s v →
    0 ≤ (T v).toVertex ∧ (T v).toVertex < g.numVertices ∧ Reach g s (T v).toVertex ∧
    rank (T v).toVertex < rank v ∧
    IsEdge g (T v).toVertex v ((T v).weight - (T (T v).toVertex).weight) ∧
    0 ≤ (T v).weight - (T (T v).toVertex).weight ∧
    wrap32 ((T v).weight - (T (T v).toVertex).weight) =
      (T v).weight - (T (T v).toVertex).weight
  off : ∀ v, 0 ≤ v → v < g.numVertices → ¬ Reach g s v →
    ((T v).toVertex = NOTHING ∧ 0 ≤ wrap32 ((T v).weight - 0)) ∨
    (0 ≤ (T v).toVertex ∧ (T v).toVertex < g.numVertices ∧ ¬ Reach g s (T v).toVertex ∧
      rank (T v).toVertex < rank v ∧
      0 ≤ wrap32 ((T v).weight - (T (T v).toVertex).weight))

/-- `BackPath g T s v es`: `es` is the list of edges met when following the
`toVertex` links of the tree `T` from `v` back to `s`, each with the
difference of the two entries as weight, which is the weight of a graph
edge. -/
inductive BackPath (g : Graph) (T : Int → Edge) (s : Int) : Int → List Edge → Prop
  | nil : BackPath g T s s []
  | cons {v : Int} {es : List Edge} : v ≠ s →
      IsEdge g (T v).toVertex v ((T v).weight - (T (T v).toVertex).weight) →
      BackPath g T s (T v).toVertex es →
      BackPath g T s v
        ({ fromVertex := v, toVertex := (T v).toVertex,
           weight := (T v).weight - (T (T v).toVertex).weight } :: es)

/-- Two vertices and one edge, from 0 to 1, of weight `INT_MAX`. -/
def farGraph : Graph :=
  { numVertices := 2
    numEdges := 1
    vertices := fun i =>
      if i = 0 then
        some { id := 0, adjList := [{ fromVertex := 0, toVertex := 1, weight := 2147483647 }] }
      else if i = 1 then some { id := 1, adjList := [] }
      else none }

/-- A malformed tree of three entries: the links of vertices 1 and 2 point at
each other and never lead to vertex 0. -/
def cycleTree : Int → Edge := fun i =>
  if i = 0 then { fromVertex := 0, toVertex := 0, weight := 0 }
  else if i = 1 then { fromVertex := 1, toVertex := 2, weight := 5 }
  else { fromVertex := 2, toVertex := 1, weight := 5 }

/-- A heap of four nodes whose slots 2 and 3 hold the same priority. -/
def tieHeap : MinHeap :=
  { size := 4
    capacity := 4
    arr := fun s =>
      if s = 1 then { priority := 1, id := 3 }
      else if s = 2 then { priority := 3, id := 1 }
      else if s = 3 then { priority := 3, id := 2 }
      else if s = 4 then { priority := 5, id := 0 }
      else { priority := 0, id := 0 }
    indexMap := fun i => if i = 0 then 4 else if i = 1 then 2 else if i = 2 then 3 else 1 }

/-- The size, the first three slots and the map entries of IDs 0 to 2. -/
def cells3 (h : MinHeap) : Int × List HeapNode × List Int :=
  (h.size, [h.arr 1, h.arr 2, h.arr 3], [h.indexMap 0, h.indexMap 1, h.indexMap 2])

/-- Records over three vertices, for the examples. -/
def sampleRecords : Records :=
  { numVertices := 3
    heap := sampleHeap
    finished := fun _ => false
    predecessors := fun _ => NOTHING
    tree := zeroEdges
    numTreeEdges := 0 }

/-- What a complete traversal of a graph of `n` vertices from the source `s`
looks like in the history of an outer loop: `n` iterations; the extracted IDs
are a rearrangement of `0, ..., n - 1`; the first node extracted is the source
with priority 0; a vertex finished at the start of an iteration is finished
at the start of every later one and at loop exit; at loop exit the heap is
empty and every vertex is finished. -/
def FullTraversal (n s : Int) (log : List (Records × HeapNode)) (last : Records) : Prop :=
  (log.length : Int) = n ∧
  (log.map fun x => x.2.id).Perm ((List.range n.toNat).map fun (i : Nat) => (i : Int)) ∧
  log.head?.map Prod.snd = some { priority := 0, id := s } ∧
  log.Pairwise (fun x y => ∀ v, x.1.finished v = true → y.1.finished v = true) ∧
  (∀ x ∈ log, ∀ v, x.1.finished v = true → last.finished v = true) ∧
  isEmpty last.heap = true ∧
  ∀ v, 0 ≤ v → v < n → last.finished v = true

/-- Loop invariant of `getMSTprim` that holds on every graph: the priority of
a stored vertex with a predecessor is the weight of a graph edge from that
predecessor, which is finished; every recorded tree edge is a graph edge
between finished vertices. -/
structure PrimBase (g : Graph) (s : Int) (r : Records) : Prop where
  recs : RecInv g.numVertices r
  sz : r.heap.size ≤ g.numVertices
  k0 : 0 ≤ r.numTreeEdges
  cnt : r.finished s = true → r.numTreeEdges + r.heap.size + 1 ≤ g.numVertices
  start : r.finished s = false → r.numTreeEdges = 0 ∧ ∀ v, 0 ≤ v → v < g.numVertices →
    Stored r.heap { priority := initPriority s v, id := v } ∧ r.predecessors v = NOTHING
  pedge : ∀ v p, Stored r.heap { priority := p, id := v } → r.predecessors v ≠ NOTHING →
    r.finished (r.predecessors v) = true ∧ IsEdge g (r.predecessors v) v p
  edges : ∀ i, 0 ≤ i → i < r.numTreeEdges →
    IsEdge g (r.tree i).toVertex (r.tree i).fromVertex (r.tree i).weight

/-- The tree only grows: the edges recorded so far stay in place. -/
def Grows (r r' : Records) : Prop :=
  r.numTreeEdges ≤ r'.numTreeEdges ∧
  ∀ i, 0 ≤ i → i < r.numTreeEdges → r'.tree i = r.tree i

/-! ## Lemmas and theorems -/

theorem slotOk_of_mapConsistent {h : MinHeap} (hc : mapConsistent h) {s : Int}
    (h1 : 1 ≤ s) (h2 : s ≤ h.size) : SlotOk h s := by
  have := hc s h1 h2
  unfold idAt indexOf at this
  unfold SlotOk
  by_cases hb : 0 ≤ s ∧ s ≤ h.capacity
  · simp only [hb, and_self, if_true, Option.some_bind] at this
    by_cases hi : 0 ≤ (h.arr s).id ∧ (h.arr s).id < h.capacity
    · simp only [hi, and_self, if_true, Option.some.injEq] at this
      exact ⟨hb.2, hi.1, hi.2, this⟩
    · simp [hi] at this
  · simp [hb] at this

theorem mapConsistent_of_slotOk {h : MinHeap}
    (hs : ∀ s, 1 ≤ s → s ≤ h.size → SlotOk h s) : mapConsistent h := by
  intro s h1 h2
  obtain ⟨a, b, c, d⟩ := hs s h1 h2
  have h0 : 0 ≤ s := by omega
  simp [idAt, indexOf, h0, a, b, c, d]

theorem isValidIndex_of_slotOk {h : MinHeap} {s : Int} (h1 : 1 ≤ s) (h2 : s ≤ h.size)
    (hs : SlotOk h s) : isValidIndex h s = some true := by
  obtain ⟨a, b, c, d⟩ := hs
  have h0 : 0 ≤ s := by omega
  have n1 : ¬ (s < 1 ∨ s > h.size) := by omega
  have n2 : ¬ ((h.arr s).id < 0 ∨ (h.arr s).id ≥ h.capacity) := by omega
  simp [isValidIndex, idAt, indexOf, h0, a, b, c, d, n1, n2]

theorem isValidIndex_out {h : MinHeap} {s : Int} (hs : s < 1 ∨ s > h.size) :
    isValidIndex h s = some false := by
  simp [isValidIndex, hs]

theorem swapped_arr (h : MinHeap) (i j s : Int) :
    (swapped h i j).arr s = if s = j then h.arr i else if s = i then h.arr j else h.arr s := by
  simp [swapped, Function.update_apply]

theorem upInv_swapped {h : MinHeap} {k : Int} (hk : 2 ≤ k) (hk2 : k ≤ h.size)
    (inv : UpInv h k) (lt : (h.arr k).priority < (h.arr (k / 2)).priority) :
    UpInv (swapped h k (k / 2)) (k / 2) := by
  obtain ⟨inv1, inv2⟩ := inv
  have hsz : (swapped h k (k / 2)).size = h.size := rfl
  constructor
  · intro s hs1 hs2 hne
    rw [hsz] at hs2
    rw [swapped_arr, swapped_arr]
    by_cases e1 : s = k
    · subst e1
      simp [hne]
      omega
    · have x1 : ¬ (s = k / 2) := hne
      simp only [x1, e1, if_false]
      by_cases e2 : s / 2 = k / 2
      · have := inv1 s hs1 hs2 e1
        rw [e2] at this
        simp only [e2, if_true]
        omega
      · by_cases e3 : s / 2 = k
        · have := inv2 s hs1 hs2 e3 hk
          have z : ¬ (k = k / 2) := by omega
          simp only [e2, e3, z, if_false, if_true]
          exact this
        · simp only [e2, e3, if_false]
          exact inv1 s hs1 hs2 e1
  · intro s hs1 hs2 e hk4
    rw [hsz] at hs2
    rw [swapped_arr, swapped_arr]
    have y1 : ¬ (k / 2 / 2 = k / 2) := by omega
    have y2 : ¬ (k / 2 / 2 = k) := by omega
    simp only [y1, y2, if_false]
    have y3 : ¬ (s = k / 2) := by omega
    have A := inv1 (k / 2) hk4 (by omega) (by omega)
    by_cases e1 : s = k
    · subst e1
      simp only [y3, if_false, if_true]
      exact A
    · simp only [y3, e1, if_false]
      have := inv1 s hs1 hs2 e1
      rw [e] at this
      omega

theorem SameEntries.refl (h : MinHeap) : SameEntries h h :=
  ⟨rfl, rfl, fun _ => Iff.rfl, fun _ _ => rfl, fun _ _ => rfl⟩

theorem SameEntries.trans {a b c : MinHeap} (x : SameEntries a b) (y : SameEntries b c) :
    SameEntries a c := by
  obtain ⟨x1, x2, x3, x4, x5⟩ := x
  obtain ⟨y1, y2, y3, y4, y5⟩ := y
  refine ⟨by omega, by omega, fun n => (y3 n).trans (x3 n), ?_, ?_⟩
  · intro id hid
    rw [y4 id, x4 id hid]
    intro s s1 s2 e
    obtain ⟨t, t1, t2, t3⟩ := (x3 (b.arr s)).1 ⟨s, s1, s2, rfl⟩
    exact hid t t1 t2 (by rw [t3]; exact e)
  · intro s hs
    rw [y5 s (by omega), x5 s hs]

theorem AllOk.id_inj {h : MinHeap} (ok : AllOk h) {s t : Int} (s1 : 1 ≤ s) (s2 : s ≤ h.size)
    (t1 : 1 ≤ t) (t2 : t ≤ h.size) (e : (h.arr s).id = (h.arr t).id) : s = t := by
  have a := (ok s s1 s2).2.2.2
  have b := (ok t t1 t2).2.2.2
  rw [e] at a
  omega

theorem swapped_allOk {h : MinHeap} {i j : Int} (ok : AllOk h) (i1 : 1 ≤ i) (i2 : i ≤ h.size)
    (j1 : 1 ≤ j) (j2 : j ≤ h.size) (hij : i ≠ j) : AllOk (swapped h i j) := by
  intro s s1 s2
  have s2' : s ≤ h.size := s2
  have di : (h.arr i).id ≠ (h.arr j).id := fun e => hij (ok.id_inj i1 i2 j1 j2 e)
  obtain ⟨a, b, c, d⟩ := ok s s1 s2'
  obtain ⟨ai, bi, ci, _⟩ := ok i i1 i2
  obtain ⟨aj, bj, cj, _⟩ := ok j j1 j2
  unfold SlotOk
  rw [swapped_arr]
  by_cases e1 : s = j
  · subst e1
    simp [swapped, Function.update_apply, a, bi, ci]
  · by_cases e2 : s = i
    · subst e2
      simp [swapped, Function.update_apply, a, bj, cj, e1, di.symm]
    · have d1 : (h.arr s).id ≠ (h.arr i).id := fun e => e2 (ok.id_inj s1 s2' i1 i2 e)
      have d2 : (h.arr s).id ≠ (h.arr j).id := fun e => e1 (ok.id_inj s1 s2' j1 j2 e)
      simp [swapped, Function.update_apply, a, b, c, d, e1, e2, d1, d2]

theorem swapped_sameEntries {h : MinHeap} {i j : Int} (i1 : 1 ≤ i) (i2 : i ≤ h.size)
    (j1 : 1 ≤ j) (j2 : j ≤ h.size) : SameEntries h (swapped h i j) := by
  have hsz : (swapped h i j).size = h.size := rfl
  refine ⟨rfl, rfl, ?_, ?_, ?_⟩
  · intro n
    rw [hsz]
    constructor
    · rintro ⟨s, s1, s2, e⟩
      rw [swapped_arr] at e
      by_cases e1 : s = j
      · rw [if_pos e1] at e
        exact ⟨i, i1, i2, e⟩
      · rw [if_neg e1] at e
        by_cases e2 : s = i
        · rw [if_pos e2] at e
          exact ⟨j, j1, j2, e⟩
        · rw [if_neg e2] at e
          exact ⟨s, s1, s2, e⟩
    · rintro ⟨s, s1, s2, e⟩
      by_cases e1 : s = j
      · refine ⟨i, i1, i2, ?_⟩
        rw [swapped_arr]
        by_cases e3 : i = j
        · rw [if_pos e3, ← e, e1, e3]
        · rw [if_neg e3, if_pos rfl, ← e, e1]
      · by_cases e2 : s = i
        · refine ⟨j, j1, j2, ?_⟩
          rw [swapped_arr, if_pos rfl, ← e, e2]
        · refine ⟨s, s1, s2, ?_⟩
          rw [swapped_arr, if_neg e1, if_neg e2, e]
  · intro id hid
    have d1 := hid i i1 i2
    have d2 := hid j j1 j2
    simp [swapped, Function.update_apply, d1.symm, d2.symm]
  · intro s hs
    have e1 : s ≠ i := by omega
    have e2 : s ≠ j := by omega
    rw [swapped_arr, if_neg e2, if_neg e1]

theorem swap_eq {h : MinHeap} {i j : Int} (hi1 : 1 ≤ i) (hi2 : i ≤ h.size)
    (hj1 : 1 ≤ j) (hj2 : j ≤ h.size) (oi : SlotOk h i) (oj : SlotOk h j) (hij : i ≠ j) :
    swap h i j = some (swapped h i j) := by
  have vi := isValidIndex_of_slotOk hi1 hi2 oi
  have vj := isValidIndex_of_slotOk hj1 hj2 oj
  obtain ⟨a, b, c, d⟩ := oi
  obtain ⟨a', b', c', d'⟩ := oj
  have i0 : 0 ≤ i := by omega
  have j0 : 0 ≤ j := by omega
  simp [swap, vi, vj, nodeAt, setNodeAt, idAt, setIndexOf, i0, j0, a, a', b, b', c, c', hij,
    swapped, Function.update_apply]

theorem priorityAt_eq {h : MinHeap} {s : Int} (s0 : 0 ≤ s) (s1 : s ≤ h.capacity) :
    priorityAt h s = some (h.arr s).priority := by
  simp [priorityAt, s0, s1]

theorem parentIdx_eq {h : MinHeap} {s : Int} (s1 : 1 ≤ s) (s2 : s ≤ h.size) (ok : SlotOk h s) :
    parentIdx h s = some (if s = 1 then NOTHING else s / 2) := by
  simp only [parentIdx, isValidIndex_of_slotOk s1 s2 ok, ROOT_INDEX]
  by_cases e : s = 1 <;> simp [e]

theorem bubbleUpLoop_spec (fuel : Nat) : ∀ (h : MinHeap) (k : Int), AllOk h → 1 ≤ k →
    k ≤ h.size → k ≤ fuel →
    ∃ h', bubbleUpLoop fuel h k (if k = 1 then NOTHING else k / 2) = some h' ∧
      AllOk h' ∧ (UpInv h k → heapOrder h') ∧ SameEntries h h' := by
  induction fuel with
  | zero => intro h k _ k1 _ kf; omega
  | succ fuel ih =>
    intro h k ok k1 k2 kf
    by_cases e : k = 1
    · subst e
      refine ⟨h, by simp [bubbleUpLoop], ok, ?_, SameEntries.refl h⟩
      intro inv s s1 s2
      exact inv.1 s s1 s2 (by omega)
    · have hp1 : 1 ≤ k / 2 := by omega
      have hp2 : k / 2 ≤ h.size := by omega
      have okk := ok k k1 k2
      have okp := ok (k / 2) hp1 hp2
      have nn : ¬ (k / 2 = NOTHING) := by unfold NOTHING; omega
      have vk := isValidIndex_of_slotOk k1 k2 okk
      have pk := priorityAt_eq (h := h) (s := k) (by omega) okk.1
      have pp := priorityAt_eq (h := h) (s := k / 2) (by omega) okp.1
      by_cases lt : (h.arr k).priority < (h.arr (k / 2)).priority
      · have ok' := swapped_allOk ok k1 k2 hp1 hp2 (by omega)
        have hsz : (swapped h k (k / 2)).size = h.size := rfl
        obtain ⟨h', r, a, b, c⟩ := ih (swapped h k (k / 2)) (k / 2) ok' hp1 hp2 (by omega)
        refine ⟨h', ?_, a, fun inv => b (upInv_swapped (by omega) k2 inv lt),
          (swapped_sameEntries k1 k2 hp1 hp2).trans c⟩
        have pe := parentIdx_eq (h := swapped h k (k / 2)) hp1 hp2 (ok' (k / 2) hp1 hp2)
        simp only [bubbleUpLoop, if_neg e, if_neg nn, vk, pk, pp,
          swap_eq k1 k2 hp1 hp2 okk okp (by omega)]
        simp [lt, pe, r]
      · refine ⟨h, ?_, ok, ?_, SameEntries.refl h⟩
        · simp [bubbleUpLoop, if_neg e, if_neg nn, vk, pk, pp, lt]
        · intro inv s s1 s2
          by_cases e2 : s = k
          · subst e2; omega
          · exact inv.1 s s1 s2 e2

theorem bubbleUp_spec {h : MinHeap} {k : Int} (ok : AllOk h) (k1 : 1 ≤ k) (k2 : k ≤ h.size) :
    ∃ h', bubbleUp h k = some h' ∧ AllOk h' ∧ (UpInv h k → heapOrder h') ∧
      SameEntries h h' := by
  obtain ⟨h', r, a⟩ := bubbleUpLoop_spec k.toNat h k ok k1 k2 (by omega)
  refine ⟨h', ?_, a⟩
  simp only [bubbleUp, isValidIndex_of_slotOk k1 k2 (ok k k1 k2), parentIdx_eq k1 k2 (ok k k1 k2)]
  simpa using r

theorem find_min_eq {h : MinHeap} {k : Int} (ok : AllOk h) (k1 : 1 ≤ k) (k2 : k ≤ h.size) :
    find_min h k = some (minChild h k) := by
  have vk := isValidIndex_of_slotOk k1 k2 (ok k k1 k2)
  have pk := priorityAt_eq (h := h) (s := k) (by omega) (ok k k1 k2).1
  simp only [find_min, leftIdx, rightIdx, vk, minChild, NOTHING]
  by_cases c1 : 2 * k > h.size
  · have c2 : 2 * k + 1 > h.size := by omega
    simp [c1, c2, pk]
  · have n1 : ¬ (2 * k = -1) := by omega
    have pl := priorityAt_eq (h := h) (s := 2 * k) (by omega) (ok (2 * k) (by omega) (by omega)).1
    by_cases c2 : 2 * k + 1 > h.size
    · simp [c1, c2, n1, pl]
    · have n2 : ¬ (2 * k + 1 = -1) := by omega
      have pr := priorityAt_eq (h := h) (s := 2 * k + 1) (by omega)
        (ok (2 * k + 1) (by omega) (by omega)).1
      by_cases c3 : (h.arr (2 * k)).priority < (h.arr (2 * k + 1)).priority
      · simp [c1, c2, n1, n2, pl, pr, c3]
      · simp [c1, c2, n1, n2, pl, pr, c3]

theorem minChild_cases (h : MinHeap) (k : Int) :
    ((minChild h k).nodeIndex = k ∧ 2 * k > h.size ∨
     ((minChild h k).nodeIndex = 2 * k ∨ (minChild h k).nodeIndex = 2 * k + 1) ∧
       (minChild h k).nodeIndex ≤ h.size) ∧
    (minChild h k).priority = (h.arr (minChild h k).nodeIndex).priority ∧
    (∀ s, s ≤ h.size → s / 2 = k → 2 ≤ s → (minChild h k).priority ≤ (h.arr s).priority) := by
  unfold minChild
  by_cases c1 : 2 * k > h.size
  · rw [if_pos c1]
    dsimp only
    refine ⟨Or.inl ⟨rfl, c1⟩, rfl, ?_⟩
    intro s s1 s2 s3; omega
  · by_cases c2 : 2 * k + 1 > h.size
    · rw [if_neg c1, if_pos c2]
      dsimp only
      refine ⟨Or.inr ⟨Or.inl rfl, by omega⟩, rfl, ?_⟩
      intro s s1 s2 s3
      have : s = 2 * k := by omega
      subst this; exact le_refl _
    · by_cases c3 : (h.arr (2 * k)).priority < (h.arr (2 * k + 1)).priority
      · rw [if_neg c1, if_neg c2, if_pos c3]
        dsimp only
        refine ⟨Or.inr ⟨Or.inl rfl, by omega⟩, rfl, ?_⟩
        intro s s1 s2 s3
        have : s = 2 * k ∨ s = 2 * k + 1 := by omega
        rcases this with e | e
        · subst e; exact le_refl _
        · subst e; omega
      · rw [if_neg c1, if_neg c2, if_neg c3]
        dsimp only
        refine ⟨Or.inr ⟨Or.inr rfl, by omega⟩, rfl, ?_⟩
        intro s s1 s2 s3
        have : s = 2 * k ∨ s = 2 * k + 1 := by omega
        rcases this with e | e
        · subst e; omega
        · subst e; exact le_refl _

theorem downInv_swapped {h : MinHeap} {k c : Int} (k1 : 1 ≤ k) (c2 : c ≤ h.size)
    (ck : c = 2 * k ∨ c = 2 * k + 1) (inv : DownInv h k)
    (lt : (h.arr c).priority < (h.arr k).priority)
    (hmin : ∀ s, s ≤ h.size → s / 2 = k → 2 ≤ s → (h.arr c).priority ≤ (h.arr s).priority) :
    DownInv (swapped h k c) c := by
  obtain ⟨inv1, inv2⟩ := inv
  have hsz : (swapped h k c).size = h.size := rfl
  have kc : ¬ (k = c) := by omega
  have ck2 : c / 2 = k := by omega
  constructor
  · intro s hs1 hs2 hne
    rw [hsz] at hs2
    rw [swapped_arr, swapped_arr]
    by_cases e1 : s = c
    · subst e1
      simp only [ck2, kc, if_true, if_false]
      omega
    · by_cases e2 : s = k
      · subst e2
        have z1 : ¬ (s / 2 = c) := by omega
        have z2 : ¬ (s / 2 = s) := by omega
        simp only [z1, z2, e1, if_true, if_false]
        exact inv2 c (by omega) c2 ck2 (by omega)
      · simp only [e1, e2, hne, if_false]
        by_cases e3 : s / 2 = k
        · simp only [e3, if_true]
          exact hmin s hs2 e3 hs1
        · simp only [e3, if_false]
          exact inv1 s hs1 hs2 e3
  · intro s hs1 hs2 e hc
    rw [hsz] at hs2
    rw [swapped_arr, swapped_arr]
    have z1 : ¬ (s = c) := by omega
    have z2 : ¬ (s = k) := by omega
    simp only [ck2, kc, z1, z2, if_true, if_false]
    have := inv1 s hs1 hs2 (by omega)
    rw [e] at this
    exact this

theorem bubbleDownLoop_spec (fuel : Nat) : ∀ (h : MinHeap) (k : Int), AllOk h → 1 ≤ k →
    k ≤ h.size → h.size - k + 1 ≤ fuel →
    ∃ h', bubbleDownLoop fuel h k (minChild h k) = some h' ∧
      AllOk h' ∧ (DownInv h k → heapOrder h') ∧ SameEntries h h' := by
  induction fuel with
  | zero => intro h k _ k1 k2 kf; omega
  | succ fuel ih =>
    intro h k ok k1 k2 kf
    have okk := ok k k1 k2
    have vk := isValidIndex_of_slotOk k1 k2 okk
    have pk := priorityAt_eq (h := h) (s := k) (by omega) okk.1
    obtain ⟨mc, mp, mm⟩ := minChild_cases h k
    by_cases gt : (h.arr k).priority > (minChild h k).priority
    · have hc : ((minChild h k).nodeIndex = 2 * k ∨ (minChild h k).nodeIndex = 2 * k + 1) ∧
          (minChild h k).nodeIndex ≤ h.size := by
        rcases mc with ⟨e, _⟩ | hc
        · rw [mp, e] at gt; omega
        · exact hc
      obtain ⟨hc1, hc2⟩ := hc
      generalize hcdef : (minChild h k).nodeIndex = c at *
      have c1 : 1 ≤ c := by omega
      have ok' := swapped_allOk ok k1 k2 c1 hc2 (by omega)
      have lt : (h.arr c).priority < (h.arr k).priority := by rw [← mp]; exact gt
      obtain ⟨h', r, a, b, d⟩ := ih (swapped h k c) c ok' c1 hc2
        (by have : (swapped h k c).size = h.size := rfl
            omega)
      refine ⟨h', ?_, a,
        fun inv => b (downInv_swapped k1 hc2 hc1 inv lt (by rw [← mp]; exact mm)),
        (swapped_sameEntries k1 k2 c1 hc2).trans d⟩
      have fe := find_min_eq (h := swapped h k c) ok' c1 hc2
      simp only [bubbleDownLoop, vk, pk, hcdef, swap_eq k1 k2 c1 hc2 okk (ok c c1 hc2) (by omega)]
      simp [gt, fe, r]
    · refine ⟨h, ?_, ok, ?_, SameEntries.refl h⟩
      · simp [bubbleDownLoop, vk, pk, gt]
      · intro inv s s1 s2
        by_cases e2 : s / 2 = k
        · have := mm s s2 e2 s1
          rw [e2]; omega
        · exact inv.1 s s1 s2 e2

theorem bubbleDown_spec {h : MinHeap} (ok : AllOk h) :
    ∃ h', bubbleDown h = some h' ∧ AllOk h' ∧ (DownInv h 1 → heapOrder h') ∧
      SameEntries h h' := by
  by_cases e : h.size < 1
  · refine ⟨h, by simp [bubbleDown, e], ok, ?_, SameEntries.refl h⟩
    intro _ s s1 s2; omega
  · obtain ⟨h', r, a⟩ := bubbleDownLoop_spec h.size.toNat h 1 ok (le_refl _) (by omega)
      (by omega)
    refine ⟨h', ?_, a⟩
    simp only [bubbleDown, if_neg e, ROOT_INDEX, find_min_eq ok (le_refl _) (by omega : (1:Int) ≤ h.size)]
    simpa using r

theorem SameEntries.stored {h h' : MinHeap} (x : SameEntries h h') (n : HeapNode) :
    Stored h' n ↔ Stored h n := x.2.2.1 n

theorem isValidIndex_total {h : MinHeap} (ok : AllOk h) (i : Int) :
    isValidIndex h i = some (decide (1 ≤ i ∧ i ≤ h.size)) := by
  by_cases c : 1 ≤ i ∧ i ≤ h.size
  · rw [isValidIndex_of_slotOk c.1 c.2 (ok i c.1 c.2)]
    simp [c]
  · rw [isValidIndex_out (by omega)]
    simp [c]

theorem root_le {h : MinHeap} (ho : heapOrder h) :
    ∀ (n : Nat) (s : Int), s ≤ n → 1 ≤ s → s ≤ h.size →
      (h.arr 1).priority ≤ (h.arr s).priority := by
  intro n
  induction n with
  | zero => intro s a b _; omega
  | succ n ih =>
    intro s a b c
    by_cases e : s = 1
    · subst e; exact le_refl _
    · have := ih (s / 2) (by omega) (by omega) (by omega)
      have := ho s (by omega) c
      omega

theorem root_le_stored {h : MinHeap} (ho : heapOrder h) {n : HeapNode} (sn : Stored h n) :
    (h.arr 1).priority ≤ n.priority := by
  obtain ⟨s, s1, s2, e⟩ := sn
  rw [← e]
  exact root_le ho s.toNat s (by omega) s1 s2

theorem extractMin_eq {h : MinHeap} (ok : AllOk h) (hs : 1 ≤ h.size) :
    extractMin h = (bubbleDown (moveLast h)).bind fun h4 => some (h.arr 1, h4) := by
  obtain ⟨a, b, c, d⟩ := ok h.size hs (le_refl _)
  have c1 : (1 : Int) ≤ h.capacity := by omega
  have c0 : (0 : Int) ≤ h.size := by omega
  simp [extractMin, getMin, nodeAt, setNodeAt, idAt, setIndexOf, ROOT_INDEX, c1, a, b, c, c0,
    moveLast]

theorem moveLast_allOk {h : MinHeap} (ok : AllOk h) (hs : 1 ≤ h.size) : AllOk (moveLast h) := by
  intro s s1 s2
  have s2' : s ≤ h.size - 1 := s2
  obtain ⟨a, b, c, d⟩ := ok h.size hs (le_refl _)
  obtain ⟨a', b', c', d'⟩ := ok s s1 (by omega)
  unfold SlotOk
  by_cases e : s = 1
  · subst e
    simp [moveLast, a', b, c]
  · have dd : (h.arr s).id ≠ (h.arr h.size).id :=
      fun e => by have := ok.id_inj s1 (by omega) hs (le_refl _) e; omega
    simp [moveLast, Function.update_apply, e, a', b', c', d', dd]

theorem moveLast_downInv {h : MinHeap} (ho : heapOrder h) : DownInv (moveLast h) 1 := by
  constructor
  · intro s s1 s2 e
    have s2' : s ≤ h.size - 1 := s2
    have z1 : s ≠ 1 := by omega
    have z2 : s / 2 ≠ 1 := e
    simp only [moveLast, Function.update_apply, z1, z2, if_false]
    exact ho s s1 (by omega)
  · intro s _ _ _ h2
    omega

theorem moveLast_stored {h : MinHeap} (ok : AllOk h) (hs : 1 ≤ h.size) (n : HeapNode) :
    Stored (moveLast h) n ↔ Stored h n ∧ n.id ≠ (h.arr 1).id := by
  constructor
  · rintro ⟨s, s1, s2, e⟩
    have s2' : s ≤ h.size - 1 := s2
    by_cases e1 : s = 1
    · subst e1
      have : h.arr h.size = n := by simpa [moveLast] using e
      refine ⟨⟨h.size, hs, le_refl _, this⟩, ?_⟩
      rw [← this]
      intro e2
      have := ok.id_inj hs (le_refl _) (le_refl _) hs e2
      omega
    · have : h.arr s = n := by simpa [moveLast, Function.update_apply, e1] using e
      refine ⟨⟨s, s1, by omega, this⟩, ?_⟩
      rw [← this]
      intro e2
      exact e1 (ok.id_inj s1 (by omega) (le_refl _) hs e2)
  · rintro ⟨⟨s, s1, s2, e⟩, ne⟩
    have s1' : s ≠ 1 := by
      intro e1
      subst e1
      rw [← e] at ne
      exact ne rfl
    by_cases e1 : s = h.size
    · refine ⟨1, le_refl _, ?_, ?_⟩
      · show 1 ≤ h.size - 1
        omega
      · simp [moveLast, ← e, e1]
    · refine ⟨s, s1, ?_, ?_⟩
      · show s ≤ h.size - 1
        omega
      · simp [moveLast, Function.update_apply, s1', e]

theorem extractMin_spec {h : MinHeap} (ok : AllOk h) (hs : 1 ≤ h.size) :
    ∃ h', extractMin h = some (h.arr 1, h') ∧ AllOk h' ∧ (heapOrder h → heapOrder h') ∧
      h'.size = h.size - 1 ∧ h'.capacity = h.capacity ∧
      (∀ n, Stored h' n ↔ Stored h n ∧ n.id ≠ (h.arr 1).id) ∧
      h'.indexMap (h.arr 1).id = 1 ∧
      (∀ id, (∀ n, Stored h n → n.id ≠ id) → h'.indexMap id = h.indexMap id) := by
  obtain ⟨h', r, a, b, c⟩ := bubbleDown_spec (moveLast_allOk ok hs)
  refine ⟨h', ?_, a, fun ho => b (moveLast_downInv ho), c.1, c.2.1, ?_, ?_, ?_⟩
  · rw [extractMin_eq ok hs, r]; rfl
  · intro n
    rw [c.stored n, moveLast_stored ok hs n]
  · rw [c.2.2.2.1]
    · have := (ok 1 (le_refl _) hs).2.2.2
      simp [moveLast, Function.update_apply, this]
    · intro s s1 s2 e
      have : Stored (moveLast h) ((moveLast h).arr s) := ⟨s, s1, s2, rfl⟩
      exact ((moveLast_stored ok hs _).1 this).2 e
  · intro id hid
    rw [c.2.2.2.1]
    · have := hid (h.arr h.size) ⟨h.size, hs, le_refl _, rfl⟩
      simp [moveLast, Function.update_apply, this.symm]
    · intro s s1 s2 e
      have : Stored (moveLast h) ((moveLast h).arr s) := ⟨s, s1, s2, rfl⟩
      exact hid _ ((moveLast_stored ok hs _).1 this).1 e

theorem insert_eq {h : MinHeap} {p id : Int} (h0 : 0 ≤ h.size) (hc : h.size < h.capacity)
    (i0 : 0 ≤ id) (i1 : id < h.capacity) :
    insert h p id = bubbleUp (appended h p id) (h.size + 1) := by
  have a : 0 ≤ h.size + 1 := by omega
  have b : h.size + 1 ≤ h.capacity := by omega
  simp [insert, setPriorityAt, setIdAt, setIndexOf, a, b, i0, i1, appended]

theorem appended_allOk {h : MinHeap} {p id : Int} (ok : AllOk h) (hc : h.size < h.capacity)
    (i0 : 0 ≤ id) (i1 : id < h.capacity) (fresh : ∀ n, Stored h n → n.id ≠ id) :
    AllOk (appended h p id) := by
  intro s s1 s2
  have s2' : s ≤ h.size + 1 := s2
  unfold SlotOk
  by_cases e : s = h.size + 1
  · subst e
    simp only [appended, Function.update_same]
    exact ⟨by omega, i0, i1, trivial⟩
  · obtain ⟨a, b, c, d⟩ := ok s s1 (by omega)
    have ne : (h.arr s).id ≠ id := fresh _ ⟨s, s1, by omega, rfl⟩
    simp [appended, Function.update_apply, e, a, b, c, d, ne]

theorem appended_upInv {h : MinHeap} {p id : Int} (ho : heapOrder h) :
    UpInv (appended h p id) (h.size + 1) := by
  constructor
  · intro s s1 s2 e
    have s2' : s ≤ h.size + 1 := s2
    have z1 : s / 2 ≠ h.size + 1 := by omega
    simp only [appended, Function.update_apply, e, z1, if_false]
    exact ho s s1 (by omega)
  · intro s s1 s2 e _
    have s2' : s ≤ h.size + 1 := s2
    omega

theorem appended_stored {h : MinHeap} {p id : Int} (h0 : 0 ≤ h.size) (n : HeapNode) :
    Stored (appended h p id) n ↔ Stored h n ∨ n = { priority := p, id := id } := by
  constructor
  · rintro ⟨s, s1, s2, e⟩
    have s2' : s ≤ h.size + 1 := s2
    by_cases e1 : s = h.size + 1
    · subst e1
      right
      simpa [appended] using e.symm
    · left
      refine ⟨s, s1, by omega, ?_⟩
      simpa [appended, Function.update_apply, e1] using e
  · rintro (⟨s, s1, s2, e⟩ | e)
    · have e1 : s ≠ h.size + 1 := by omega
      refine ⟨s, s1, ?_, ?_⟩
      · show s ≤ h.size + 1
        omega
      · simp [appended, Function.update_apply, e1, e]
    · refine ⟨h.size + 1, by omega, le_refl _, ?_⟩
      simp [appended, e]

theorem insert_spec {h : MinHeap} {p id : Int} (ok : AllOk h)
    (h0 : 0 ≤ h.size) (hc : h.size < h.capacity) (i0 : 0 ≤ id) (i1 : id < h.capacity)
    (fresh : ∀ n, Stored h n → n.id ≠ id) :
    ∃ h', insert h p id = some h' ∧ AllOk h' ∧ (heapOrder h → heapOrder h') ∧
      h'.size = h.size + 1 ∧
      h'.capacity = h.capacity ∧
      (∀ n, Stored h' n ↔ Stored h n ∨ n = { priority := p, id := id }) := by
  obtain ⟨h', r, a, b, c⟩ := bubbleUp_spec (h := appended h p id) (k := h.size + 1)
    (appended_allOk ok hc i0 i1 fresh) (by omega) (le_refl _)
  refine ⟨h', ?_, a, fun ho => b (appended_upInv ho), c.1, c.2.1, ?_⟩
  · rw [insert_eq h0 hc i0 i1, r]
  · intro n
    rw [c.stored n, appended_stored h0 n]

/-- The occupied slots carry pairwise different IDs below `capacity`, so a
heap that misses some ID is not full. -/
theorem size_lt_capacity {h : MinHeap} {id : Int} (ok : AllOk h) (i0 : 0 ≤ id)
    (i1 : id < h.capacity) (fresh : ∀ n, Stored h n → n.id ≠ id) : h.size < h.capacity := by
  have hcard := Finset.card_le_card_of_injOn (s := Finset.Icc 1 h.size)
    (t := (Finset.Ico 0 h.capacity).erase id) (fun s => (h.arr s).id)
    (by
      intro s hs
      have hs' := Finset.mem_Icc.1 hs
      obtain ⟨_, b, c, _⟩ := ok s hs'.1 hs'.2
      rw [Finset.mem_erase, Finset.mem_Ico]
      exact ⟨fresh _ ⟨s, hs'.1, hs'.2, rfl⟩, b, c⟩)
    (by
      intro s hs t ht e
      have hs' := Finset.mem_Icc.1 (Finset.mem_coe.1 hs)
      have ht' := Finset.mem_Icc.1 (Finset.mem_coe.1 ht)
      exact ok.id_inj hs'.1 hs'.2 ht'.1 ht'.2 e)
  rw [Int.card_Icc, Finset.card_erase_of_mem (Finset.mem_Ico.2 ⟨i0, i1⟩), Int.card_Ico] at hcard
  omega

theorem lowered_allOk {h : MinHeap} {k p : Int} (ok : AllOk h) : AllOk (lowered h k p) := by
  intro s s1 s2
  obtain ⟨a, b, c, d⟩ := ok s s1 s2
  unfold SlotOk
  by_cases e : s = k
  · subst e
    simp [lowered, a, b, c, d]
  · simp [lowered, Function.update_apply, e, a, b, c, d]

theorem lowered_upInv {h : MinHeap} {k p : Int} (ho : heapOrder h)
    (k2 : k ≤ h.size) (lt : p < (h.arr k).priority) : UpInv (lowered h k p) k := by
  constructor
  · intro s s1 s2 e
    have s2' : s ≤ h.size := s2
    have := ho s s1 s2'
    by_cases e1 : s / 2 = k
    · rw [e1] at this
      simp only [lowered, Function.update_apply, e, e1, if_false, if_true]
      omega
    · simp only [lowered, Function.update_apply, e, e1, if_false]
      exact this
  · intro s s1 s2 e k4
    have s2' : s ≤ h.size := s2
    have z1 : s ≠ k := by omega
    have z2 : k / 2 ≠ k := by omega
    simp only [lowered, Function.update_apply, z1, z2, if_false]
    have a := ho s s1 s2'
    have b := ho k k4 k2
    rw [e] at a
    omega

theorem lowered_stored {h : MinHeap} {k p : Int} (ok : AllOk h) (k1 : 1 ≤ k)
    (k2 : k ≤ h.size) (n : HeapNode) :
    Stored (lowered h k p) n ↔
      n = { priority := p, id := (h.arr k).id } ∨ (Stored h n ∧ n.id ≠ (h.arr k).id) := by
  constructor
  · rintro ⟨s, s1, s2, e⟩
    have s2' : s ≤ h.size := s2
    by_cases e1 : s = k
    · subst e1
      left
      simpa [lowered] using e.symm
    · right
      have : h.arr s = n := by simpa [lowered, Function.update_apply, e1] using e
      refine ⟨⟨s, s1, s2', this⟩, ?_⟩
      rw [← this]
      exact fun e2 => e1 (ok.id_inj s1 s2' k1 k2 e2)
  · rintro (e | ⟨⟨s, s1, s2, e⟩, ne⟩)
    · refine ⟨k, k1, k2, ?_⟩
      simp [lowered, e]
    · have e1 : s ≠ k := by
        intro e1
        subst e1
        rw [← e] at ne
        exact ne rfl
      refine ⟨s, s1, s2, ?_⟩
      simp [lowered, Function.update_apply, e1, e]

theorem getPriority_eq {h : MinHeap} {id : Int} (ok : AllOk h) (i0 : 0 ≤ id)
    (i1 : id < h.capacity) (k1 : 1 ≤ h.indexMap id) (k2 : h.indexMap id ≤ h.size) :
    getPriority h id = some (h.arr (h.indexMap id)).priority := by
  have := (ok _ k1 k2).1
  have z : 0 ≤ h.indexMap id := by omega
  simp [getPriority, indexOf, priorityAt, i0, i1, this, z]

/-- What `decreasePriority` does on a consistent, ordered heap, for arbitrary
arguments. -/
theorem decreasePriority_spec {h : MinHeap} (ok : AllOk h) (id p : Int) :
    ∃ b h', decreasePriority h id p = some (b, h') ∧ AllOk h' ∧ (heapOrder h → heapOrder h') ∧
      h'.size = h.size ∧ h'.capacity = h.capacity ∧
      (b = false → h' = h) ∧
      (b = true ↔ (0 ≤ id ∧ id < h.capacity ∧ 1 ≤ h.indexMap id ∧ h.indexMap id ≤ h.size ∧
        p < (h.arr (h.indexMap id)).priority)) ∧
      (b = true → ∀ n, Stored h' n ↔
        n = { priority := p, id := (h.arr (h.indexMap id)).id } ∨
          (Stored h n ∧ n.id ≠ (h.arr (h.indexMap id)).id)) := by
  by_cases c1 : id < 0 ∨ id ≥ h.capacity
  · refine ⟨false, h, by simp [decreasePriority, c1], ok, fun x => x, rfl, rfl, fun _ => rfl, ?_, ?_⟩
    · constructor
      · intro x; cases x
      · intro x; omega
    · intro x; cases x
  · have i0 : 0 ≤ id := by omega
    have i1 : id < h.capacity := by omega
    have io : indexOf h id = some (h.indexMap id) := by simp [indexOf, i0, i1]
    by_cases c2 : 1 ≤ h.indexMap id ∧ h.indexMap id ≤ h.size
    · obtain ⟨k1, k2⟩ := c2
      have v : isValidIndex h (h.indexMap id) = some true := by
        rw [isValidIndex_total ok]; simp [k1, k2]
      have gp := getPriority_eq ok i0 i1 k1 k2
      by_cases c3 : (h.arr (h.indexMap id)).priority ≤ p
      · refine ⟨false, h, by simp [decreasePriority, c1, io, v, gp, c3], ok, fun x => x, rfl, rfl,
          fun _ => rfl, ?_, ?_⟩
        · constructor
          · intro x; cases x
          · intro x; omega
        · intro x; cases x
      · have lt : p < (h.arr (h.indexMap id)).priority := by omega
        obtain ⟨h', r, a, b, c⟩ := bubbleUp_spec (h := lowered h (h.indexMap id) p)
          (k := h.indexMap id) (lowered_allOk ok) k1 k2
        have kc := (ok _ k1 k2).1
        have k0 : 0 ≤ h.indexMap id := by omega
        refine ⟨true, h', ?_, a, fun ho => b (lowered_upInv ho k2 lt), c.1, c.2.1,
          fun x => absurd x (by decide), ?_, ?_⟩
        · have : setPriorityAt h (h.indexMap id) p = some (lowered h (h.indexMap id) p) := by
            simp [setPriorityAt, k0, kc, lowered]
          simp [decreasePriority, c1, io, v, gp, c3, this, r]
        · constructor
          · intro _; exact ⟨i0, i1, k1, k2, lt⟩
          · intro _; rfl
        · intro _ n
          rw [c.stored n, lowered_stored ok k1 k2 n]
    · have v : isValidIndex h (h.indexMap id) = some false := by
        rw [isValidIndex_total ok]; simp [c2]
      refine ⟨false, h, by simp [decreasePriority, c1, io, v], ok, fun x => x, rfl, rfl,
        fun _ => rfl, ?_, ?_⟩
      · constructor
        · intro x; cases x
        · intro x; omega
      · intro x; cases x

theorem allOk_of_mapConsistent {h : MinHeap} (hc : mapConsistent h) : AllOk h :=
  fun _ s1 s2 => slotOk_of_mapConsistent hc s1 s2

theorem swap_self {h : MinHeap} {i : Int} (i1 : 1 ≤ i) (i2 : i ≤ h.size) (oi : SlotOk h i) :
    swap h i i = some h := by
  have vi := isValidIndex_of_slotOk i1 i2 oi
  obtain ⟨a, b, c, d⟩ := oi
  have i0 : 0 ≤ i := by omega
  have e : Function.update h.indexMap (h.arr i).id i = h.indexMap := by
    funext x
    by_cases hx : x = (h.arr i).id
    · subst hx; simp [d]
    · simp [Function.update_apply, hx]
  simp [swap, vi, nodeAt, setNodeAt, idAt, setIndexOf, i0, a, b, c, e]

theorem swap_total {h : MinHeap} (ok : AllOk h) (i j : Int) :
    ∃ h', swap h i j = some h' ∧ AllOk h' ∧ (h'.arr = h.arr ↔ h'.indexMap = h.indexMap) ∧
      ((isValidIndex h i = some false ∨ isValidIndex h j = some false) → h' = h) := by
  by_cases ci : 1 ≤ i ∧ i ≤ h.size
  · by_cases cj : 1 ≤ j ∧ j ≤ h.size
    · have vi := isValidIndex_of_slotOk ci.1 ci.2 (ok i ci.1 ci.2)
      have vj := isValidIndex_of_slotOk cj.1 cj.2 (ok j cj.1 cj.2)
      by_cases e : i = j
      · subst e
        exact ⟨h, swap_self ci.1 ci.2 (ok i ci.1 ci.2), ok, by simp, fun _ => rfl⟩
      · refine ⟨swapped h i j, swap_eq ci.1 ci.2 cj.1 cj.2 (ok i ci.1 ci.2) (ok j cj.1 cj.2) e,
          swapped_allOk ok ci.1 ci.2 cj.1 cj.2 e, ?_, ?_⟩
        · have di : (h.arr i).id ≠ (h.arr j).id :=
            fun x => e (ok.id_inj ci.1 ci.2 cj.1 cj.2 x)
          constructor
          · intro x
            have := congrFun x i
            rw [swapped_arr, if_neg e, if_pos rfl] at this
            exact absurd (congrArg HeapNode.id this).symm di
          · intro x
            have := congrFun x (h.arr i).id
            simp only [swapped, Function.update_same] at this
            rw [(ok i ci.1 ci.2).2.2.2] at this
            omega
        · rintro (x | x)
          · rw [vi] at x; simp at x
          · rw [vj] at x; simp at x
    · have vi := isValidIndex_of_slotOk ci.1 ci.2 (ok i ci.1 ci.2)
      have vj : isValidIndex h j = some false := isValidIndex_out (by omega)
      exact ⟨h, by simp [swap, vi, vj], ok, by simp, fun _ => rfl⟩
  · have vi : isValidIndex h i = some false := isValidIndex_out (by omega)
    exact ⟨h, by simp [swap, vi], ok, by simp, fun _ => rfl⟩

theorem getPriority_stored {h : MinHeap} (ok : AllOk h) {n : HeapNode} (sn : Stored h n) :
    getPriority h n.id = some n.priority := by
  obtain ⟨s, s1, s2, e⟩ := sn
  obtain ⟨a, b, c, d⟩ := ok s s1 s2
  rw [e] at b c d
  rw [getPriority_eq ok b c (by omega) (by omega), d, e]

theorem sampleHeap_mapConsistent : mapConsistent sampleHeap := by
  intro s s1 s2
  have s2' : s ≤ 2 := s2
  have : s = 1 ∨ s = 2 := by omega
  rcases this with e | e <;> subst e <;> decide

theorem sampleHeap_heapOrder : heapOrder sampleHeap := by
  intro s s1 s2
  have s2' : s ≤ 2 := s2
  have : s = 2 := by omega
  subst this
  decide

theorem sampleHeap_fresh : ∀ s, 1 ≤ s → s ≤ sampleHeap.size → (sampleHeap.arr s).id ≠ 2 := by
  intro s s1 s2
  have s2' : s ≤ 2 := s2
  have : s = 1 ∨ s = 2 := by omega
  rcases this with e | e <;> subst e <;> decide

/-- C1. Heap-order invariant: on a heap that satisfies heap-order and map
consistency, `insert` (ID in `[0, capacity)`, not present, `size < capacity`),
`extractMin` (heap non-empty) and `decreasePriority` (any arguments) all
return, and in the heap they leave every slot `s` with `2 ≤ s ≤ size` has
`priority(arr[s/2]) ≤ priority(arr[s])`. -/
theorem heap_order_invariant (h : MinHeap) (hm : mapConsistent h) (ho : heapOrder h)
    (h0 : 0 ≤ h.size) :
    (∀ priority id : Int, 0 ≤ id → id < h.capacity →
      (∀ s, 1 ≤ s → s ≤ h.size → (h.arr s).id ≠ id) → h.size < h.capacity →
      ∃ h', insert h priority id = some h' ∧ heapOrder h') ∧
    (1 ≤ h.size → ∃ m h', extractMin h = some (m, h') ∧ heapOrder h') ∧
    (∀ id newPriority : Int,
      ∃ b h', decreasePriority h id newPriority = some (b, h') ∧ heapOrder h') := by
  have ok := allOk_of_mapConsistent hm
  refine ⟨?_, ?_, ?_⟩
  · intro p id i0 i1 fresh hc
    obtain ⟨h', r, _, b, _⟩ := insert_spec (p := p) ok h0 hc i0 i1
      (by rintro n ⟨s, s1, s2, e⟩; rw [← e]; exact fresh s s1 s2)
    exact ⟨h', r, b ho⟩
  · intro hs
    obtain ⟨h', r, _, b, _⟩ := extractMin_spec ok hs
    exact ⟨_, h', r, b ho⟩
  · intro id p
    obtain ⟨b, h', r, _, c, _⟩ := decreasePriority_spec ok id p
    exact ⟨b, h', r, c ho⟩

theorem heap_order_invariant_witness :
    mapConsistent sampleHeap ∧ heapOrder sampleHeap ∧
    (∃ h', insert sampleHeap 1 2 = some h' ∧ heapOrder h') ∧
    (∃ m h', extractMin sampleHeap = some (m, h') ∧ heapOrder h') ∧
    (∃ b h', decreasePriority sampleHeap 1 3 = some (b, h') ∧ heapOrder h') :=
  ⟨sampleHeap_mapConsistent, sampleHeap_heapOrder,
    (heap_order_invariant sampleHeap sampleHeap_mapConsistent sampleHeap_heapOrder
      (by decide)).1 1 2 (by decide) (by decide) sampleHeap_fresh (by decide),
    (heap_order_invariant sampleHeap sampleHeap_mapConsistent sampleHeap_heapOrder
      (by decide)).2.1 (by decide),
    (heap_order_invariant sampleHeap sampleHeap_mapConsistent sampleHeap_heapOrder
      (by decide)).2.2 1 3⟩

/-- C2. Map consistency: on a heap in which `indexMap[arr[s].id] == s` for all
occupied slots, `swap` (any two indices), `insert` (ID in range and not
present), `extractMin` (heap non-empty) and `decreasePriority` (any
arguments) all return a heap with the same property.  `swap` changes `arr`
exactly when it changes `indexMap`, and returns the heap unchanged when
`isValidIndex` is false for either index. -/
theorem map_consistency_invariant (h : MinHeap) (hm : mapConsistent h) (h0 : 0 ≤ h.size) :
    (∀ i j : Int, ∃ h', swap h i j = some h' ∧ mapConsistent h' ∧
      (h'.arr = h.arr ↔ h'.indexMap = h.indexMap) ∧
      ((isValidIndex h i = some false ∨ isValidIndex h j = some false) → h' = h)) ∧
    (∀ priority id : Int, 0 ≤ id → id < h.capacity →
      (∀ s, 1 ≤ s → s ≤ h.size → (h.arr s).id ≠ id) →
      ∃ h', insert h priority id = some h' ∧ mapConsistent h') ∧
    (1 ≤ h.size → ∃ m h', extractMin h = some (m, h') ∧ mapConsistent h') ∧
    (∀ id newPriority : Int,
      ∃ b h', decreasePriority h id newPriority = some (b, h') ∧ mapConsistent h') := by
  have ok := allOk_of_mapConsistent hm
  refine ⟨?_, ?_, ?_, ?_⟩
  · intro i j
    obtain ⟨h', r, a, b, c⟩ := swap_total ok i j
    exact ⟨h', r, mapConsistent_of_slotOk a, b, c⟩
  · intro p id i0 i1 fresh
    have fresh' : ∀ n, Stored h n → n.id ≠ id := by
      rintro n ⟨s, s1, s2, e⟩; rw [← e]; exact fresh s s1 s2
    obtain ⟨h', r, a, _⟩ := insert_spec (p := p) ok h0 (size_lt_capacity ok i0 i1 fresh')
      i0 i1 fresh'
    exact ⟨h', r, mapConsistent_of_slotOk a⟩
  · intro hs
    obtain ⟨h', r, a, _⟩ := extractMin_spec ok hs
    exact ⟨_, h', r, mapConsistent_of_slotOk a⟩
  · intro id p
    obtain ⟨b, h', r, a, _⟩ := decreasePriority_spec ok id p
    exact ⟨b, h', r, mapConsistent_of_slotOk a⟩

theorem map_consistency_invariant_witness :
    mapConsistent sampleHeap ∧
    (∃ h', swap sampleHeap 1 2 = some h' ∧ mapConsistent h' ∧
      (h'.arr = sampleHeap.arr ↔ h'.indexMap = sampleHeap.indexMap) ∧
      ((isValidIndex sampleHeap 1 = some false ∨ isValidIndex sampleHeap 2 = some false) →
        h' = sampleHeap)) ∧
    (∃ h', insert sampleHeap 1 2 = some h' ∧ mapConsistent h') ∧
    (∃ m h', extractMin sampleHeap = some (m, h') ∧ mapConsistent h') ∧
    (∃ b h', decreasePriority sampleHeap 1 3 = some (b, h') ∧ mapConsistent h') :=
  ⟨sampleHeap_mapConsistent,
    (map_consistency_invariant sampleHeap sampleHeap_mapConsistent (by decide)).1 1 2,
    (map_consistency_invariant sampleHeap sampleHeap_mapConsistent (by decide)).2.1 1 2
      (by decide) (by decide) sampleHeap_fresh,
    (map_consistency_invariant sampleHeap sampleHeap_mapConsistent (by decide)).2.2.1
      (by decide),
    (map_consistency_invariant sampleHeap sampleHeap_mapConsistent (by decide)).2.2.2 1 3⟩

theorem mem_entries {h : MinHeap} (n : HeapNode) : n ∈ entries h ↔ Stored h n := by
  unfold entries Stored
  simp only [List.mem_map, List.mem_range]
  constructor
  · rintro ⟨i, hi, e⟩
    exact ⟨(i : Int) + 1, by omega, by omega, e⟩
  · rintro ⟨s, s1, s2, e⟩
    refine ⟨(s - 1).toNat, by omega, ?_⟩
    have : (((s - 1).toNat : Nat) : Int) + 1 = s := by omega
    rw [this]
    exact e

theorem entries_nodup {h : MinHeap} (ok : AllOk h) : (entries h).Nodup := by
  unfold entries
  refine (List.nodup_map_iff_inj_on (List.nodup_range _)).2 ?_
  intro i hi j hj e
  rw [List.mem_range] at hi hj
  have := ok.id_inj (s := (i : Int) + 1) (t := (j : Int) + 1) (by omega) (by omega) (by omega)
    (by omega) (by rw [e])
  omega

theorem extractAll_spec (n : Nat) : ∀ h : MinHeap, AllOk h → heapOrder h → h.size = n →
    ∃ out h', extractAll n h = some (out, h') ∧ h'.size = 0 ∧ out.length = n ∧
      (∀ m, m ∈ out ↔ Stored h m) ∧ (out.map HeapNode.id).Nodup ∧
      List.Sorted (· ≤ ·) (out.map HeapNode.priority) := by
  induction n with
  | zero =>
    intro h _ _ hs
    refine ⟨[], h, rfl, by simpa using hs, rfl, ?_, by simp, by simp⟩
    intro m
    constructor
    · intro hm
      cases hm
    · rintro ⟨s, s1, s2, _⟩
      simp at hs
      omega
  | succ n ih =>
    intro h ok ho hs
    have hs1 : 1 ≤ h.size := by omega
    obtain ⟨h1, r, ok1, ho1, sz, _, st, _⟩ := extractMin_spec ok hs1
    obtain ⟨out, h2, r2, z, len, mem, nd, srt⟩ := ih h1 ok1 (ho1 ho) (by omega)
    have root : Stored h (h.arr 1) := ⟨1, le_refl _, hs1, rfl⟩
    refine ⟨h.arr 1 :: out, h2, ?_, z, by simp [len], ?_, ?_, ?_⟩
    · simp [extractAll, r, r2]
    · intro m
      constructor
      · intro hm
        rcases List.mem_cons.1 hm with e | e
        · rw [e]
          exact root
        · exact ((st m).1 ((mem m).1 e)).1
      · intro sm
        by_cases e : m.id = (h.arr 1).id
        · obtain ⟨s, s1, s2, es⟩ := sm
          have : s = 1 := ok.id_inj s1 s2 (le_refl _) hs1 (by rw [es]; exact e)
          subst this
          rw [← es]
          exact List.mem_cons_self _ _
        · exact List.mem_cons_of_mem _ ((mem m).2 ((st m).2 ⟨sm, e⟩))
    · rw [List.map_cons, List.nodup_cons]
      refine ⟨?_, nd⟩
      intro hin
      obtain ⟨m, hm, e⟩ := List.mem_map.1 hin
      exact ((st m).1 ((mem m).1 hm)).2 e
    · rw [List.map_cons, List.sorted_cons]
      refine ⟨?_, srt⟩
      intro p hp
      obtain ⟨m, hm, e⟩ := List.mem_map.1 hp
      rw [← e]
      exact root_le_stored ho ((st m).1 ((mem m).1 hm)).1

/-- C3. On a non-empty heap satisfying heap-order and map consistency,
`extractMin` returns an entry that was stored in the heap, whose priority is
`≤` that of every stored entry; it decreases `size` by one, and the heap it
leaves stores the entries stored before the call except the returned one.  On
a heap of size `n`, `n` successive calls return the `n` stored entries, each
once, with priorities in non-decreasing order, and leave `size == 0`. -/
theorem extractMin_returns_minimum (h : MinHeap) (hm : mapConsistent h) (ho : heapOrder h)
    (h0 : 0 ≤ h.size) :
    (1 ≤ h.size → ∃ m h', extractMin h = some (m, h') ∧ Stored h m ∧
      (∀ n, Stored h n → m.priority ≤ n.priority) ∧ h'.size = h.size - 1 ∧
      (∀ n, Stored h' n ↔ Stored h n ∧ n ≠ m)) ∧
    (∃ out h', extractAll h.size.toNat h = some (out, h') ∧ out.length = h.size.toNat ∧
      out.Perm (entries h) ∧
      List.Sorted (· ≤ ·) (out.map HeapNode.priority) ∧ h'.size = 0) := by
  have ok := allOk_of_mapConsistent hm
  constructor
  · intro hs
    obtain ⟨h', r, _, _, sz, _, st, _⟩ := extractMin_spec ok hs
    refine ⟨h.arr 1, h', r, ⟨1, le_refl _, hs, rfl⟩, fun n sn => root_le_stored ho sn, sz, ?_⟩
    intro n
    rw [st n]
    constructor
    · rintro ⟨sn, ne⟩
      exact ⟨sn, fun e => ne (by rw [e])⟩
    · rintro ⟨sn, ne⟩
      refine ⟨sn, fun e => ne ?_⟩
      obtain ⟨s, s1, s2, es⟩ := sn
      have : s = 1 := ok.id_inj s1 s2 (le_refl _) hs (by rw [es]; exact e)
      subst this
      exact es.symm
  · obtain ⟨out, h', r, z, len, mem, nd, srt⟩ :=
      extractAll_spec h.size.toNat h ok ho (by omega)
    refine ⟨out, h', r, len, ?_, srt, z⟩
    refine (List.perm_ext_iff_of_nodup (List.Nodup.of_map _ nd) (entries_nodup ok)).2 ?_
    intro a
    rw [mem a, mem_entries]

theorem extractMin_returns_minimum_witness :
    mapConsistent sampleHeap ∧ heapOrder sampleHeap ∧
    (∃ m h', extractMin sampleHeap = some (m, h') ∧ Stored sampleHeap m ∧
      (∀ n, Stored sampleHeap n → m.priority ≤ n.priority) ∧ h'.size = sampleHeap.size - 1 ∧
      (∀ n, Stored h' n ↔ Stored sampleHeap n ∧ n ≠ m)) ∧
    (∃ out h', extractAll sampleHeap.size.toNat sampleHeap = some (out, h') ∧
      out.length = sampleHeap.size.toNat ∧ out.Perm (entries sampleHeap) ∧
      List.Sorted (· ≤ ·) (out.map HeapNode.priority) ∧ h'.size = 0) :=
  ⟨sampleHeap_mapConsistent, sampleHeap_heapOrder,
    (extractMin_returns_minimum sampleHeap sampleHeap_mapConsistent sampleHeap_heapOrder
      (by decide)).1 (by decide),
    (extractMin_returns_minimum sampleHeap sampleHeap_mapConsistent sampleHeap_heapOrder
      (by decide)).2⟩

theorem Stored.priority_unique {h : MinHeap} (ok : AllOk h) {a b : HeapNode}
    (sa : Stored h a) (sb : Stored h b) (e : a.id = b.id) : a = b := by
  obtain ⟨s, s1, s2, ea⟩ := sa
  obtain ⟨t, t1, t2, eb⟩ := sb
  have : s = t := ok.id_inj s1 s2 t1 t2 (by rw [ea, eb]; exact e)
  subst this
  rw [← ea, ← eb]

theorem Stored.indexMap_eq {h : MinHeap} (ok : AllOk h) {a : HeapNode} (sa : Stored h a) :
    1 ≤ h.indexMap a.id ∧ h.indexMap a.id ≤ h.size ∧ h.arr (h.indexMap a.id) = a ∧
      0 ≤ a.id ∧ a.id < h.capacity := by
  obtain ⟨s, s1, s2, ea⟩ := sa
  obtain ⟨_, b, c, d⟩ := ok s s1 s2
  rw [ea] at b c d
  rw [d]
  exact ⟨s1, s2, ea, b, c⟩

/-- C4. On a well-formed heap, for an ID stored with priority `q`,
`decreasePriority(heap, id, p)` returns true iff `p < q`; when it returns true
`getPriority(heap, id) == p` afterwards and every other stored ID keeps its
priority; when it returns false the heap is unchanged.  For arbitrary
arguments, every stored ID is still stored afterwards, with a priority no
larger than before. -/
theorem decreasePriority_contract (h : MinHeap) (hm : mapConsistent h) :
    (∀ id q p : Int, Stored h { priority := q, id := id } →
      ∃ b h', decreasePriority h id p = some (b, h') ∧ (b = true ↔ p < q) ∧
        (b = true → getPriority h' id = some p ∧
          ∀ id' q' : Int, id' ≠ id → Stored h { priority := q', id := id' } →
            getPriority h' id' = some q') ∧
        (b = false → h' = h)) ∧
    (∀ id p : Int, ∃ b h', decreasePriority h id p = some (b, h') ∧
      ∀ id' q' : Int, Stored h { priority := q', id := id' } →
        ∃ q'', Stored h' { priority := q'', id := id' } ∧
          getPriority h' id' = some q'' ∧ q'' ≤ q') := by
  have ok := allOk_of_mapConsistent hm
  constructor
  · intro id q p sq
    obtain ⟨k1, k2, ek, i0, i1⟩ := Stored.indexMap_eq ok sq
    dsimp only at k1 k2 ek i0 i1
    obtain ⟨b, h', r, ok', _, _, _, un, iff, st⟩ := decreasePriority_spec ok id p
    rw [ek] at iff st
    dsimp only at iff st
    refine ⟨b, h', r, ?_, ?_, un⟩
    · rw [iff]
      constructor
      · intro x; exact x.2.2.2.2
      · intro x; exact ⟨i0, i1, k1, k2, x⟩
    · intro hb
      constructor
      · exact getPriority_stored ok' (n := { priority := p, id := id })
          ((st hb _).2 (Or.inl rfl))
      · intro id' q' ne sq'
        exact getPriority_stored ok' (n := { priority := q', id := id' })
          ((st hb _).2 (Or.inr ⟨sq', ne⟩))
  · intro id p
    obtain ⟨b, h', r, ok', _, _, _, un, iff, st⟩ := decreasePriority_spec ok id p
    refine ⟨b, h', r, ?_⟩
    intro id' q' sq'
    cases b with
    | false =>
      rw [un rfl]
      exact ⟨q', sq', getPriority_stored ok (n := { priority := q', id := id' }) sq', le_refl _⟩
    | true =>
      obtain ⟨_, _, k1, k2, lt⟩ := iff.1 rfl
      by_cases e : id' = (h.arr (h.indexMap id)).id
      · have s1 : Stored h' { priority := p, id := id' } := by
          rw [e]; exact (st rfl _).2 (Or.inl rfl)
        have : ({ priority := q', id := id' } : HeapNode) = h.arr (h.indexMap id) :=
          Stored.priority_unique ok sq' ⟨_, k1, k2, rfl⟩ e
        rw [← this] at lt
        exact ⟨p, s1, getPriority_stored ok' (n := { priority := p, id := id' }) s1,
          le_of_lt lt⟩
      · have s1 : Stored h' { priority := q', id := id' } := (st rfl _).2 (Or.inr ⟨sq', e⟩)
        exact ⟨q', s1, getPriority_stored ok' (n := { priority := q', id := id' }) s1,
          le_refl _⟩

theorem sampleHeap_stored : Stored sampleHeap { priority := 7, id := 1 } :=
  ⟨2, by decide, by decide, by decide⟩

theorem decreasePriority_contract_witness :
    mapConsistent sampleHeap ∧ Stored sampleHeap { priority := 7, id := 1 } ∧
    (∃ b h', decreasePriority sampleHeap 1 3 = some (b, h') ∧ (b = true ↔ (3 : Int) < 7) ∧
        (b = true → getPriority h' 1 = some 3 ∧
          ∀ id' q' : Int, id' ≠ 1 → Stored sampleHeap { priority := q', id := id' } →
            getPriority h' id' = some q') ∧
        (b = false → h' = sampleHeap)) :=
  ⟨sampleHeap_mapConsistent, sampleHeap_stored,
    (decreasePriority_contract sampleHeap sampleHeap_mapConsistent).1 1 7 3 sampleHeap_stored⟩

/-- C5, evaluated.  `newHeap(2)`, `insert(5, 0)`, `insert(7, 1)` and one
`extractMin` return ID 0 and leave `staleHeap`.  That heap is well-formed and
ID 0 is in none of its occupied slots; yet `decreasePriority(staleHeap, 0, 3)`
returns true and lowers the priority of ID 1 from 7 to 3. -/
theorem decreasePriority_absent_id_modifies :
    twoInsertsOneExtract.map (fun r => (r.1, cells2 r.2)) =
      some ({ priority := 5, id := 0 }, cells2 staleHeap) ∧
    mapConsistent staleHeap ∧ heapOrder staleHeap ∧
    (∀ s, 1 ≤ s → s ≤ staleHeap.size → (staleHeap.arr s).id ≠ 0) ∧
    getPriority staleHeap 1 = some 7 ∧
    (decreasePriority staleHeap 0 3).map Prod.fst = some true ∧
    ((decreasePriority staleHeap 0 3).bind fun r => getPriority r.2 1) = some 3 := by
  refine ⟨by decide, ?_, ?_, ?_, by decide, by decide, by decide⟩
  · intro s s1 s2
    have s2' : s ≤ 1 := s2
    have : s = 1 := by omega
    subst this
    decide
  · intro s s1 s2
    have s2' : s ≤ 1 := s2
    omega
  · intro s s1 s2
    have s2' : s ≤ 1 := s2
    have : s = 1 := by omega
    subst this
    decide

/-- C6, evaluated.  After `newHeap(2)`, one insert per ID and one `extractMin`
(which returns ID 0), the map entry of the returned ID 0 is 1, and slot 1 is
an occupied, valid slot: it holds ID 1. -/
theorem extracted_id_still_mapped :
    (twoInsertsOneExtract.bind fun r =>
      (indexOf r.2 0).bind fun k => (isValidIndex r.2 k).bind fun v =>
        (idAt r.2 k).map fun i => (r.1, r.2.size, k, v, i)) =
      some ({ priority := 5, id := 0 }, 1, 1, true, 1) := by
  decide

theorem initHeapLoop_spec (s n : Int) (count : Nat) : ∀ (i : Int) (h : MinHeap),
    AllOk h → heapOrder h → h.size = i → h.capacity = n → 0 ≤ i → i + count = n →
    (∀ x, Stored h x ↔ (0 ≤ x.id ∧ x.id < i ∧ x.priority = initPriority s x.id)) →
    ∃ h', initHeapLoop s count i h = some h' ∧ AllOk h' ∧ heapOrder h' ∧ h'.size = n ∧
      h'.capacity = n ∧
      (∀ x, Stored h' x ↔ (0 ≤ x.id ∧ x.id < n ∧ x.priority = initPriority s x.id)) := by
  induction count with
  | zero =>
    intro i h ok ho hs hc _ hn st
    have : i = n := by simpa using hn
    subst this
    exact ⟨h, rfl, ok, ho, hs, hc, st⟩
  | succ count ih =>
    intro i h ok ho hs hc i0 hn st
    have hn' : i + 1 + (count : Int) = n := by push_cast at hn; omega
    have fresh : ∀ x, Stored h x → x.id ≠ i := by
      intro x sx
      have := ((st x).1 sx).2.1
      omega
    obtain ⟨h1, r, ok1, ho1, sz1, cap1, st1⟩ := insert_spec (p := initPriority s i) ok
      (by omega) (by omega) i0 (by omega) fresh
    obtain ⟨h', r', a⟩ := ih (i + 1) h1 ok1 (ho1 ho) (by omega) (by omega) (by omega) hn' (by
      intro x
      rw [st1 x, st x]
      constructor
      · rintro (⟨a, b, c⟩ | e)
        · exact ⟨a, by omega, c⟩
        · subst e
          exact ⟨i0, by simp, rfl⟩
      · rintro ⟨a, b, c⟩
        by_cases e : x.id = i
        · right
          cases x with
          | mk xp xi =>
            simp only at e c
            subst e
            rw [c]
        · left
          exact ⟨a, by omega, c⟩)
    refine ⟨h', ?_, a⟩
    unfold initPriority at r
    simp only [initHeapLoop]
    by_cases e : i = s
    · rw [if_pos e] at r ⊢
      rw [r]
      exact r'
    · rw [if_neg e] at r ⊢
      rw [r]
      exact r'

theorem newHeap_stored (n : Int) (junk : Int → HeapNode) (x : HeapNode) :
    ¬ Stored (newHeap n junk) x := by
  rintro ⟨s, s1, s2, _⟩
  have : s ≤ 0 := s2
  omega

theorem initHeap_spec (g : Graph) (s : Int) (junk : Int → HeapNode) (n0 : 0 ≤ g.numVertices) :
    ∃ h', initHeap g s junk = some h' ∧ AllOk h' ∧ heapOrder h' ∧ h'.size = g.numVertices ∧
      h'.capacity = g.numVertices ∧
      (∀ x, Stored h' x ↔
        (0 ≤ x.id ∧ x.id < g.numVertices ∧ x.priority = initPriority s x.id)) := by
  apply initHeapLoop_spec s g.numVertices g.numVertices.toNat 0 (newHeap g.numVertices junk)
  · intro t t1 t2
    have : t ≤ 0 := t2
    omega
  · intro t t1 t2
    have : t ≤ 0 := t2
    omega
  · rfl
  · rfl
  · exact le_refl _
  · omega
  · intro x
    constructor
    · intro sx
      exact absurd sx (newHeap_stored _ _ x)
    · rintro ⟨a, b, _⟩
      omega

theorem RecInv.id_range {n : Int} {r : Records} (inv : RecInv n r) {x : HeapNode}
    (sx : Stored r.heap x) : 0 ≤ x.id ∧ x.id < n := by
  obtain ⟨_, _, _, a, b⟩ := Stored.indexMap_eq inv.ok sx
  rw [inv.cap] at b
  exact ⟨a, b⟩

theorem RecInv.unfinished {n : Int} {r : Records} (inv : RecInv n r) {x : HeapNode}
    (sx : Stored r.heap x) : r.finished x.id = false := by
  obtain ⟨a, b⟩ := inv.id_range sx
  exact (inv.fin x.id a b).2 ⟨x.priority, sx⟩

theorem primRelax_eq (uid : Int) (adj : List Edge) :
    ∀ r, primRelax uid adj r = relaxLoop (fun w => w) uid adj r := by
  induction adj with
  | nil => intro r; rfl
  | cons e rest ih =>
    intro r
    simp only [primRelax, relaxLoop, ih]

theorem dijkstraRelax_eq (uid u_dist : Int) (adj : List Edge) :
    ∀ r, dijkstraRelax uid u_dist adj r =
      relaxLoop (fun w => wrap32 (u_dist + w)) uid adj r := by
  induction adj with
  | nil => intro r; rfl
  | cons e rest ih =>
    intro r
    simp only [dijkstraRelax, relaxLoop, ih]

theorem relaxed_le (cand : Int → Int) (adj : List Edge) (v : Int) :
    ∀ p, relaxed cand adj v p ≤ p := by
  induction adj with
  | nil => intro p; exact le_refl _
  | cons e rest ih =>
    intro p
    have := ih (if e.toVertex = v ∧ cand e.weight < p then cand e.weight else p)
    simp only [relaxed]
    split_ifs at this ⊢ with c
    · omega
    · exact this

theorem relaxed_le_cand (cand : Int → Int) (adj : List Edge) (v : Int) :
    ∀ p, ∀ e ∈ adj, e.toVertex = v → relaxed cand adj v p ≤ cand e.weight := by
  induction adj with
  | nil => intro p e he; cases he
  | cons a rest ih =>
    intro p e he ev
    simp only [relaxed]
    rcases List.mem_cons.1 he with x | x
    · subst x
      have := relaxed_le cand rest v (if e.toVertex = v ∧ cand e.weight < p then cand e.weight else p)
      split_ifs at this ⊢ with c
      · exact this
      · have : ¬ cand e.weight < p := fun y => c ⟨ev, y⟩
        omega
    · exact ih _ e x ev

theorem relaxed_eq (cand : Int → Int) (adj : List Edge) (v : Int) :
    ∀ p, relaxed cand adj v p = p ∨
      ∃ e ∈ adj, e.toVertex = v ∧ relaxed cand adj v p = cand e.weight ∧ cand e.weight < p := by
  induction adj with
  | nil => intro p; exact Or.inl rfl
  | cons a rest ih =>
    intro p
    simp only [relaxed]
    by_cases c : a.toVertex = v ∧ cand a.weight < p
    · rw [if_pos c]
      rcases ih (cand a.weight) with x | ⟨e, he, ev, ee, lt⟩
      · exact Or.inr ⟨a, List.mem_cons_self _ _, c.1, x, c.2⟩
      · exact Or.inr ⟨e, List.mem_cons_of_mem _ he, ev, ee, by omega⟩
    · rw [if_neg c]
      rcases ih p with x | ⟨e, he, ev, ee, lt⟩
      · exact Or.inl x
      · exact Or.inr ⟨e, List.mem_cons_of_mem _ he, ev, ee, lt⟩

theorem relax_step {n : Int} {r : Records} (cand : Int → Int) (uid : Int) (inv : RecInv n r)
    (e : Edge) (e0 : 0 ≤ e.toVertex) (e1 : e.toVertex < n) :
    ∃ r1, (∀ rest, relaxLoop cand uid (e :: rest) r = relaxLoop cand uid rest r1) ∧
      RecInv n r1 ∧ r1.finished = r.finished ∧ r1.tree = r.tree ∧
      r1.numTreeEdges = r.numTreeEdges ∧ r1.heap.size = r.heap.size ∧
      (∀ v p, Stored r.heap { priority := p, id := v } →
        Stored r1.heap
          { priority := if e.toVertex = v ∧ cand e.weight < p then cand e.weight else p,
            id := v } ∧
        r1.predecessors v =
          if e.toVertex = v ∧ cand e.weight < p then uid else r.predecessors v) ∧
      (∀ v, (∀ p, ¬ Stored r.heap { priority := p, id := v }) →
        r1.predecessors v = r.predecessors v) := by
  have fa : finishedAt r e.toVertex = some (r.finished e.toVertex) := by
    simp [finishedAt, inv.nv, e0, e1]
  by_cases hf : r.finished e.toVertex = true
  · refine ⟨r, ?_, inv, rfl, rfl, rfl, rfl, ?_, fun _ _ => rfl⟩
    · intro rest
      simp [relaxLoop, fa, hf]
    · intro v p sp
      have nf := inv.unfinished sp
      have ne : e.toVertex ≠ v := by
        intro x
        rw [x] at hf
        simp only at nf
        rw [nf] at hf
        exact absurd hf (by decide)
      simp [ne, sp]
  · have hf' : r.finished e.toVertex = false := by
      cases h : r.finished e.toVertex
      · rfl
      · exact absurd h hf
    obtain ⟨q, sq⟩ := (inv.fin _ e0 e1).1 hf'
    have gp : getPriority r.heap e.toVertex = some q :=
      getPriority_stored inv.ok (n := { priority := q, id := e.toVertex }) sq
    by_cases lt : cand e.weight < q
    · obtain ⟨k1, k2, ek, i0, i1⟩ := Stored.indexMap_eq inv.ok sq
      dsimp only at k1 k2 ek i0 i1
      obtain ⟨b, h1, rd, ok1, ho1, sz1, cap1, _, iff, st⟩ :=
        decreasePriority_spec inv.ok e.toVertex (cand e.weight)
      have hb : b = true := by
        rw [iff, ek]
        exact ⟨i0, i1, k1, k2, lt⟩
      subst hb
      have st' := st rfl
      rw [ek] at st'
      dsimp only at st'
      refine ⟨{ r with heap := h1,
                       predecessors := Function.update r.predecessors e.toVertex uid },
        ?_, ?_, rfl, rfl, rfl, sz1, ?_, ?_⟩
      · intro rest
        simp [relaxLoop, fa, hf', gp, lt, rd, setPredecessor, inv.nv, e0, e1]
      · refine ⟨inv.nv, by rw [← inv.cap]; exact cap1, ok1, ho1 inv.ho, ?_, ?_⟩
        · show 0 ≤ h1.size
          rw [sz1]; exact inv.size0
        · intro v v0 v1
          show r.finished v = false ↔ ∃ p, Stored h1 { priority := p, id := v }
          rw [inv.fin v v0 v1]
          constructor
          · rintro ⟨p, sp⟩
            by_cases x : v = e.toVertex
            · exact ⟨cand e.weight, (st' _).2 (Or.inl (by rw [x]))⟩
            · exact ⟨p, (st' _).2 (Or.inr ⟨sp, x⟩)⟩
          · rintro ⟨p, sp⟩
            rcases (st' _).1 sp with x | x
            · have : v = e.toVertex := congrArg HeapNode.id x
              rw [this]
              exact ⟨q, sq⟩
            · exact ⟨p, x.1⟩
      · intro v p sp
        by_cases x : e.toVertex = v
        · subst x
          have : ({ priority := p, id := e.toVertex } : HeapNode) =
              { priority := q, id := e.toVertex } := Stored.priority_unique inv.ok sp sq rfl
          have pq : p = q := congrArg HeapNode.priority this
          subst pq
          simp only [lt, and_self, if_true, Function.update_same]
          exact ⟨(st' _).2 (Or.inl rfl), trivial⟩
        · have x' : v ≠ e.toVertex := fun y => x y.symm
          simp only [x, false_and, if_false, Function.update_apply, x']
          exact ⟨(st' _).2 (Or.inr ⟨sp, x'⟩), trivial⟩
      · intro v nv
        have x : v ≠ e.toVertex := by
          intro y
          subst y
          exact nv q sq
        simp [Function.update_apply, x]
    · refine ⟨r, ?_, inv, rfl, rfl, rfl, rfl, ?_, fun _ _ => rfl⟩
      · intro rest
        simp [relaxLoop, fa, hf', gp, lt]
      · intro v p sp
        by_cases x : e.toVertex = v
        · subst x
          have : ({ priority := p, id := e.toVertex } : HeapNode) =
              { priority := q, id := e.toVertex } := Stored.priority_unique inv.ok sp sq rfl
          have pq : p = q := congrArg HeapNode.priority this
          subst pq
          simp [lt, sp]
        · simp [x, sp]

theorem relaxLoop_spec {n : Int} (cand : Int → Int) (uid : Int) (adj : List Edge) :
    ∀ r : Records, RecInv n r → (∀ e ∈ adj, 0 ≤ e.toVertex ∧ e.toVertex < n) →
    ∃ r', relaxLoop cand uid adj r = some r' ∧ RecInv n r' ∧ r'.finished = r.finished ∧
      r'.tree = r.tree ∧ r'.numTreeEdges = r.numTreeEdges ∧ r'.heap.size = r.heap.size ∧
      (∀ v p, Stored r.heap { priority := p, id := v } →
        Stored r'.heap { priority := relaxed cand adj v p, id := v } ∧
        r'.predecessors v = if relaxed cand adj v p < p then uid else r.predecessors v) ∧
      (∀ v, (∀ p, ¬ Stored r.heap { priority := p, id := v }) →
        r'.predecessors v = r.predecessors v) := by
  induction adj with
  | nil =>
    intro r inv _
    refine ⟨r, rfl, inv, rfl, rfl, rfl, rfl, ?_, fun _ _ => rfl⟩
    intro v p sp
    simp [relaxed, sp]
  | cons e rest ih =>
    intro r inv hr
    obtain ⟨e0, e1⟩ := hr e (List.mem_cons_self _ _)
    obtain ⟨r1, step, inv1, f1, t1, k1, s1, st1, ns1⟩ := relax_step cand uid inv e e0 e1
    obtain ⟨r', run, inv', f', t', k', s', st', ns'⟩ := ih r1 inv1
      (fun x hx => hr x (List.mem_cons_of_mem _ hx))
    refine ⟨r', by rw [step, run], inv', by rw [f', f1], by rw [t', t1], by rw [k', k1],
      by rw [s', s1], ?_, ?_⟩
    · intro v p sp
      obtain ⟨a, b⟩ := st1 v p sp
      obtain ⟨c, d⟩ := st' v _ a
      refine ⟨c, ?_⟩
      rw [d, b]
      simp only [relaxed]
      have le := relaxed_le cand rest v
        (if e.toVertex = v ∧ cand e.weight < p then cand e.weight else p)
      by_cases x : e.toVertex = v ∧ cand e.weight < p
      · simp only [x, and_self, if_true] at le ⊢
        have : relaxed cand rest v (cand e.weight) < p := by omega
        simp [this]
      · simp only [x, if_false] at le ⊢
    · intro v nv
      rw [ns' v, ns1 v nv]
      intro p sp
      have : ∃ p, Stored r1.heap { priority := p, id := v } := ⟨p, sp⟩
      by_cases v0 : 0 ≤ v ∧ v < n
      · rw [← inv1.fin v v0.1 v0.2, f1, inv.fin v v0.1 v0.2] at this
        obtain ⟨p', sp'⟩ := this
        exact nv p' sp'
      · exact v0 (inv1.id_range sp)

theorem extract_step {n : Int} {r : Records} (inv : RecInv n r) (ne : r.heap.size ≠ 0) :
    ∃ h1, extractMin r.heap = some (r.heap.arr 1, h1) ∧ Stored r.heap (r.heap.arr 1) ∧
      (∀ x, Stored r.heap x → (r.heap.arr 1).priority ≤ x.priority) ∧
      setFinished { r with heap := h1 } (r.heap.arr 1).id = some (afterExtract r h1) ∧
      RecInv n (afterExtract r h1) ∧ h1.size = r.heap.size - 1 ∧
      (∀ x, Stored h1 x ↔ Stored r.heap x ∧ x.id ≠ (r.heap.arr 1).id) := by
  have hs : 1 ≤ r.heap.size := by have := inv.size0; omega
  obtain ⟨h1, ex, ok1, ho1, sz1, cap1, st1, _, _⟩ := extractMin_spec inv.ok hs
  have su : Stored r.heap (r.heap.arr 1) := ⟨1, le_refl _, hs, rfl⟩
  obtain ⟨u0, u1⟩ := inv.id_range su
  refine ⟨h1, ex, su, fun x sx => root_le_stored inv.ho sx, ?_, ?_, sz1, st1⟩
  · simp [setFinished, inv.nv, u0, u1, afterExtract]
  · refine ⟨inv.nv, by rw [← inv.cap]; exact cap1, ok1, ho1 inv.ho, ?_, ?_⟩
    · show 0 ≤ h1.size
      omega
    · intro v v0 v1
      show Function.update r.finished (r.heap.arr 1).id true v = false ↔
        ∃ p, Stored h1 { priority := p, id := v }
      by_cases e : v = (r.heap.arr 1).id
      · subst e
        simp only [Function.update_same]
        constructor
        · intro x; exact absurd x (by decide)
        · rintro ⟨p, sp⟩
          exact absurd rfl ((st1 _).1 sp).2
      · rw [Function.update_noteq e, inv.fin v v0 v1]
        constructor
        · rintro ⟨p, sp⟩
          exact ⟨p, (st1 _).2 ⟨sp, e⟩⟩
        · rintro ⟨p, sp⟩
          exact ⟨p, ((st1 _).1 sp).1⟩

theorem vertexAt_adjOf {g : Graph} (ok : GraphOk g) {v : Int} (v0 : 0 ≤ v)
    (v1 : v < g.numVertices) : ∃ vtx, vertexAt g v = some vtx ∧ vtx.adjList = adjOf g v := by
  obtain ⟨vtx, e⟩ := ok.vertex v v0 v1
  have : vertexAt g v = some vtx := by simp [vertexAt, v0, v1, e]
  exact ⟨vtx, this, by simp [adjOf, this]⟩

theorem IsEdge.source_range {g : Graph} {a b w : Int} (h : IsEdge g a b w) :
    0 ≤ a ∧ a < g.numVertices := by
  obtain ⟨e, he, _⟩ := h
  unfold adjOf vertexAt at he
  by_cases c : 0 ≤ a ∧ a < g.numVertices
  · exact c
  · simp [c] at he

theorem initRecords_spec (g : Graph) (s : Int) (junk : Int → HeapNode) (junkTree : Int → Edge)
    (n1 : 1 ≤ g.numVertices) :
    ∃ r, initRecords g s junk junkTree = some r ∧ RecInv g.numVertices r ∧
      r.heap.size = g.numVertices ∧ r.numTreeEdges = 0 ∧ r.finished = (fun _ => false) ∧
      r.predecessors = (fun _ => NOTHING) ∧ r.tree = junkTree ∧
      (∀ v, 0 ≤ v → v < g.numVertices →
        Stored r.heap { priority := initPriority s v, id := v }) := by
  obtain ⟨h, ih, ok, ho, sz, cap, st⟩ := initHeap_spec g s junk (by omega)
  have ne : isEmpty h = false := by
    simp [isEmpty, sz]; omega
  refine ⟨_, by simp [initRecords, ih, ne]; rfl, ?_, sz, rfl, rfl, rfl, rfl, ?_⟩
  · refine ⟨rfl, cap, ok, ho, by show 0 ≤ h.size; omega, ?_⟩
    intro v v0 v1
    simp only [true_iff]
    exact ⟨initPriority s v, (st _).2 ⟨v0, v1, rfl⟩⟩
  · intro v v0 v1
    exact (st _).2 ⟨v0, v1, rfl⟩

theorem InTree_update (tree : Int → Edge) (s i k x : Int) (e : Edge) (ik : i ≤ k) :
    InTree (Function.update tree k e) s i x ↔ InTree tree s i x := by
  unfold InTree
  constructor
  · rintro (a | ⟨j, j0, j1, a⟩)
    · exact Or.inl a
    · rw [Function.update_noteq (by omega)] at a
      exact Or.inr ⟨j, j0, j1, a⟩
  · rintro (a | ⟨j, j0, j1, a⟩)
    · exact Or.inl a
    · refine Or.inr ⟨j, j0, j1, ?_⟩
      rw [Function.update_noteq (by omega)]
      exact a

theorem exists_crossing {α : Type} {R : α → α → Prop} {F : α → Prop} {a b : α}
    (h : Relation.ReflTransGen R a b) (ha : F a) (hb : ¬ F b) :
    ∃ x y, R x y ∧ F x ∧ ¬ F y := by
  induction h with
  | refl => exact absurd ha hb
  | @tail b' c _ hbc ih =>
    by_cases fb : F b'
    · exact ⟨b', c, hbc, fb, hb⟩
    · exact ih fb

/-- What one relaxation pass over the adjacency list of the vertex just
finished does to the priority clauses of the invariant. -/
theorem prio_after_relax {g : Graph} {r2 r3 : Records} {uid : Int}
    (inv2 : RecInv g.numVertices r2) (inv3 : RecInv g.numVertices r3)
    (fin3 : r3.finished = r2.finished) (ufin : r2.finished uid = true) (u0 : 0 ≤ uid)
    (st : ∀ v p, Stored r2.heap { priority := p, id := v } →
      Stored r3.heap { priority := relaxed (fun w => w) (adjOf g uid) v p, id := v } ∧
      r3.predecessors v =
        if relaxed (fun w => w) (adjOf g uid) v p < p then uid else r2.predecessors v)
    (old : ∀ v p, Stored r2.heap { priority := p, id := v } →
      (r2.predecessors v = NOTHING → p = INT_MAX) ∧
      (r2.predecessors v ≠ NOTHING →
        r2.finished (r2.predecessors v) = true ∧ IsEdge g (r2.predecessors v) v p) ∧
      (∀ u w, r2.finished u = true → u ≠ uid → IsEdge g u v w → p ≤ w)) :
    ∀ v p, Stored r3.heap { priority := p, id := v } →
      (r3.predecessors v = NOTHING → p = INT_MAX) ∧
      (r3.predecessors v ≠ NOTHING →
        r3.finished (r3.predecessors v) = true ∧ IsEdge g (r3.predecessors v) v p) ∧
      (∀ u w, r3.finished u = true → IsEdge g u v w → p ≤ w) := by
  intro v p3 s3
  obtain ⟨v0, v1⟩ := inv3.id_range s3
  dsimp only at v0 v1
  have nf3 := inv3.unfinished s3
  dsimp only at nf3
  rw [fin3] at nf3
  obtain ⟨p, sp⟩ := (inv2.fin v v0 v1).1 nf3
  obtain ⟨s3', pr3⟩ := st v p sp
  have e3 : p3 = relaxed (fun w => w) (adjOf g uid) v p :=
    congrArg HeapNode.priority (Stored.priority_unique inv3.ok s3 s3' rfl)
  obtain ⟨o1, o2, o3⟩ := old v p sp
  have le := relaxed_le (fun w => w) (adjOf g uid) v p
  rw [← e3] at pr3 le
  refine ⟨?_, ?_, ?_⟩
  · intro h
    by_cases lt : p3 < p
    · rw [pr3, if_pos lt] at h
      unfold NOTHING at h
      omega
    · rw [pr3, if_neg lt] at h
      have := o1 h
      omega
  · intro h
    by_cases lt : p3 < p
    · rw [pr3, if_pos lt, fin3]
      refine ⟨ufin, ?_⟩
      rcases relaxed_eq (fun w => w) (adjOf g uid) v p with x | ⟨e, he, ev, ee, _⟩
      · rw [← e3] at x; omega
      · rw [← e3] at ee
        exact ⟨e, he, ev, ee.symm⟩
    · rw [pr3, if_neg lt] at h ⊢
      have : p3 = p := by omega
      rw [this, fin3]
      exact o2 h
  · intro x w fx ex
    rw [fin3] at fx
    by_cases xu : x = uid
    · subst xu
      obtain ⟨e, he, ev, ew⟩ := ex
      have := relaxed_le_cand (fun w => w) (adjOf g x) v p e he ev
      rw [← e3] at this
      dsimp only at this
      omega
    · have := o3 x w fx xu ex
      omega

theorem prim_pred_ne {g : Graph} {s : Int} {t0 : Int → Edge} {r : Records} (gok : GraphOk g)
    (wlt : ∀ a b w, IsEdge g a b w → w < INT_MAX)
    (reach : ∀ v, 0 ≤ v → v < g.numVertices → Reach g s v)
    (inv : PrimInv g s t0 r) (ne : r.heap.size ≠ 0) :
    r.predecessors (r.heap.arr 1).id ≠ NOTHING := by
  intro h
  obtain ⟨h1, _, su, umin, _, _, _, _⟩ := extract_step inv.recs ne
  obtain ⟨u0, u1⟩ := inv.recs.id_range su
  have pmax := (inv.prio (r.heap.arr 1).id (r.heap.arr 1).priority su).1 h
  have uf := inv.recs.unfinished su
  obtain ⟨x, y, ⟨w, exy⟩, fx, fy⟩ := exists_crossing (F := fun v => r.finished v = true)
    (reach _ u0 u1) inv.started (by simp [uf])
  obtain ⟨e, he, ey, ew⟩ := exy
  obtain ⟨y0, y1⟩ := gok.target x e he
  rw [ey] at y0 y1
  have fy' : r.finished y = false := by
    cases hh : r.finished y
    · rfl
    · exact absurd hh fy
  obtain ⟨q, sq⟩ := (inv.recs.fin y y0 y1).1 fy'
  have h1 := (inv.prio y q sq).2.2 x w fx ⟨e, he, ey, ew⟩
  have h2 := umin _ sq
  have h3 := wlt x y w ⟨e, he, ey, ew⟩
  dsimp only at h2
  omega

theorem prim_step {g : Graph} {s : Int} {t0 : Int → Edge} {r : Records} (gok : GraphOk g)
    (wlt : ∀ a b w, IsEdge g a b w → w < INT_MAX)
    (reach : ∀ v, 0 ≤ v → v < g.numVertices → Reach g s v)
    (inv : PrimInv g s t0 r) (ne : r.heap.size ≠ 0) :
    ∃ r3, (∀ fuel, primLoop g (fuel + 1) r = primLoop g fuel r3) ∧ PrimInv g s t0 r3 ∧
      r3.heap.size = r.heap.size - 1 := by
  have pne := prim_pred_ne gok wlt reach inv ne
  obtain ⟨h1, ex, su, umin, sf, inv1, sz1, st1⟩ := extract_step inv.recs ne
  obtain ⟨u0, u1⟩ := inv.recs.id_range su
  have uf := inv.recs.unfinished su
  obtain ⟨up1, up2, up3⟩ := inv.prio (r.heap.arr 1).id (r.heap.arr 1).priority su
  obtain ⟨upf, upe⟩ := up2 pne
  have hs : 1 ≤ r.heap.size := by have := inv.recs.size0; omega
  have kb : ¬ (r.numTreeEdges < 0 ∨ r.numTreeEdges > g.numVertices - 1) := by
    have := inv.count; have := inv.k0; omega
  have inv2 : RecInv g.numVertices (primRecorded r h1) :=
    ⟨inv1.nv, inv1.cap, inv1.ok, inv1.ho, inv1.size0, inv1.fin⟩
  obtain ⟨vtx, va, vadj⟩ := vertexAt_adjOf gok u0 u1
  obtain ⟨r3, run, inv3, f3, t3, k3, s3, st3, _⟩ :=
    relaxLoop_spec (n := g.numVertices) (fun w => w) (r.heap.arr 1).id
      (adjOf g (r.heap.arr 1).id) (primRecorded r h1) inv2 (gok.target _)
  have fin1 : ∀ v, r.finished v = true → (primRecorded r h1).finished v = true := by
    intro v hv
    show Function.update r.finished (r.heap.arr 1).id true v = true
    by_cases e : v = (r.heap.arr 1).id
    · rw [e, Function.update_same]
    · rw [Function.update_noteq e]; exact hv
  have fin2 : ∀ v, v ≠ (r.heap.arr 1).id → (primRecorded r h1).finished v = r.finished v := by
    intro v e
    show Function.update r.finished (r.heap.arr 1).id true v = r.finished v
    rw [Function.update_noteq e]
  have finu : (primRecorded r h1).finished (r.heap.arr 1).id = true := by
    show Function.update r.finished (r.heap.arr 1).id true _ = true
    rw [Function.update_same]
  refine ⟨r3, ?_, ?_, by rw [s3]; exact sz1⟩
  · intro fuel
    have ie : isEmpty r.heap = false := by simp [isEmpty, ne]
    have pa : predecessorAt (afterExtract r h1) (r.heap.arr 1).id =
        some (r.predecessors (r.heap.arr 1).id) := by
      simp [predecessorAt, afterExtract, inv.recs.nv, u0, u1]
    have r2e : ({ addTreeEdge (afterExtract r h1) (afterExtract r h1).numTreeEdges
          (r.heap.arr 1).id (r.predecessors (r.heap.arr 1).id) (r.heap.arr 1).priority with
          numTreeEdges := (afterExtract r h1).numTreeEdges + 1 } : Records) =
        primRecorded r h1 := by
      have kb' : ¬ ((afterExtract r h1).numTreeEdges < 0 ∨
          (afterExtract r h1).numTreeEdges > (afterExtract r h1).numVertices - 1) := by
        have : (afterExtract r h1).numVertices = g.numVertices := inv.recs.nv
        rw [this]
        exact kb
      rw [addTreeEdge, if_neg kb']
      rfl
    simp only [primLoop, ie, ex, Option.bind_eq_bind, Option.some_bind, Bool.false_eq_true,
      if_false]
    rw [sf]
    simp only [Option.some_bind, pa, va, primRelax_eq, vadj, if_pos pne, r2e, run]
  · refine ⟨inv3, ?_, ?_, ?_, ?_, ?_, ?_, ?_⟩
    · rw [f3]; exact fin1 s inv.started
    · rw [k3, s3]
      show r.numTreeEdges + 1 + h1.size + 1 = g.numVertices
      have := inv.count; omega
    · rw [k3]
      show 0 ≤ r.numTreeEdges + 1
      have := inv.k0; omega
    · intro v v0 v1
      rw [f3, t3, k3]
      show Function.update r.finished (r.heap.arr 1).id true v = true ↔
        InTree (Function.update r.tree r.numTreeEdges _) s (r.numTreeEdges + 1) v
      by_cases e : v = (r.heap.arr 1).id
      · rw [e, Function.update_same]
        simp only [true_iff]
        exact Or.inr ⟨r.numTreeEdges, inv.k0, by omega, by rw [Function.update_same]⟩
      · rw [Function.update_noteq e, inv.finIff v v0 v1]
        constructor
        · rintro (a | ⟨j, j0, j1, a⟩)
          · exact Or.inl a
          · refine Or.inr ⟨j, j0, by omega, ?_⟩
            rw [Function.update_noteq (by omega)]
            exact a
        · rintro (a | ⟨j, j0, j1, a⟩)
          · exact Or.inl a
          · by_cases jk : j = r.numTreeEdges
            · rw [jk, Function.update_same] at a
              exact absurd a.symm e
            · rw [Function.update_noteq jk] at a
              exact Or.inr ⟨j, j0, by omega, a⟩
    · apply prio_after_relax inv2 inv3 f3 finu u0 st3
      intro v p sp
      have sp' : Stored h1 { priority := p, id := v } := sp
      obtain ⟨sp0, vne⟩ := (st1 _).1 sp'
      dsimp only at vne
      obtain ⟨o1, o2, o3⟩ := inv.prio v p sp0
      refine ⟨o1, ?_, ?_⟩
      · intro h
        obtain ⟨a, b⟩ := o2 h
        exact ⟨fin1 _ a, b⟩
      · intro x w fx xu ex
        rw [fin2 x xu] at fx
        exact o3 x w fx ex
    · intro i i0 i1
      rw [k3] at i1
      have i1' : i < r.numTreeEdges + 1 := i1
      have te : (primRecorded r h1).tree = Function.update r.tree r.numTreeEdges
          { fromVertex := (r.heap.arr 1).id
            toVertex := r.predecessors (r.heap.arr 1).id
            weight := (r.heap.arr 1).priority } := rfl
      rw [t3, te]
      by_cases ik : i = r.numTreeEdges
      · subst ik
        simp only [Function.update_same, InTree_update _ _ _ _ _ _ (le_refl _)]
        refine ⟨⟨u0, u1⟩, ?_, ?_, upe, ?_⟩
        · rw [← inv.finIff _ u0 u1, uf]; decide
        · obtain ⟨q0, q1⟩ := upe.source_range
          rw [← inv.finIff _ q0 q1]; exact upf
        · intro x y w tx ty exy
          obtain ⟨x0, x1⟩ := exy.source_range
          obtain ⟨e, he, ey, ew⟩ := exy
          obtain ⟨y0, y1⟩ := gok.target x e he
          rw [ey] at y0 y1
          rw [← inv.finIff _ x0 x1] at tx
          rw [← inv.finIff _ y0 y1] at ty
          have fy' : r.finished y = false := by
            cases hh : r.finished y
            · rfl
            · exact absurd hh ty
          obtain ⟨q, sq⟩ := (inv.recs.fin y y0 y1).1 fy'
          have h1 := (inv.prio y q sq).2.2 x w tx ⟨e, he, ey, ew⟩
          have h2 := umin _ sq
          dsimp only at h2
          omega
      · have ilt : i < r.numTreeEdges := by omega
        rw [Function.update_noteq ik]
        simp only [InTree_update _ _ _ _ _ _ (le_of_lt ilt)]
        exact inv.edges i i0 ilt
    · intro i ik
      rw [k3] at ik
      have ik' : r.numTreeEdges + 1 ≤ i := ik
      rw [t3]
      show Function.update r.tree r.numTreeEdges _ i = t0 i
      rw [Function.update_noteq (by omega)]
      exact inv.rest i (by omega)

theorem initPriority_root {n s : Int} {r : Records} (inv : RecInv n r) (s0 : 0 ≤ s) (s1 : s < n)
    (ne : r.heap.size ≠ 0)
    (st : ∀ v, 0 ≤ v → v < n → Stored r.heap { priority := initPriority s v, id := v }) :
    r.heap.arr 1 = { priority := 0, id := s } := by
  obtain ⟨h1, _, su, umin, _, _, _, _⟩ := extract_step inv ne
  obtain ⟨u0, u1⟩ := inv.id_range su
  have e1 := Stored.priority_unique inv.ok su (st _ u0 u1) rfl
  have h2 := umin _ (st s s0 s1)
  have p1 : (r.heap.arr 1).priority = initPriority s (r.heap.arr 1).id :=
    congrArg HeapNode.priority e1
  have p2 : initPriority s s = 0 := by simp [initPriority]
  rw [p2] at h2
  dsimp only at h2
  by_cases e : (r.heap.arr 1).id = s
  · rw [e1, e, p2]
  · exfalso
    rw [p1] at h2
    simp only [initPriority, e, if_false, INT_MAX] at h2
    omega

theorem prim_first {g : Graph} {s : Int} {r : Records} (gok : GraphOk g) (s0 : 0 ≤ s)
    (s1 : s < g.numVertices) (inv : RecInv g.numVertices r) (sz : r.heap.size = g.numVertices)
    (k : r.numTreeEdges = 0) (fin : r.finished = fun _ => false)
    (pr : r.predecessors = fun _ => NOTHING)
    (st : ∀ v, 0 ≤ v → v < g.numVertices →
      Stored r.heap { priority := initPriority s v, id := v }) :
    ∃ r3, (∀ fuel, primLoop g (fuel + 1) r = primLoop g fuel r3) ∧ PrimInv g s r.tree r3 ∧
      r3.heap.size = g.numVertices - 1 := by
  have ne : r.heap.size ≠ 0 := by omega
  have root := initPriority_root inv s0 s1 ne st
  obtain ⟨h1, ex, su, umin, sf, inv1, sz1, st1⟩ := extract_step inv ne
  have uid : (r.heap.arr 1).id = s := by rw [root]
  obtain ⟨vtx, va, vadj⟩ := vertexAt_adjOf gok s0 s1
  obtain ⟨r3, run, inv3, f3, t3, k3, s3, st3, _⟩ :=
    relaxLoop_spec (n := g.numVertices) (fun w => w) s (adjOf g s) (afterExtract r h1) inv1
      (gok.target _)
  have fe : (afterExtract r h1).finished = Function.update (fun _ => false) s true := by
    show Function.update r.finished (r.heap.arr 1).id true = _
    rw [fin, uid]
  refine ⟨r3, ?_, ?_, by rw [s3]; show h1.size = _; omega⟩
  · intro fuel
    have ie : isEmpty r.heap = false := by simp [isEmpty, ne]
    have pa : predecessorAt (afterExtract r h1) s = some NOTHING := by
      simp [predecessorAt, afterExtract, inv.nv, s0, s1, pr]
    simp only [primLoop, ie, ex, Option.bind_eq_bind, Option.some_bind, Bool.false_eq_true,
      if_false]
    rw [sf, uid]
    simp only [Option.some_bind, pa, va, primRelax_eq, vadj, ne_eq, not_true_eq_false,
      if_false, run]
  · refine ⟨inv3, ?_, ?_, ?_, ?_, ?_, ?_, ?_⟩
    · rw [f3, fe, Function.update_same]
    · rw [k3, s3]
      show r.numTreeEdges + h1.size + 1 = g.numVertices
      omega
    · rw [k3]
      show 0 ≤ r.numTreeEdges
      omega
    · intro v _ _
      rw [f3, fe, k3]
      show _ ↔ InTree r3.tree s r.numTreeEdges v
      rw [k]
      by_cases e : v = s
      · rw [e, Function.update_same]
        simp [InTree]
      · rw [Function.update_noteq e]
        constructor
        · intro x; exact absurd x (by decide)
        · rintro (a | ⟨j, j0, j1, _⟩)
          · exact absurd a e
          · omega
    · apply prio_after_relax inv1 inv3 f3 (by rw [fe, Function.update_same]) s0 st3
      intro v p sp
      have sp' : Stored h1 { priority := p, id := v } := sp
      obtain ⟨sp0, vne⟩ := (st1 _).1 sp'
      dsimp only at vne
      rw [uid] at vne
      obtain ⟨v0, v1⟩ := inv.id_range sp0
      have e1 : p = initPriority s v :=
        congrArg HeapNode.priority (Stored.priority_unique inv.ok sp0 (st v v0 v1) rfl)
      have pn : (afterExtract r h1).predecessors v = NOTHING := by
        show r.predecessors v = NOTHING
        rw [pr]
      refine ⟨?_, ?_, ?_⟩
      · intro _
        rw [e1]
        simp [initPriority, vne]
      · intro h
        exact absurd pn h
      · intro x w fx xs _
        rw [fe, Function.update_noteq xs] at fx
        exact absurd fx (by decide)
    · intro i i0 i1
      rw [k3] at i1
      have : i < r.numTreeEdges := i1
      omega
    · intro i _
      rw [t3]
      rfl

theorem primLoop_spec {g : Graph} {s : Int} {t0 : Int → Edge} (gok : GraphOk g)
    (wlt : ∀ a b w, IsEdge g a b w → w < INT_MAX)
    (reach : ∀ v, 0 ≤ v → v < g.numVertices → Reach g s v) (fuel : Nat) :
    ∀ r, PrimInv g s t0 r → r.heap.size + 1 ≤ fuel →
      ∃ r', primLoop g fuel r = some r' ∧ PrimInv g s t0 r' ∧ r'.heap.size = 0 := by
  induction fuel with
  | zero =>
    intro r inv hf
    have := inv.recs.size0
    omega
  | succ fuel ih =>
    intro r inv hf
    by_cases ne : r.heap.size = 0
    · exact ⟨r, by simp [primLoop, isEmpty, ne], inv, ne⟩
    · obtain ⟨r3, step, inv3, sz3⟩ := prim_step gok wlt reach inv ne
      obtain ⟨r', run, inv', z⟩ := ih r3 inv3 (by push_cast at hf; omega)
      exact ⟨r', by rw [step, run], inv', z⟩

theorem primRun_spec {g : Graph} {s : Int} (gok : GraphOk g) (s0 : 0 ≤ s)
    (s1 : s < g.numVertices) (wlt : ∀ a b w, IsEdge g a b w → w < INT_MAX)
    (reach : ∀ v, 0 ≤ v → v < g.numVertices → Reach g s v)
    (junk : Int → HeapNode) (junkTree : Int → Edge) :
    ∃ r, primRun g s junk junkTree = some r ∧ PrimInv g s junkTree r ∧ r.heap.size = 0 := by
  obtain ⟨r0, i0, inv0, sz, k, fin, pr, tr, st⟩ :=
    initRecords_spec g s junk junkTree (by omega)
  obtain ⟨r3, step, inv3, sz3⟩ := prim_first gok s0 s1 inv0 sz k fin pr st
  rw [tr] at inv3
  obtain ⟨r', run, inv', z⟩ := primLoop_spec gok wlt reach g.numVertices.toNat r3 inv3
    (by omega)
  refine ⟨r', ?_, inv', z⟩
  simp only [primRun, i0, Option.bind_eq_bind, Option.some_bind]
  rw [step, run]

theorem PrimInv.prim_all_finished {g : Graph} {s : Int} {t0 : Int → Edge} {r : Records}
    (inv : PrimInv g s t0 r)
    (z : r.heap.size = 0) {v : Int} (v0 : 0 ≤ v) (v1 : v < g.numVertices) :
    r.finished v = true := by
  cases h : r.finished v
  · obtain ⟨p, t, t1, t2, _⟩ := (inv.recs.fin v v0 v1).1 h
    omega
  · rfl

theorem PrimInv.child_unique {g : Graph} {s : Int} {t0 : Int → Edge} {r : Records}
    (inv : PrimInv g s t0 r)
    {i j : Int} (i0 : 0 ≤ i) (ij : i < j) (j1 : j < r.numTreeEdges)
    (e : (r.tree i).fromVertex = (r.tree j).fromVertex) : False :=
  (inv.edges j (by omega) j1).2.1 (Or.inr ⟨i, i0, ij, e⟩)

theorem scenario_isEdge {a0 a1 a2 a3 : List Edge} (p0 : a0.Perm scenarioAdj0)
    (p1 : a1.Perm scenarioAdj1) (p2 : a2.Perm scenarioAdj2) (p3 : a3.Perm scenarioAdj3)
    (a b w : Int) :
    IsEdge (scenarioGraph a0 a1 a2 a3) a b w ↔ (a, b, w) ∈ scenarioTriples := by
  unfold IsEdge adjOf vertexAt scenarioGraph
  by_cases c0 : a = 0
  · subst c0
    simp [p0.mem_iff, scenarioAdj0, scenarioTriples]
    omega
  · by_cases c1 : a = 1
    · subst c1
      simp [p1.mem_iff, scenarioAdj1, scenarioTriples]
      omega
    · by_cases c2 : a = 2
      · subst c2
        simp [p2.mem_iff, scenarioAdj2, scenarioTriples]
        omega
      · by_cases c3 : a = 3
        · subst c3
          simp [p3.mem_iff, scenarioAdj3, scenarioTriples]
          omega
        · have : ¬ (0 ≤ a ∧ a < 4) := by omega
          simp [c0, c1, c2, c3, this, scenarioTriples]

theorem scenario_graphOk {a0 a1 a2 a3 : List Edge} (p0 : a0.Perm scenarioAdj0)
    (p1 : a1.Perm scenarioAdj1) (p2 : a2.Perm scenarioAdj2) (p3 : a3.Perm scenarioAdj3) :
    GraphOk (scenarioGraph a0 a1 a2 a3) := by
  constructor
  · intro v v0 v1
    have v1' : v < 4 := v1
    have : v = 0 ∨ v = 1 ∨ v = 2 ∨ v = 3 := by omega
    rcases this with e | e | e | e <;> subst e <;> simp [scenarioGraph]
  · intro v e he
    have ie : IsEdge (scenarioGraph a0 a1 a2 a3) v e.toVertex e.weight := ⟨e, he, rfl, rfl⟩
    rw [scenario_isEdge p0 p1 p2 p3] at ie
    show 0 ≤ e.toVertex ∧ e.toVertex < 4
    simp [scenarioTriples] at ie
    omega

theorem scenario_reach {a0 a1 a2 a3 : List Edge} (p0 : a0.Perm scenarioAdj0)
    (p1 : a1.Perm scenarioAdj1) (p2 : a2.Perm scenarioAdj2) (p3 : a3.Perm scenarioAdj3) :
    ∀ v, 0 ≤ v → v < (scenarioGraph a0 a1 a2 a3).numVertices →
      Reach (scenarioGraph a0 a1 a2 a3) 0 v := by
  have e01 : IsEdge (scenarioGraph a0 a1 a2 a3) 0 1 4 :=
    (scenario_isEdge p0 p1 p2 p3 _ _ _).2 (by decide)
  have e02 : IsEdge (scenarioGraph a0 a1 a2 a3) 0 2 1 :=
    (scenario_isEdge p0 p1 p2 p3 _ _ _).2 (by decide)
  have e13 : IsEdge (scenarioGraph a0 a1 a2 a3) 1 3 1 :=
    (scenario_isEdge p0 p1 p2 p3 _ _ _).2 (by decide)
  intro v v0 v1
  have v1' : v < 4 := v1
  have : v = 0 ∨ v = 1 ∨ v = 2 ∨ v = 3 := by omega
  rcases this with e | e | e | e <;> subst e
  · exact Relation.ReflTransGen.refl
  · exact Relation.ReflTransGen.single ⟨4, e01⟩
  · exact Relation.ReflTransGen.single ⟨1, e02⟩
  · exact (Relation.ReflTransGen.single ⟨4, e01⟩).tail ⟨1, e13⟩

theorem scenario_weights {a0 a1 a2 a3 : List Edge} (p0 : a0.Perm scenarioAdj0)
    (p1 : a1.Perm scenarioAdj1) (p2 : a2.Perm scenarioAdj2) (p3 : a3.Perm scenarioAdj3) :
    ∀ a b w, IsEdge (scenarioGraph a0 a1 a2 a3) a b w → 0 ≤ w ∧ w < INT_MAX := by
  intro a b w ie
  rw [scenario_isEdge p0 p1 p2 p3] at ie
  simp [scenarioTriples] at ie
  unfold INT_MAX
  omega

/-- C9. Prim edge count: on a graph in which every vertex is reachable from
the source (weights non-negative and below `INT_MAX`), `getMSTprim` reaches
loop exit with `numTreeEdges == numVertices - 1`; every non-source vertex is
the `fromVertex` of exactly one recorded edge and the source of none. -/
theorem prim_edge_count (g : Graph) (s : Int) (junk : Int → HeapNode) (junkTree : Int → Edge)
    (gok : GraphOk g) (s0 : 0 ≤ s) (s1 : s < g.numVertices)
    (hw : ∀ a b w, IsEdge g a b w → 0 ≤ w ∧ w < INT_MAX)
    (reach : ∀ v, 0 ≤ v → v < g.numVertices → Reach g s v) :
    ∃ r, primRun g s junk junkTree = some r ∧
      getMSTprim (some g) s junk junkTree = some (some r.tree) ∧
      r.numTreeEdges = g.numVertices - 1 ∧
      (∀ v, 0 ≤ v → v < g.numVertices → v ≠ s →
        ∃! i, 0 ≤ i ∧ i < r.numTreeEdges ∧ (r.tree i).fromVertex = v) ∧
      (∀ i, 0 ≤ i → i < r.numTreeEdges → (r.tree i).fromVertex ≠ s) := by
  obtain ⟨r, run, inv, z⟩ := primRun_spec gok s0 s1 (fun a b w h => (hw a b w h).2) reach
    junk junkTree
  refine ⟨r, run, ?_, ?_, ?_, ?_⟩
  · have : ¬ (s < 0 ∨ s ≥ g.numVertices) := by omega
    simp [getMSTprim, this, run]
  · have := inv.count
    omega
  · intro v v0 v1 vs
    rcases (inv.finIff v v0 v1).1 (inv.prim_all_finished z v0 v1) with e | ⟨j, j0, j1, e⟩
    · exact absurd e vs
    · refine ⟨j, ⟨j0, j1, e⟩, ?_⟩
      rintro i ⟨i0, i1, ei⟩
      by_contra ne
      rcases lt_or_gt_of_ne ne with lt | gt
      · exact inv.child_unique i0 lt j1 (by rw [ei, e])
      · exact inv.child_unique j0 gt i1 (by rw [ei, e])
  · intro i i0 i1 e
    exact (inv.edges i i0 i1).2.1 (Or.inl e)

theorem prim_edge_count_witness :
    GraphOk (scenarioGraph scenarioAdj0 scenarioAdj1 scenarioAdj2 scenarioAdj3) ∧
    (∃ r, primRun (scenarioGraph scenarioAdj0 scenarioAdj1 scenarioAdj2 scenarioAdj3) 0
        (fun _ => { priority := 0, id := 0 })
        (fun _ => { fromVertex := 0, toVertex := 0, weight := 0 }) = some r ∧
      getMSTprim (some (scenarioGraph scenarioAdj0 scenarioAdj1 scenarioAdj2 scenarioAdj3)) 0
        (fun _ => { priority := 0, id := 0 })
        (fun _ => { fromVertex := 0, toVertex := 0, weight := 0 }) = some (some r.tree) ∧
      r.numTreeEdges =
        (scenarioGraph scenarioAdj0 scenarioAdj1 scenarioAdj2 scenarioAdj3).numVertices - 1 ∧
      (∀ v, 0 ≤ v →
        v < (scenarioGraph scenarioAdj0 scenarioAdj1 scenarioAdj2 scenarioAdj3).numVertices →
        v ≠ 0 → ∃! i, 0 ≤ i ∧ i < r.numTreeEdges ∧ (r.tree i).fromVertex = v) ∧
      (∀ i, 0 ≤ i → i < r.numTreeEdges → (r.tree i).fromVertex ≠ 0)) :=
  ⟨scenario_graphOk (List.Perm.refl _) (List.Perm.refl _) (List.Perm.refl _) (List.Perm.refl _),
    prim_edge_count _ 0 _ _
      (scenario_graphOk (List.Perm.refl _) (List.Perm.refl _) (List.Perm.refl _)
        (List.Perm.refl _))
      (by decide) (by decide)
      (scenario_weights (List.Perm.refl _) (List.Perm.refl _) (List.Perm.refl _)
        (List.Perm.refl _))
      (scenario_reach (List.Perm.refl _) (List.Perm.refl _) (List.Perm.refl _)
        (List.Perm.refl _))⟩

theorem InTree_zero (tree : Int → Edge) (s x : Int) : InTree tree s 0 x ↔ x = s := by
  unfold InTree
  constructor
  · rintro (a | ⟨j, j0, j1, _⟩)
    · exact a
    · omega
  · exact Or.inl

theorem InTree_succ (tree : Int → Edge) (s i x : Int) (i0 : 0 ≤ i) :
    InTree tree s (i + 1) x ↔ InTree tree s i x ∨ (tree i).fromVertex = x := by
  unfold InTree
  constructor
  · rintro (a | ⟨j, j0, j1, e⟩)
    · exact Or.inl (Or.inl a)
    · by_cases c : j = i
      · subst c; exact Or.inr e
      · exact Or.inl (Or.inr ⟨j, j0, by omega, e⟩)
  · rintro ((a | ⟨j, j0, j1, e⟩) | e)
    · exact Or.inl a
    · exact Or.inr ⟨j, j0, by omega, e⟩
    · exact Or.inr ⟨i, i0, by omega, e⟩

theorem Edge.ext' {e : Edge} {a b w : Int} (h1 : e.fromVertex = a) (h2 : e.toVertex = b)
    (h3 : e.weight = w) : e = { fromVertex := a, toVertex := b, weight := w } := by
  cases e
  simp only at h1 h2 h3
  subst h1 h2 h3
  rfl

/-- C10. Scenario A: on the four-vertex graph with edges in both directions
`0-1:4, 0-2:1, 2-1:2, 1-3:1, 2-3:5`, whatever the order of the adjacency
lists, `getMSTprim(graph, 0)` records exactly three tree edges, in this
order: `(2, 0, 1)`, `(1, 2, 2)`, `(3, 1, 1)`, of total weight 4; the rest of
the buffer is left as it was. -/
theorem scenarioA_prim (a0 a1 a2 a3 : List Edge) (junk : Int → HeapNode)
    (junkTree : Int → Edge) (p0 : a0.Perm scenarioAdj0) (p1 : a1.Perm scenarioAdj1)
    (p2 : a2.Perm scenarioAdj2) (p3 : a3.Perm scenarioAdj3) :
    ∃ r, primRun (scenarioGraph a0 a1 a2 a3) 0 junk junkTree = some r ∧
      getMSTprim (some (scenarioGraph a0 a1 a2 a3)) 0 junk junkTree = some (some r.tree) ∧
      r.numTreeEdges = 3 ∧
      r.tree 0 = { fromVertex := 2, toVertex := 0, weight := 1 } ∧
      r.tree 1 = { fromVertex := 1, toVertex := 2, weight := 2 } ∧
      r.tree 2 = { fromVertex := 3, toVertex := 1, weight := 1 } ∧
      (∀ i, 3 ≤ i → r.tree i = junkTree i) ∧
      (r.tree 0).weight + (r.tree 1).weight + (r.tree 2).weight = 4 := by
  have ie := scenario_isEdge p0 p1 p2 p3
  obtain ⟨r, run, inv, z⟩ := primRun_spec (scenario_graphOk p0 p1 p2 p3) (s := 0)
    (le_refl _) (by show (0 : Int) < 4; decide)
    (fun a b w h => (scenario_weights p0 p1 p2 p3 a b w h).2)
    (scenario_reach p0 p1 p2 p3) junk junkTree
  have k : r.numTreeEdges = 3 := by
    have := inv.count
    have : (scenarioGraph a0 a1 a2 a3).numVertices = 4 := rfl
    omega
  -- the first edge
  obtain ⟨_, n0, t0, g0, c0⟩ := inv.edges 0 (le_refl _) (by omega)
  rw [InTree_zero] at n0 t0
  have c0' := c0 0 2 1 ((InTree_zero _ _ _).2 rfl) (by rw [InTree_zero]; decide)
    ((ie _ _ _).2 (by decide))
  rw [ie, t0] at g0
  simp [scenarioTriples] at g0
  have e0 : r.tree 0 = { fromVertex := 2, toVertex := 0, weight := 1 } :=
    Edge.ext' (by omega) t0 (by omega)
  -- the second edge
  have i1 : ∀ x, InTree r.tree 0 1 x ↔ x = 0 ∨ x = 2 := by
    intro x
    rw [show (1 : Int) = 0 + 1 from rfl, InTree_succ _ _ _ _ (le_refl _), InTree_zero, e0]
    constructor
    · rintro (a | a)
      · exact Or.inl a
      · exact Or.inr a.symm
    · rintro (a | a)
      · exact Or.inl a
      · exact Or.inr a.symm
  obtain ⟨_, n1, t1, g1, c1⟩ := inv.edges 1 (by decide) (by omega)
  rw [i1] at n1 t1
  have c1' := c1 2 1 2 ((i1 _).2 (Or.inr rfl)) (by rw [i1]; decide) ((ie _ _ _).2 (by decide))
  rw [ie] at g1
  simp [scenarioTriples] at g1
  have e1 : r.tree 1 = { fromVertex := 1, toVertex := 2, weight := 2 } :=
    Edge.ext' (by omega) (by omega) (by omega)
  -- the third edge
  have i2 : ∀ x, InTree r.tree 0 2 x ↔ x = 0 ∨ x = 2 ∨ x = 1 := by
    intro x
    rw [show (2 : Int) = 1 + 1 from rfl, InTree_succ _ _ _ _ (by decide), i1, e1]
    constructor
    · rintro ((a | a) | a)
      · exact Or.inl a
      · exact Or.inr (Or.inl a)
      · exact Or.inr (Or.inr a.symm)
    · rintro (a | a | a)
      · exact Or.inl (Or.inl a)
      · exact Or.inl (Or.inr a)
      · exact Or.inr a.symm
  obtain ⟨_, n2, t2, g2, c2⟩ := inv.edges 2 (by decide) (by omega)
  rw [i2] at n2 t2
  have c2' := c2 1 3 1 ((i2 _).2 (Or.inr (Or.inr rfl))) (by rw [i2]; decide)
    ((ie _ _ _).2 (by decide))
  rw [ie] at g2
  simp [scenarioTriples] at g2
  have e2 : r.tree 2 = { fromVertex := 3, toVertex := 1, weight := 1 } :=
    Edge.ext' (by omega) (by omega) (by omega)
  refine ⟨r, run, ?_, k, e0, e1, e2, ?_, ?_⟩
  · have : ¬ ((0 : Int) < 0 ∨ (0 : Int) ≥ (scenarioGraph a0 a1 a2 a3).numVertices) := by
      show ¬ ((0 : Int) < 0 ∨ (0 : Int) ≥ 4)
      decide
    simp only [getMSTprim, if_neg this, run]
    rfl
  · intro i hi
    exact inv.rest i (by omega)
  · rw [e0, e1, e2]
    rfl

theorem scenarioA_prim_witness :
    ∃ r, primRun (scenarioGraph scenarioAdj0 scenarioAdj1 scenarioAdj2 scenarioAdj3) 0
        (fun _ => { priority := 0, id := 0 })
        (fun _ => { fromVertex := 0, toVertex := 0, weight := 0 }) = some r ∧
      getMSTprim (some (scenarioGraph scenarioAdj0 scenarioAdj1 scenarioAdj2 scenarioAdj3)) 0
        (fun _ => { priority := 0, id := 0 })
        (fun _ => { fromVertex := 0, toVertex := 0, weight := 0 }) = some (some r.tree) ∧
      r.numTreeEdges = 3 ∧
      r.tree 0 = { fromVertex := 2, toVertex := 0, weight := 1 } ∧
      r.tree 1 = { fromVertex := 1, toVertex := 2, weight := 2 } ∧
      r.tree 2 = { fromVertex := 3, toVertex := 1, weight := 1 } ∧
      (∀ i, 3 ≤ i → r.tree i = { fromVertex := 0, toVertex := 0, weight := 0 }) ∧
      (r.tree 0).weight + (r.tree 1).weight + (r.tree 2).weight = 4 :=
  scenarioA_prim _ _ _ _ _ _ (List.Perm.refl _) (List.Perm.refl _) (List.Perm.refl _)
    (List.Perm.refl _)

theorem LAdj.flip {L : List Edge} {a b : Int} (h : LAdj L a b) : LAdj L b a := by
  obtain ⟨e, he, x | x⟩ := h
  · exact ⟨e, he, Or.inr x⟩
  · exact ⟨e, he, Or.inl x⟩

theorem LReach.reverse {L : List Edge} {a b : Int} (h : LReach L a b) : LReach L b a := by
  induction h with
  | refl => exact Relation.ReflTransGen.refl
  | tail _ hbc ih => exact Relation.ReflTransGen.head hbc.flip ih

theorem LReach.of_subset {L M : List Edge} (sub : ∀ e ∈ L, e ∈ M) {a b : Int} (h : LReach L a b) :
    LReach M a b := by
  refine Relation.ReflTransGen.mono ?_ h
  rintro x y ⟨e, he, c⟩
  exact ⟨e, sub e he, c⟩

theorem InList.append_one {P : List Edge} {s x : Int} (e : Edge) (h : InList P s x) :
    InList (P ++ [e]) s x := by
  rcases h with a | ⟨e', he', a⟩
  · exact Or.inl a
  · exact Or.inr ⟨e', List.mem_append_left _ he', a⟩

theorem Greedy.ends_inList {g : Graph} {s : Int} {P : List Edge} (h : Greedy g s P) :
    ∀ e ∈ P, InList P s e.fromVertex ∧ InList P s e.toVertex := by
  induction h with
  | nil => intro e he; cases he
  | snoc P e _ _ hp _ ih =>
    intro e' he'
    rcases List.mem_append.1 he' with x | x
    · exact ⟨(ih e' x).1.append_one e, (ih e' x).2.append_one e⟩
    · have : e' = e := by simpa using x
      subst this
      exact ⟨Or.inr ⟨e', he', rfl⟩, hp.append_one e'⟩

theorem Greedy.reach_inList {g : Graph} {s : Int} {P : List Edge} (h : Greedy g s P) :
    ∀ x, InList P s x → LReach P s x := by
  induction h with
  | nil =>
    rintro x (a | ⟨e, he, _⟩)
    · rw [a]; exact Relation.ReflTransGen.refl
    · cases he
  | snoc P e _ _ hp _ ih =>
    rintro x (a | ⟨e', he', a⟩)
    · rw [a]; exact Relation.ReflTransGen.refl
    · rcases List.mem_append.1 he' with m | m
      · exact LReach.of_subset (fun _ h => List.mem_append_left _ h) (ih x (Or.inr ⟨e', m, a⟩))
      · have : e' = e := by simpa using m
        subst this
        have r1 : LReach (P ++ [e']) s e'.toVertex :=
          LReach.of_subset (fun _ h => List.mem_append_left _ h) (ih _ hp)
        exact Relation.ReflTransGen.tail r1 ⟨e', he', Or.inr ⟨a, rfl⟩⟩

theorem exists_last_crossing {α : Type} {R : α → α → Prop} {F : α → Prop} {a b : α}
    (h : Relation.ReflTransGen R a b) (ha : F a) (hb : ¬ F b) :
    ∃ x y, R x y ∧ F x ∧ ¬ F y ∧
      Relation.ReflTransGen (fun p q => R p q ∧ ¬ F p ∧ ¬ F q) y b := by
  have key : (F a → ∃ x y, R x y ∧ F x ∧ ¬ F y ∧
        Relation.ReflTransGen (fun p q => R p q ∧ ¬ F p ∧ ¬ F q) y b) ∧
      (¬ F a → Relation.ReflTransGen (fun p q => R p q ∧ ¬ F p ∧ ¬ F q) a b ∨
        ∃ x y, R x y ∧ F x ∧ ¬ F y ∧
          Relation.ReflTransGen (fun p q => R p q ∧ ¬ F p ∧ ¬ F q) y b) := by
    refine Relation.ReflTransGen.head_induction_on h ?_ ?_
    · exact ⟨fun fb => absurd fb hb, fun _ => Or.inl Relation.ReflTransGen.refl⟩
    · intro a c hac _ ih
      constructor
      · intro fa
        by_cases fc : F c
        · exact ih.1 fc
        · rcases ih.2 fc with out | ex
          · exact ⟨a, c, hac, fa, fc, out⟩
          · exact ex
      · intro nfa
        by_cases fc : F c
        · exact Or.inr (ih.1 fc)
        · rcases ih.2 fc with out | ex
          · exact Or.inl (Relation.ReflTransGen.head ⟨hac, nfa, fc⟩ out)
          · exact Or.inr ex
  exact key.1 ha

theorem totalWeight_append (A B : List Edge) :
    totalWeight (A ++ B) = totalWeight A + totalWeight B := by
  simp [totalWeight]

theorem totalWeight_erase {R : List Edge} {f : Edge} (hf : f ∈ R) :
    totalWeight (R.erase f) = totalWeight R - f.weight := by
  have p := List.perm_cons_erase hf
  have := (p.map Edge.weight).sum_eq
  simp only [List.map_cons, List.sum_cons] at this
  unfold totalWeight
  omega

theorem totalWeight_nonneg {R : List Edge} (h : ∀ e ∈ R, 0 ≤ e.weight) : 0 ≤ totalWeight R := by
  unfold totalWeight
  apply List.sum_nonneg
  intro x hx
  obtain ⟨e, he, rfl⟩ := List.mem_map.1 hx
  exact h e he

theorem edge_ends {a b : Int} {f : Edge}
    (h : (f.fromVertex = a ∧ f.toVertex = b) ∨ (f.fromVertex = b ∧ f.toVertex = a))
    {x y : Int}
    (h' : (f.fromVertex = x ∧ f.toVertex = y) ∨ (f.fromVertex = y ∧ f.toVertex = x)) :
    (x = a ∧ y = b) ∨ (x = b ∧ y = a) := by
  rcases h with ⟨h1, h2⟩ | ⟨h1, h2⟩ <;> rcases h' with ⟨h3, h4⟩ | ⟨h3, h4⟩
  · exact Or.inl ⟨by rw [← h3, h1], by rw [← h4, h2]⟩
  · exact Or.inr ⟨by rw [← h4, h2], by rw [← h3, h1]⟩
  · exact Or.inr ⟨by rw [← h3, h1], by rw [← h4, h2]⟩
  · exact Or.inl ⟨by rw [← h4, h2], by rw [← h3, h1]⟩

/-- The exchange step: any connected edge set `T` of graph edges that reaches
every child of a greedy list `P` can be turned, edge by edge, into one that
contains `P` and weighs no more. -/
theorem Greedy.exchange {g : Graph} {s : Int} {P : List Edge} (h : Greedy g s P)
    (sym : ∀ a b w, IsEdge g a b w → IsEdge g b a w) (T : List Edge)
    (hT : ∀ e ∈ T, GraphEdge g e ∧ 0 ≤ e.weight) :
    (∀ e ∈ P, LReach T s e.fromVertex) →
    ∃ R, (∀ e ∈ R, GraphEdge g e ∧ 0 ≤ e.weight) ∧
      (∀ x y, LReach T x y → LReach (P ++ R) x y) ∧
      totalWeight (P ++ R) ≤ totalWeight T := by
  induction h with
  | nil =>
    intro _
    exact ⟨T, hT, fun x y h => by simpa using h, by simp⟩
  | snoc P e hg hc hp cut ih =>
    intro span
    obtain ⟨R, hR, conn, wt⟩ := ih (fun e' he' => span e' (List.mem_append_left _ he'))
    have su : LReach (P ++ R) s e.fromVertex := conn _ _ (span e (by simp))
    obtain ⟨a, b, hab, fa, nfb, out⟩ :=
      exists_last_crossing (F := InList P s) su (Or.inl rfl) hc
    obtain ⟨f, hf, ends⟩ := hab
    have fR : f ∈ R := by
      rcases List.mem_append.1 hf with m | m
      · exfalso
        obtain ⟨i1, i2⟩ := hg.ends_inList f m
        rcases ends with ⟨e1, e2⟩ | ⟨e1, e2⟩
        · rw [e2] at i2; exact nfb i2
        · rw [e1] at i1; exact nfb i1
      · exact m
    have eab : IsEdge g a b f.weight := by
      rcases ends with ⟨e1, e2⟩ | ⟨e1, e2⟩
      · rcases (hR f fR).1 with x | x
        · rw [e1, e2] at x; exact x
        · rw [e1, e2] at x; exact sym _ _ _ x
      · rcases (hR f fR).1 with x | x
        · rw [e1, e2] at x; exact sym _ _ _ x
        · rw [e1, e2] at x; exact x
    have le : e.weight ≤ f.weight := cut a b f.weight fa nfb eab
    have keep : ∀ e' ∈ P ++ R, e' ≠ f → e' ∈ (P ++ [e]) ++ R.erase f := by
      intro e' he' ne
      rcases List.mem_append.1 he' with m | m
      · exact List.mem_append_left _ (List.mem_append_left _ m)
      · exact List.mem_append_right _ ((List.mem_erase_of_ne ne).2 m)
    have subP : ∀ e' ∈ P, e' ∈ (P ++ [e]) ++ R.erase f :=
      fun e' m => List.mem_append_left _ (List.mem_append_left _ m)
    have r1 : LReach ((P ++ [e]) ++ R.erase f) s a := (hg.reach_inList a fa).of_subset subP
    have r2 : LReach ((P ++ [e]) ++ R.erase f) s e.toVertex := (hg.reach_inList _ hp).of_subset subP
    have r3 : LReach ((P ++ [e]) ++ R.erase f) e.toVertex e.fromVertex :=
      Relation.ReflTransGen.single ⟨e, by simp, Or.inr ⟨rfl, rfl⟩⟩
    have r4 : LReach ((P ++ [e]) ++ R.erase f) b e.fromVertex := by
      refine Relation.ReflTransGen.mono ?_ out
      rintro p q ⟨⟨e', he', c⟩, np, nq⟩
      refine ⟨e', keep e' he' ?_, c⟩
      intro x
      subst x
      rcases edge_ends ends c with ⟨y, _⟩ | ⟨_, y⟩
      · rw [y] at np; exact np fa
      · rw [y] at nq; exact nq fa
    have rab : LReach ((P ++ [e]) ++ R.erase f) a b :=
      (r1.reverse.trans (r2.trans r3)).trans r4.reverse
    have step : ∀ x y, LAdj (P ++ R) x y → LReach ((P ++ [e]) ++ R.erase f) x y := by
      rintro x y ⟨e', he', c⟩
      by_cases x' : e' = f
      · subst x'
        rcases edge_ends ends c with ⟨y1, y2⟩ | ⟨y1, y2⟩
        · rw [y1, y2]; exact rab
        · rw [y1, y2]; exact rab.reverse
      · exact Relation.ReflTransGen.single ⟨e', keep e' he' x', c⟩
    refine ⟨R.erase f, fun e' he' => hR e' (List.mem_of_mem_erase he'), ?_, ?_⟩
    · intro x y hxy
      have := conn x y hxy
      clear hxy
      induction this with
      | refl => exact Relation.ReflTransGen.refl
      | tail _ hbc ih' => exact ih'.trans (step _ _ hbc)
    · rw [totalWeight_append, totalWeight_append, totalWeight_erase fR]
      rw [totalWeight_append] at wt
      have : totalWeight [e] = e.weight := by simp [totalWeight]
      omega

/-- A greedy list weighs no more than any connected set of graph edges that
reaches all its children. -/
theorem Greedy.minimal {g : Graph} {s : Int} {P : List Edge} (h : Greedy g s P)
    (sym : ∀ a b w, IsEdge g a b w → IsEdge g b a w) (T : List Edge)
    (hT : ∀ e ∈ T, GraphEdge g e ∧ 0 ≤ e.weight)
    (span : ∀ e ∈ P, LReach T s e.fromVertex) : totalWeight P ≤ totalWeight T := by
  obtain ⟨R, hR, _, wt⟩ := h.exchange sym T hT span
  rw [totalWeight_append] at wt
  have := totalWeight_nonneg (fun e he => (hR e he).2)
  omega

theorem treePrefix_succ (tree : Int → Edge) (k : Nat) :
    treePrefix tree (k + 1) = treePrefix tree k ++ [tree (k : Int)] := by
  simp [treePrefix, List.range_succ]

theorem mem_treePrefix {tree : Int → Edge} {k : Nat} {e : Edge} :
    e ∈ treePrefix tree k ↔ ∃ j : Int, 0 ≤ j ∧ j < k ∧ tree j = e := by
  unfold treePrefix
  constructor
  · intro h
    obtain ⟨i, hi, rfl⟩ := List.mem_map.1 h
    exact ⟨i, by omega, by have := List.mem_range.1 hi; omega, rfl⟩
  · rintro ⟨j, j0, j1, rfl⟩
    refine List.mem_map.2 ⟨j.toNat, List.mem_range.2 (by omega), ?_⟩
    rw [Int.toNat_of_nonneg j0]

theorem inList_treePrefix (tree : Int → Edge) (s : Int) (k : Nat) (x : Int) :
    InList (treePrefix tree k) s x ↔ InTree tree s k x := by
  unfold InList InTree
  constructor
  · rintro (a | ⟨e, he, a⟩)
    · exact Or.inl a
    · obtain ⟨j, j0, j1, rfl⟩ := mem_treePrefix.1 he
      exact Or.inr ⟨j, j0, j1, a⟩
  · rintro (a | ⟨j, j0, j1, a⟩)
    · exact Or.inl a
    · exact Or.inr ⟨tree j, mem_treePrefix.2 ⟨j, j0, j1, rfl⟩, a⟩

theorem PrimInv.greedy {g : Graph} {s : Int} {t0 : Int → Edge} {r : Records}
    (inv : PrimInv g s t0 r) :
    ∀ k : Nat, (k : Int) ≤ r.numTreeEdges → Greedy g s (treePrefix r.tree k) := by
  intro k
  induction k with
  | zero => intro _; exact Greedy.nil
  | succ k ih =>
    intro hk
    push_cast at hk
    obtain ⟨_, n, t, _, c⟩ := inv.edges k (by omega) (by omega)
    rw [treePrefix_succ]
    refine Greedy.snoc _ _ (ih (by omega)) ?_ ?_ ?_
    · rw [inList_treePrefix]; exact n
    · rw [inList_treePrefix]; exact t
    · intro x y w hx hy
      rw [inList_treePrefix] at hx hy
      exact c x y w hx hy

/-- C8. Prim minimality: on a graph whose edges are present in both
directions with equal weight, all weights non-negative and below `INT_MAX`,
and all of whose vertices can be reached from the source, the first
`numVertices - 1` edges of `getMSTprim(graph, source)` form a spanning tree of
the graph, and their total weight is `≤` that of every spanning tree, indeed
of every connected spanning set of graph edges. -/
theorem prim_minimum_spanning_tree (g : Graph) (s : Int) (junk : Int → HeapNode)
    (junkTree : Int → Edge) (gok : GraphOk g) (s0 : 0 ≤ s) (s1 : s < g.numVertices)
    (hw : ∀ a b w, IsEdge g a b w → 0 ≤ w ∧ w < INT_MAX)
    (sym : ∀ a b w, IsEdge g a b w → IsEdge g b a w)
    (conn : ∀ v, 0 ≤ v → v < g.numVertices → Reach g s v) :
    ∃ tree, getMSTprim (some g) s junk junkTree = some (some tree) ∧
      IsSpanningTree g (treePrefix tree (g.numVertices - 1).toNat) ∧
      ∀ T, Spanning g T →
        totalWeight (treePrefix tree (g.numVertices - 1).toNat) ≤ totalWeight T := by
  obtain ⟨r, run, inv, z⟩ := primRun_spec gok s0 s1 (fun a b w h => (hw a b w h).2) conn
    junk junkTree
  have k : r.numTreeEdges = g.numVertices - 1 := by have := inv.count; omega
  have kn : ((g.numVertices - 1).toNat : Int) = r.numTreeEdges := by omega
  have gr := inv.greedy (g.numVertices - 1).toNat (by omega)
  have reachS : ∀ v, 0 ≤ v → v < g.numVertices →
      LReach (treePrefix r.tree (g.numVertices - 1).toNat) s v := by
    intro v v0 v1
    apply gr.reach_inList
    rw [inList_treePrefix, kn, ← inv.finIff v v0 v1]
    exact inv.prim_all_finished z v0 v1
  refine ⟨r.tree, ?_, ⟨⟨?_, ?_⟩, ?_⟩, ?_⟩
  · have : ¬ (s < 0 ∨ s ≥ g.numVertices) := by omega
    simp [getMSTprim, this, run]
  · intro e he
    obtain ⟨j, j0, j1, rfl⟩ := mem_treePrefix.1 he
    exact Or.inr (inv.edges j j0 (by omega)).2.2.2.1
  · intro u v u0 u1 v0 v1
    exact (reachS u u0 u1).reverse.trans (reachS v v0 v1)
  · simp only [treePrefix, List.length_map, List.length_range]
    omega
  · intro T hT
    apply gr.minimal sym T
    · intro e he
      refine ⟨hT.1 e he, ?_⟩
      rcases hT.1 e he with x | x
      · exact (hw _ _ _ x).1
      · exact (hw _ _ _ x).1
    · intro e he
      obtain ⟨j, j0, j1, rfl⟩ := mem_treePrefix.1 he
      obtain ⟨⟨c0, c1⟩, _⟩ := inv.edges j j0 (by omega)
      exact hT.2 s _ s0 s1 c0 c1

theorem scenario_symmetric :
    ∀ a b w, IsEdge (scenarioGraph scenarioAdj0 scenarioAdj1 scenarioAdj2 scenarioAdj3) a b w →
      IsEdge (scenarioGraph scenarioAdj0 scenarioAdj1 scenarioAdj2 scenarioAdj3) b a w := by
  intro a b w h
  rw [scenario_isEdge (List.Perm.refl _) (List.Perm.refl _) (List.Perm.refl _)
    (List.Perm.refl _)] at h ⊢
  simp only [scenarioTriples, List.mem_cons, Prod.mk.injEq, List.mem_singleton,
    List.not_mem_nil, or_false] at h
  rcases h with h | h | h | h | h | h | h | h | h | h <;>
    obtain ⟨rfl, rfl, rfl⟩ := h <;> decide

theorem prim_minimum_spanning_tree_witness :
    GraphOk (scenarioGraph scenarioAdj0 scenarioAdj1 scenarioAdj2 scenarioAdj3) ∧
    ∃ tree, getMSTprim (some (scenarioGraph scenarioAdj0 scenarioAdj1 scenarioAdj2 scenarioAdj3))
        0 (fun _ => { priority := 0, id := 0 })
        (fun _ => { fromVertex := 0, toVertex := 0, weight := 0 }) = some (some tree) ∧
      IsSpanningTree (scenarioGraph scenarioAdj0 scenarioAdj1 scenarioAdj2 scenarioAdj3)
        (treePrefix tree
          ((scenarioGraph scenarioAdj0 scenarioAdj1 scenarioAdj2 scenarioAdj3).numVertices
            - 1).toNat) ∧
      ∀ T, Spanning (scenarioGraph scenarioAdj0 scenarioAdj1 scenarioAdj2 scenarioAdj3) T →
        totalWeight (treePrefix tree
          ((scenarioGraph scenarioAdj0 scenarioAdj1 scenarioAdj2 scenarioAdj3).numVertices
            - 1).toNat) ≤ totalWeight T :=
  ⟨scenario_graphOk (List.Perm.refl _) (List.Perm.refl _) (List.Perm.refl _) (List.Perm.refl _),
    prim_minimum_spanning_tree _ 0 _ _
      (scenario_graphOk (List.Perm.refl _) (List.Perm.refl _) (List.Perm.refl _)
        (List.Perm.refl _))
      (by decide) (by decide)
      (scenario_weights (List.Perm.refl _) (List.Perm.refl _) (List.Perm.refl _)
        (List.Perm.refl _))
      scenario_symmetric
      (scenario_reach (List.Perm.refl _) (List.Perm.refl _) (List.Perm.refl _)
        (List.Perm.refl _))⟩

theorem Path.to_reach {g : Graph} {s v d : Int} {vs : List Int} (h : Path g s vs v d) :
    Reach g s v := by
  induction h with
  | nil => exact Relation.ReflTransGen.refl
  | snoc _ e ih => exact Relation.ReflTransGen.tail ih ⟨_, e⟩

theorem Reach.exists_path {g : Graph} {s v : Int} (h : Reach g s v) :
    ∃ vs d, Path g s vs v d := by
  induction h with
  | refl => exact ⟨_, _, Path.nil⟩
  | tail _ e ih =>
    obtain ⟨vs, d, p⟩ := ih
    obtain ⟨w, e⟩ := e
    exact ⟨_, _, Path.snoc p e⟩

theorem Path.nonneg {g : Graph} {s v d : Int} {vs : List Int}
    (hw : ∀ a b w, IsEdge g a b w → 0 ≤ w) (h : Path g s vs v d) : 0 ≤ d := by
  induction h with
  | nil => exact le_refl _
  | snoc _ e ih => have := hw _ _ _ e; omega

theorem Path.source_mem {g : Graph} {s v d : Int} {vs : List Int} (h : Path g s vs v d) :
    s ∈ vs := by
  induction h with
  | nil => simp
  | snoc _ _ ih => exact List.mem_cons_of_mem _ ih

theorem Path.end_mem {g : Graph} {s v d : Int} {vs : List Int} (h : Path g s vs v d) :
    v ∈ vs := by
  cases h with
  | nil => simp
  | snoc _ _ => simp

theorem Path.range {g : Graph} {s v d : Int} {vs : List Int} (gok : GraphOk g)
    (s0 : 0 ≤ s) (s1 : s < g.numVertices) (h : Path g s vs v d) :
    0 ≤ v ∧ v < g.numVertices := by
  cases h with
  | nil => exact ⟨s0, s1⟩
  | snoc _ e =>
    obtain ⟨e', he', ev, _⟩ := e
    rw [← ev]
    exact gok.target _ e' he'

theorem wrap32_eq {x : Int} (x0 : 0 ≤ x) (x1 : x < INT_MAX) : wrap32 x = x := by
  unfold wrap32
  unfold INT_MAX at x1
  omega

theorem dijInv_init {g : Graph} {s : Int} {r : Records} (s0 : 0 ≤ s)
    (s1 : s < g.numVertices) (inv : RecInv g.numVertices r)
    (fin : r.finished = fun _ => false)
    (st : ∀ v, 0 ≤ v → v < g.numVertices →
      Stored r.heap { priority := initPriority s v, id := v }) : DijInv g s r := by
  refine ⟨inv, ?_, Or.inr ⟨?_, ?_, ?_, ?_⟩⟩
  · intro v _ _ h
    rw [fin] at h
    exact absurd h Bool.false_ne_true
  · intro v _ _ h
    rw [fin] at h
    exact absurd h Bool.false_ne_true
  · intro v p sp
    obtain ⟨v0, v1⟩ := inv.id_range sp
    have e : p = initPriority s v :=
      congrArg HeapNode.priority (Stored.priority_unique inv.ok sp (st v v0 v1) rfl)
    by_cases c : v = s
    · right
      subst c
      rw [e]
      simp only [initPriority, if_true]
      refine ⟨by decide, [v], Path.nil, by simp, ?_⟩
      intro x hx ne
      simp at hx
      exact absurd hx ne
    · left
      rw [e]
      simp [initPriority, c]
  · intro v p _ u w h
    rw [fin] at h
    exact absurd h Bool.false_ne_true
  · intro _
    have := st s s0 s1
    simpa [initPriority] using this

/-- While priorities are path weights, no path to an unfinished vertex weighs
less than the smallest priority in the heap. -/
theorem dij_lower_bound {g : Graph} {s : Int} {r : Records} (gok : GraphOk g) (s0 : 0 ≤ s)
    (s1 : s < g.numVertices) (hw : ∀ a b w, IsEdge g a b w → 0 ≤ w) (inv : DijInv g s r)
    (p3 : ∀ v p, Stored r.heap { priority := p, id := v } →
        ∀ u w, r.finished u = true → IsEdge g u v w → p ≤ (r.tree u).weight + w)
    (p4 : r.finished s = false → Stored r.heap { priority := 0, id := s })
    {m : Int} (umin : ∀ x, Stored r.heap x → m ≤ x.priority)
    {vs : List Int} {c d : Int} (h : Path g s vs c d) : r.finished c = false → m ≤ d := by
  induction h with
  | nil =>
    intro fc
    exact umin _ (p4 fc)
  | @snoc vs b c d w hp e ih =>
    intro fc
    obtain ⟨c0, c1⟩ := (Path.snoc hp e).range gok s0 s1
    obtain ⟨q, sq⟩ := (inv.recs.fin c c0 c1).1 fc
    have h1 := umin _ sq
    dsimp only at h1
    have w0 := hw _ _ _ e
    cases fb : r.finished b
    · have := ih fb
      omega
    · obtain ⟨b0, b1⟩ := hp.range gok s0 s1
      have h2 := (inv.final b b0 b1 fb hp.to_reach).2 _ _ hp
      have h3 := p3 c q sq b w fb e
      omega

/-- When the smallest priority in the heap is `INT_MAX`, every reachable
vertex is already finished. -/
theorem dij_all_reached {g : Graph} {s : Int} {r : Records} (gok : GraphOk g) (s0 : 0 ≤ s)
    (s1 : s < g.numVertices)
    (hsum : ∀ vs v d, Path g s vs v d → vs.Nodup → d < INT_MAX) (inv : DijInv g s r)
    (p3 : ∀ v p, Stored r.heap { priority := p, id := v } →
        ∀ u w, r.finished u = true → IsEdge g u v w → p ≤ (r.tree u).weight + w)
    (p4 : r.finished s = false → Stored r.heap { priority := 0, id := s })
    (umin : ∀ x, Stored r.heap x → INT_MAX ≤ x.priority)
    {vs : List Int} {c d : Int} (h : Path g s vs c d) : r.finished c = true := by
  induction h with
  | nil =>
    cases fc : r.finished s
    · have := umin _ (p4 fc)
      simp [INT_MAX] at this
    · rfl
  | @snoc vs b c d w hp e ih =>
    cases fc : r.finished c
    · exfalso
      obtain ⟨c0, c1⟩ := (Path.snoc hp e).range gok s0 s1
      obtain ⟨q, sq⟩ := (inv.recs.fin c c0 c1).1 fc
      have h1 := umin _ sq
      dsimp only at h1
      obtain ⟨b0, b1⟩ := hp.range gok s0 s1
      obtain ⟨vb, pb, nb, fb⟩ := (inv.final b b0 b1 ih hp.to_reach).1
      have nc : c ∉ vb := by
        intro hc
        have := fb c hc
        rw [fc] at this
        exact absurd this Bool.false_ne_true
      have h2 := hsum _ _ _ (Path.snoc pb e) (List.nodup_cons.2 ⟨nc, nb⟩)
      have h3 := p3 c q sq b w ih e
      omega
    · rfl

theorem dij_step_eq {g : Graph} {s : Int} {r : Records} (gok : GraphOk g)
    (inv : RecInv g.numVertices r) (ne : r.heap.size ≠ 0) {h1 : MinHeap}
    (ex : extractMin r.heap = some (r.heap.arr 1, h1))
    (sf : setFinished { r with heap := h1 } (r.heap.arr 1).id = some (afterExtract r h1))
    (u0 : 0 ≤ (r.heap.arr 1).id) (u1 : (r.heap.arr 1).id < g.numVertices) (fuel : Nat) :
    dijkstraLoop g s (fuel + 1) r =
      (relaxLoop (fun w => wrap32 ((r.heap.arr 1).priority + w)) (r.heap.arr 1).id
        (adjOf g (r.heap.arr 1).id) (dijRecorded s r h1)).bind (dijkstraLoop g s fuel) := by
  have ie : isEmpty r.heap = false := by simp [isEmpty, ne]
  obtain ⟨vtx, va, vadj⟩ := vertexAt_adjOf gok u0 u1
  have nv : (afterExtract r h1).numVertices = g.numVertices := inv.nv
  have kb : ¬ ((r.heap.arr 1).id < 0 ∨
      (r.heap.arr 1).id > (afterExtract r h1).numVertices - 1) := by
    rw [nv]; omega
  have pa : predecessorAt (afterExtract r h1) (r.heap.arr 1).id =
      some (r.predecessors (r.heap.arr 1).id) := by
    simp [predecessorAt, afterExtract, inv.nv, u0, u1]
  simp only [dijkstraLoop, ie, ex, Option.bind_eq_bind, Option.some_bind, Bool.false_eq_true,
    if_false]
  rw [sf]
  simp only [Option.some_bind]
  by_cases c : (r.heap.arr 1).id = s
  · have r2 : addTreeEdge (afterExtract r h1) (r.heap.arr 1).id (r.heap.arr 1).id
        (r.heap.arr 1).id 0 = dijRecorded s r h1 := by
      rw [addTreeEdge, if_neg kb]
      simp only [dijRecorded, dijEntry, if_pos c]
      rfl
    simp only [if_pos c, Option.pure_def, Option.some_bind, r2, va, dijkstraRelax_eq, vadj]
  · have r2 : addTreeEdge (afterExtract r h1) (r.heap.arr 1).id (r.heap.arr 1).id
        (r.predecessors (r.heap.arr 1).id) (r.heap.arr 1).priority = dijRecorded s r h1 := by
      rw [addTreeEdge, if_neg kb]
      simp only [dijRecorded, dijEntry, if_neg c]
      rfl
    simp only [if_neg c, pa, Option.pure_def, Option.some_bind, r2, va, dijkstraRelax_eq, vadj]

theorem dij_step {g : Graph} {s : Int} {r : Records} (gok : GraphOk g) (s0 : 0 ≤ s)
    (s1 : s < g.numVertices) (hw : ∀ a b w, IsEdge g a b w → 0 ≤ w)
    (hsum : ∀ vs v d, Path g s vs v d → vs.Nodup → d < INT_MAX)
    (inv : DijInv g s r) (ne : r.heap.size ≠ 0) :
    ∃ r3, (∀ fuel, dijkstraLoop g s (fuel + 1) r = dijkstraLoop g s fuel r3) ∧
      DijInv g s r3 ∧ r3.heap.size = r.heap.size - 1 ∧
      ∃ h1, extractMin r.heap = some (r.heap.arr 1, h1) ∧
        relaxLoop (fun w => wrap32 ((r.heap.arr 1).priority + w)) (r.heap.arr 1).id
          (adjOf g (r.heap.arr 1).id) (dijRecorded s r h1) = some r3 := by
  obtain ⟨h1, ex, su, umin, sf, inv1, sz1, st1⟩ := extract_step inv.recs ne
  obtain ⟨u0, u1⟩ := inv.recs.id_range su
  have uf := inv.recs.unfinished su
  have inv2 : RecInv g.numVertices (dijRecorded s r h1) :=
    ⟨inv1.nv, inv1.cap, inv1.ok, inv1.ho, inv1.size0, inv1.fin⟩
  obtain ⟨r3, run, inv3, f3, t3, _, s3, st3, _⟩ :=
    relaxLoop_spec (n := g.numVertices) (fun w => wrap32 ((r.heap.arr 1).priority + w))
      (r.heap.arr 1).id (adjOf g (r.heap.arr 1).id) (dijRecorded s r h1) inv2 (gok.target _)
  have f3' : r3.finished = Function.update r.finished (r.heap.arr 1).id true := f3
  have t3' : r3.tree = Function.update r.tree (r.heap.arr 1).id (dijEntry s r) := t3
  have hfu : r3.finished (r.heap.arr 1).id = true := by rw [f3', Function.update_same]
  have hfm : ∀ x, r.finished x = true → r3.finished x = true := by
    intro x hx
    rw [f3']
    by_cases e : x = (r.heap.arr 1).id
    · rw [e, Function.update_same]
    · rw [Function.update_noteq e]; exact hx
  have hfo : ∀ x, x ≠ (r.heap.arr 1).id → r3.finished x = r.finished x := by
    intro x e
    rw [f3', Function.update_noteq e]
  have hto : ∀ x, x ≠ (r.heap.arr 1).id → r3.tree x = r.tree x := by
    intro x e
    rw [t3', Function.update_noteq e]
  have old_final : ∀ v, 0 ≤ v → v < g.numVertices → r.finished v = true → Reach g s v →
      (∃ vs, Path g s vs v (r3.tree v).weight ∧ vs.Nodup ∧ ∀ x ∈ vs, r3.finished x = true) ∧
      (∀ vs d, Path g s vs v d → (r3.tree v).weight ≤ d) := by
    intro v v0 v1 fv rv
    have vne : v ≠ (r.heap.arr 1).id := by
      intro e
      rw [e, uf] at fv
      exact absurd fv Bool.false_ne_true
    rw [hto v vne]
    obtain ⟨⟨vs, pv, nd, fin⟩, lb⟩ := inv.final v v0 v1 fv rv
    exact ⟨⟨vs, pv, nd, fun x hx => hfm x (fin x hx)⟩, lb⟩
  refine ⟨r3, ?_, ?_, by rw [s3]; exact sz1, h1, ex, run⟩
  · intro fuel
    rw [dij_step_eq gok inv.recs ne ex sf u0 u1 fuel, run]
    rfl
  · have split : (∀ v, 0 ≤ v → v < g.numVertices → Reach g s v → r.finished v = true) ∨
        ((∀ v, 0 ≤ v → v < g.numVertices → r.finished v = true → Reach g s v) ∧
         (∀ v p, Stored r.heap { priority := p, id := v } →
            p = INT_MAX ∨ (p < INT_MAX ∧ ∃ vs, Path g s vs v p ∧ vs.Nodup ∧
              ∀ x ∈ vs, x ≠ v → r.finished x = true)) ∧
         (∀ v p, Stored r.heap { priority := p, id := v } →
            ∀ u w, r.finished u = true → IsEdge g u v w → p ≤ (r.tree u).weight + w) ∧
         (r.finished s = false → Stored r.heap { priority := 0, id := s }) ∧
         (r.heap.arr 1).priority < INT_MAX ∧
         ∃ vs, Path g s vs (r.heap.arr 1).id (r.heap.arr 1).priority ∧ vs.Nodup ∧
           ∀ x ∈ vs, x ≠ (r.heap.arr 1).id → r.finished x = true) := by
      rcases inv.phase with a | ⟨p1, p2, p3, p4⟩
      · exact Or.inl a
      · rcases p2 (r.heap.arr 1).id (r.heap.arr 1).priority su with e | ⟨lt, pth⟩
        · left
          intro v _ _ rv
          obtain ⟨vs, d, pv⟩ := rv.exists_path
          exact dij_all_reached gok s0 s1 hsum inv p3 p4 (by rw [← e]; exact umin) pv
        · exact Or.inr ⟨p1, p2, p3, p4, lt, pth⟩
    rcases split with a | ⟨p1, p2, p3, p4, lt, vsu, pu, ndu, finu⟩
    · refine ⟨inv3, ?_, Or.inl ?_⟩
      · intro v v0 v1 _ rv
        exact old_final v v0 v1 (a v v0 v1 rv) rv
      · intro v v0 v1 rv
        exact hfm v (a v v0 v1 rv)
    · have p0 : 0 ≤ (r.heap.arr 1).priority := pu.nonneg hw
      have finu3 : ∀ x ∈ vsu, r3.finished x = true := by
        intro x hx
        by_cases e : x = (r.heap.arr 1).id
        · rw [e]; exact hfu
        · exact hfm x (finu x hx e)
      have sfin : r3.finished s = true := by
        by_cases e : s = (r.heap.arr 1).id
        · rw [e]; exact hfu
        · exact hfm s (finu s pu.source_mem e)
      have wu : (r3.tree (r.heap.arr 1).id).weight = (r.heap.arr 1).priority := by
        rw [t3', Function.update_same]
        unfold dijEntry
        by_cases e : (r.heap.arr 1).id = s
        · rw [if_pos e]
          have hs : Stored r.heap { priority := 0, id := s } := p4 (by rw [← e]; exact uf)
          have := congrArg HeapNode.priority
            (Stored.priority_unique inv.recs.ok su hs e)
          exact this.symm
        · rw [if_neg e]
      -- an edge out of the extracted vertex into an unfinished one
      have edge_ok : ∀ v w, r3.finished v = false → IsEdge g (r.heap.arr 1).id v w →
          wrap32 ((r.heap.arr 1).priority + w) = (r.heap.arr 1).priority + w ∧
          (r.heap.arr 1).priority + w < INT_MAX ∧
          Path g s (v :: vsu) v ((r.heap.arr 1).priority + w) ∧ (v :: vsu).Nodup := by
        intro v w fv e
        have nv : v ∉ vsu := by
          intro hv
          have := finu3 v hv
          rw [fv] at this
          exact absurd this Bool.false_ne_true
        have nd : (v :: vsu).Nodup := List.nodup_cons.2 ⟨nv, ndu⟩
        have pth := Path.snoc pu e
        have lt' := hsum _ _ _ pth nd
        have w0 := hw _ _ _ e
        exact ⟨wrap32_eq (by omega) lt', lt', pth, nd⟩
      -- what is stored after the relaxation
      have stored3 : ∀ v q, Stored r3.heap { priority := q, id := v } →
          v ≠ (r.heap.arr 1).id ∧ r3.finished v = false ∧
          ∃ pv, Stored r.heap { priority := pv, id := v } ∧
            q = relaxed (fun w => wrap32 ((r.heap.arr 1).priority + w))
              (adjOf g (r.heap.arr 1).id) v pv := by
        intro v q sq
        obtain ⟨v0, v1⟩ := inv3.id_range sq
        have nf3 := inv3.unfinished sq
        dsimp only at v0 v1 nf3
        have nf2 : (dijRecorded s r h1).finished v = false := by rw [← f3]; exact nf3
        obtain ⟨pv, spv⟩ := (inv2.fin v v0 v1).1 nf2
        have spv' : Stored h1 { priority := pv, id := v } := spv
        obtain ⟨spv0, vne⟩ := (st1 _).1 spv'
        have e3 := congrArg HeapNode.priority
          (Stored.priority_unique inv3.ok sq (st3 v pv spv).1 rfl)
        exact ⟨vne, nf3, pv, spv0, e3⟩
      refine ⟨inv3, ?_, Or.inr ⟨?_, ?_, ?_, ?_⟩⟩
      · intro v v0 v1 fv rv
        by_cases e : v = (r.heap.arr 1).id
        · subst e
          rw [wu]
          refine ⟨⟨vsu, pu, ndu, finu3⟩, ?_⟩
          intro vs d pd
          exact dij_lower_bound gok s0 s1 hw inv p3 p4 umin pd uf
        · rw [hfo v e] at fv
          exact old_final v v0 v1 fv rv
      · intro v v0 v1 fv
        by_cases e : v = (r.heap.arr 1).id
        · rw [e]; exact pu.to_reach
        · rw [hfo v e] at fv
          exact p1 v v0 v1 fv
      · intro v q sq
        obtain ⟨vne, nf3, pv, spv, eq⟩ := stored3 v q sq
        rcases relaxed_eq (fun w => wrap32 ((r.heap.arr 1).priority + w))
          (adjOf g (r.heap.arr 1).id) v pv with x | ⟨e, he, ev, ee, _⟩
        · rw [eq, x]
          rcases p2 v pv spv with y | ⟨y1, vs, y2, y3, y4⟩
          · exact Or.inl y
          · exact Or.inr ⟨y1, vs, y2, y3, fun z hz zne => hfm z (y4 z hz zne)⟩
        · right
          obtain ⟨a1, a2, a3, a4⟩ := edge_ok v e.weight nf3 ⟨e, he, ev, rfl⟩
          rw [eq, ee, a1]
          refine ⟨a2, v :: vsu, a3, a4, ?_⟩
          intro z hz zne
          rcases List.mem_cons.1 hz with y | y
          · exact absurd y zne
          · exact finu3 z y
      · intro v q sq x w fx exv
        obtain ⟨vne, nf3, pv, spv, eq⟩ := stored3 v q sq
        have le := relaxed_le (fun w => wrap32 ((r.heap.arr 1).priority + w))
          (adjOf g (r.heap.arr 1).id) v pv
        rw [← eq] at le
        by_cases e : x = (r.heap.arr 1).id
        · subst e
          rw [wu]
          obtain ⟨a1, _, _, _⟩ := edge_ok v w nf3 exv
          obtain ⟨e', he', ev, ew⟩ := exv
          have := relaxed_le_cand (fun w => wrap32 ((r.heap.arr 1).priority + w))
            (adjOf g (r.heap.arr 1).id) v pv e' he' ev
          rw [← eq] at this
          dsimp only at this
          rw [ew, a1] at this
          exact this
        · rw [hfo x e] at fx
          rw [hto x e]
          have := p3 v pv spv x w fx exv
          omega
      · intro h
        rw [sfin] at h
        exact absurd h (by decide)

theorem dijkstraLoop_spec {g : Graph} {s : Int} (gok : GraphOk g) (s0 : 0 ≤ s)
    (s1 : s < g.numVertices) (hw : ∀ a b w, IsEdge g a b w → 0 ≤ w)
    (hsum : ∀ vs v d, Path g s vs v d → vs.Nodup → d < INT_MAX) (fuel : Nat) :
    ∀ r, DijInv g s r → r.heap.size + 1 ≤ fuel →
      ∃ r', dijkstraLoop g s fuel r = some r' ∧ DijInv g s r' ∧ r'.heap.size = 0 := by
  induction fuel with
  | zero =>
    intro r inv hf
    have := inv.recs.size0
    omega
  | succ fuel ih =>
    intro r inv hf
    by_cases ne : r.heap.size = 0
    · exact ⟨r, by simp [dijkstraLoop, isEmpty, ne], inv, ne⟩
    · obtain ⟨r3, step, inv3, sz3, _⟩ := dij_step gok s0 s1 hw hsum inv ne
      obtain ⟨r', run, inv', z⟩ := ih r3 inv3 (by push_cast at hf; omega)
      exact ⟨r', by rw [step, run], inv', z⟩

theorem dijkstraRun_spec {g : Graph} {s : Int} (gok : GraphOk g) (s0 : 0 ≤ s)
    (s1 : s < g.numVertices) (hw : ∀ a b w, IsEdge g a b w → 0 ≤ w)
    (hsum : ∀ vs v d, Path g s vs v d → vs.Nodup → d < INT_MAX)
    (junk : Int → HeapNode) (junkTree : Int → Edge) :
    ∃ r, dijkstraRun g s junk junkTree = some r ∧ DijInv g s r ∧ r.heap.size = 0 := by
  obtain ⟨r0, i0, inv0, sz, _, fin, _, _, st⟩ :=
    initRecords_spec g s junk junkTree (by omega)
  obtain ⟨r', run, inv', z⟩ := dijkstraLoop_spec gok s0 s1 hw hsum
    (g.numVertices.toNat + 1) r0 (dijInv_init s0 s1 inv0 fin st) (by omega)
  refine ⟨r', ?_, inv', z⟩
  simp only [dijkstraRun, i0, Option.bind_eq_bind, Option.some_bind]
  exact run

theorem DijInv.dij_all_finished {g : Graph} {s : Int} {r : Records} (inv : DijInv g s r)
    (z : r.heap.size = 0) {v : Int} (v0 : 0 ≤ v) (v1 : v < g.numVertices) :
    r.finished v = true := by
  cases h : r.finished v
  · obtain ⟨p, t, t1, t2, _⟩ := (inv.recs.fin v v0 v1).1 h
    omega
  · rfl

/-- C7. Dijkstra correctness: on a graph with non-negative edge weights in
which every path from the source without repeated vertices weighs less than
`INT_MAX`, for a valid source `s` and every vertex `v` reachable from `s`,
the entry at index `v` of `getDistanceTreeDijkstra(graph, s)` has as weight
the minimum total weight of the directed paths from `s` to `v`: it is the
weight of one such path, and no path from `s` to `v` weighs less. -/
theorem dijkstra_shortest_distances (g : Graph) (s : Int) (junk : Int → HeapNode)
    (junkTree : Int → Edge) (gok : GraphOk g) (s0 : 0 ≤ s) (s1 : s < g.numVertices)
    (hw : ∀ a b w, IsEdge g a b w → 0 ≤ w)
    (hsum : ∀ vs v d, Path g s vs v d → vs.Nodup → d < INT_MAX) :
    ∃ tree, getDistanceTreeDijkstra (some g) s junk junkTree = some (some tree) ∧
      ∀ v, 0 ≤ v → v < g.numVertices → Reach g s v → IsDist g s v (tree v).weight := by
  obtain ⟨r, run, inv, z⟩ := dijkstraRun_spec gok s0 s1 hw hsum junk junkTree
  refine ⟨r.tree, ?_, ?_⟩
  · have : ¬ (s < 0 ∨ s ≥ g.numVertices) := by omega
    simp [getDistanceTreeDijkstra, this, run]
  · intro v v0 v1 rv
    obtain ⟨⟨vs, pv, nd, _⟩, lb⟩ := inv.final v v0 v1 (inv.dij_all_finished z v0 v1) rv
    exact ⟨⟨vs, pv, nd⟩, lb⟩

theorem Path.all_range {g : Graph} {s v d : Int} {vs : List Int} (gok : GraphOk g)
    (s0 : 0 ≤ s) (s1 : s < g.numVertices) (h : Path g s vs v d) :
    ∀ x ∈ vs, 0 ≤ x ∧ x < g.numVertices := by
  induction h with
  | nil =>
    intro x hx
    simp at hx
    rw [hx]
    exact ⟨s0, s1⟩
  | @snoc vs b c d w hp e ih =>
    intro x hx
    rcases List.mem_cons.1 hx with y | y
    · rw [y]; exact (Path.snoc hp e).range gok s0 s1
    · exact ih x y

theorem Path.weight_le {g : Graph} {s v d : Int} {vs : List Int} {W : Int}
    (hW : ∀ a b w, IsEdge g a b w → w ≤ W) (h : Path g s vs v d) :
    d ≤ W * ((vs.length : Int) - 1) := by
  induction h with
  | nil => simp
  | @snoc vs b c d w _ e ih =>
    have h1 := hW _ _ _ e
    simp only [List.length_cons]
    push_cast
    have h2 : W * ((vs.length : Int) + 1 - 1) = W * ((vs.length : Int) - 1) + W := by ring
    rw [h2]
    omega

/-- A path without repeated vertices has at most `numVertices - 1` edges, so
it weighs at most `numVertices - 1` times the largest edge weight. -/
theorem simple_path_bound {g : Graph} {s v d : Int} {vs : List Int} {W : Int} (gok : GraphOk g)
    (s0 : 0 ≤ s) (s1 : s < g.numVertices) (W0 : 0 ≤ W)
    (hW : ∀ a b w, IsEdge g a b w → w ≤ W) (h : Path g s vs v d) (nd : vs.Nodup) :
    d ≤ W * (g.numVertices - 1) := by
  have h1 := h.weight_le hW
  have sub : vs.toFinset ⊆ Finset.Ico 0 g.numVertices := by
    intro x hx
    rw [List.mem_toFinset] at hx
    exact Finset.mem_Ico.2 (h.all_range gok s0 s1 x hx)
  have c := Finset.card_le_card sub
  rw [List.toFinset_card_of_nodup nd, Int.card_Ico] at c
  have : (vs.length : Int) ≤ g.numVertices := by omega
  have : W * ((vs.length : Int) - 1) ≤ W * (g.numVertices - 1) :=
    Int.mul_le_mul_of_nonneg_left (by omega) W0
  omega

theorem scenario_path_sums :
    ∀ vs v d, Path (scenarioGraph scenarioAdj0 scenarioAdj1 scenarioAdj2 scenarioAdj3) 0 vs v d →
      vs.Nodup → d < INT_MAX := by
  intro vs v d h nd
  have hW : ∀ a b w,
      IsEdge (scenarioGraph scenarioAdj0 scenarioAdj1 scenarioAdj2 scenarioAdj3) a b w →
        w ≤ 5 := by
    intro a b w ie
    rw [scenario_isEdge (List.Perm.refl _) (List.Perm.refl _) (List.Perm.refl _)
      (List.Perm.refl _)] at ie
    simp [scenarioTriples] at ie
    omega
  have := simple_path_bound
    (scenario_graphOk (List.Perm.refl _) (List.Perm.refl _) (List.Perm.refl _)
      (List.Perm.refl _)) (le_refl _) (by decide) (by decide) hW h nd
  have n4 : (scenarioGraph scenarioAdj0 scenarioAdj1 scenarioAdj2 scenarioAdj3).numVertices
      = 4 := rfl
  rw [n4] at this
  unfold INT_MAX
  omega

theorem dijkstra_shortest_distances_witness :
    GraphOk (scenarioGraph scenarioAdj0 scenarioAdj1 scenarioAdj2 scenarioAdj3) ∧
    ∃ tree, getDistanceTreeDijkstra
        (some (scenarioGraph scenarioAdj0 scenarioAdj1 scenarioAdj2 scenarioAdj3)) 0
        (fun _ => { priority := 0, id := 0 })
        (fun _ => { fromVertex := 0, toVertex := 0, weight := 0 }) = some (some tree) ∧
      ∀ v, 0 ≤ v →
        v < (scenarioGraph scenarioAdj0 scenarioAdj1 scenarioAdj2 scenarioAdj3).numVertices →
        Reach (scenarioGraph scenarioAdj0 scenarioAdj1 scenarioAdj2 scenarioAdj3) 0 v →
        IsDist (scenarioGraph scenarioAdj0 scenarioAdj1 scenarioAdj2 scenarioAdj3) 0 v
          (tree v).weight :=
  ⟨scenario_graphOk (List.Perm.refl _) (List.Perm.refl _) (List.Perm.refl _) (List.Perm.refl _),
    dijkstra_shortest_distances _ 0 _ _
      (scenario_graphOk (List.Perm.refl _) (List.Perm.refl _) (List.Perm.refl _)
        (List.Perm.refl _))
      (by decide) (by decide)
      (fun a b w h => (scenario_weights (List.Perm.refl _) (List.Perm.refl _)
        (List.Perm.refl _) (List.Perm.refl _) a b w h).1)
      scenario_path_sums⟩

theorem primLoop_succ (g : Graph) (fuel : Nat) (r : Records) :
    primLoop g (fuel + 1) r =
      if isEmpty r.heap then some r
      else (primIter g r).bind fun x => primLoop g fuel x.2 := by
  simp only [primLoop, primIter]
  split_ifs
  · rfl
  · cases extractMin r.heap with
    | none => rfl
    | some x =>
      obtain ⟨u, h1⟩ := x
      simp only [Option.bind_eq_bind, Option.some_bind]
      cases setFinished { r with heap := h1 } u.id with
      | none => rfl
      | some r1 =>
        simp only [Option.some_bind]
        cases predecessorAt r1 u.id with
        | none => rfl
        | some pred =>
          simp only [Option.some_bind]
          cases vertexAt g u.id with
          | none => rfl
          | some vtx =>
            simp only [Option.some_bind]
            cases primRelax u.id vtx.adjList _ with
            | none => rfl
            | some r3 => rfl

theorem dijkstraLoop_succ (g : Graph) (s : Int) (fuel : Nat) (r : Records) :
    dijkstraLoop g s (fuel + 1) r =
      if isEmpty r.heap then some r
      else (dijkstraIter g s r).bind fun x => dijkstraLoop g s fuel x.2 := by
  simp only [dijkstraLoop, dijkstraIter]
  split_ifs
  · rfl
  · cases extractMin r.heap with
    | none => rfl
    | some x =>
      obtain ⟨u, h1⟩ := x
      simp only [Option.bind_eq_bind, Option.some_bind]
      cases setFinished { r with heap := h1 } u.id with
      | none => rfl
      | some r1 =>
        simp only [Option.some_bind]
        by_cases c : u.id = s
        · simp only [if_pos c, Option.pure_def, Option.some_bind, Option.bind_eq_bind]
          cases vertexAt g u.id with
          | none => rfl
          | some vtx =>
            simp only [Option.some_bind]
            cases dijkstraRelax u.id u.priority vtx.adjList _ with
            | none => rfl
            | some r3 => rfl
        · simp only [if_neg c, Option.pure_def, Option.some_bind, Option.bind_eq_bind]
          cases predecessorAt r1 u.id with
          | none => rfl
          | some pred =>
            simp only [Option.some_bind]
            cases vertexAt g u.id with
            | none => rfl
            | some vtx =>
              simp only [Option.some_bind]
              cases dijkstraRelax u.id u.priority vtx.adjList _ with
              | none => rfl
              | some r3 => rfl

theorem loopTrace_primLoop (g : Graph) (fuel : Nat) :
    ∀ r, (loopTrace (primIter g) fuel r).map Prod.snd = primLoop g fuel r := by
  induction fuel with
  | zero => intro r; rfl
  | succ fuel ih =>
    intro r
    rw [primLoop_succ]
    simp only [loopTrace]
    split_ifs
    · rfl
    · cases primIter g r with
      | none => rfl
      | some x =>
        simp only [Option.bind_eq_bind, Option.some_bind]
        rw [← ih x.2]
        cases loopTrace (primIter g) fuel x.2 with
        | none => rfl
        | some y => rfl

theorem loopTrace_dijkstraLoop (g : Graph) (s : Int) (fuel : Nat) :
    ∀ r, (loopTrace (dijkstraIter g s) fuel r).map Prod.snd = dijkstraLoop g s fuel r := by
  induction fuel with
  | zero => intro r; rfl
  | succ fuel ih =>
    intro r
    rw [dijkstraLoop_succ]
    simp only [loopTrace]
    split_ifs
    · rfl
    · cases dijkstraIter g s r with
      | none => rfl
      | some x =>
        simp only [Option.bind_eq_bind, Option.some_bind]
        rw [← ih x.2]
        cases loopTrace (dijkstraIter g s) fuel x.2 with
        | none => rfl
        | some y => rfl

theorem primIter_eq {g : Graph} {r : Records} (gok : GraphOk g)
    (inv : RecInv g.numVertices r) (ne : r.heap.size ≠ 0) :
    ∃ h1, extractMin r.heap = some (r.heap.arr 1, h1) ∧
      primIter g r = (relaxLoop (fun w => w) (r.heap.arr 1).id (adjOf g (r.heap.arr 1).id)
        (primMid r h1)).map fun r3 => (r.heap.arr 1, r3) := by
  obtain ⟨h1, ex, su, _, sf, _, _, _⟩ := extract_step inv ne
  obtain ⟨u0, u1⟩ := inv.id_range su
  obtain ⟨vtx, va, vadj⟩ := vertexAt_adjOf gok u0 u1
  have pa : predecessorAt (afterExtract r h1) (r.heap.arr 1).id =
      some (r.predecessors (r.heap.arr 1).id) := by
    simp [predecessorAt, afterExtract, inv.nv, u0, u1]
  refine ⟨h1, ex, ?_⟩
  simp only [primIter, ex, Option.bind_eq_bind, Option.some_bind]
  rw [sf]
  simp only [Option.some_bind, pa, va, primRelax_eq, vadj]
  have : (if r.predecessors (r.heap.arr 1).id ≠ NOTHING then
        { addTreeEdge (afterExtract r h1) (afterExtract r h1).numTreeEdges (r.heap.arr 1).id
            (r.predecessors (r.heap.arr 1).id) (r.heap.arr 1).priority with
          numTreeEdges := (afterExtract r h1).numTreeEdges + 1 }
      else afterExtract r h1) = primMid r h1 := rfl
  rw [this]
  cases relaxLoop (fun w => w) (r.heap.arr 1).id (adjOf g (r.heap.arr 1).id) (primMid r h1) with
  | none => rfl
  | some r3 => rfl

theorem dijkstraIter_eq {g : Graph} {s : Int} {r : Records} (gok : GraphOk g)
    (inv : RecInv g.numVertices r) (ne : r.heap.size ≠ 0) :
    ∃ h1, extractMin r.heap = some (r.heap.arr 1, h1) ∧
      dijkstraIter g s r =
        (relaxLoop (fun w => wrap32 ((r.heap.arr 1).priority + w)) (r.heap.arr 1).id
          (adjOf g (r.heap.arr 1).id) (dijRecorded s r h1)).map fun r3 => (r.heap.arr 1, r3) := by
  obtain ⟨h1, ex, su, _, sf, _, _, _⟩ := extract_step inv ne
  obtain ⟨u0, u1⟩ := inv.id_range su
  obtain ⟨vtx, va, vadj⟩ := vertexAt_adjOf gok u0 u1
  have nv : (afterExtract r h1).numVertices = g.numVertices := inv.nv
  have kb : ¬ ((r.heap.arr 1).id < 0 ∨
      (r.heap.arr 1).id > (afterExtract r h1).numVertices - 1) := by
    rw [nv]; omega
  have pa : predecessorAt (afterExtract r h1) (r.heap.arr 1).id =
      some (r.predecessors (r.heap.arr 1).id) := by
    simp [predecessorAt, afterExtract, inv.nv, u0, u1]
  refine ⟨h1, ex, ?_⟩
  simp only [dijkstraIter, ex, Option.bind_eq_bind, Option.some_bind]
  rw [sf]
  simp only [Option.some_bind]
  by_cases c : (r.heap.arr 1).id = s
  · have r2 : addTreeEdge (afterExtract r h1) (r.heap.arr 1).id (r.heap.arr 1).id
        (r.heap.arr 1).id 0 = dijRecorded s r h1 := by
      rw [addTreeEdge, if_neg kb]
      simp only [dijRecorded, dijEntry, if_pos c]
      rfl
    simp only [if_pos c, Option.pure_def, Option.some_bind, r2, va, dijkstraRelax_eq, vadj]
    cases relaxLoop (fun w => wrap32 ((r.heap.arr 1).priority + w)) (r.heap.arr 1).id
      (adjOf g (r.heap.arr 1).id) (dijRecorded s r h1) with
    | none => rfl
    | some r3 => rfl
  · have r2 : addTreeEdge (afterExtract r h1) (r.heap.arr 1).id (r.heap.arr 1).id
        (r.predecessors (r.heap.arr 1).id) (r.heap.arr 1).priority = dijRecorded s r h1 := by
      rw [addTreeEdge, if_neg kb]
      simp only [dijRecorded, dijEntry, if_neg c]
      rfl
    simp only [if_neg c, pa, Option.pure_def, Option.some_bind, r2, va, dijkstraRelax_eq, vadj]
    cases relaxLoop (fun w => wrap32 ((r.heap.arr 1).priority + w)) (r.heap.arr 1).id
      (adjOf g (r.heap.arr 1).id) (dijRecorded s r h1) with
    | none => rfl
    | some r3 => rfl

theorem loopTrace_spec {n : Int} (iter : Records → Option (HeapNode × Records))
    (P : Records → Prop) (E : Records → Records → Prop)
    (hrefl : ∀ r, E r r) (htrans : ∀ a b c, E a b → E b c → E a c)
    (hrec : ∀ r, P r → RecInv n r)
    (step : ∀ r, P r → r.heap.size ≠ 0 → ∃ r3, iter r = some (r.heap.arr 1, r3) ∧ P r3 ∧
      r3.heap.size = r.heap.size - 1 ∧ E r r3 ∧
      r3.finished = Function.update r.finished (r.heap.arr 1).id true)
    (fuel : Nat) :
    ∀ r, P r → r.heap.size + 1 ≤ fuel →
      ∃ log last, loopTrace iter fuel r = some (log, last) ∧ P last ∧ last.heap.size = 0 ∧
        E r last ∧ (log.length : Int) = r.heap.size ∧
        (∀ x ∈ log, P x.1 ∧ x.1.heap.size ≠ 0 ∧ x.2 = x.1.heap.arr 1 ∧ E r x.1 ∧
          ∃ r3, iter x.1 = some (x.2, r3) ∧ E r3 last) ∧
        (log.map fun x => x.2.id).Nodup ∧
        (∀ v, last.finished v = true ↔
          r.finished v = true ∨ v ∈ log.map fun x => x.2.id) ∧
        (∀ x ∈ log, r.finished x.2.id = false) := by
  induction fuel with
  | zero =>
    intro r inv hf
    have := (hrec r inv).size0
    omega
  | succ fuel ih =>
    intro r inv hf
    by_cases ne : r.heap.size = 0
    · refine ⟨[], r, by simp [loopTrace, isEmpty, ne], inv, ne, hrefl r, by simp [ne], ?_, ?_, ?_,
        ?_⟩
      · intro x hx; cases hx
      · simp
      · intro v; simp
      · intro x hx; cases hx
    · obtain ⟨r3, it, inv3, sz3, e3, f3⟩ := step r inv ne
      obtain ⟨log, last, run, invl, z, el, len, hlog, nd, fin, unf⟩ :=
        ih r3 inv3 (by push_cast at hf; omega)
      have hs : 1 ≤ r.heap.size := by have := (hrec r inv).size0; omega
      have uf : r.finished (r.heap.arr 1).id = false :=
        (hrec r inv).unfinished ⟨1, le_refl _, hs, rfl⟩
      have ie : isEmpty r.heap = false := by simp [isEmpty, ne]
      refine ⟨(r, r.heap.arr 1) :: log, last, ?_, invl, z, htrans _ _ _ e3 el, ?_, ?_, ?_, ?_, ?_⟩
      · simp [loopTrace, ie, it, run]
      · simp only [List.length_cons]; push_cast; omega
      · intro x hx
        rcases List.mem_cons.1 hx with e | hx
        · subst e
          exact ⟨inv, ne, rfl, hrefl r, r3, it, el⟩
        · obtain ⟨a, b, c, d, e⟩ := hlog x hx
          exact ⟨a, b, c, htrans _ _ _ e3 d, e⟩
      · simp only [List.map_cons, List.nodup_cons]
        refine ⟨?_, nd⟩
        intro hm
        obtain ⟨x, hx, e⟩ := List.mem_map.1 hm
        have := unf x hx
        rw [e, f3, Function.update_same] at this
        exact absurd this (by decide)
      · intro v
        rw [fin v, f3]
        simp only [List.map_cons, List.mem_cons]
        by_cases c : v = (r.heap.arr 1).id
        · subst c
          simp
        · rw [Function.update_noteq c]
          simp [c]
      · intro x hx
        rcases List.mem_cons.1 hx with e | hx
        · subst e; exact uf
        · have := unf x hx
          rw [f3] at this
          by_cases c : x.2.id = (r.heap.arr 1).id
          · rw [c, Function.update_same] at this
            exact absurd this (by decide)
          · rwa [Function.update_noteq c] at this

theorem Keeps.self (r : Records) : Keeps r r := fun _ h => ⟨h, rfl, rfl⟩

theorem Keeps.compose {a b c : Records} (h1 : Keeps a b) (h2 : Keeps b c) : Keeps a c := by
  intro v hv
  obtain ⟨x, y, z⟩ := h1 v hv
  obtain ⟨x', y', z'⟩ := h2 v x
  exact ⟨x', by rw [y', y], by rw [z', z]⟩

theorem stored_after_relax {n : Int} {cand : Int → Int} {uid : Int} {adj : List Edge}
    {r2 r3 : Records} (inv2 : RecInv n r2) (inv3 : RecInv n r3)
    (f3 : r3.finished = r2.finished)
    (st3 : ∀ v p, Stored r2.heap { priority := p, id := v } →
      Stored r3.heap { priority := relaxed cand adj v p, id := v } ∧
      r3.predecessors v = if relaxed cand adj v p < p then uid else r2.predecessors v)
    {v p : Int} (sp : Stored r3.heap { priority := p, id := v }) :
    ∃ p0, Stored r2.heap { priority := p0, id := v } ∧ p ≤ p0 ∧
      (∀ e ∈ adj, e.toVertex = v → p ≤ cand e.weight) ∧
      ((p = p0 ∧ r3.predecessors v = r2.predecessors v) ∨
       (∃ e ∈ adj, e.toVertex = v ∧ p = cand e.weight ∧ p < p0 ∧ r3.predecessors v = uid)) := by
  obtain ⟨v0, v1⟩ := inv3.id_range sp
  have unf3 := inv3.unfinished sp
  dsimp only at unf3
  rw [f3] at unf3
  obtain ⟨p0, sp0⟩ := (inv2.fin v v0 v1).1 unf3
  obtain ⟨sp3, pr3⟩ := st3 v p0 sp0
  have pe := congrArg HeapNode.priority (Stored.priority_unique inv3.ok sp sp3 rfl)
  dsimp only at pe
  refine ⟨p0, sp0, by rw [pe]; exact relaxed_le cand adj v p0, ?_, ?_⟩
  · intro e he ev
    rw [pe]
    exact relaxed_le_cand cand adj v p0 e he ev
  · rcases relaxed_eq cand adj v p0 with e | ⟨e, he, ev, ee, lt⟩
    · left
      rw [e, if_neg (lt_irrefl _)] at pr3
      exact ⟨by rw [pe, e], pr3⟩
    · right
      rw [ee, if_pos lt] at pr3
      exact ⟨e, he, ev, by rw [pe, ee], by rw [pe, ee]; exact lt, pr3⟩

theorem dijTree_init {g : Graph} {s : Int} {r : Records}
    (inv : RecInv g.numVertices r) (sz : r.heap.size = g.numVertices)
    (fin : r.finished = fun _ => false) (pr : r.predecessors = fun _ => NOTHING)
    (st : ∀ v, 0 ≤ v → v < g.numVertices →
      Stored r.heap { priority := initPriority s v, id := v }) :
    DijTree g s (fun _ => 0) r := by
  have nf : ∀ v, r.finished v = true → False := by
    intro v h
    rw [fin] at h
    exact Bool.false_ne_true h
  refine ⟨inv, by omega, ?_, fun h => (nf _ h).elim, fun v _ _ h => (nf _ h).elim,
    fun v _ _ h => (nf _ h).elim, fun v _ _ h => (nf _ h).elim, ?_⟩
  · intro _ v v0 v1
    exact ⟨st v v0 v1, by rw [pr]⟩
  · intro v p sp vs
    left
    obtain ⟨v0, v1⟩ := inv.id_range sp
    have := Stored.priority_unique inv.ok sp (st v v0 v1) rfl
    have e := congrArg HeapNode.priority this
    dsimp only at e
    refine ⟨by rw [pr], ?_⟩
    rw [e]
    simp [initPriority, vs]

theorem dijTree_step {g : Graph} {s : Int} {r : Records} {rank : Int → Nat} (gok : GraphOk g)
    (s0 : 0 ≤ s) (s1 : s < g.numVertices) (inv : DijTree g s rank r) (ne : r.heap.size ≠ 0) :
    ∃ r3, dijkstraIter g s r = some (r.heap.arr 1, r3) ∧ (∃ rank3, DijTree g s rank3 r3) ∧
      r3.heap.size = r.heap.size - 1 ∧ Keeps r r3 ∧
      r3.finished = Function.update r.finished (r.heap.arr 1).id true ∧
      r3.tree = Function.update r.tree (r.heap.arr 1).id (dijEntry s r) ∧
      (dijEntry s r).weight = (r.heap.arr 1).priority ∧
      r3.predecessors (r.heap.arr 1).id = r.predecessors (r.heap.arr 1).id ∧
      ∀ v, r3.predecessors v = r.predecessors v ∨
        (r3.predecessors v = (r.heap.arr 1).id ∧ r.finished v = false ∧
          ∃ w, IsEdge g (r.heap.arr 1).id v w) := by
  obtain ⟨h1, ex, su, umin, sf, inv1, sz1, st1⟩ := extract_step inv.recs ne
  obtain ⟨h1', ex', ieq⟩ := dijkstraIter_eq (s := s) gok inv.recs ne
  have hh : h1' = h1 := by
    rw [ex] at ex'
    injection ex' with e
    injection e with _ e
    exact e.symm
  subst hh
  obtain ⟨u0, u1⟩ := inv.recs.id_range su
  have uf := inv.recs.unfinished su
  have inv2 : RecInv g.numVertices (dijRecorded s r h1') :=
    ⟨inv1.nv, inv1.cap, inv1.ok, inv1.ho, inv1.size0, inv1.fin⟩
  obtain ⟨r3, run, inv3, f3, t3, _, s3, st3, ns3⟩ :=
    relaxLoop_spec (n := g.numVertices) (fun w => wrap32 ((r.heap.arr 1).priority + w))
      (r.heap.arr 1).id (adjOf g (r.heap.arr 1).id) (dijRecorded s r h1') inv2 (gok.target _)
  have f3' : r3.finished = Function.update r.finished (r.heap.arr 1).id true := f3
  have t3' : r3.tree = Function.update r.tree (r.heap.arr 1).id (dijEntry s r) := t3
  have hfu : r3.finished (r.heap.arr 1).id = true := by rw [f3', Function.update_same]
  have hne : ∀ x, r.finished x = true → x ≠ (r.heap.arr 1).id := by
    intro x hx e
    rw [e, uf] at hx
    exact absurd hx (by decide)
  have hfm : ∀ x, r.finished x = true → r3.finished x = true := by
    intro x hx
    rw [f3', Function.update_noteq (hne x hx)]
    exact hx
  have hfo : ∀ x, r3.finished x = true → x ≠ (r.heap.arr 1).id → r.finished x = true := by
    intro x hx e
    rwa [f3', Function.update_noteq e] at hx
  have hto : ∀ x, x ≠ (r.heap.arr 1).id → r3.tree x = r.tree x := by
    intro x e
    rw [t3', Function.update_noteq e]
  have htu : r3.tree (r.heap.arr 1).id = dijEntry s r := by rw [t3', Function.update_same]
  have hpf : ∀ x, r3.finished x = true → r3.predecessors x = r.predecessors x := by
    intro x hx
    refine ns3 x ?_
    intro p sp
    have := inv2.unfinished sp
    have e : (dijRecorded s r h1').finished = r3.finished := f3.symm
    rw [e] at this
    dsimp only at this
    rw [hx] at this
    exact absurd this (by decide)
  have keep : Keeps r r3 := fun v hv => ⟨hfm v hv, hto v (hne v hv), hpf v (hfm v hv)⟩
  have hcase : (r.heap.arr 1).id = s ∨ ((r.heap.arr 1).id ≠ s ∧ r.finished s = true) := by
    by_cases c : (r.heap.arr 1).id = s
    · exact Or.inl c
    · right
      refine ⟨c, ?_⟩
      cases hs : r.finished s
      · exfalso
        have root := initPriority_root inv.recs s0 s1 ne (fun v v0 v1 => (inv.start hs v v0 v1).1)
        rw [root] at c
        exact c rfl
      · rfl
  have hw : (dijEntry s r).weight = (r.heap.arr 1).priority := by
    rcases hcase with c | ⟨c, _⟩
    · have hs : r.finished s = false := by rw [← c]; exact uf
      have root := initPriority_root inv.recs s0 s1 ne (fun v v0 v1 => (inv.start hs v v0 v1).1)
      simp only [dijEntry, if_pos c]
      rw [root]
    · simp only [dijEntry, if_neg c]
  have hfs : r3.finished s = true := by
    rcases hcase with c | ⟨_, c⟩
    · rw [← c]; exact hfu
    · exact hfm s c
  have hroot : r3.tree s = { fromVertex := s, toVertex := s, weight := 0 } := by
    rcases hcase with c | ⟨c, fs⟩
    · rw [← c, htu]
      simp only [dijEntry, if_pos c]
    · rw [hto s (Ne.symm c)]
      exact inv.root fs
  have hsz : 0 ≤ r.heap.size := inv.recs.size0
  have hsize := inv.sz
  refine ⟨r3, ?_, ⟨Function.update rank (r.heap.arr 1).id
      (g.numVertices - r.heap.size + 1).toNat, ?_⟩, by rw [s3]; exact sz1, keep, f3', t3', hw,
    hpf _ hfu, ?_⟩
  · rw [ieq, run]
    rfl
  rotate_left
  · intro v
    by_cases hv : ∃ p, Stored r3.heap { priority := p, id := v }
    · obtain ⟨p, sp⟩ := hv
      obtain ⟨p0, sp0, _, _, cs⟩ := stored_after_relax inv2 inv3 f3 st3 sp
      have sp0' : Stored h1' { priority := p0, id := v } := sp0
      obtain ⟨spr, _⟩ := (st1 _).1 sp0'
      rcases cs with ⟨_, b⟩ | ⟨e, he, ev, _, _, b⟩
      · exact Or.inl b
      · exact Or.inr ⟨b, inv.recs.unfinished spr, e.weight, e, he, ev, rfl⟩
    · left
      refine ns3 v ?_
      intro p sp
      exact hv ⟨_, (st3 v p sp).1⟩
  · refine ⟨inv3, by rw [s3]; show h1'.size ≤ _; omega, ?_, fun _ => hroot, ?_, ?_, ?_, ?_⟩
    · intro h
      rw [hfs] at h
      exact absurd h (by decide)
    · intro v v0 v1 fv vs
      by_cases c : v = (r.heap.arr 1).id
      · subst c
        rw [htu, hpf _ hfu]
        simp only [dijEntry, if_neg vs, and_self]
      · rw [hto v c, hpf v fv]
        exact inv.lay v v0 v1 (hfo v fv c) vs
    · intro v v0 v1 fv
      have s3' : r3.heap.size = r.heap.size - 1 := by rw [s3]; exact sz1
      by_cases c : v = (r.heap.arr 1).id
      · subst c
        rw [Function.update_same, s3']
        omega
      · rw [Function.update_noteq c, s3']
        have := inv.rk v v0 v1 (hfo v fv c)
        omega
    · intro v v0 v1 fv vs
      rw [hpf v fv]
      by_cases c : v = (r.heap.arr 1).id
      · subst c
        rw [htu, hw, Function.update_same]
        rcases inv.linkS _ _ su vs with ⟨a, b⟩ | ⟨a, w, ew, pw⟩
        · exact Or.inl ⟨a, b⟩
        · right
          obtain ⟨p0, p1⟩ := ew.source_range
          have pne := hne _ a
          have := inv.rk _ p0 p1 a
          refine ⟨hfm _ a, ?_, w, ew, ?_⟩
          · rw [Function.update_noteq pne]
            omega
          · rw [hto _ pne]
            exact pw
      · rw [hto v c]
        rcases inv.linkF v v0 v1 (hfo v fv c) vs with ⟨a, b⟩ | ⟨a, rkp, w, ew, pw⟩
        · exact Or.inl ⟨a, b⟩
        · right
          have pne := hne _ a
          refine ⟨hfm _ a, ?_, w, ew, ?_⟩
          · rw [Function.update_noteq pne, Function.update_noteq c]
            exact rkp
          · rw [hto _ pne]
            exact pw
    · intro v p sp vs
      obtain ⟨v0, v1⟩ := inv3.id_range sp
      have unf3 := inv3.unfinished sp
      dsimp only at unf3
      have unf2 : (dijRecorded s r h1').finished v = false := by
        have e : (dijRecorded s r h1').finished = r3.finished := f3.symm
        rw [e]; exact unf3
      obtain ⟨p0, sp0⟩ := (inv2.fin v v0 v1).1 unf2
      obtain ⟨sp3, pr3⟩ := st3 v p0 sp0
      replace pr3 : r3.predecessors v =
          if relaxed (fun w => wrap32 ((r.heap.arr 1).priority + w))
            (adjOf g (r.heap.arr 1).id) v p0 < p0 then (r.heap.arr 1).id
          else r.predecessors v := pr3
      have pe := congrArg HeapNode.priority (Stored.priority_unique inv3.ok sp sp3 rfl)
      dsimp only at pe
      have sp0' : Stored h1' { priority := p0, id := v } := sp0
      obtain ⟨spr, vne⟩ := (st1 _).1 sp0'
      dsimp only at vne
      rcases relaxed_eq (fun w => wrap32 ((r.heap.arr 1).priority + w))
        (adjOf g (r.heap.arr 1).id) v p0 with e | ⟨e, he, ev, ee, lt⟩
      · rw [e] at pr3
        rw [if_neg (lt_irrefl _)] at pr3
        rw [pr3, pe, e]
        rcases inv.linkS v p0 spr vs with ⟨a, b⟩ | ⟨a, w, ew, pw⟩
        · exact Or.inl ⟨a, b⟩
        · right
          refine ⟨hfm _ a, w, ew, ?_⟩
          rw [hto _ (hne _ a)]
          exact pw
      · rw [ee, if_pos lt] at pr3
        right
        rw [pr3, pe, ee, htu, hw]
        exact ⟨hfu, e.weight, ⟨e, he, ev, rfl⟩, rfl⟩

theorem dijkstraTrace_run (g : Graph) (s : Int) (junk : Int → HeapNode) (junkTree : Int → Edge) :
    (dijkstraTrace g s junk junkTree).map Prod.snd = dijkstraRun g s junk junkTree := by
  simp only [dijkstraTrace, dijkstraRun]
  cases initRecords g s junk junkTree with
  | none => rfl
  | some r => exact loopTrace_dijkstraLoop g s _ r

theorem primTrace_run (g : Graph) (s : Int) (junk : Int → HeapNode) (junkTree : Int → Edge) :
    (primTrace g s junk junkTree).map Prod.snd = primRun g s junk junkTree := by
  simp only [primTrace, primRun]
  cases initRecords g s junk junkTree with
  | none => rfl
  | some r => exact loopTrace_primLoop g _ r

theorem ids_perm_range {n : Int} {ids : List Int} (nd : ids.Nodup)
    (mem : ∀ v, v ∈ ids ↔ 0 ≤ v ∧ v < n) :
    ids.Perm ((List.range n.toNat).map fun (i : Nat) => (i : Int)) := by
  refine (List.perm_ext_iff_of_nodup nd ?_).2 ?_
  · refine (List.nodup_range _).map ?_
    intro a b h
    exact Int.ofNat.inj h
  · intro v
    rw [mem v, List.mem_map]
    constructor
    · rintro ⟨v0, v1⟩
      exact ⟨v.toNat, List.mem_range.2 (by omega), by omega⟩
    · rintro ⟨i, hi, rfl⟩
      have := List.mem_range.1 hi
      omega

theorem dijkstraTrace_spec {g : Graph} {s : Int} (gok : GraphOk g) (s0 : 0 ≤ s)
    (s1 : s < g.numVertices) (junk : Int → HeapNode) (junkTree : Int → Edge) :
    ∃ log r rank, dijkstraTrace g s junk junkTree = some (log, r) ∧
      dijkstraRun g s junk junkTree = some r ∧ DijTree g s rank r ∧ r.heap.size = 0 ∧
      (∀ v, 0 ≤ v → v < g.numVertices → r.finished v = true) ∧
      (log.map fun x => x.2.id).Perm
        ((List.range g.numVertices.toNat).map fun (i : Nat) => (i : Int)) ∧
      ∀ x ∈ log, x.2 = x.1.heap.arr 1 ∧ r.tree x.2.id = dijEntry s x.1 ∧
        (dijEntry s x.1).weight = x.2.priority ∧
        r.predecessors x.2.id = x.1.predecessors x.2.id := by
  obtain ⟨r0, i0, inv0, sz, _, fin, pr, _, st⟩ :=
    initRecords_spec g s junk junkTree (by omega)
  have P0 : ∃ rank, DijTree g s rank r0 := ⟨_, dijTree_init inv0 sz fin pr st⟩
  obtain ⟨log, last, run, ⟨rank, invl⟩, z, _, _, hlog, nd, hfin, _⟩ :=
    loopTrace_spec (n := g.numVertices) (dijkstraIter g s) (fun r => ∃ rank, DijTree g s rank r)
      Keeps Keeps.self (fun _ _ _ => Keeps.compose) (fun r h => h.choose_spec.recs)
      (by
        rintro r ⟨rank, inv⟩ ne
        obtain ⟨r3, it, inv3, sz3, k3, f3, _⟩ := dijTree_step gok s0 s1 inv ne
        exact ⟨r3, it, inv3, sz3, k3, f3⟩)
      (g.numVertices.toNat + 1) r0 P0 (by omega)
  have tr : dijkstraTrace g s junk junkTree = some (log, last) := by
    simp only [dijkstraTrace, i0, Option.bind_eq_bind, Option.some_bind]
    exact run
  have allfin : ∀ v, 0 ≤ v → v < g.numVertices → last.finished v = true := by
    intro v v0 v1
    cases h : last.finished v
    · obtain ⟨p, t, t1, t2, _⟩ := (invl.recs.fin v v0 v1).1 h
      omega
    · rfl
  refine ⟨log, last, rank, tr, ?_, invl, z, allfin, ?_, ?_⟩
  · rw [← dijkstraTrace_run, tr]
    rfl
  · refine ids_perm_range nd ?_
    intro v
    constructor
    · intro hv
      obtain ⟨x, hx, e⟩ := List.mem_map.1 hv
      obtain ⟨⟨rk, px⟩, nex, ex, _, _⟩ := hlog x hx
      have hs : 1 ≤ x.1.heap.size := by have := px.recs.size0; omega
      have := px.recs.id_range (x := x.1.heap.arr 1) ⟨1, le_refl _, hs, rfl⟩
      rw [← e, ex]
      exact this
    · rintro ⟨v0, v1⟩
      have := (hfin v).1 (allfin v v0 v1)
      rw [fin] at this
      rcases this with h | h
      · exact absurd h Bool.false_ne_true
      · exact h
  · intro x hx
    obtain ⟨⟨rk, px⟩, nex, ex, _, r3, it, k3⟩ := hlog x hx
    obtain ⟨r3', it', _, _, _, f3, t3, hw, hp, _⟩ := dijTree_step gok s0 s1 px nex
    have e3 : r3' = r3 := by
      rw [it'] at it
      injection it with e
      injection e
    subst e3
    have fu : r3'.finished x.2.id = true := by rw [f3, ex, Function.update_same]
    obtain ⟨_, kt, kp⟩ := k3 _ fu
    refine ⟨ex, ?_, ?_, ?_⟩
    · rw [kt, t3, ex, Function.update_same]
    · rw [ex]; exact hw
    · rw [kp, ex]; exact hp

/-- C13. Distance-tree layout: for every well-formed graph and valid source
`s`, the run of `getDistanceTreeDijkstra` returns a tree whose entry at every
index `v` in `[0, numVertices)` has `fromVertex == v` and, for `v ≠ s`, as
`toVertex` the predecessor recorded for `v`; the entry at index `s` is
`(s, s, 0)`.  Every iteration writes the tree once, at the index of the vertex
it extracts: the indices written, in order, are a rearrangement of
`0, ..., numVertices - 1` (every index is written exactly once), and the
entry of an extracted vertex has as weight the priority it was extracted with
and, away from the source, as `toVertex` its predecessor at that time. -/
theorem distance_tree_layout (g : Graph) (s : Int) (junk : Int → HeapNode)
    (junkTree : Int → Edge) (gok : GraphOk g) (s0 : 0 ≤ s) (s1 : s < g.numVertices) :
    ∃ log r, dijkstraTrace g s junk junkTree = some (log, r) ∧
      getDistanceTreeDijkstra (some g) s junk junkTree = some (some r.tree) ∧
      r.tree s = { fromVertex := s, toVertex := s, weight := 0 } ∧
      (∀ v, 0 ≤ v → v < g.numVertices →
        (r.tree v).fromVertex = v ∧ (v ≠ s → (r.tree v).toVertex = r.predecessors v)) ∧
      (log.map fun x => x.2.id).Perm
        ((List.range g.numVertices.toNat).map fun (i : Nat) => (i : Int)) ∧
      ∀ x ∈ log, (r.tree x.2.id).weight = x.2.priority ∧
        (x.2.id ≠ s → (r.tree x.2.id).toVertex = x.1.predecessors x.2.id) := by
  obtain ⟨log, r, rank, tr, run, inv, z, allfin, perm, hlog⟩ :=
    dijkstraTrace_spec gok s0 s1 junk junkTree
  have root := inv.root (allfin s s0 s1)
  refine ⟨log, r, tr, ?_, root, ?_, perm, ?_⟩
  · have : ¬ (s < 0 ∨ s ≥ g.numVertices) := by omega
    simp [getDistanceTreeDijkstra, this, run]
  · intro v v0 v1
    by_cases c : v = s
    · subst c
      rw [root]
      exact ⟨rfl, fun h => absurd rfl h⟩
    · exact ⟨(inv.lay v v0 v1 (allfin v v0 v1) c).1, fun _ =>
        (inv.lay v v0 v1 (allfin v v0 v1) c).2⟩
  · intro x hx
    obtain ⟨ex, te, we, pe⟩ := hlog x hx
    refine ⟨by rw [te, we], ?_⟩
    intro c
    rw [te]
    rw [ex] at c
    simp only [dijEntry, if_neg c]
    rw [ex]

theorem distance_tree_layout_witness :
    GraphOk (scenarioGraph scenarioAdj0 scenarioAdj1 scenarioAdj2 scenarioAdj3) ∧
    ∃ log r, dijkstraTrace (scenarioGraph scenarioAdj0 scenarioAdj1 scenarioAdj2 scenarioAdj3) 0
        (fun _ => { priority := 0, id := 0 })
        (fun _ => { fromVertex := 0, toVertex := 0, weight := 0 }) = some (log, r) ∧
      getDistanceTreeDijkstra
        (some (scenarioGraph scenarioAdj0 scenarioAdj1 scenarioAdj2 scenarioAdj3)) 0
        (fun _ => { priority := 0, id := 0 })
        (fun _ => { fromVertex := 0, toVertex := 0, weight := 0 }) = some (some r.tree) ∧
      r.tree 0 = { fromVertex := 0, toVertex := 0, weight := 0 } ∧
      (∀ v, 0 ≤ v →
        v < (scenarioGraph scenarioAdj0 scenarioAdj1 scenarioAdj2 scenarioAdj3).numVertices →
        (r.tree v).fromVertex = v ∧ (v ≠ 0 → (r.tree v).toVertex = r.predecessors v)) ∧
      (log.map fun x => x.2.id).Perm
        ((List.range
          (scenarioGraph scenarioAdj0 scenarioAdj1 scenarioAdj2 scenarioAdj3).numVertices.toNat).map
            fun (i : Nat) => (i : Int)) ∧
      ∀ x ∈ log, (r.tree x.2.id).weight = x.2.priority ∧
        (x.2.id ≠ 0 → (r.tree x.2.id).toVertex = x.1.predecessors x.2.id) :=
  ⟨scenario_graphOk (List.Perm.refl _) (List.Perm.refl _) (List.Perm.refl _) (List.Perm.refl _),
    distance_tree_layout _ 0 _ _
      (scenario_graphOk (List.Perm.refl _) (List.Perm.refl _) (List.Perm.refl _)
        (List.Perm.refl _))
      (by decide) (by decide)⟩

/-- C20. Edge construction: `newEdge(from, to, w)` ends in the fatal error,
producing no edge, if and only if `w < 0`; for every `w >= 0` it produces the
edge whose `fromVertex`, `toVertex` and `weight` are exactly `from`, `to` and
`w`. -/
theorem newEdge_contract (fromVertex toVertex w : Int) :
    (newEdge fromVertex toVertex w = none ↔ w < 0) ∧
    (0 ≤ w → newEdge fromVertex toVertex w =
      some { fromVertex := fromVertex, toVertex := toVertex, weight := w }) := by
  unfold newEdge
  constructor
  · by_cases c : w < 0
    · simp [c]
    · simp [c]
  · intro h
    rw [if_neg (by omega)]

theorem newEdge_contract_witness :
    newEdge 0 1 4 = some { fromVertex := 0, toVertex := 1, weight := 4 } :=
  (newEdge_contract 0 1 4).2 (by decide)

theorem primGen_init {g : Graph} {s : Int} {r : Records}
    (inv : RecInv g.numVertices r) (sz : r.heap.size = g.numVertices) (k : r.numTreeEdges = 0)
    (fin : r.finished = fun _ => false) (pr : r.predecessors = fun _ => NOTHING)
    (st : ∀ v, 0 ≤ v → v < g.numVertices →
      Stored r.heap { priority := initPriority s v, id := v }) :
    PrimGen g s r := by
  have nf : ∀ v, r.finished v = true → False := by
    intro v h
    rw [fin] at h
    exact Bool.false_ne_true h
  refine ⟨inv, by omega, by omega, fun h => (nf _ h).elim,
    fun _ => ⟨k, fun v v0 v1 => ⟨st v v0 v1, by rw [pr]⟩⟩, ?_, ?_, Or.inr ⟨?_, ?_, ?_, ?_, ?_⟩⟩
  · intro v p _ h
    rw [pr] at h
    exact absurd rfl h
  · intro i i0 i1
    omega
  · intro v _ _ h
    exact (nf _ h).elim
  · intro v _ _ _
    rw [pr]
  · intro v p sp _
    obtain ⟨v0, v1⟩ := inv.id_range sp
    have := Stored.priority_unique inv.ok sp (st v v0 v1) rfl
    exact congrArg HeapNode.priority this
  · intro v p _ u w h
    exact (nf _ h).elim
  · intro i i0 i1
    omega

theorem primMid_fields (r : Records) (h1 : MinHeap) :
    (primMid r h1).heap = h1 ∧
    (primMid r h1).finished = Function.update r.finished (r.heap.arr 1).id true ∧
    (primMid r h1).numVertices = r.numVertices ∧
    (primMid r h1).predecessors = r.predecessors := by
  unfold primMid addTreeEdge afterExtract
  split_ifs <;> exact ⟨rfl, rfl, rfl, rfl⟩

theorem primMid_nothing {r : Records} {h1 : MinHeap}
    (h : r.predecessors (r.heap.arr 1).id = NOTHING) : primMid r h1 = afterExtract r h1 := by
  unfold primMid
  rw [if_neg (by simpa using h)]

theorem primMid_recorded {r : Records} {h1 : MinHeap}
    (h : r.predecessors (r.heap.arr 1).id ≠ NOTHING) (k0 : 0 ≤ r.numTreeEdges)
    (k1 : r.numTreeEdges ≤ r.numVertices - 1) : primMid r h1 = primRecorded r h1 := by
  unfold primMid
  rw [if_pos h]
  unfold addTreeEdge
  have : ¬ (r.numTreeEdges < 0 ∨ r.numTreeEdges > (afterExtract r h1).numVertices - 1) := by
    show ¬ (r.numTreeEdges < 0 ∨ r.numTreeEdges > r.numVertices - 1)
    omega
  rw [if_neg this]
  rfl

theorem primIter_total {g : Graph} {r : Records} (gok : GraphOk g)
    (inv : RecInv g.numVertices r) (ne : r.heap.size ≠ 0) :
    ∃ r3, primIter g r = some (r.heap.arr 1, r3) ∧ RecInv g.numVertices r3 ∧
      r3.heap.size = r.heap.size - 1 ∧
      r3.finished = Function.update r.finished (r.heap.arr 1).id true := by
  obtain ⟨h1, ex, su, umin, sf, inv1, sz1, st1⟩ := extract_step inv ne
  obtain ⟨h1', ex', ieq⟩ := primIter_eq gok inv ne
  have hh : h1' = h1 := by
    rw [ex] at ex'
    injection ex' with e
    injection e with _ e
    exact e.symm
  subst hh
  obtain ⟨mh, mf, mn, mp⟩ := primMid_fields r h1'
  have inv2 : RecInv g.numVertices (primMid r h1') := by
    refine ⟨by rw [mn]; exact inv.nv, by rw [mh]; exact inv1.cap, by rw [mh]; exact inv1.ok,
      by rw [mh]; exact inv1.ho, by rw [mh]; exact inv1.size0, ?_⟩
    rw [mh, mf]
    exact inv1.fin
  obtain ⟨r3, run, inv3, f3, _, _, s3, _, _⟩ :=
    relaxLoop_spec (n := g.numVertices) (fun w => w) (r.heap.arr 1).id
      (adjOf g (r.heap.arr 1).id) (primMid r h1') inv2 (gok.target _)
  refine ⟨r3, by rw [ieq, run]; rfl, inv3, by rw [s3, mh]; exact sz1, by rw [f3, mf]⟩

theorem primGen_step {g : Graph} {s : Int} {r : Records} (gok : GraphOk g) (s0 : 0 ≤ s)
    (s1 : s < g.numVertices) (hlt : ∀ a b w, IsEdge g a b w → w < INT_MAX)
    (inv : PrimGen g s r) (ne : r.heap.size ≠ 0) :
    ∃ r3, primIter g r = some (r.heap.arr 1, r3) ∧ PrimGen g s r3 ∧
      r3.heap.size = r.heap.size - 1 ∧
      r3.finished = Function.update r.finished (r.heap.arr 1).id true := by
  obtain ⟨h1, ex, su, umin, sf, inv1, sz1, st1⟩ := extract_step inv.recs ne
  obtain ⟨h1', ex', ieq⟩ := primIter_eq gok inv.recs ne
  have hh : h1' = h1 := by
    rw [ex] at ex'
    injection ex' with e
    injection e with _ e
    exact e.symm
  subst hh
  obtain ⟨u0, u1⟩ := inv.recs.id_range su
  have uf := inv.recs.unfinished su
  obtain ⟨mh, mf, mn, mp⟩ := primMid_fields r h1'
  have inv2 : RecInv g.numVertices (primMid r h1') := by
    refine ⟨by rw [mn]; exact inv.recs.nv, by rw [mh]; exact inv1.cap, by rw [mh]; exact inv1.ok,
      by rw [mh]; exact inv1.ho, by rw [mh]; exact inv1.size0, ?_⟩
    rw [mh, mf]
    exact inv1.fin
  obtain ⟨r3, run, inv3, f3, t3, k3, s3, st3, ns3⟩ :=
    relaxLoop_spec (n := g.numVertices) (fun w => w) (r.heap.arr 1).id
      (adjOf g (r.heap.arr 1).id) (primMid r h1') inv2 (gok.target _)
  have f3' : r3.finished = Function.update r.finished (r.heap.arr 1).id true := by rw [f3, mf]
  have s3' : r3.heap.size = r.heap.size - 1 := by rw [s3, mh]; exact sz1
  have hfu : r3.finished (r.heap.arr 1).id = true := by rw [f3', Function.update_same]
  have hne : ∀ x, r.finished x = true → x ≠ (r.heap.arr 1).id := by
    intro x hx e
    rw [e, uf] at hx
    exact absurd hx (by decide)
  have hfm : ∀ x, r.finished x = true → r3.finished x = true := by
    intro x hx
    rw [f3', Function.update_noteq (hne x hx)]
    exact hx
  have hfo : ∀ x, r3.finished x = true → x ≠ (r.heap.arr 1).id → r.finished x = true := by
    intro x hx e
    rwa [f3', Function.update_noteq e] at hx
  have hpf : ∀ x, r3.finished x = true → r3.predecessors x = r.predecessors x := by
    intro x hx
    rw [← mp]
    refine ns3 x ?_
    intro p sp
    have := inv2.unfinished sp
    rw [← f3] at this
    dsimp only at this
    rw [hx] at this
    exact absurd this (by decide)
  -- every stored vertex of `r3` comes from one stored in `r`
  have hst : ∀ v p, Stored r3.heap { priority := p, id := v } →
      ∃ p0, Stored r.heap { priority := p0, id := v } ∧ v ≠ (r.heap.arr 1).id ∧ p ≤ p0 ∧
        (∀ w, IsEdge g (r.heap.arr 1).id v w → p ≤ w) ∧
        ((p = p0 ∧ r3.predecessors v = r.predecessors v) ∨
         (IsEdge g (r.heap.arr 1).id v p ∧ r3.predecessors v = (r.heap.arr 1).id)) := by
    intro v p sp
    obtain ⟨p0, sp0, le, lc, cs⟩ := stored_after_relax inv2 inv3 f3 st3 sp
    rw [mh] at sp0
    obtain ⟨spr, vne⟩ := (st1 _).1 sp0
    refine ⟨p0, spr, vne, le, ?_, ?_⟩
    · rintro w ⟨e, he, ev, ew⟩
      rw [← ew]
      exact lc e he ev
    · rcases cs with ⟨a, b⟩ | ⟨e, he, ev, ee, _, b⟩
      · left
        rw [mp] at b
        exact ⟨a, b⟩
      · right
        exact ⟨⟨e, he, ev, ee.symm⟩, b⟩
  have hcase : (r.heap.arr 1).id = s ∨ ((r.heap.arr 1).id ≠ s ∧ r.finished s = true) := by
    by_cases c : (r.heap.arr 1).id = s
    · exact Or.inl c
    · right
      refine ⟨c, ?_⟩
      cases hs : r.finished s
      · exfalso
        have root := initPriority_root inv.recs s0 s1 ne
          (fun v v0 v1 => ((inv.start hs).2 v v0 v1).1)
        rw [root] at c
        exact c rfl
      · rfl
  have hfs : r3.finished s = true := by
    rcases hcase with c | ⟨_, c⟩
    · rw [← c]; exact hfu
    · exact hfm s c
  have hsz : 1 ≤ r.heap.size := by have := inv.recs.size0; omega
  -- the two shapes of the records when the inner loop starts
  have hmid : (r.predecessors (r.heap.arr 1).id = NOTHING ∧ r3.tree = r.tree ∧
        r3.numTreeEdges = r.numTreeEdges) ∨
      (r.predecessors (r.heap.arr 1).id ≠ NOTHING ∧ r.finished s = true ∧
        r3.tree = Function.update r.tree r.numTreeEdges
          { fromVertex := (r.heap.arr 1).id
            toVertex := r.predecessors (r.heap.arr 1).id
            weight := (r.heap.arr 1).priority } ∧
        r3.numTreeEdges = r.numTreeEdges + 1) := by
    by_cases c : r.predecessors (r.heap.arr 1).id = NOTHING
    · left
      rw [t3, k3, primMid_nothing c]
      exact ⟨c, rfl, rfl⟩
    · right
      have fs : r.finished s = true := by
        cases hs : r.finished s
        · exact absurd ((inv.start hs).2 _ u0 u1).2 c
        · rfl
      have := inv.cnt fs
      have k0 := inv.k0
      rw [t3, k3, primMid_recorded c k0 (by rw [inv.recs.nv]; omega)]
      exact ⟨c, fs, rfl, rfl⟩
  have redge : ∀ a b w, IsEdge g a b w → Reach g s a → Reach g s b :=
    fun a b w e h => Relation.ReflTransGen.tail h ⟨w, e⟩
  refine ⟨r3, by rw [ieq, run]; rfl, ?_, s3', f3'⟩
  refine ⟨inv3, by have := inv.sz; omega, ?_, ?_, ?_, ?_, ?_, ?_⟩
  · rcases hmid with ⟨_, _, k⟩ | ⟨_, _, _, k⟩ <;> rw [k] <;> have := inv.k0 <;> omega
  · intro _
    rcases hmid with ⟨_, _, k⟩ | ⟨_, fs, _, k⟩
    · rw [k, s3']
      cases hs : r.finished s
      · have := (inv.start hs).1
        have := inv.sz
        omega
      · have := inv.cnt hs
        omega
    · rw [k, s3']
      have := inv.cnt fs
      omega
  · intro h
    rw [hfs] at h
    exact absurd h (by decide)
  · intro v p sp pn
    obtain ⟨p0, sp0, vne, _, _, cs⟩ := hst v p sp
    rcases cs with ⟨a, b⟩ | ⟨a, b⟩
    · rw [b] at pn ⊢
      rw [a]
      obtain ⟨x, y⟩ := inv.pedge v p0 sp0 pn
      exact ⟨hfm _ x, y⟩
    · rw [b]
      exact ⟨hfu, a⟩
  · intro i i0 i1
    rcases hmid with ⟨_, t, k⟩ | ⟨pn, fs, t, k⟩
    · rw [t]
      rw [k] at i1
      exact inv.edges i i0 i1
    · rw [t]
      rw [k] at i1
      by_cases c : i = r.numTreeEdges
      · subst c
        rw [Function.update_same]
        dsimp only
        obtain ⟨x, y⟩ := inv.pedge _ _ su pn
        refine ⟨y, ?_⟩
        intro ru
        rcases inv.phase with B | ⟨A1, _⟩
        · have := B _ u0 u1 ru
          rw [uf] at this
          exact absurd this (by decide)
        · obtain ⟨p0, p1⟩ := y.source_range
          exact A1 _ p0 p1 x
      · rw [Function.update_noteq c]
        exact inv.edges i i0 (by omega)
  · have toB : (∀ v, 0 ≤ v → v < g.numVertices → Reach g s v → r.finished v = true) →
        ∀ v, 0 ≤ v → v < g.numVertices → Reach g s v → r3.finished v = true :=
      fun B v v0 v1 rv => hfm v (B v v0 v1 rv)
    rcases inv.phase with B | ⟨A1, A2, A3, A4, A5⟩
    · exact Or.inl (toB B)
    · by_cases ru : Reach g s (r.heap.arr 1).id
      · right
        refine ⟨?_, ?_, ?_, ?_, ?_⟩
        · intro v v0 v1 fv
          by_cases c : v = (r.heap.arr 1).id
          · rw [c]; exact ru
          · exact A1 v v0 v1 (hfo v fv c)
        · intro v v0 v1 nr
          cases fv : r3.finished v
          · obtain ⟨p, sp⟩ := (inv3.fin v v0 v1).1 fv
            obtain ⟨p0, sp0, vne, _, _, cs⟩ := hst v p sp
            rcases cs with ⟨_, b⟩ | ⟨a, _⟩
            · rw [b]
              exact A2 v v0 v1 nr
            · exact absurd (redge _ _ _ a ru) nr
          · rw [hpf v fv]
            exact A2 v v0 v1 nr
        · intro v p sp pn
          obtain ⟨p0, sp0, vne, _, _, cs⟩ := hst v p sp
          rcases cs with ⟨a, b⟩ | ⟨_, b⟩
          · rw [a]
            rw [b] at pn
            exact A3 v p0 sp0 pn
          · rw [b] at pn
            unfold NOTHING at pn
            omega
        · intro v p sp x w fx exv
          obtain ⟨p0, sp0, vne, le, lc, _⟩ := hst v p sp
          by_cases c : x = (r.heap.arr 1).id
          · rw [c] at exv
            exact lc w exv
          · have := A4 v p0 sp0 x w (hfo x fx c) exv
            omega
        · intro i i0 i1
          rcases hmid with ⟨_, t, k⟩ | ⟨pn, fs, t, k⟩
          · rw [t]
            rw [k] at i1
            exact A5 i i0 i1
          · rw [t]
            rw [k] at i1
            by_cases c : i = r.numTreeEdges
            · subst c
              rw [Function.update_same]
              dsimp only
              obtain ⟨x, y⟩ := inv.pedge _ _ su pn
              obtain ⟨p0, p1⟩ := y.source_range
              exact ⟨ru, A1 _ p0 p1 x⟩
            · rw [Function.update_noteq c]
              exact A5 i i0 (by omega)
      · left
        refine toB ?_
        have us : (r.heap.arr 1).id ≠ s := by
          intro e
          rw [e] at ru
          exact ru Relation.ReflTransGen.refl
        have pn := A2 _ u0 u1 ru
        have pu := A3 _ _ su pn
        simp only [initPriority, if_neg us] at pu
        intro v v0 v1 rv
        cases fv : r.finished v
        · exfalso
          cases fs : r.finished s
          · obtain ⟨_, h⟩ := inv.start fs
            have := umin _ (h s s0 s1).1
            simp only [initPriority, if_true] at this
            rw [pu] at this
            unfold INT_MAX at this
            omega
          · obtain ⟨x, y, ⟨w, exy⟩, fx, fy⟩ :=
              exists_crossing (F := fun a => r.finished a = true) rv fs
                (by show ¬ r.finished v = true; rw [fv]; decide)
            obtain ⟨e, he, ey, _⟩ := exy
            obtain ⟨y0, y1⟩ := gok.target x e he
            rw [ey] at y0 y1
            have fy' : r.finished y = false := by
              cases h : r.finished y
              · rfl
              · exact absurd h fy
            obtain ⟨p, sp⟩ := (inv.recs.fin y y0 y1).1 fy'
            have h1 := A4 y p sp x w fx ⟨e, he, ey, ‹_›⟩
            have h2 := hlt x y w ⟨e, he, ey, ‹_›⟩
            have h3 := umin _ sp
            rw [pu] at h3
            dsimp only at h3
            omega
        · rfl

set_option maxRecDepth 100000 in
theorem splitGraph_prim_run :
    (primRun splitGraph 0 zeroNodes zeroEdges).map
      (fun r => (r.numTreeEdges, r.tree 0, r.predecessors 1, r.predecessors 2)) =
      some (1, { fromVertex := 1, toVertex := 2, weight := 1 }, 2, NOTHING) := by
  decide

theorem splitGraph_reach {v : Int} (h : Reach splitGraph 0 v) : v = 0 := by
  induction h with
  | refl => rfl
  | @tail b c _ hbc ih =>
    subst ih
    obtain ⟨w, e, he, _⟩ := hbc
    simp [adjOf, vertexAt, splitGraph] at he

theorem splitGraph_isEdge (a b w : Int) :
    IsEdge splitGraph a b w ↔ (a = 1 ∧ b = 2 ∧ w = 1) ∨ (a = 2 ∧ b = 1 ∧ w = 1) := by
  unfold IsEdge adjOf vertexAt splitGraph
  by_cases c0 : a = 0
  · subst c0
    simp
  · by_cases c1 : a = 1
    · subst c1
      simp
      omega
    · by_cases c2 : a = 2
      · subst c2
        simp
        omega
      · have : ¬ (0 ≤ a ∧ a < 3) := by omega
        simp [c0, c1, c2, this]

theorem splitGraph_ok : GraphOk splitGraph := by
  constructor
  · intro v v0 v1
    have : v = 0 ∨ v = 1 ∨ v = 2 := by
      have : v < 3 := v1
      omega
    rcases this with rfl | rfl | rfl <;> simp [splitGraph]
  · intro v e he
    have ie : IsEdge splitGraph v e.toVertex e.weight := ⟨e, he, rfl, rfl⟩
    have : splitGraph.numVertices = 3 := rfl
    rw [this]
    rcases (splitGraph_isEdge _ _ _).1 ie with ⟨_, h, _⟩ | ⟨_, h, _⟩ <;> omega

theorem primTrace_spec {g : Graph} {s : Int} (gok : GraphOk g) (s0 : 0 ≤ s)
    (s1 : s < g.numVertices) (hlt : ∀ a b w, IsEdge g a b w → w < INT_MAX)
    (junk : Int → HeapNode) (junkTree : Int → Edge) :
    ∃ log r, primTrace g s junk junkTree = some (log, r) ∧
      primRun g s junk junkTree = some r ∧ PrimGen g s r ∧ r.heap.size = 0 ∧
      ∀ x ∈ log, PrimGen g s x.1 ∧ x.1.heap.size ≠ 0 ∧ x.2 = x.1.heap.arr 1 ∧
        ∃ r3, primIter g x.1 = some (x.2, r3) := by
  obtain ⟨r0, i0, inv0, sz, k, fin, pr, _, st⟩ :=
    initRecords_spec g s junk junkTree (by omega)
  obtain ⟨log, last, run, invl, z, _, _, hlog, _, _, _⟩ :=
    loopTrace_spec (n := g.numVertices) (primIter g) (PrimGen g s)
      (fun _ _ => True) (fun _ => trivial) (fun _ _ _ _ _ => trivial) (fun r h => h.recs)
      (by
        intro r inv ne
        obtain ⟨r3, it, inv3, sz3, f3⟩ := primGen_step gok s0 s1 hlt inv ne
        exact ⟨r3, it, inv3, sz3, trivial, f3⟩)
      (g.numVertices.toNat + 1) r0 (primGen_init inv0 sz k fin pr st) (by omega)
  have tr : primTrace g s junk junkTree = some (log, last) := by
    simp only [primTrace, i0, Option.bind_eq_bind, Option.some_bind]
    exact run
  refine ⟨log, last, tr, ?_, invl, z, ?_⟩
  · rw [← primTrace_run, tr]
    rfl
  · intro x hx
    obtain ⟨a, b, c, _, r3, d, _⟩ := hlog x hx
    exact ⟨a, b, c, r3, d⟩

theorem primRun_total {g : Graph} {s : Int} (gok : GraphOk g) (s0 : 0 ≤ s)
    (s1 : s < g.numVertices) (junk : Int → HeapNode) (junkTree : Int → Edge) :
    ∃ r, primRun g s junk junkTree = some r := by
  obtain ⟨r0, i0, inv0, sz, _⟩ := initRecords_spec g s junk junkTree (by omega)
  obtain ⟨log, last, run, _⟩ :=
    loopTrace_spec (n := g.numVertices) (primIter g) (RecInv g.numVertices)
      (fun _ _ => True) (fun _ => trivial) (fun _ _ _ _ _ => trivial) (fun r h => h)
      (by
        intro r inv ne
        obtain ⟨r3, it, inv3, sz3, f3⟩ := primIter_total gok inv ne
        exact ⟨r3, it, inv3, sz3, trivial, f3⟩)
      (g.numVertices.toNat + 1) r0 inv0 (by omega)
  refine ⟨last, ?_⟩
  rw [← primTrace_run]
  simp only [primTrace, i0, Option.bind_eq_bind, Option.some_bind, run]
  rfl

/-- C14, counterexample.  In the graph of three vertices where
vertex 0 has no edge and vertices 1 and 2 are joined by an edge of weight 1,
vertices 1 and 2 are not reachable from the source 0, yet the run of
`getMSTprim` ends with `predecessors[1] == 2` and one recorded tree edge,
`(1, 2, 1)`. -/
theorem prim_records_unreachable :
    ¬ Reach splitGraph 0 1 ∧ ¬ Reach splitGraph 0 2 ∧
    ∃ r, primRun splitGraph 0 zeroNodes zeroEdges = some r ∧
      getMSTprim (some splitGraph) 0 zeroNodes zeroEdges = some (some r.tree) ∧
      r.predecessors 1 = 2 ∧ r.numTreeEdges = 1 ∧
      r.tree 0 = { fromVertex := 1, toVertex := 2, weight := 1 } := by
  refine ⟨fun h => absurd (splitGraph_reach h) (by decide),
    fun h => absurd (splitGraph_reach h) (by decide), ?_⟩
  have h := splitGraph_prim_run
  cases hr : primRun splitGraph 0 zeroNodes zeroEdges with
  | none =>
    rw [hr] at h
    cases h
  | some r =>
    rw [hr, Option.map_some'] at h
    injection h with h
    simp only [Prod.mk.injEq] at h
    obtain ⟨a, b, c, _⟩ := h
    refine ⟨r, rfl, ?_, c, a, b⟩
    have : ¬ ((0 : Int) < 0 ∨ (0 : Int) ≥ splitGraph.numVertices) := by decide
    simp only [getMSTprim, this, if_false, hr, Option.bind_eq_bind, Option.some_bind]
    rfl

/-- C14, amended.  On a well-formed graph with weights below `INT_MAX` and
for a valid source: at the start of every iteration of the outer loop of
`getMSTprim` at which some vertex reachable from the source is still
unfinished, the vertex about to be extracted is reachable, every vertex that
is not reachable from the source is unfinished with predecessor `NOTHING`,
and every tree edge recorded so far joins two reachable vertices.  At the end
of the run every recorded tree edge is a graph edge from its `toVertex` to its
`fromVertex`, and none joins a vertex reachable from the source to one that
is not. -/
theorem prim_unreachable_untouched (g : Graph) (s : Int) (junk : Int → HeapNode)
    (junkTree : Int → Edge) (gok : GraphOk g) (s0 : 0 ≤ s) (s1 : s < g.numVertices)
    (hlt : ∀ a b w, IsEdge g a b w → w < INT_MAX) :
    ∃ log r, primTrace g s junk junkTree = some (log, r) ∧
      getMSTprim (some g) s junk junkTree = some (some r.tree) ∧
      (∀ x ∈ log,
        (∃ v, 0 ≤ v ∧ v < g.numVertices ∧ Reach g s v ∧ x.1.finished v = false) →
        Reach g s x.2.id ∧
        (∀ u, 0 ≤ u → u < g.numVertices → ¬ Reach g s u →
          x.1.predecessors u = NOTHING ∧ x.1.finished u = false) ∧
        (∀ i, 0 ≤ i → i < x.1.numTreeEdges →
          Reach g s (x.1.tree i).fromVertex ∧ Reach g s (x.1.tree i).toVertex)) ∧
      (∀ i, 0 ≤ i → i < r.numTreeEdges →
        IsEdge g (r.tree i).toVertex (r.tree i).fromVertex (r.tree i).weight ∧
        (Reach g s (r.tree i).fromVertex ↔ Reach g s (r.tree i).toVertex)) := by
  obtain ⟨log, r, tr, run, inv, z, hlog⟩ := primTrace_spec gok s0 s1 hlt junk junkTree
  refine ⟨log, r, tr, ?_, ?_, ?_⟩
  · have : ¬ (s < 0 ∨ s ≥ g.numVertices) := by omega
    simp [getMSTprim, this, run]
  · rintro x hx ⟨v, v0, v1, rv, fv⟩
    obtain ⟨px, nex, ex, r3, it⟩ := hlog x hx
    rcases px.phase with B | ⟨A1, A2, _, _, A5⟩
    · have := B v v0 v1 rv
      rw [fv] at this
      exact absurd this (by decide)
    · refine ⟨?_, ?_, A5⟩
      · obtain ⟨r3', it', p3, _, f3⟩ := primGen_step gok s0 s1 hlt px nex
        have hs : 1 ≤ x.1.heap.size := by have := px.recs.size0; omega
        obtain ⟨u0, u1⟩ := px.recs.id_range (x := x.1.heap.arr 1) ⟨1, le_refl _, hs, rfl⟩
        have fu : r3'.finished (x.1.heap.arr 1).id = true := by
          rw [f3, Function.update_same]
        rw [ex]
        rcases p3.phase with B3 | ⟨A31, _⟩
        · have f3v := B3 v v0 v1 rv
          rw [f3] at f3v
          by_cases c : v = (x.1.heap.arr 1).id
          · rw [← c]; exact rv
          · rw [Function.update_noteq c, fv] at f3v
            exact absurd f3v (by decide)
        · exact A31 _ u0 u1 fu
      · intro u u0 u1 nu
        refine ⟨A2 u u0 u1 nu, ?_⟩
        cases h : x.1.finished u
        · rfl
        · exact absurd (A1 u u0 u1 h) nu
  · intro i i0 i1
    obtain ⟨e, h⟩ := inv.edges i i0 i1
    exact ⟨e, h, fun h' => Relation.ReflTransGen.tail h' ⟨_, e⟩⟩

theorem prim_unreachable_untouched_witness :
    GraphOk splitGraph ∧
    ∃ log r, primTrace splitGraph 0 zeroNodes zeroEdges = some (log, r) ∧
      getMSTprim (some splitGraph) 0 zeroNodes zeroEdges = some (some r.tree) ∧
      (∀ x ∈ log,
        (∃ v, 0 ≤ v ∧ v < splitGraph.numVertices ∧ Reach splitGraph 0 v ∧
          x.1.finished v = false) →
        Reach splitGraph 0 x.2.id ∧
        (∀ u, 0 ≤ u → u < splitGraph.numVertices → ¬ Reach splitGraph 0 u →
          x.1.predecessors u = NOTHING ∧ x.1.finished u = false) ∧
        (∀ i, 0 ≤ i → i < x.1.numTreeEdges →
          Reach splitGraph 0 (x.1.tree i).fromVertex ∧
          Reach splitGraph 0 (x.1.tree i).toVertex)) ∧
      (∀ i, 0 ≤ i → i < r.numTreeEdges →
        IsEdge splitGraph (r.tree i).toVertex (r.tree i).fromVertex (r.tree i).weight ∧
        (Reach splitGraph 0 (r.tree i).fromVertex ↔ Reach splitGraph 0 (r.tree i).toVertex)) :=
  ⟨splitGraph_ok,
    prim_unreachable_untouched _ 0 _ _ splitGraph_ok (by decide) (by decide)
      (fun a b w h => by
        rcases (splitGraph_isEdge a b w).1 h with ⟨_, _, e⟩ | ⟨_, _, e⟩ <;> rw [e] <;> decide)⟩

/-- C19. Invalid input is rejected before any work: `getMSTprim` and
`getDistanceTreeDijkstra` return NULL, whatever the graph and the memory
contain, when the graph is absent or `startVertex` is outside
`[0, numVertices)`, hence for every source on a graph with zero vertices; for
a well-formed graph and a source in range they return a tree.
`getShortestPaths` returns NULL when `distTree` is absent or `startVertex` is
outside `[0, numVertices)`. -/
theorem invalid_input_rejected :
    (∀ s junk junkTree, getMSTprim none s junk junkTree = some none ∧
      getDistanceTreeDijkstra none s junk junkTree = some none) ∧
    (∀ (g : Graph) s junk junkTree, s < 0 ∨ g.numVertices ≤ s →
      getMSTprim (some g) s junk junkTree = some none ∧
      getDistanceTreeDijkstra (some g) s junk junkTree = some none) ∧
    (∀ (g : Graph) s junk junkTree, g.numVertices = 0 →
      getMSTprim (some g) s junk junkTree = some none ∧
      getDistanceTreeDijkstra (some g) s junk junkTree = some none) ∧
    (∀ (g : Graph) s junk junkTree, GraphOk g → 0 ≤ s → s < g.numVertices →
      (∃ tree, getMSTprim (some g) s junk junkTree = some (some tree)) ∧
      ∃ tree, getDistanceTreeDijkstra (some g) s junk junkTree = some (some tree)) ∧
    (∀ fuel numVertices s junkPaths,
      getShortestPaths fuel none numVertices s junkPaths = some none) ∧
    (∀ fuel distTree numVertices s junkPaths, s < 0 ∨ numVertices ≤ s →
      getShortestPaths fuel (some distTree) numVertices s junkPaths = some none) := by
  have out : ∀ (g : Graph) s junk junkTree, s < 0 ∨ g.numVertices ≤ s →
      getMSTprim (some g) s junk junkTree = some none ∧
      getDistanceTreeDijkstra (some g) s junk junkTree = some none := by
    intro g s junk junkTree h
    have h' : s < 0 ∨ s ≥ g.numVertices := h
    exact ⟨by simp only [getMSTprim, if_pos h'], by simp only [getDistanceTreeDijkstra, if_pos h']⟩
  refine ⟨fun _ _ _ => ⟨rfl, rfl⟩, out, ?_, ?_, fun _ _ _ _ => rfl, ?_⟩
  · intro g s junk junkTree h
    exact out g s junk junkTree (by omega)
  · intro g s junk junkTree gok s0 s1
    have hs : ¬ (s < 0 ∨ s ≥ g.numVertices) := by omega
    obtain ⟨r, run⟩ := primRun_total gok s0 s1 junk junkTree
    obtain ⟨_, r', _, _, run', _⟩ := dijkstraTrace_spec gok s0 s1 junk junkTree
    exact ⟨⟨r.tree, by simp [getMSTprim, hs, run]⟩,
      ⟨r'.tree, by simp [getDistanceTreeDijkstra, hs, run']⟩⟩
  · intro fuel distTree numVertices s junkPaths h
    have h' : s < 0 ∨ s ≥ numVertices := h
    simp only [getShortestPaths, if_pos h']

theorem invalid_input_rejected_witness :
    (∃ tree, getMSTprim (some splitGraph) 0 zeroNodes zeroEdges = some (some tree)) ∧
    (∃ tree, getDistanceTreeDijkstra (some splitGraph) 0 zeroNodes zeroEdges =
      some (some tree)) ∧
    getMSTprim (some splitGraph) 3 zeroNodes zeroEdges = some none ∧
    getDistanceTreeDijkstra (some splitGraph) 3 zeroNodes zeroEdges = some none ∧
    getShortestPaths 4 (some zeroEdges) 3 (-1) (fun _ => []) = some none :=
  ⟨(invalid_input_rejected.2.2.2.1 splitGraph 0 zeroNodes zeroEdges splitGraph_ok (by decide)
      (by decide)).1,
    (invalid_input_rejected.2.2.2.1 splitGraph 0 zeroNodes zeroEdges splitGraph_ok (by decide)
      (by decide)).2,
    (invalid_input_rejected.2.1 splitGraph 3 zeroNodes zeroEdges (by decide)).1,
    (invalid_input_rejected.2.1 splitGraph 3 zeroNodes zeroEdges (by decide)).2,
    invalid_input_rejected.2.2.2.2.2 4 zeroEdges 3 (-1) (fun _ => []) (by decide)⟩

theorem dijFull_step {g : Graph} {s : Int} {r : Records} (gok : GraphOk g) (s0 : 0 ≤ s)
    (s1 : s < g.numVertices) (hw : ∀ a b w, IsEdge g a b w → 0 ≤ w)
    (hsum : ∀ vs v d, Path g s vs v d → vs.Nodup → d < INT_MAX)
    (inv : DijInv g s r ∧ (∃ rank, DijTree g s rank r) ∧ DijPred g s r)
    (ne : r.heap.size ≠ 0) :
    ∃ r3, dijkstraIter g s r = some (r.heap.arr 1, r3) ∧
      (DijInv g s r3 ∧ (∃ rank, DijTree g s rank r3) ∧ DijPred g s r3) ∧
      r3.heap.size = r.heap.size - 1 ∧ Keeps r r3 ∧
      r3.finished = Function.update r.finished (r.heap.arr 1).id true := by
  obtain ⟨dinv, ⟨rank, tinv⟩, pinv⟩ := inv
  obtain ⟨r3, it, tinv3, sz3, keep, f3, _, _, _, hpred⟩ := dijTree_step gok s0 s1 tinv ne
  obtain ⟨r3a, _, dinv3, _, h1, ex, run⟩ := dij_step gok s0 s1 hw hsum dinv ne
  obtain ⟨h1', ex', ieq⟩ := dijkstraIter_eq (s := s) gok dinv.recs ne
  have hh : h1' = h1 := by
    rw [ex] at ex'
    injection ex' with e
    injection e with _ e
    exact e.symm
  subst hh
  have e3 : r3a = r3 := by
    rw [ieq, run] at it
    injection it with e
    injection e
  subst e3
  obtain ⟨_, _, su, umin, _⟩ := extract_step dinv.recs ne
  refine ⟨r3a, it, ⟨dinv3, tinv3, ?_⟩, sz3, keep, f3⟩
  intro v v0 v1 rv pn
  rcases hpred v with e | ⟨e, fv, _⟩
  · rw [e] at pn ⊢
    exact pinv v v0 v1 rv pn
  · rw [e]
    rcases dinv.phase with B | ⟨_, p2, p3, p4⟩
    · have := B v v0 v1 rv
      rw [fv] at this
      exact absurd this (by decide)
    · rcases p2 (r.heap.arr 1).id (r.heap.arr 1).priority su with e | ⟨_, vs, pth, _⟩
      · obtain ⟨vs, d, pv⟩ := rv.exists_path
        have := dij_all_reached gok s0 s1 hsum dinv p3 p4 (by rw [← e]; exact umin) pv
        rw [fv] at this
        exact absurd this (by decide)
      · exact pth.to_reach

theorem dijkstra_full_spec {g : Graph} {s : Int} (gok : GraphOk g) (s0 : 0 ≤ s)
    (s1 : s < g.numVertices) (hw : ∀ a b w, IsEdge g a b w → 0 ≤ w)
    (hsum : ∀ vs v d, Path g s vs v d → vs.Nodup → d < INT_MAX)
    (junk : Int → HeapNode) (junkTree : Int → Edge) :
    ∃ r rank, dijkstraRun g s junk junkTree = some r ∧ DijInv g s r ∧ DijTree g s rank r ∧
      DijPred g s r ∧ r.heap.size = 0 ∧
      ∀ v, 0 ≤ v → v < g.numVertices → r.finished v = true := by
  obtain ⟨r0, i0, inv0, sz, _, fin, pr, _, st⟩ :=
    initRecords_spec g s junk junkTree (by omega)
  have P0 : DijInv g s r0 ∧ (∃ rank, DijTree g s rank r0) ∧ DijPred g s r0 := by
    refine ⟨dijInv_init s0 s1 inv0 fin st, ⟨_, dijTree_init inv0 sz fin pr st⟩, ?_⟩
    intro v _ _ _ pn
    rw [pr] at pn
    exact absurd rfl pn
  obtain ⟨log, last, run, ⟨dinv, ⟨rank, tinv⟩, pinv⟩, z, _⟩ :=
    loopTrace_spec (n := g.numVertices) (dijkstraIter g s)
      (fun r => DijInv g s r ∧ (∃ rank, DijTree g s rank r) ∧ DijPred g s r)
      Keeps Keeps.self (fun _ _ _ => Keeps.compose) (fun r h => h.1.recs)
      (fun r inv ne => dijFull_step gok s0 s1 hw hsum inv ne)
      (g.numVertices.toNat + 1) r0 P0 (by omega)
  refine ⟨last, rank, ?_, dinv, tinv, pinv, z, fun v v0 v1 => dinv.dij_all_finished z v0 v1⟩
  rw [← dijkstraTrace_run]
  simp only [dijkstraTrace, i0, Option.bind_eq_bind, Option.some_bind, run]
  rfl

theorem dijkstra_pathTree {g : Graph} {s : Int} (gok : GraphOk g) (s0 : 0 ≤ s)
    (s1 : s < g.numVertices) (hw : ∀ a b w, IsEdge g a b w → 0 ≤ w)
    (hi : ∀ a b w, IsEdge g a b w → w ≤ INT_MAX)
    (hsum : ∀ vs v d, Path g s vs v d → vs.Nodup → d < INT_MAX)
    (junk : Int → HeapNode) (junkTree : Int → Edge) :
    ∃ r rank, dijkstraRun g s junk junkTree = some r ∧ PathTree g s r.tree rank ∧
      r.tree s = { fromVertex := s, toVertex := s, weight := 0 } ∧
      ∀ v, 0 ≤ v → v < g.numVertices → Reach g s v → IsDist g s v (r.tree v).weight := by
  obtain ⟨r, rank, run, dinv, tinv, pinv, z, allfin⟩ :=
    dijkstra_full_spec gok s0 s1 hw hsum junk junkTree
  have root := tinv.root (allfin s s0 s1)
  have hd : ∀ v, 0 ≤ v → v < g.numVertices → Reach g s v →
      0 ≤ (r.tree v).weight ∧ (r.tree v).weight < INT_MAX := by
    intro v v0 v1 rv
    obtain ⟨⟨vs, pv, nd, _⟩, _⟩ := dinv.final v v0 v1 (allfin v v0 v1) rv
    exact ⟨pv.nonneg hw, hsum vs v _ pv nd⟩
  have redge : ∀ a b w, IsEdge g a b w → Reach g s a → Reach g s b :=
    fun a b w e h => Relation.ReflTransGen.tail h ⟨w, e⟩
  refine ⟨r, rank, run, ⟨?_, ?_, by rw [root], ?_, ?_⟩, root, ?_⟩
  · intro v v0 v1
    by_cases c : v = s
    · rw [c, root]
    · exact (tinv.lay v v0 v1 (allfin v v0 v1) c).1
  · intro v v0 v1
    have := tinv.rk v v0 v1 (allfin v v0 v1)
    rw [z] at this
    omega
  · intro v v0 v1 vs rv
    obtain ⟨_, tp⟩ := tinv.lay v v0 v1 (allfin v v0 v1) vs
    obtain ⟨d0, d1⟩ := hd v v0 v1 rv
    rcases tinv.linkF v v0 v1 (allfin v v0 v1) vs with ⟨_, b⟩ | ⟨_, rkp, w, ew, pw⟩
    · omega
    · obtain ⟨p0, p1⟩ := ew.source_range
      have pn : r.predecessors v ≠ NOTHING := by unfold NOTHING; omega
      have rp := pinv v v0 v1 rv pn
      obtain ⟨q0, q1⟩ := hd _ p0 p1 rp
      have w0 := hw _ _ _ ew
      have w1 := hi _ _ _ ew
      rw [tp]
      unfold INT_MAX at d1 q1 w1
      have e : (r.tree v).weight - (r.tree (r.predecessors v)).weight = w := by
        rw [pw]
        unfold wrap32 at pw ⊢
        omega
      refine ⟨p0, p1, rp, rkp, by rw [e]; exact ew, by rw [e]; exact w0, ?_⟩
      rw [e]
      unfold wrap32
      omega
  · intro v v0 v1 nv
    have vs : v ≠ s := by
      intro e
      rw [e] at nv
      exact nv Relation.ReflTransGen.refl
    obtain ⟨_, tp⟩ := tinv.lay v v0 v1 (allfin v v0 v1) vs
    rw [tp]
    rcases tinv.linkF v v0 v1 (allfin v v0 v1) vs with ⟨a, b⟩ | ⟨_, rkp, w, ew, pw⟩
    · left
      refine ⟨a, ?_⟩
      rw [b]
      decide
    · right
      obtain ⟨p0, p1⟩ := ew.source_range
      have w0 := hw _ _ _ ew
      have w1 := hi _ _ _ ew
      refine ⟨p0, p1, fun h => nv (redge _ _ _ ew h), rkp, ?_⟩
      rw [pw]
      unfold INT_MAX at w1
      unfold wrap32
      omega
  · intro v v0 v1 rv
    obtain ⟨⟨vs, pv, nd, _⟩, lb⟩ := dinv.final v v0 v1 (allfin v v0 v1) rv
    exact ⟨⟨vs, pv, nd⟩, lb⟩

theorem findEntry_spec {T : Int → Edge} {n c : Int}
    (lay : ∀ i, 0 ≤ i → i < n → (T i).fromVertex = i) :
    ∀ (count : Nat) (i : Int), 0 ≤ i → i + count = n →
      findEntry T c count i = if i ≤ c ∧ c < n then some (T c) else none := by
  intro count
  induction count with
  | zero =>
    intro i _ h
    have : ¬ (i ≤ c ∧ c < n) := by push_cast at h; omega
    rw [if_neg this]
    rfl
  | succ count ih =>
    intro i i0 h
    push_cast at h
    simp only [findEntry]
    rw [lay i i0 (by omega)]
    by_cases e : i = c
    · subst e
      rw [if_pos rfl, if_pos (by omega)]
    · rw [if_neg e, ih (i + 1) (by omega) (by omega)]
      by_cases c1 : i ≤ c ∧ c < n
      · rw [if_pos c1, if_pos (by omega)]
      · rw [if_neg c1, if_neg (by omega)]

theorem preWeight_spec {T : Int → Edge} {n p : Int}
    (lay : ∀ i, 0 ≤ i → i < n → (T i).fromVertex = i) :
    ∀ (count : Nat) (i : Int), 0 ≤ i → i + count = n →
      preWeight T p count i = if i ≤ p ∧ p < n then (T p).weight else 0 := by
  intro count
  induction count with
  | zero =>
    intro i _ h
    have : ¬ (i ≤ p ∧ p < n) := by push_cast at h; omega
    rw [if_neg this]
    rfl
  | succ count ih =>
    intro i i0 h
    push_cast at h
    simp only [preWeight]
    rw [lay i i0 (by omega)]
    by_cases e : i = p
    · subst e
      rw [if_pos rfl, if_pos (by omega)]
    · rw [if_neg e, ih (i + 1) (by omega) (by omega)]
      by_cases c1 : i ≤ p ∧ p < n
      · rw [if_pos c1, if_pos (by omega)]
      · rw [if_neg c1, if_neg (by omega)]

theorem makePathLoop_out {T : Int → Edge} {n s c : Int}
    (lay : ∀ i, 0 ≤ i → i < n → (T i).fromVertex = i) (n0 : 0 ≤ n) (cs : c ≠ s)
    (out : ¬ (0 ≤ c ∧ c < n)) (fuel : Nat) (acc : List Edge) :
    makePathLoop T n s (fuel + 1) c acc = PathRun.returned [] := by
  have fe := findEntry_spec (c := c) lay n.toNat 0 (le_refl _) (by omega)
  rw [if_neg out] at fe
  simp only [makePathLoop, if_neg cs, fe]

theorem makePathLoop_in {T : Int → Edge} {n s c : Int}
    (lay : ∀ i, 0 ≤ i → i < n → (T i).fromVertex = i) (cs : c ≠ s)
    (c0 : 0 ≤ c) (c1 : c < n) {w : Int}
    (hw : wrap32 ((T c).weight -
      (if 0 ≤ (T c).toVertex ∧ (T c).toVertex < n then (T (T c).toVertex).weight else 0)) = w)
    (w0 : 0 ≤ w) (fuel : Nat) (acc : List Edge) :
    makePathLoop T n s (fuel + 1) c acc =
      makePathLoop T n s fuel (T c).toVertex
        (acc ++ [{ fromVertex := c, toVertex := (T c).toVertex, weight := w }]) := by
  have fe := findEntry_spec (c := c) lay n.toNat 0 (le_refl _) (by omega)
  rw [if_pos ⟨c0, c1⟩] at fe
  have pw := preWeight_spec (p := (T c).toVertex) lay n.toNat 0 (le_refl _) (by omega)
  simp only [makePathLoop, if_neg cs, fe, pw, hw, newEdge, if_neg (not_lt.2 w0), lay c c0 c1]

theorem makePathLoop_reach {g : Graph} {s : Int} {T : Int → Edge} {rank : Int → Nat}
    (pt : PathTree g s T rank) (k : Nat) :
    ∀ v, rank v ≤ k → 0 ≤ v → v < g.numVertices → Reach g s v →
      ∀ (fuel : Nat) (acc : List Edge), k + 1 ≤ fuel →
        ∃ es, makePathLoop T g.numVertices s fuel v acc = PathRun.returned (acc ++ es) ∧
          BackPath g T s v es := by
  induction k with
  | zero =>
    intro v hk v0 v1 _
    have := (pt.rk v v0 v1).1
    omega
  | succ k ih =>
    intro v hk v0 v1 rv fuel acc hf
    obtain ⟨fuel, rfl⟩ : ∃ f, fuel = f + 1 := ⟨fuel - 1, by omega⟩
    by_cases c : v = s
    · subst c
      exact ⟨[], by simp [makePathLoop], BackPath.nil⟩
    · obtain ⟨p0, p1, rp, rkp, ep, d0, dw⟩ := pt.up v v0 v1 c rv
      have hw : wrap32 ((T v).weight -
          (if 0 ≤ (T v).toVertex ∧ (T v).toVertex < g.numVertices then
            (T (T v).toVertex).weight else 0)) =
          (T v).weight - (T (T v).toVertex).weight := by
        rw [if_pos ⟨p0, p1⟩]
        exact dw
      rw [makePathLoop_in pt.lay c v0 v1 hw d0]
      obtain ⟨es, run, bp⟩ := ih _ (by omega) p0 p1 rp fuel
        (acc ++ [{ fromVertex := v, toVertex := (T v).toVertex,
                   weight := (T v).weight - (T (T v).toVertex).weight }]) (by omega)
      refine ⟨_ :: es, ?_, BackPath.cons c ep bp⟩
      rw [run, List.append_assoc]
      rfl

theorem makePathLoop_off {g : Graph} {s : Int} {T : Int → Edge} {rank : Int → Nat}
    (pt : PathTree g s T rank) (s0 : 0 ≤ s) (k : Nat) :
    ∀ v, rank v ≤ k → 0 ≤ v → v < g.numVertices → ¬ Reach g s v →
      ∀ (fuel : Nat) (acc : List Edge), k + 1 ≤ fuel →
        makePathLoop T g.numVertices s fuel v acc = PathRun.returned [] := by
  induction k with
  | zero =>
    intro v hk v0 v1 _
    have := (pt.rk v v0 v1).1
    omega
  | succ k ih =>
    intro v hk v0 v1 nv fuel acc hf
    obtain ⟨fuel, rfl⟩ : ∃ f, fuel = f + 1 := ⟨fuel - 1, by omega⟩
    have c : v ≠ s := by
      intro e
      rw [e] at nv
      exact nv Relation.ReflTransGen.refl
    rcases pt.off v v0 v1 nv with ⟨a, b⟩ | ⟨p0, p1, np, rkp, d0⟩
    · have out : ¬ (0 ≤ (T v).toVertex ∧ (T v).toVertex < g.numVertices) := by
        rw [a]; unfold NOTHING; omega
      have hw : wrap32 ((T v).weight -
          (if 0 ≤ (T v).toVertex ∧ (T v).toVertex < g.numVertices then
            (T (T v).toVertex).weight else 0)) = wrap32 ((T v).weight - 0) := by
        rw [if_neg out]
      rw [makePathLoop_in pt.lay c v0 v1 hw b]
      have := (pt.rk v v0 v1).1
      obtain ⟨fuel, rfl⟩ : ∃ f, fuel = f + 1 := ⟨fuel - 1, by omega⟩
      exact makePathLoop_out pt.lay (by omega) (by rw [a]; unfold NOTHING; omega) out _ _
    · have hw : wrap32 ((T v).weight -
          (if 0 ≤ (T v).toVertex ∧ (T v).toVertex < g.numVertices then
            (T (T v).toVertex).weight else 0)) =
          wrap32 ((T v).weight - (T (T v).toVertex).weight) := by
        rw [if_pos ⟨p0, p1⟩]
      rw [makePathLoop_in pt.lay c v0 v1 hw d0]
      exact ih _ (by omega) p0 p1 np fuel _ (by omega)

theorem BackPath.head_from {g : Graph} {T : Int → Edge} {s v : Int} {es : List Edge}
    (h : BackPath g T s v es) (vs : v ≠ s) :
    ∃ e rest, es = e :: rest ∧ e.fromVertex = v := by
  cases h with
  | nil => exact absurd rfl vs
  | cons _ _ _ => exact ⟨_, _, rfl, rfl⟩

theorem BackPath.chain {g : Graph} {T : Int → Edge} {s v : Int} {es : List Edge}
    (h : BackPath g T s v es) :
    List.Chain' (fun e f => e.toVertex = f.fromVertex) es := by
  induction h with
  | nil => exact List.chain'_nil
  | @cons v es vs _ bp ih =>
    cases bp with
    | nil => exact List.chain'_singleton _
    | cons _ _ _ => exact List.Chain'.cons rfl ih

theorem BackPath.last_to {g : Graph} {T : Int → Edge} {s v : Int} {es : List Edge}
    (h : BackPath g T s v es) : ∀ e, es.getLast? = some e → e.toVertex = s := by
  induction h with
  | nil => intro e he; cases he
  | @cons v es vs _ bp ih =>
    intro e he
    cases bp with
    | nil =>
      simp only [List.getLast?_singleton, Option.some.injEq] at he
      rw [← he]
    | cons _ _ _ =>
      rw [List.getLast?_cons_cons] at he
      exact ih e he

theorem BackPath.edges {g : Graph} {T : Int → Edge} {s v : Int} {es : List Edge}
    (h : BackPath g T s v es) :
    ∀ e ∈ es, e.toVertex = (T e.fromVertex).toVertex ∧
      e.weight = (T e.fromVertex).weight - (T e.toVertex).weight ∧
      IsEdge g e.toVertex e.fromVertex e.weight := by
  induction h with
  | nil => intro e he; cases he
  | @cons v es vs ie bp ih =>
    intro e he
    rcases List.mem_cons.1 he with x | x
    · subst x
      exact ⟨rfl, rfl, ie⟩
    · exact ih e x

theorem BackPath.total {g : Graph} {T : Int → Edge} {s v : Int} {es : List Edge}
    (h : BackPath g T s v es) : totalWeight es = (T v).weight - (T s).weight := by
  induction h with
  | nil => simp [totalWeight]
  | @cons v es vs ie bp ih =>
    simp only [totalWeight, List.map_cons, List.sum_cons] at ih ⊢
    rw [ih]
    ring

theorem getShortestPathsLoop_spec {fuel : Nat} {T : Int → Edge} {n s : Int}
    (h : ∀ v, 0 ≤ v → v < n → v ≠ s → ∃ p, makePath fuel (some T) n v s = PathRun.returned p) :
    ∀ (count : Nat) (i : Int) (paths : Int → List Edge), 0 ≤ i → i + count = n →
      ∃ out, getShortestPathsLoop fuel T n s count i paths = some out ∧
        (∀ v, i ≤ v → v < n → (v = s → out v = []) ∧
          (v ≠ s → makePath fuel (some T) n v s = PathRun.returned (out v))) ∧
        ∀ v, v < i → out v = paths v := by
  intro count
  induction count with
  | zero =>
    intro i paths _ hn
    refine ⟨paths, rfl, ?_, fun _ _ => rfl⟩
    intro v h1 h2
    push_cast at hn
    omega
  | succ count ih =>
    intro i paths i0 hn
    push_cast at hn
    by_cases c : i = s
    · obtain ⟨out, run, hout, hold⟩ :=
        ih (i + 1) (Function.update paths i []) (by omega) (by omega)
      refine ⟨out, by simp only [getShortestPathsLoop, if_pos c]; exact run, ?_, ?_⟩
      · intro v h1 h2
        by_cases e : v = i
        · subst e
          refine ⟨fun _ => ?_, fun x => absurd c x⟩
          rw [hold v (by omega), Function.update_same]
        · exact hout v (by omega) h2
      · intro v hv
        rw [hold v (by omega), Function.update_noteq (by omega)]
    · obtain ⟨p, hp⟩ := h i i0 (by omega) c
      obtain ⟨out, run, hout, hold⟩ :=
        ih (i + 1) (Function.update paths i p) (by omega) (by omega)
      refine ⟨out, by simp only [getShortestPathsLoop, if_neg c, hp]; exact run, ?_, ?_⟩
      · intro v h1 h2
        by_cases e : v = i
        · subst e
          refine ⟨fun x => absurd x c, fun _ => ?_⟩
          rw [hold v (by omega), Function.update_same]
          exact hp
        · exact hout v (by omega) h2
      · intro v hv
        rw [hold v (by omega), Function.update_noteq (by omega)]

theorem makePath_same (fuel : Nat) (distTree : Option (Int → Edge)) (n v : Int) (v0 : 0 ≤ v)
    (v1 : v < n) : makePath fuel distTree n v v = PathRun.returned [] := by
  have : ¬ (v < 0 ∨ v ≥ n ∨ v < 0 ∨ v ≥ n) := by omega
  unfold makePath
  rw [if_neg this]
  cases distTree with
  | none => rfl
  | some T => simp

theorem makePath_loop {fuel : Nat} {T : Int → Edge} {n v s : Int} (v0 : 0 ≤ v) (v1 : v < n)
    (s0 : 0 ≤ s) (s1 : s < n) (vs : v ≠ s) :
    makePath fuel (some T) n v s = makePathLoop T n s fuel v [] := by
  have : ¬ (v < 0 ∨ v ≥ n ∨ s < 0 ∨ s ≥ n) := by omega
  unfold makePath
  rw [if_neg this]
  simp only [if_neg vs]

theorem dijkstra_paths {g : Graph} {s : Int} (gok : GraphOk g) (s0 : 0 ≤ s)
    (s1 : s < g.numVertices) (hw : ∀ a b w, IsEdge g a b w → 0 ≤ w)
    (hi : ∀ a b w, IsEdge g a b w → w ≤ INT_MAX)
    (hsum : ∀ vs v d, Path g s vs v d → vs.Nodup → d < INT_MAX)
    (junk : Int → HeapNode) (junkTree : Int → Edge) :
    ∃ tree, getDistanceTreeDijkstra (some g) s junk junkTree = some (some tree) ∧
      tree s = { fromVertex := s, toVertex := s, weight := 0 } ∧
      (∀ v, 0 ≤ v → v < g.numVertices → (tree v).fromVertex = v) ∧
      (∀ v, 0 ≤ v → v < g.numVertices → Reach g s v → IsDist g s v (tree v).weight) ∧
      (∀ v, 0 ≤ v → v < g.numVertices → v ≠ s → Reach g s v →
        IsEdge g (tree v).toVertex v ((tree v).weight - (tree (tree v).toVertex).weight)) ∧
      (∀ v, 0 ≤ v → v < g.numVertices → v ≠ s → Reach g s v →
        ∀ fuel, g.numVertices.toNat + 1 ≤ fuel →
          ∃ es, makePath fuel (some tree) g.numVertices v s = PathRun.returned es ∧
            BackPath g tree s v es) ∧
      (∀ v, 0 ≤ v → v < g.numVertices → ¬ Reach g s v →
        ∀ fuel, g.numVertices.toNat + 1 ≤ fuel →
          makePath fuel (some tree) g.numVertices v s = PathRun.returned []) := by
  obtain ⟨r, rank, run, pt, root, dist⟩ := dijkstra_pathTree gok s0 s1 hw hi hsum junk junkTree
  refine ⟨r.tree, ?_, root, pt.lay, dist, ?_, ?_, ?_⟩
  · have : ¬ (s < 0 ∨ s ≥ g.numVertices) := by omega
    simp [getDistanceTreeDijkstra, this, run]
  · intro v v0 v1 vs rv
    exact (pt.up v v0 v1 vs rv).2.2.2.2.1
  · intro v v0 v1 vs rv fuel hf
    have rk := (pt.rk v v0 v1).2
    obtain ⟨es, h, bp⟩ := makePathLoop_reach pt (rank v) v (le_refl _) v0 v1 rv fuel []
      (by omega)
    exact ⟨es, by rw [makePath_loop v0 v1 s0 s1 vs, h]; rfl, bp⟩
  · intro v v0 v1 nv fuel hf
    have rk := (pt.rk v v0 v1).2
    have vs : v ≠ s := by
      intro e
      rw [e] at nv
      exact nv Relation.ReflTransGen.refl
    rw [makePath_loop v0 v1 s0 s1 vs]
    exact makePathLoop_off pt s0 (rank v) v (le_refl _) v0 v1 nv fuel [] (by omega)

theorem scenario_sums {a0 a1 a2 a3 : List Edge} (p0 : a0.Perm scenarioAdj0)
    (p1 : a1.Perm scenarioAdj1) (p2 : a2.Perm scenarioAdj2) (p3 : a3.Perm scenarioAdj3) :
    ∀ vs v d, Path (scenarioGraph a0 a1 a2 a3) 0 vs v d → vs.Nodup → d < INT_MAX := by
  intro vs v d h nd
  have hW : ∀ a b w, IsEdge (scenarioGraph a0 a1 a2 a3) a b w → w ≤ 5 := by
    intro a b w ie
    rw [scenario_isEdge p0 p1 p2 p3] at ie
    simp [scenarioTriples] at ie
    omega
  have := simple_path_bound (scenario_graphOk p0 p1 p2 p3) (le_refl _)
    (show (0 : Int) < 4 by decide) (by decide) hW h nd
  have n4 : (scenarioGraph a0 a1 a2 a3).numVertices = 4 := rfl
  rw [n4] at this
  unfold INT_MAX
  omega

theorem scenario_lower {a0 a1 a2 a3 : List Edge} (p0 : a0.Perm scenarioAdj0)
    (p1 : a1.Perm scenarioAdj1) (p2 : a2.Perm scenarioAdj2) (p3 : a3.Perm scenarioAdj3)
    {vs : List Int} {v d : Int} (h : Path (scenarioGraph a0 a1 a2 a3) 0 vs v d) :
    (if v = 1 then 3 else if v = 2 then 1 else if v = 3 then 4 else 0) ≤ d := by
  induction h with
  | nil => simp
  | @snoc vs b c d w _ e ih =>
    rw [scenario_isEdge p0 p1 p2 p3] at e
    simp only [scenarioTriples, List.mem_cons, Prod.mk.injEq, List.mem_singleton,
      List.not_mem_nil, or_false] at e
    rcases e with e | e | e | e | e | e | e | e | e | e <;> obtain ⟨rfl, rfl, rfl⟩ := e <;>
      simp at ih ⊢ <;> omega

theorem scenario_dijkstra_tree {a0 a1 a2 a3 : List Edge} (p0 : a0.Perm scenarioAdj0)
    (p1 : a1.Perm scenarioAdj1) (p2 : a2.Perm scenarioAdj2) (p3 : a3.Perm scenarioAdj3)
    (junk : Int → HeapNode) (junkTree : Int → Edge) :
    ∃ tree, getDistanceTreeDijkstra (some (scenarioGraph a0 a1 a2 a3)) 0 junk junkTree =
        some (some tree) ∧
      tree 0 = { fromVertex := 0, toVertex := 0, weight := 0 } ∧
      tree 1 = { fromVertex := 1, toVertex := 2, weight := 3 } ∧
      tree 2 = { fromVertex := 2, toVertex := 0, weight := 1 } ∧
      tree 3 = { fromVertex := 3, toVertex := 1, weight := 4 } ∧
      ∀ fuel, 5 ≤ fuel → ∀ v, 0 ≤ v → v < 4 → v ≠ 0 →
        ∃ es, makePath fuel (some tree) 4 v 0 = PathRun.returned es ∧
          BackPath (scenarioGraph a0 a1 a2 a3) tree 0 v es := by
  have gok := scenario_graphOk p0 p1 p2 p3
  have hwt := scenario_weights p0 p1 p2 p3
  obtain ⟨tree, run, root, lay, dist, up, paths, _⟩ :=
    dijkstra_paths gok (le_refl _) (show (0 : Int) < 4 by decide)
      (fun a b w h => (hwt a b w h).1)
      (fun a b w h => le_of_lt (hwt a b w h).2) (scenario_sums p0 p1 p2 p3) junk junkTree
  have rch := scenario_reach p0 p1 p2 p3
  have ie : ∀ a b w, (a, b, w) ∈ scenarioTriples → IsEdge (scenarioGraph a0 a1 a2 a3) a b w :=
    fun a b w h => (scenario_isEdge p0 p1 p2 p3 a b w).2 h
  have e02 := ie 0 2 1 (by decide)
  have e21 := ie 2 1 2 (by decide)
  have e13 := ie 1 3 1 (by decide)
  have n4 : (scenarioGraph a0 a1 a2 a3).numVertices = 4 := rfl
  have b1 : (1 : Int) < (scenarioGraph a0 a1 a2 a3).numVertices := show (1 : Int) < 4 by decide
  have b2 : (2 : Int) < (scenarioGraph a0 a1 a2 a3).numVertices := show (2 : Int) < 4 by decide
  have b3 : (3 : Int) < (scenarioGraph a0 a1 a2 a3).numVertices := show (3 : Int) < 4 by decide
  have pth2 : Path (scenarioGraph a0 a1 a2 a3) 0 [2, 0] 2 (0 + 1) := Path.snoc Path.nil e02
  have pth1 : Path (scenarioGraph a0 a1 a2 a3) 0 [1, 2, 0] 1 (0 + 1 + 2) := Path.snoc pth2 e21
  have pth3 : Path (scenarioGraph a0 a1 a2 a3) 0 [3, 1, 2, 0] 3 (0 + 1 + 2 + 1) :=
    Path.snoc pth1 e13
  have w0 : (tree 0).weight = 0 := by rw [root]
  have w1 : (tree 1).weight = 3 := by
    obtain ⟨⟨vs, pv, _⟩, lb⟩ := dist 1 (by decide) b1 (rch 1 (by decide) b1)
    have h1 := scenario_lower p0 p1 p2 p3 pv
    have h2 := lb _ _ pth1
    simp at h1
    omega
  have w2 : (tree 2).weight = 1 := by
    obtain ⟨⟨vs, pv, _⟩, lb⟩ := dist 2 (by decide) b2 (rch 2 (by decide) b2)
    have h1 := scenario_lower p0 p1 p2 p3 pv
    have h2 := lb _ _ pth2
    simp at h1
    omega
  have w3 : (tree 3).weight = 4 := by
    obtain ⟨⟨vs, pv, _⟩, lb⟩ := dist 3 (by decide) b3 (rch 3 (by decide) b3)
    have h1 := scenario_lower p0 p1 p2 p3 pv
    have h2 := lb _ _ pth3
    simp at h1
    omega
  have t1 : (tree 1).toVertex = 2 := by
    have e := up 1 (by decide) b1 (by decide) (rch 1 (by decide) b1)
    obtain ⟨q0, q1⟩ := e.source_range
    rw [n4] at q1
    generalize (tree 1).toVertex = p at e q0 q1 ⊢
    rw [w1] at e
    have : p = 0 ∨ p = 1 ∨ p = 2 ∨ p = 3 := by omega
    rcases this with rfl | rfl | rfl | rfl
    · rw [w0, scenario_isEdge p0 p1 p2 p3] at e
      simp [scenarioTriples] at e
    · rw [w1, scenario_isEdge p0 p1 p2 p3] at e
      simp [scenarioTriples] at e
    · rfl
    · rw [w3, scenario_isEdge p0 p1 p2 p3] at e
      simp [scenarioTriples] at e
  have t2 : (tree 2).toVertex = 0 := by
    have e := up 2 (by decide) b2 (by decide) (rch 2 (by decide) b2)
    obtain ⟨q0, q1⟩ := e.source_range
    rw [n4] at q1
    generalize (tree 2).toVertex = p at e q0 q1 ⊢
    rw [w2] at e
    have : p = 0 ∨ p = 1 ∨ p = 2 ∨ p = 3 := by omega
    rcases this with rfl | rfl | rfl | rfl
    · rfl
    · rw [w1, scenario_isEdge p0 p1 p2 p3] at e
      simp [scenarioTriples] at e
    · rw [w2, scenario_isEdge p0 p1 p2 p3] at e
      simp [scenarioTriples] at e
    · rw [w3, scenario_isEdge p0 p1 p2 p3] at e
      simp [scenarioTriples] at e
  have t3 : (tree 3).toVertex = 1 := by
    have e := up 3 (by decide) b3 (by decide) (rch 3 (by decide) b3)
    obtain ⟨q0, q1⟩ := e.source_range
    rw [n4] at q1
    generalize (tree 3).toVertex = p at e q0 q1 ⊢
    rw [w3] at e
    have : p = 0 ∨ p = 1 ∨ p = 2 ∨ p = 3 := by omega
    rcases this with rfl | rfl | rfl | rfl
    · rw [w0, scenario_isEdge p0 p1 p2 p3] at e
      simp [scenarioTriples] at e
    · rfl
    · rw [w2, scenario_isEdge p0 p1 p2 p3] at e
      simp [scenarioTriples] at e
    · rw [w3, scenario_isEdge p0 p1 p2 p3] at e
      simp [scenarioTriples] at e
  refine ⟨tree, run, root, Edge.ext' (lay 1 (by decide) b1) t1 w1,
    Edge.ext' (lay 2 (by decide) b2) t2 w2,
    Edge.ext' (lay 3 (by decide) b3) t3 w3, ?_⟩
  intro fuel hf v v0 v1 vs
  exact paths v v0 v1 vs (rch v v0 v1) fuel (by rw [n4]; simpa using hf)

theorem BackPath.inv {g : Graph} {T : Int → Edge} {s v : Int} {es : List Edge}
    (h : BackPath g T s v es) :
    (v = s ∧ es = []) ∨
    (v ≠ s ∧ ∃ rest,
      es = (⟨v, (T v).toVertex, (T v).weight - (T (T v).toVertex).weight⟩ : Edge) :: rest ∧
      BackPath g T s (T v).toVertex rest) := by
  cases h with
  | nil => exact Or.inl ⟨rfl, rfl⟩
  | cons a _ c => exact Or.inr ⟨a, _, rfl, c⟩

theorem scenario_path_three {g : Graph} {T : Int → Edge} {es : List Edge}
    (h0 : T 0 = { fromVertex := 0, toVertex := 0, weight := 0 })
    (h1 : T 1 = { fromVertex := 1, toVertex := 2, weight := 3 })
    (h2 : T 2 = { fromVertex := 2, toVertex := 0, weight := 1 })
    (h3 : T 3 = { fromVertex := 3, toVertex := 1, weight := 4 })
    (bp : BackPath g T 0 3 es) :
    es = [{ fromVertex := 3, toVertex := 1, weight := 1 },
          { fromVertex := 1, toVertex := 2, weight := 2 },
          { fromVertex := 2, toVertex := 0, weight := 1 }] := by
  rcases bp.inv with ⟨a, _⟩ | ⟨_, r3, e3, bp⟩
  · exact absurd a (by decide)
  rw [h3] at e3 bp
  dsimp only at e3 bp
  rcases bp.inv with ⟨a, _⟩ | ⟨_, r1, e1, bp⟩
  · exact absurd a (by decide)
  rw [h1] at e1 bp e3
  dsimp only at e1 bp e3
  rcases bp.inv with ⟨a, _⟩ | ⟨_, r2, e2, bp⟩
  · exact absurd a (by decide)
  rw [h2] at e2 bp e1
  dsimp only at e2 bp e1
  rcases bp.inv with ⟨_, e0⟩ | ⟨a, _⟩
  · rw [h0] at e2
    rw [e3, e1, e2, e0]
    rfl
  · exact absurd rfl a

/-- C11. Scenario B: on the graph of the scenarios (edges both ways 0-1:4,
0-2:1, 2-1:2, 1-3:1, 2-3:5), in whatever order the adjacency lists hold their
edges and whatever the fresh memory contains, `getDistanceTreeDijkstra(graph,
0)` returns a tree whose entries are `(0, 0, 0)`, `(1, 2, 3)`, `(2, 0, 1)` and
`(3, 1, 4)`: distances 0, 3, 1, 4 and predecessors 0, 2, 0, 1. -/
theorem scenarioB_dijkstra (a0 a1 a2 a3 : List Edge) (junk : Int → HeapNode)
    (junkTree : Int → Edge) (p0 : a0.Perm scenarioAdj0) (p1 : a1.Perm scenarioAdj1)
    (p2 : a2.Perm scenarioAdj2) (p3 : a3.Perm scenarioAdj3) :
    ∃ tree, getDistanceTreeDijkstra (some (scenarioGraph a0 a1 a2 a3)) 0 junk junkTree =
        some (some tree) ∧
      tree 0 = { fromVertex := 0, toVertex := 0, weight := 0 } ∧
      tree 1 = { fromVertex := 1, toVertex := 2, weight := 3 } ∧
      tree 2 = { fromVertex := 2, toVertex := 0, weight := 1 } ∧
      tree 3 = { fromVertex := 3, toVertex := 1, weight := 4 } := by
  obtain ⟨tree, run, h0, h1, h2, h3, _⟩ := scenario_dijkstra_tree p0 p1 p2 p3 junk junkTree
  exact ⟨tree, run, h0, h1, h2, h3⟩

theorem scenarioB_dijkstra_witness :
    ∃ tree, getDistanceTreeDijkstra
        (some (scenarioGraph scenarioAdj0 scenarioAdj1 scenarioAdj2 scenarioAdj3)) 0
        zeroNodes zeroEdges = some (some tree) ∧
      tree 0 = { fromVertex := 0, toVertex := 0, weight := 0 } ∧
      tree 1 = { fromVertex := 1, toVertex := 2, weight := 3 } ∧
      tree 2 = { fromVertex := 2, toVertex := 0, weight := 1 } ∧
      tree 3 = { fromVertex := 3, toVertex := 1, weight := 4 } :=
  scenarioB_dijkstra _ _ _ _ _ _ (List.Perm.refl _) (List.Perm.refl _) (List.Perm.refl _)
    (List.Perm.refl _)

/-- C12, counterexample.  On Scenario B's tree, `makePath` for
source 0 and target 3 returns `[(3,1,1), (1,2,2), (2,0,1)]`: the first edge
starts at the target and the last edge ends at the source.  This is not the
list `[(0,2,1), (2,1,2), (1,3,1)]`. -/
theorem makePath_starts_at_target :
    ∃ tree, getDistanceTreeDijkstra
        (some (scenarioGraph scenarioAdj0 scenarioAdj1 scenarioAdj2 scenarioAdj3)) 0
        zeroNodes zeroEdges = some (some tree) ∧
      (∀ fuel, 5 ≤ fuel → makePath fuel (some tree) 4 3 0 =
        PathRun.returned [{ fromVertex := 3, toVertex := 1, weight := 1 },
          { fromVertex := 1, toVertex := 2, weight := 2 },
          { fromVertex := 2, toVertex := 0, weight := 1 }]) ∧
      PathRun.returned [{ fromVertex := 3, toVertex := 1, weight := 1 },
          { fromVertex := 1, toVertex := 2, weight := 2 },
          { fromVertex := 2, toVertex := 0, weight := 1 }] ≠
        PathRun.returned [{ fromVertex := 0, toVertex := 2, weight := 1 },
          { fromVertex := 2, toVertex := 1, weight := 2 },
          { fromVertex := 1, toVertex := 3, weight := 1 }] := by
  obtain ⟨tree, run, h0, h1, h2, h3, paths⟩ :=
    scenario_dijkstra_tree (List.Perm.refl _) (List.Perm.refl _) (List.Perm.refl _)
      (List.Perm.refl _) zeroNodes zeroEdges
  refine ⟨tree, run, ?_, by decide⟩
  intro fuel hf
  obtain ⟨es, mp, bp⟩ := paths fuel hf 3 (by decide) (by decide) (by decide)
  rw [mp, scenario_path_three h0 h1 h2 h3 bp]

/-- C12, amended.  Path order: for a well-formed graph with non-negative
`int` weights in which every path from the source without repeated vertices
weighs less than `INT_MAX`, and for every target `v` other than the source
that is reachable from it, `makePath` on the tree of
`getDistanceTreeDijkstra` returns (given fuel for `numVertices + 1` tests of
its loop condition) the path's edges in target-to-source order: the first
edge starts at the target (`fromVertex == v`), each edge ends where the next
one starts, and the last edge ends at the source.  In particular on Scenario
B's tree, whatever the order of the adjacency lists and the content of fresh
memory, the path for source 0 and target 3 is the list
`[(3,1,1), (1,2,2), (2,0,1)]`. -/
theorem makePath_order :
    (∀ (g : Graph) (s : Int) (junk : Int → HeapNode) (junkTree : Int → Edge),
      GraphOk g → 0 ≤ s → s < g.numVertices → (∀ a b w, IsEdge g a b w → 0 ≤ w) →
      (∀ a b w, IsEdge g a b w → w ≤ INT_MAX) →
      (∀ vs v d, Path g s vs v d → vs.Nodup → d < INT_MAX) →
      ∃ tree, getDistanceTreeDijkstra (some g) s junk junkTree = some (some tree) ∧
        ∀ v, 0 ≤ v → v < g.numVertices → v ≠ s → Reach g s v →
          ∀ fuel, g.numVertices.toNat + 1 ≤ fuel →
            ∃ path, makePath fuel (some tree) g.numVertices v s = PathRun.returned path ∧
              path.head?.map Edge.fromVertex = some v ∧
              path.getLast?.map Edge.toVertex = some s ∧
              List.Chain' (fun e f => e.toVertex = f.fromVertex) path) ∧
    (∀ (a0 a1 a2 a3 : List Edge) (junk : Int → HeapNode) (junkTree : Int → Edge),
      a0.Perm scenarioAdj0 → a1.Perm scenarioAdj1 → a2.Perm scenarioAdj2 →
      a3.Perm scenarioAdj3 →
      ∃ tree, getDistanceTreeDijkstra (some (scenarioGraph a0 a1 a2 a3)) 0 junk junkTree =
          some (some tree) ∧
        ∀ fuel, 5 ≤ fuel → makePath fuel (some tree) 4 3 0 =
          PathRun.returned [{ fromVertex := 3, toVertex := 1, weight := 1 },
            { fromVertex := 1, toVertex := 2, weight := 2 },
            { fromVertex := 2, toVertex := 0, weight := 1 }]) := by
  constructor
  · intro g s junk junkTree gok s0 s1 hw hi hsum
    obtain ⟨tree, run, _, _, _, _, paths, _⟩ := dijkstra_paths gok s0 s1 hw hi hsum junk junkTree
    refine ⟨tree, run, ?_⟩
    intro v v0 v1 vs rv fuel hf
    obtain ⟨es, mp, bp⟩ := paths v v0 v1 vs rv fuel hf
    obtain ⟨e, rest, he, hfrom⟩ := bp.head_from vs
    refine ⟨es, mp, by rw [he]; simp [hfrom], ?_, bp.chain⟩
    have hl : es.getLast? = some (es.getLast (by rw [he]; simp)) :=
      List.getLast?_eq_getLast _ _
    rw [hl]
    simp only [Option.map_some', Option.some.injEq]
    exact bp.last_to _ hl
  · intro a0 a1 a2 a3 junk junkTree p0 p1 p2 p3
    obtain ⟨tree, run, h0, h1, h2, h3, paths⟩ := scenario_dijkstra_tree p0 p1 p2 p3 junk junkTree
    refine ⟨tree, run, ?_⟩
    intro fuel hf
    obtain ⟨es, mp, bp⟩ := paths fuel hf 3 (by decide) (by decide) (by decide)
    rw [mp, scenario_path_three h0 h1 h2 h3 bp]

theorem makePath_order_witness :
    ∃ tree, getDistanceTreeDijkstra (some splitGraph) 1 zeroNodes zeroEdges =
        some (some tree) ∧
      ∀ v, 0 ≤ v → v < splitGraph.numVertices → v ≠ 1 → Reach splitGraph 1 v →
        ∀ fuel, splitGraph.numVertices.toNat + 1 ≤ fuel →
          ∃ path, makePath fuel (some tree) splitGraph.numVertices v 1 =
              PathRun.returned path ∧
            path.head?.map Edge.fromVertex = some v ∧
            path.getLast?.map Edge.toVertex = some 1 ∧
            List.Chain' (fun e f => e.toVertex = f.fromVertex) path :=
  makePath_order.1 splitGraph 1 zeroNodes zeroEdges splitGraph_ok (by decide) (by decide)
    (fun a b w h => by
      rcases (splitGraph_isEdge a b w).1 h with ⟨_, _, e⟩ | ⟨_, _, e⟩ <;> rw [e] <;> decide)
    (fun a b w h => by
      rcases (splitGraph_isEdge a b w).1 h with ⟨_, _, e⟩ | ⟨_, _, e⟩ <;> rw [e] <;> decide)
    (fun vs v d h nd => by
      have := simple_path_bound splitGraph_ok (show (0 : Int) ≤ 1 by decide)
        (show (1 : Int) < 3 by decide) (show (0 : Int) ≤ 1 by decide)
        (fun a b w h => by
          rcases (splitGraph_isEdge a b w).1 h with ⟨_, _, e⟩ | ⟨_, _, e⟩ <;> rw [e])
        h nd
      have n3 : splitGraph.numVertices = 3 := rfl
      rw [n3] at this
      unfold INT_MAX
      omega)

theorem splitGraph_sums (s : Int) (s0 : 0 ≤ s) (s1 : s < 3) :
    ∀ vs v d, Path splitGraph s vs v d → vs.Nodup → d < INT_MAX := by
  intro vs v d h nd
  have := simple_path_bound splitGraph_ok s0 s1 (show (0 : Int) ≤ 1 by decide)
    (fun a b w h => by
      rcases (splitGraph_isEdge a b w).1 h with ⟨_, _, e⟩ | ⟨_, _, e⟩ <;> rw [e])
    h nd
  have n3 : splitGraph.numVertices = 3 := rfl
  rw [n3] at this
  unfold INT_MAX
  omega

theorem splitGraph_weights (a b w : Int) (h : IsEdge splitGraph a b w) :
    0 ≤ w ∧ w ≤ INT_MAX := by
  rcases (splitGraph_isEdge a b w).1 h with ⟨_, _, e⟩ | ⟨_, _, e⟩ <;> rw [e] <;> decide

/-- C18. Path weights: for a well-formed graph with non-negative `int`
weights in which every path from the source without repeated vertices weighs
less than `INT_MAX`, and for every target `v` reachable from the source,
`makePath` on the tree of `getDistanceTreeDijkstra` returns (given fuel for
`numVertices + 1` tests of its loop condition) a path each of whose edges
`(a, b, w)` joins `a` to its predecessor `b == tree[a].toVertex`, with
`w == tree[a].weight - tree[b].weight`, the weight of an edge `b -> a` of the
graph; the weights of the path sum to `tree[v].weight`. -/
theorem makePath_weights (g : Graph) (s : Int) (junk : Int → HeapNode) (junkTree : Int → Edge)
    (gok : GraphOk g) (s0 : 0 ≤ s) (s1 : s < g.numVertices)
    (hw : ∀ a b w, IsEdge g a b w → 0 ≤ w) (hi : ∀ a b w, IsEdge g a b w → w ≤ INT_MAX)
    (hsum : ∀ vs v d, Path g s vs v d → vs.Nodup → d < INT_MAX) :
    ∃ tree, getDistanceTreeDijkstra (some g) s junk junkTree = some (some tree) ∧
      ∀ v, 0 ≤ v → v < g.numVertices → Reach g s v →
        ∀ fuel, g.numVertices.toNat + 1 ≤ fuel →
          ∃ path, makePath fuel (some tree) g.numVertices v s = PathRun.returned path ∧
            (∀ e ∈ path, e.toVertex = (tree e.fromVertex).toVertex ∧
              e.weight = (tree e.fromVertex).weight - (tree e.toVertex).weight ∧
              IsEdge g e.toVertex e.fromVertex e.weight) ∧
            totalWeight path = (tree v).weight := by
  obtain ⟨tree, run, root, _, _, _, paths, _⟩ := dijkstra_paths gok s0 s1 hw hi hsum junk junkTree
  refine ⟨tree, run, ?_⟩
  intro v v0 v1 rv fuel hf
  by_cases vs : v = s
  · subst vs
    refine ⟨[], makePath_same fuel _ _ v v0 v1, fun e he => (by cases he), ?_⟩
    rw [root]
    rfl
  · obtain ⟨es, mp, bp⟩ := paths v v0 v1 vs rv fuel hf
    refine ⟨es, mp, bp.edges, ?_⟩
    rw [bp.total, root]
    simp

theorem makePath_weights_witness :
    ∃ tree, getDistanceTreeDijkstra (some splitGraph) 1 zeroNodes zeroEdges =
        some (some tree) ∧
      ∀ v, 0 ≤ v → v < splitGraph.numVertices → Reach splitGraph 1 v →
        ∀ fuel, splitGraph.numVertices.toNat + 1 ≤ fuel →
          ∃ path, makePath fuel (some tree) splitGraph.numVertices v 1 =
              PathRun.returned path ∧
            (∀ e ∈ path, e.toVertex = (tree e.fromVertex).toVertex ∧
              e.weight = (tree e.fromVertex).weight - (tree e.toVertex).weight ∧
              IsEdge splitGraph e.toVertex e.fromVertex e.weight) ∧
            totalWeight path = (tree v).weight :=
  makePath_weights splitGraph 1 zeroNodes zeroEdges splitGraph_ok (by decide) (by decide)
    (fun a b w h => (splitGraph_weights a b w h).1)
    (fun a b w h => (splitGraph_weights a b w h).2)
    (splitGraph_sums 1 (by decide) (by decide))

set_option maxRecDepth 100000 in
theorem farGraph_dijkstra_run :
    (dijkstraRun farGraph 0 zeroNodes zeroEdges).map (fun r => (r.tree 0, r.tree 1)) =
      some ({ fromVertex := 0, toVertex := 0, weight := 0 },
        { fromVertex := 1, toVertex := -1, weight := 2147483647 }) := by
  decide

/-- C16, counterexample.  In the graph with the single edge
`0 -> 1` of weight `INT_MAX`, vertex 1 is reachable from the source 0 and all
weights are non-negative, yet `makePath` returns NULL for vertex 1 and
`getShortestPaths` stores NULL at index 1. -/
theorem reachable_vertex_without_path :
    Reach farGraph 0 1 ∧ (∀ a b w, IsEdge farGraph a b w → 0 ≤ w) ∧
    ∃ tree, getDistanceTreeDijkstra (some farGraph) 0 zeroNodes zeroEdges =
        some (some tree) ∧
      (∀ fuel, 2 ≤ fuel → makePath fuel (some tree) 2 1 0 = PathRun.returned []) ∧
      ∃ paths, getShortestPaths 3 (some tree) 2 0 (fun _ => [zeroEdges 0]) =
          some (some paths) ∧ paths 1 = [] := by
  have e01 : IsEdge farGraph 0 1 2147483647 :=
    ⟨{ fromVertex := 0, toVertex := 1, weight := 2147483647 },
      by simp [adjOf, vertexAt, farGraph], rfl, rfl⟩
  refine ⟨Relation.ReflTransGen.single ⟨_, e01⟩, ?_, ?_⟩
  · rintro a b w ⟨e, he, _, ew⟩
    unfold adjOf vertexAt farGraph at he
    by_cases c0 : a = 0
    · subst c0
      simp at he
      rw [← ew, he]
      decide
    · by_cases c1 : a = 1
      · subst c1
        simp at he
      · have : ¬ (0 ≤ a ∧ a < 2) := by omega
        simp [c0, c1, this] at he
  have h := farGraph_dijkstra_run
  cases hr : dijkstraRun farGraph 0 zeroNodes zeroEdges with
  | none =>
    rw [hr] at h
    cases h
  | some r =>
    rw [hr, Option.map_some'] at h
    injection h with h
    simp only [Prod.mk.injEq] at h
    obtain ⟨t0, t1⟩ := h
    have mp : ∀ fuel, 2 ≤ fuel → makePath fuel (some r.tree) 2 1 0 = PathRun.returned [] := by
      intro fuel hf
      obtain ⟨fuel, rfl⟩ : ∃ f, fuel = f + 2 := ⟨fuel - 2, by omega⟩
      simp [makePath, makePathLoop, findEntry, preWeight, t0, t1, newEdge, wrap32]
    refine ⟨r.tree, ?_, mp, ?_⟩
    · have : ¬ ((0 : Int) < 0 ∨ (0 : Int) ≥ farGraph.numVertices) := by decide
      simp only [getDistanceTreeDijkstra, this, if_false, hr, Option.bind_eq_bind,
        Option.some_bind]
      rfl
    · have m3 := mp 3 (by decide)
      refine ⟨Function.update (Function.update (fun _ => [zeroEdges 0]) 0 []) 1 [], ?_, ?_⟩
      · simp [getShortestPaths, getShortestPathsLoop, m3]
      · simp

/-- C16, amended.  Unreachable and source paths: for a well-formed graph with
non-negative `int` weights in which every path from the source without
repeated vertices weighs less than `INT_MAX`, a valid source `s` and `tree =
getDistanceTreeDijkstra(graph, s)`, the array returned by
`getShortestPaths(tree, numVertices, s)` (given fuel for `numVertices + 1`
tests of the loop condition of `makePath`) holds the empty path (NULL) at
index `v` if and only if `v == s` or `v` is not reachable from `s`;
`makePath` itself returns the empty path when `vertex == startVertex`. -/
theorem shortest_paths_null :
    (∀ (g : Graph) (s : Int) (junk : Int → HeapNode) (junkTree : Int → Edge)
      (junkPaths : Int → List Edge),
      GraphOk g → 0 ≤ s → s < g.numVertices → (∀ a b w, IsEdge g a b w → 0 ≤ w) →
      (∀ a b w, IsEdge g a b w → w ≤ INT_MAX) →
      (∀ vs v d, Path g s vs v d → vs.Nodup → d < INT_MAX) →
      ∃ tree, getDistanceTreeDijkstra (some g) s junk junkTree = some (some tree) ∧
        ∀ fuel, g.numVertices.toNat + 1 ≤ fuel →
          ∃ paths, getShortestPaths fuel (some tree) g.numVertices s junkPaths =
              some (some paths) ∧
            ∀ v, 0 ≤ v → v < g.numVertices → (paths v = [] ↔ v = s ∨ ¬ Reach g s v)) ∧
    (∀ (fuel : Nat) (distTree : Option (Int → Edge)) (numVertices v : Int),
      0 ≤ v → v < numVertices → makePath fuel distTree numVertices v v = PathRun.returned []) := by
  refine ⟨?_, makePath_same⟩
  intro g s junk junkTree junkPaths gok s0 s1 hw hi hsum
  obtain ⟨tree, run, _, _, _, _, paths, nopath⟩ :=
    dijkstra_paths gok s0 s1 hw hi hsum junk junkTree
  refine ⟨tree, run, ?_⟩
  intro fuel hf
  have hall : ∀ v, 0 ≤ v → v < g.numVertices → v ≠ s →
      ∃ p, makePath fuel (some tree) g.numVertices v s = PathRun.returned p := by
    intro v v0 v1 vs
    by_cases rv : Reach g s v
    · obtain ⟨es, mp, _⟩ := paths v v0 v1 vs rv fuel hf
      exact ⟨es, mp⟩
    · exact ⟨[], nopath v v0 v1 rv fuel hf⟩
  obtain ⟨out, lp, hout, _⟩ := getShortestPathsLoop_spec hall g.numVertices.toNat 0 junkPaths
    (le_refl _) (by omega)
  have hs : ¬ (s < 0 ∨ s ≥ g.numVertices) := by omega
  refine ⟨out, by simp [getShortestPaths, hs, lp], ?_⟩
  intro v v0 v1
  obtain ⟨h1, h2⟩ := hout v v0 v1
  by_cases vs : v = s
  · exact ⟨fun _ => Or.inl vs, fun _ => h1 vs⟩
  · by_cases rv : Reach g s v
    · obtain ⟨es, mp, bp⟩ := paths v v0 v1 vs rv fuel hf
      obtain ⟨e, rest, he, _⟩ := bp.head_from vs
      have := h2 vs
      rw [mp] at this
      injection this with this
      constructor
      · intro h
        rw [← this, he] at h
        cases h
      · rintro (h | h)
        · exact absurd h vs
        · exact absurd rv h
    · have := h2 vs
      rw [nopath v v0 v1 rv fuel hf] at this
      injection this with this
      exact ⟨fun _ => Or.inr rv, fun _ => this.symm⟩

theorem shortest_paths_null_witness :
    ∃ tree, getDistanceTreeDijkstra (some splitGraph) 1 zeroNodes zeroEdges =
        some (some tree) ∧
      ∀ fuel, splitGraph.numVertices.toNat + 1 ≤ fuel →
        ∃ paths, getShortestPaths fuel (some tree) splitGraph.numVertices 1
            (fun _ => [zeroEdges 0]) = some (some paths) ∧
          ∀ v, 0 ≤ v → v < splitGraph.numVertices →
            (paths v = [] ↔ v = 1 ∨ ¬ Reach splitGraph 1 v) :=
  shortest_paths_null.1 splitGraph 1 zeroNodes zeroEdges (fun _ => [zeroEdges 0]) splitGraph_ok
    (by decide) (by decide)
    (fun a b w h => (splitGraph_weights a b w h).1)
    (fun a b w h => (splitGraph_weights a b w h).2)
    (splitGraph_sums 1 (by decide) (by decide))

set_option maxRecDepth 100000 in
theorem splitGraph_dijkstra_trace :
    (dijkstraTrace splitGraph 0 zeroNodes zeroEdges).map
      (fun x => (x.1.map Prod.snd, x.2.tree 1, x.2.tree 2)) =
      some ([{ priority := 0, id := 0 }, { priority := 2147483647, id := 2 },
          { priority := -2147483648, id := 1 }],
        { fromVertex := 1, toVertex := 2, weight := -2147483648 },
        { fromVertex := 2, toVertex := -1, weight := 2147483647 }) := by
  decide

/-- C15, the run that shows the defect.  In the graph of three vertices
where vertex 0 has no edge and vertices 1 and 2 are joined by an edge of
weight 1, vertex 1 is not reachable from the source 0 and all weights are
non-negative.  `getDistanceTreeDijkstra` extracts vertex 2 with priority
`INT_MAX`, the sum `INT_MAX + 1` wraps to `-2147483648`, which lowers the
priority of vertex 1: vertex 1 is extracted with priority `-2147483648` and
its entry is `(1, 2, -2147483648)`, with predecessor 2 and not `NOTHING`. -/
theorem dijkstra_wraps_at_infinity :
    ¬ Reach splitGraph 0 1 ∧ (∀ a b w, IsEdge splitGraph a b w → 0 ≤ w) ∧
    ∃ log r, dijkstraTrace splitGraph 0 zeroNodes zeroEdges = some (log, r) ∧
      getDistanceTreeDijkstra (some splitGraph) 0 zeroNodes zeroEdges = some (some r.tree) ∧
      log.map Prod.snd = [{ priority := 0, id := 0 }, { priority := 2147483647, id := 2 },
        { priority := -2147483648, id := 1 }] ∧
      r.tree 1 = { fromVertex := 1, toVertex := 2, weight := -2147483648 } := by
  refine ⟨fun h => absurd (splitGraph_reach h) (by decide),
    fun a b w h => (splitGraph_weights a b w h).1, ?_⟩
  have h := splitGraph_dijkstra_trace
  cases hr : dijkstraTrace splitGraph 0 zeroNodes zeroEdges with
  | none =>
    rw [hr] at h
    cases h
  | some x =>
    obtain ⟨log, r⟩ := x
    rw [hr, Option.map_some'] at h
    injection h with h
    simp only [Prod.mk.injEq] at h
    obtain ⟨a, b, _⟩ := h
    refine ⟨log, r, rfl, ?_, a, b⟩
    have run : dijkstraRun splitGraph 0 zeroNodes zeroEdges = some r := by
      rw [← dijkstraTrace_run, hr]
      rfl
    have : ¬ ((0 : Int) < 0 ∨ (0 : Int) ≥ splitGraph.numVertices) := by decide
    simp only [getDistanceTreeDijkstra, this, if_false, run, Option.bind_eq_bind,
      Option.some_bind]
    rfl

theorem cycleTree_lay : ∀ i, 0 ≤ i → i < 3 → (cycleTree i).fromVertex = i := by
  intro i i0 i1
  have : i = 0 ∨ i = 1 ∨ i = 2 := by omega
  rcases this with rfl | rfl | rfl <;> rfl

theorem cycleTree_loops (fuel : Nat) :
    ∀ acc, makePathLoop cycleTree 3 0 fuel 1 acc = PathRun.unfinished ∧
      makePathLoop cycleTree 3 0 fuel 2 acc = PathRun.unfinished := by
  induction fuel with
  | zero => intro acc; exact ⟨rfl, rfl⟩
  | succ fuel ih =>
    intro acc
    constructor
    · rw [makePathLoop_in (w := 0) cycleTree_lay (by decide) (by decide) (by decide)
        (by decide) (le_refl _)]
      exact (ih _).2
    · rw [makePathLoop_in (w := 0) cycleTree_lay (by decide) (by decide) (by decide)
        (by decide) (le_refl _)]
      exact (ih _).1

/-- C17, counterexample.  On the tree of three entries in which the
links of vertices 1 and 2 point at each other, `makePath` for vertex 1 and
start vertex 0 is still in its loop after `numVertices + 1` tests of the loop
condition, and after any number of them: it does not terminate. -/
theorem makePath_cycle_runs_forever :
    makePath 4 (some cycleTree) 3 1 0 = PathRun.unfinished ∧
    ∀ fuel, makePath fuel (some cycleTree) 3 1 0 = PathRun.unfinished := by
  have h : ∀ fuel, makePath fuel (some cycleTree) 3 1 0 = PathRun.unfinished := by
    intro fuel
    rw [makePath_loop (by decide) (by decide) (by decide) (by decide) (by decide)]
    exact (cycleTree_loops fuel []).1
  exact ⟨h 4, h⟩

theorem findEntry_some {T : Int → Edge} {c : Int} :
    ∀ (count : Nat) (i : Int) (e : Edge), findEntry T c count i = some e →
      ∃ j, i ≤ j ∧ j < i + count ∧ e = T j ∧ (T j).fromVertex = c := by
  intro count
  induction count with
  | zero => intro i e h; cases h
  | succ count ih =>
    intro i e h
    simp only [findEntry] at h
    by_cases c1 : (T i).fromVertex = c
    · rw [if_pos c1] at h
      injection h with h
      exact ⟨i, le_refl _, by push_cast; omega, h.symm, c1⟩
    · rw [if_neg c1] at h
      obtain ⟨j, j0, j1, je, jf⟩ := ih (i + 1) e h
      exact ⟨j, by omega, by push_cast; omega, je, jf⟩

theorem makePathLoop_cases (T : Int → Edge) (n s : Int) (fuel : Nat) (c : Int)
    (acc : List Edge) (cs : c ≠ s) :
    makePathLoop T n s (fuel + 1) c acc = PathRun.returned [] ∨
    makePathLoop T n s (fuel + 1) c acc = PathRun.exited ∨
    ∃ j w, 0 ≤ j ∧ j < n ∧ (T j).fromVertex = c ∧
      makePathLoop T n s (fuel + 1) c acc =
        makePathLoop T n s fuel (T j).toVertex
          (acc ++ [{ fromVertex := c, toVertex := (T j).toVertex, weight := w }]) := by
  cases hfe : findEntry T c n.toNat 0 with
  | none =>
    left
    simp only [makePathLoop, if_neg cs, hfe]
  | some e =>
    obtain ⟨j, j0, j1, je, jf⟩ := findEntry_some _ _ _ hfe
    right
    cases hne : newEdge e.fromVertex e.toVertex
        (wrap32 (e.weight - preWeight T e.toVertex n.toNat 0)) with
    | none =>
      left
      simp only [makePathLoop, if_neg cs, hfe, hne]
    | some edge =>
      right
      refine ⟨j, edge.weight, j0, by omega, jf, ?_⟩
      simp only [makePathLoop, if_neg cs, hfe, hne]
      have : edge = { fromVertex := c, toVertex := (T j).toVertex, weight := edge.weight } := by
        unfold newEdge at hne
        split_ifs at hne
        injection hne with hne
        rw [← hne, je, jf]
      rw [← this, je]

theorem makePathLoop_terminates {T : Int → Edge} {n s : Int} {rank : Int → Nat}
    (acyc : ∀ i, 0 ≤ i → i < n → (T i).fromVertex ≠ s →
      rank (T i).toVertex < rank (T i).fromVertex) (fuel : Nat) :
    ∀ (c : Int) (acc : List Edge) (seen : Finset Int),
      (∀ i ∈ seen, 0 ≤ i ∧ i < n ∧ rank c < rank (T i).fromVertex) →
      n.toNat + 1 ≤ fuel + seen.card →
      makePathLoop T n s fuel c acc ≠ PathRun.unfinished := by
  induction fuel with
  | zero =>
    intro c acc seen hs hc
    exfalso
    have sub : seen ⊆ Finset.Ico 0 n := by
      intro i hi
      obtain ⟨a, b, _⟩ := hs i hi
      exact Finset.mem_Ico.2 ⟨a, b⟩
    have := Finset.card_le_card sub
    rw [Int.card_Ico] at this
    simp only [sub_zero] at this
    omega
  | succ fuel ih =>
    intro c acc seen hs hc
    by_cases cs : c = s
    · simp [makePathLoop, cs]
    · rcases makePathLoop_cases T n s fuel c acc cs with h | h | ⟨j, w, j0, j1, jf, h⟩
      · rw [h]; exact fun x => by cases x
      · rw [h]; exact fun x => by cases x
      · rw [h]
        have dec := acyc j j0 j1 (by rw [jf]; exact cs)
        rw [jf] at dec
        have jn : j ∉ seen := by
          intro hj
          have := (hs j hj).2.2
          rw [jf] at this
          omega
        refine ih _ _ (Insert.insert j seen : Finset Int) ?_ ?_
        · intro i hi
          rcases Finset.mem_insert.1 hi with e | e
          · subst e
            rw [jf]
            exact ⟨j0, j1, dec⟩
          · obtain ⟨a, b, d⟩ := hs i e
            exact ⟨a, b, by omega⟩
        · rw [Finset.card_insert_of_not_mem jn]
          omega

theorem makePathLoop_result (T : Int → Edge) (n s : Int) (fuel : Nat) :
    ∀ (c : Int) (acc path : List Edge),
      (acc = [] ∨ ∃ e, acc.getLast? = some e ∧ e.toVertex = c) →
      makePathLoop T n s fuel c acc = PathRun.returned path →
      path.length + 1 ≤ acc.length + fuel ∧
      (path = [] ∨ ∃ e, path.getLast? = some e ∧ e.toVertex = s) := by
  induction fuel with
  | zero => intro c acc path _ h; cases h
  | succ fuel ih =>
    intro c acc path hacc h
    by_cases cs : c = s
    · simp only [makePathLoop, if_pos cs] at h
      injection h with h
      subst h
      refine ⟨by omega, ?_⟩
      rw [← cs]
      exact hacc
    · rcases makePathLoop_cases T n s fuel c acc cs with h' | h' | ⟨j, w, j0, j1, jf, h'⟩
      · rw [h'] at h
        injection h with h
        subst h
        exact ⟨by simp only [List.length_nil]; omega, Or.inl rfl⟩
      · rw [h'] at h
        cases h
      · rw [h'] at h
        obtain ⟨a, b⟩ := ih (T j).toVertex
          (acc ++ [{ fromVertex := c, toVertex := (T j).toVertex, weight := w }]) path
          (Or.inr ⟨_, List.getLast?_concat _, rfl⟩) h
        refine ⟨?_, b⟩
        simp only [List.length_append, List.length_singleton] at a
        omega

/-- C17, amended.  Bounded path walk: for every distance-tree array of length
`numVertices` whose predecessor links do not form a cycle (some ranking of
the vertices decreases along the link of every entry that does not start at
`startVertex`) and every in-range vertex and `startVertex`, `makePath`
terminates within `numVertices + 1` tests of its loop condition, that is
after following at most `numVertices` predecessor links; a path it returns
has at most `numVertices` edges and is either the no-path result (NULL) or
ends at `startVertex`. -/
theorem makePath_bounded_walk (T : Int → Edge) (n v s : Int) (rank : Int → Nat)
    (v0 : 0 ≤ v) (v1 : v < n) (s0 : 0 ≤ s) (s1 : s < n)
    (acyc : ∀ i, 0 ≤ i → i < n → (T i).fromVertex ≠ s →
      rank (T i).toVertex < rank (T i).fromVertex) :
    makePath (n.toNat + 1) (some T) n v s ≠ PathRun.unfinished ∧
    ∀ path, makePath (n.toNat + 1) (some T) n v s = PathRun.returned path →
      (path.length : Int) ≤ n ∧ (path = [] ∨ ∃ e, path.getLast? = some e ∧ e.toVertex = s) := by
  by_cases vs : v = s
  · subst vs
    rw [makePath_same _ _ _ v v0 v1]
    refine ⟨fun x => (by cases x), ?_⟩
    intro path h
    injection h with h
    subst h
    exact ⟨by simpa using (by omega : (0 : Int) ≤ n), Or.inl rfl⟩
  · rw [makePath_loop v0 v1 s0 s1 vs]
    refine ⟨makePathLoop_terminates acyc _ v [] ∅ (fun i hi => by cases hi) (by simp), ?_⟩
    intro path h
    obtain ⟨a, b⟩ := makePathLoop_result T n s _ v [] path (Or.inl rfl) h
    refine ⟨?_, b⟩
    simp only [List.length_nil] at a
    omega

theorem makePath_bounded_walk_witness :
    makePath ((4 : Int).toNat + 1) (some (fun i =>
        if i = 0 then { fromVertex := 0, toVertex := 0, weight := 0 }
        else if i = 1 then { fromVertex := 1, toVertex := 2, weight := 3 }
        else if i = 2 then { fromVertex := 2, toVertex := 0, weight := 1 }
        else { fromVertex := 3, toVertex := 1, weight := 4 })) 4 3 0 ≠ PathRun.unfinished ∧
    ∀ path, makePath ((4 : Int).toNat + 1) (some (fun i =>
        if i = 0 then { fromVertex := 0, toVertex := 0, weight := 0 }
        else if i = 1 then { fromVertex := 1, toVertex := 2, weight := 3 }
        else if i = 2 then { fromVertex := 2, toVertex := 0, weight := 1 }
        else { fromVertex := 3, toVertex := 1, weight := 4 })) 4 3 0 = PathRun.returned path →
      (path.length : Int) ≤ 4 ∧ (path = [] ∨ ∃ e, path.getLast? = some e ∧ e.toVertex = 0) :=
  makePath_bounded_walk _ 4 3 0
    (fun i => if i = 0 then 0 else if i = 2 then 1 else if i = 1 then 2 else 3)
    (by decide) (by decide) (by decide) (by decide)
    (fun i i0 i1 => by
      have : i = 0 ∨ i = 1 ∨ i = 2 ∨ i = 3 := by omega
      rcases this with rfl | rfl | rfl | rfl <;> decide)

/-- C22. `addTreeEdge` frame: for every records value and every `ind`,
`addTreeEdge(records, ind, f, t, w)` leaves the records unchanged when
`ind < 0` or `ind > numVertices - 1`; when `0 <= ind <= numVertices - 1` it
sets `tree[ind]` to `(f, t, w)` and changes no other tree entry and no other
field. -/
theorem addTreeEdge_frame (records : Records) (ind f t w : Int) :
    (ind < 0 ∨ ind > records.numVertices - 1 → addTreeEdge records ind f t w = records) ∧
    (0 ≤ ind → ind ≤ records.numVertices - 1 →
      (addTreeEdge records ind f t w).tree ind = { fromVertex := f, toVertex := t, weight := w } ∧
      (∀ j, j ≠ ind → (addTreeEdge records ind f t w).tree j = records.tree j) ∧
      (addTreeEdge records ind f t w).numTreeEdges = records.numTreeEdges ∧
      (addTreeEdge records ind f t w).finished = records.finished ∧
      (addTreeEdge records ind f t w).predecessors = records.predecessors ∧
      (addTreeEdge records ind f t w).heap = records.heap ∧
      (addTreeEdge records ind f t w).numVertices = records.numVertices) := by
  constructor
  · intro h
    unfold addTreeEdge
    rw [if_pos h]
  · intro h0 h1
    have : ¬ (ind < 0 ∨ ind > records.numVertices - 1) := by omega
    unfold addTreeEdge
    rw [if_neg this]
    refine ⟨?_, ?_, rfl, rfl, rfl, rfl, rfl⟩
    · show Function.update records.tree ind _ ind = _
      rw [Function.update_same]
    · intro j hj
      show Function.update records.tree ind _ j = _
      rw [Function.update_noteq hj]

theorem addTreeEdge_frame_witness :
    (addTreeEdge sampleRecords 1 2 0 7).tree 1 =
      { fromVertex := 2, toVertex := 0, weight := 7 } ∧
    addTreeEdge sampleRecords 3 2 0 7 = sampleRecords :=
  ⟨((addTreeEdge_frame sampleRecords 1 2 0 7).2 (by decide) (by decide)).1,
    (addTreeEdge_frame sampleRecords 3 2 0 7).1 (by decide)⟩

/-- C21. Initial records: for every graph with `n >= 1` vertices and every
valid source `s`, whatever the fresh memory contains, `initRecords(graph, s)`
returns records with `numVertices == n`, `numTreeEdges == 0`,
`finished[v] == false` and `predecessors[v] == NOTHING` for every `v` in
`[0, n)`, and a heap of size `n` that satisfies heap order and map
consistency, holds every vertex ID in exactly one slot, with
`getPriority(s) == 0` and `getPriority(v) == INT_MAX` for every `v != s`;
the source is at the root. -/
theorem initRecords_contract (g : Graph) (s : Int) (junk : Int → HeapNode)
    (junkTree : Int → Edge) (n1 : 1 ≤ g.numVertices) (s0 : 0 ≤ s) (s1 : s < g.numVertices) :
    ∃ r, initRecords g s junk junkTree = some r ∧ r.numVertices = g.numVertices ∧
      r.numTreeEdges = 0 ∧
      (∀ v, 0 ≤ v → v < g.numVertices → r.finished v = false ∧ r.predecessors v = NOTHING) ∧
      r.heap.size = g.numVertices ∧ heapOrder r.heap ∧ mapConsistent r.heap ∧
      (∀ v, 0 ≤ v → v < g.numVertices →
        ∃! k, 1 ≤ k ∧ k ≤ r.heap.size ∧ (r.heap.arr k).id = v) ∧
      getPriority r.heap s = some 0 ∧
      (∀ v, 0 ≤ v → v < g.numVertices → v ≠ s → getPriority r.heap v = some INT_MAX) ∧
      r.heap.arr 1 = { priority := 0, id := s } := by
  obtain ⟨r, i0, inv, sz, k, fin, pr, _, st⟩ := initRecords_spec g s junk junkTree n1
  have ne : r.heap.size ≠ 0 := by omega
  refine ⟨r, i0, inv.nv, k, ?_, sz, inv.ho, mapConsistent_of_slotOk inv.ok, ?_, ?_, ?_,
    initPriority_root inv s0 s1 ne st⟩
  · intro v _ _
    rw [fin, pr]
    exact ⟨rfl, rfl⟩
  · intro v v0 v1
    obtain ⟨k, k1, k2, e⟩ := st v v0 v1
    refine ⟨k, ⟨k1, k2, by rw [e]⟩, ?_⟩
    rintro k' ⟨a, b, c⟩
    exact inv.ok.id_inj a b k1 k2 (by rw [c, e])
  · have := getPriority_stored inv.ok (st s s0 s1)
    simpa [initPriority] using this
  · intro v v0 v1 vs
    have := getPriority_stored inv.ok (st v v0 v1)
    simpa [initPriority, vs] using this

theorem initRecords_contract_witness :
    ∃ r, initRecords splitGraph 1 zeroNodes zeroEdges = some r ∧
      r.numVertices = splitGraph.numVertices ∧ r.numTreeEdges = 0 ∧
      (∀ v, 0 ≤ v → v < splitGraph.numVertices →
        r.finished v = false ∧ r.predecessors v = NOTHING) ∧
      r.heap.size = splitGraph.numVertices ∧ heapOrder r.heap ∧ mapConsistent r.heap ∧
      (∀ v, 0 ≤ v → v < splitGraph.numVertices →
        ∃! k, 1 ≤ k ∧ k ≤ r.heap.size ∧ (r.heap.arr k).id = v) ∧
      getPriority r.heap 1 = some 0 ∧
      (∀ v, 0 ≤ v → v < splitGraph.numVertices → v ≠ 1 →
        getPriority r.heap v = some INT_MAX) ∧
      r.heap.arr 1 = { priority := 0, id := 1 } :=
  initRecords_contract splitGraph 1 zeroNodes zeroEdges (by decide) (by decide) (by decide)

theorem tieHeap_mapConsistent : mapConsistent tieHeap := by
  intro s s1 s2
  have s2' : s ≤ 4 := s2
  have : s = 1 ∨ s = 2 ∨ s = 3 ∨ s = 4 := by omega
  rcases this with e | e | e | e <;> subst e <;> decide

/-- C24, counterexample.  In a heap whose slots 2 and 3 both hold priority 3,
`find_min` at the root returns slot 3, the right child, although
`priority(left) <= priority(right)`; and `extractMin` on that heap, which
moves the last node (priority 5) to the root, swaps it with slot 3: the heap
it leaves has the former right child at the root and the moved node in
slot 3, with slot 2 untouched. -/
theorem find_min_tie_goes_right :
    mapConsistent tieHeap ∧
    (tieHeap.arr 2).priority ≤ (tieHeap.arr 3).priority ∧
    find_min tieHeap 1 = some { priority := 3, nodeIndex := 3 } ∧
    (extractMin tieHeap).map (fun x => (x.1, cells3 x.2)) =
      some ({ priority := 1, id := 3 },
        (3, [{ priority := 3, id := 2 }, { priority := 3, id := 1 }, { priority := 5, id := 0 }],
          [3, 2, 1])) := by
  refine ⟨tieHeap_mapConsistent, by decide, by decide, by decide⟩

/-- C24, amended.  Bubble-down tie-break: on a heap with consistent map, for a
slot `k` with two children, `find_min` returns the child of smaller priority,
and the right child (slot `2k + 1`) when the two children have equal
priority: it returns the left child index exactly when
`priority(left) < priority(right)`.  When the node at `k` must be swapped
(its priority is greater than the one `find_min` returns), the loop of
`bubbleDown` swaps it with the slot `find_min` returned and goes on from
there. -/
theorem find_min_tie_break (h : MinHeap) (k : Int) (hm : mapConsistent h) (k1 : 1 ≤ k)
    (k2 : 2 * k + 1 ≤ h.size) :
    (∃ m, find_min h k = some m ∧
      m.priority = (h.arr m.nodeIndex).priority ∧
      m.priority ≤ (h.arr (2 * k)).priority ∧ m.priority ≤ (h.arr (2 * k + 1)).priority ∧
      (m.nodeIndex = 2 * k ↔ (h.arr (2 * k)).priority < (h.arr (2 * k + 1)).priority) ∧
      (m.nodeIndex = 2 * k + 1 ↔ (h.arr (2 * k + 1)).priority ≤ (h.arr (2 * k)).priority)) ∧
    ∀ (fuel : Nat) (m : MinNode), (h.arr k).priority > m.priority →
      bubbleDownLoop (fuel + 1) h k m =
        (swap h k m.nodeIndex).bind fun h1 =>
          (find_min h1 m.nodeIndex).bind fun m1 => bubbleDownLoop fuel h1 m.nodeIndex m1 := by
  have ok := allOk_of_mapConsistent hm
  have kk : k ≤ h.size := by omega
  constructor
  · refine ⟨minChild h k, find_min_eq ok k1 kk, ?_⟩
    unfold minChild
    rw [if_neg (by omega), if_neg (by omega)]
    by_cases c : (h.arr (2 * k)).priority < (h.arr (2 * k + 1)).priority
    · rw [if_pos c]
      dsimp only
      refine ⟨rfl, le_refl _, by omega, ?_, ?_⟩
      · exact ⟨fun _ => c, fun _ => rfl⟩
      · constructor
        · intro e; omega
        · intro e; omega
    · rw [if_neg c]
      dsimp only
      refine ⟨rfl, by omega, le_refl _, ?_, ?_⟩
      · constructor
        · intro e; omega
        · intro e; exact absurd e c
      · exact ⟨fun _ => by omega, fun _ => rfl⟩
  · intro fuel m gt
    have okk := ok k k1 kk
    have vk := isValidIndex_of_slotOk k1 kk okk
    have pk := priorityAt_eq (h := h) (s := k) (by omega) okk.1
    simp only [bubbleDownLoop, vk, pk, Option.bind_eq_bind, Option.some_bind, if_pos gt]
    rfl

theorem find_min_tie_break_witness :
    (∃ m, find_min tieHeap 1 = some m ∧
      m.priority = (tieHeap.arr m.nodeIndex).priority ∧
      m.priority ≤ (tieHeap.arr (2 * 1)).priority ∧
      m.priority ≤ (tieHeap.arr (2 * 1 + 1)).priority ∧
      (m.nodeIndex = 2 * 1 ↔
        (tieHeap.arr (2 * 1)).priority < (tieHeap.arr (2 * 1 + 1)).priority) ∧
      (m.nodeIndex = 2 * 1 + 1 ↔
        (tieHeap.arr (2 * 1 + 1)).priority ≤ (tieHeap.arr (2 * 1)).priority)) ∧
    ∀ (fuel : Nat) (m : MinNode), (tieHeap.arr 1).priority > m.priority →
      bubbleDownLoop (fuel + 1) tieHeap 1 m =
        (swap tieHeap 1 m.nodeIndex).bind fun h1 =>
          (find_min h1 m.nodeIndex).bind fun m1 => bubbleDownLoop fuel h1 m.nodeIndex m1 :=
  find_min_tie_break tieHeap 1 tieHeap_mapConsistent (by decide) (by decide)

theorem loopTrace_inv {iter : Records → Option (HeapNode × Records)} {fuel : Nat}
    {r last : Records} {log : List (Records × HeapNode)}
    (h : loopTrace iter fuel r = some (log, last)) :
    (r.heap.size = 0 ∧ log = [] ∧ last = r) ∨
    (r.heap.size ≠ 0 ∧ ∃ fuel' u r3 log', fuel = fuel' + 1 ∧ iter r = some (u, r3) ∧
      loopTrace iter fuel' r3 = some (log', last) ∧ log = (r, u) :: log') := by
  cases fuel with
  | zero => cases h
  | succ fuel =>
    simp only [loopTrace] at h
    by_cases e : r.heap.size = 0
    · have ie : isEmpty r.heap = true := by simp [isEmpty, e]
      rw [if_pos ie] at h
      injection h with h
      injection h with h1 h2
      exact Or.inl ⟨e, h1.symm, h2.symm⟩
    · have ie : ¬ isEmpty r.heap = true := by simp [isEmpty, e]
      rw [if_neg ie] at h
      right
      refine ⟨e, fuel, ?_⟩
      cases hi : iter r with
      | none =>
        rw [hi] at h
        cases h
      | some x =>
        obtain ⟨u, r3⟩ := x
        rw [hi] at h
        simp only [Option.bind_eq_bind, Option.some_bind] at h
        cases hl : loopTrace iter fuel r3 with
        | none =>
          rw [hl] at h
          cases h
        | some y =>
          obtain ⟨log', last'⟩ := y
          rw [hl] at h
          simp only [Option.some_bind, Option.pure_def] at h
          injection h with h
          injection h with h1 h2
          exact ⟨u, r3, log', rfl, rfl, h2 ▸ hl, h1.symm⟩

theorem loopTrace_pairwise (iter : Records → Option (HeapNode × Records))
    (P : Records → Prop) (E : Records → Records → Prop)
    (hrefl : ∀ r, E r r) (htrans : ∀ a b c, E a b → E b c → E a c)
    (step : ∀ r, P r → r.heap.size ≠ 0 → ∃ r3, iter r = some (r.heap.arr 1, r3) ∧ P r3 ∧
      E r r3)
    (fuel : Nat) :
    ∀ r log last, P r → loopTrace iter fuel r = some (log, last) →
      log.Pairwise (fun x y => E x.1 y.1) ∧ (∀ x ∈ log, E r x.1 ∧ E x.1 last) ∧ E r last ∧
      P last ∧ (∀ x ∈ log, P x.1) ∧
      (r.heap.size ≠ 0 → ∃ log', log = (r, r.heap.arr 1) :: log') := by
  induction fuel with
  | zero => intro r log last _ h; cases h
  | succ fuel ih =>
    intro r log last inv h
    rcases loopTrace_inv h with ⟨e, h1, h2⟩ | ⟨e, fuel', u, r3, log', hf, it, run, hl⟩
    · subst h1 h2
      exact ⟨List.Pairwise.nil, fun x hx => (by cases hx), hrefl _, inv,
        fun x hx => (by cases hx), fun x => absurd e x⟩
    · obtain ⟨r3', it', inv3, e3⟩ := step r inv e
      rw [it] at it'
      injection it' with it'
      injection it' with hu hr
      subst hu hr
      have hf' : fuel' = fuel := by omega
      subst hf'
      obtain ⟨pw, hx, el, pl, px, _⟩ := ih r3 log' last inv3 run
      subst hl
      refine ⟨List.Pairwise.cons ?_ pw, ?_, htrans _ _ _ e3 el, pl, ?_, fun _ => ⟨log', rfl⟩⟩
      · intro y hy
        exact htrans _ _ _ e3 (hx y hy).1
      · intro x hx'
        rcases List.mem_cons.1 hx' with e' | e'
        · subst e'
          exact ⟨hrefl _, htrans _ _ _ e3 el⟩
        · exact ⟨htrans _ _ _ e3 (hx x e').1, (hx x e').2⟩
      · intro x hx'
        rcases List.mem_cons.1 hx' with e' | e'
        · subst e'
          exact inv
        · exact px x e'

theorem fullTraversal_of_step {n s : Int} (iter : Records → Option (HeapNode × Records))
    (P : Records → Prop) (hrec : ∀ r, P r → RecInv n r)
    (step : ∀ r, P r → r.heap.size ≠ 0 → ∃ r3, iter r = some (r.heap.arr 1, r3) ∧ P r3 ∧
      r3.heap.size = r.heap.size - 1 ∧
      r3.finished = Function.update r.finished (r.heap.arr 1).id true)
    (s0 : 0 ≤ s) (s1 : s < n) {r0 : Records} (P0 : P r0) (sz : r0.heap.size = n)
    (fin : r0.finished = fun _ => false)
    (st : ∀ v, 0 ≤ v → v < n → Stored r0.heap { priority := initPriority s v, id := v }) :
    ∃ log last, loopTrace iter (n.toNat + 1) r0 = some (log, last) ∧ P last ∧
      (∀ x ∈ log, P x.1 ∧ x.1.heap.size ≠ 0 ∧ x.2 = x.1.heap.arr 1) ∧
      FullTraversal n s log last := by
  obtain ⟨log, last, run, invl, z, _, len, hlog, nd, hfin, _⟩ :=
    loopTrace_spec (n := n) iter P (fun _ _ => True) (fun _ => trivial)
      (fun _ _ _ _ _ => trivial) hrec
      (by
        intro r inv ne
        obtain ⟨r3, it, inv3, sz3, f3⟩ := step r inv ne
        exact ⟨r3, it, inv3, sz3, trivial, f3⟩)
      (n.toNat + 1) r0 P0 (by omega)
  obtain ⟨pw, hx, _, _, _, hd⟩ :=
    loopTrace_pairwise iter P (fun a b => ∀ v, a.finished v = true → b.finished v = true)
      (fun _ _ h => h) (fun _ _ _ h1 h2 v hv => h2 v (h1 v hv))
      (by
        intro r inv ne
        obtain ⟨r3, it, inv3, _, f3⟩ := step r inv ne
        refine ⟨r3, it, inv3, ?_⟩
        intro v hv
        rw [f3]
        by_cases c : v = (r.heap.arr 1).id
        · rw [c, Function.update_same]
        · rw [Function.update_noteq c]; exact hv)
      (n.toNat + 1) r0 log last P0 run
  have allfin : ∀ v, 0 ≤ v → v < n → last.finished v = true := by
    intro v v0 v1
    cases h : last.finished v
    · obtain ⟨p, t, t1, t2, _⟩ := ((hrec last invl).fin v v0 v1).1 h
      omega
    · rfl
  refine ⟨log, last, run, invl, fun x hx => ⟨(hlog x hx).1, (hlog x hx).2.1, (hlog x hx).2.2.1⟩,
    by rw [len, sz], ?_, ?_, pw, fun x hx' => (hx x hx').2, by simp [isEmpty, z], allfin⟩
  · refine ids_perm_range nd ?_
    intro v
    constructor
    · intro hv
      obtain ⟨x, hx, e⟩ := List.mem_map.1 hv
      obtain ⟨px, nex, ex, _⟩ := hlog x hx
      have hs : 1 ≤ x.1.heap.size := by have := (hrec _ px).size0; omega
      have := (hrec _ px).id_range (x := x.1.heap.arr 1) ⟨1, le_refl _, hs, rfl⟩
      rw [← e, ex]
      exact this
    · rintro ⟨v0, v1⟩
      have := (hfin v).1 (allfin v v0 v1)
      rw [fin] at this
      rcases this with h | h
      · exact absurd h Bool.false_ne_true
      · exact h
  · obtain ⟨log', e⟩ := hd (by omega)
    rw [e, initPriority_root (hrec _ P0) s0 s1 (by omega) st]
    rfl

/-- C23. Traversal termination: for every well-formed graph (vertex slots
non-NULL, adjacency targets in range) with `n >= 1` vertices and every valid
source, whatever the weights and the fresh memory, the main loops of
`getMSTprim` and `getDistanceTreeDijkstra` terminate after exactly `n`
iterations, each with one `extractMin` call; each vertex ID is extracted
exactly once, the first extraction is the source, a vertex once finished
stays finished, and at exit the heap is empty and all vertices are
finished. -/
theorem traversal_termination (g : Graph) (s : Int) (junk : Int → HeapNode)
    (junkTree : Int → Edge) (gok : GraphOk g) (s0 : 0 ≤ s) (s1 : s < g.numVertices) :
    (∃ log r, primTrace g s junk junkTree = some (log, r) ∧
      getMSTprim (some g) s junk junkTree = some (some r.tree) ∧
      FullTraversal g.numVertices s log r) ∧
    (∃ log r, dijkstraTrace g s junk junkTree = some (log, r) ∧
      getDistanceTreeDijkstra (some g) s junk junkTree = some (some r.tree) ∧
      FullTraversal g.numVertices s log r) := by
  obtain ⟨r0, i0, inv0, sz, _, fin, pr, _, st⟩ :=
    initRecords_spec g s junk junkTree (by omega)
  have hs : ¬ (s < 0 ∨ s ≥ g.numVertices) := by omega
  constructor
  · obtain ⟨log, last, run, _, _, full⟩ :=
      fullTraversal_of_step (primIter g) (RecInv g.numVertices) (fun _ h => h)
        (fun r inv ne => primIter_total gok inv ne) s0 s1 inv0 sz fin st
    have tr : primTrace g s junk junkTree = some (log, last) := by
      simp only [primTrace, i0, Option.bind_eq_bind, Option.some_bind]
      exact run
    have rn : primRun g s junk junkTree = some last := by
      rw [← primTrace_run, tr]
      rfl
    exact ⟨log, last, tr, by simp [getMSTprim, hs, rn], full⟩
  · obtain ⟨log, last, run, _, _, full⟩ :=
      fullTraversal_of_step (dijkstraIter g s) (fun r => ∃ rank, DijTree g s rank r)
        (fun _ h => h.choose_spec.recs)
        (by
          rintro r ⟨rank, inv⟩ ne
          obtain ⟨r3, it, inv3, sz3, _, f3, _⟩ := dijTree_step gok s0 s1 inv ne
          exact ⟨r3, it, inv3, sz3, f3⟩)
        s0 s1 ⟨_, dijTree_init inv0 sz fin pr st⟩ sz fin st
    have tr : dijkstraTrace g s junk junkTree = some (log, last) := by
      simp only [dijkstraTrace, i0, Option.bind_eq_bind, Option.some_bind]
      exact run
    have rn : dijkstraRun g s junk junkTree = some last := by
      rw [← dijkstraTrace_run, tr]
      rfl
    exact ⟨log, last, tr, by simp [getDistanceTreeDijkstra, hs, rn], full⟩

theorem traversal_termination_witness :
    (∃ log r, primTrace splitGraph 0 zeroNodes zeroEdges = some (log, r) ∧
      getMSTprim (some splitGraph) 0 zeroNodes zeroEdges = some (some r.tree) ∧
      FullTraversal splitGraph.numVertices 0 log r) ∧
    (∃ log r, dijkstraTrace splitGraph 0 zeroNodes zeroEdges = some (log, r) ∧
      getDistanceTreeDijkstra (some splitGraph) 0 zeroNodes zeroEdges = some (some r.tree) ∧
      FullTraversal splitGraph.numVertices 0 log r) :=
  traversal_termination splitGraph 0 zeroNodes zeroEdges splitGraph_ok (by decide) (by decide)

theorem Grows.same (r : Records) : Grows r r := ⟨le_refl _, fun _ _ _ => rfl⟩

theorem Grows.after {a b c : Records} (h1 : Grows a b) (h2 : Grows b c) : Grows a c :=
  ⟨le_trans h1.1 h2.1, fun i i0 i1 => by
    rw [h2.2 i i0 (lt_of_lt_of_le i1 h1.1), h1.2 i i0 i1]⟩

theorem primBase_init {g : Graph} {s : Int} {r : Records}
    (inv : RecInv g.numVertices r) (sz : r.heap.size = g.numVertices) (k : r.numTreeEdges = 0)
    (fin : r.finished = fun _ => false) (pr : r.predecessors = fun _ => NOTHING)
    (st : ∀ v, 0 ≤ v → v < g.numVertices →
      Stored r.heap { priority := initPriority s v, id := v }) :
    PrimBase g s r := by
  have nf : ∀ v, r.finished v = true → False := by
    intro v h
    rw [fin] at h
    exact Bool.false_ne_true h
  refine ⟨inv, by omega, by omega, fun h => (nf _ h).elim,
    fun _ => ⟨k, fun v v0 v1 => ⟨st v v0 v1, by rw [pr]⟩⟩, ?_, ?_⟩
  · intro v p _ h
    rw [pr] at h
    exact absurd rfl h
  · intro i i0 i1
    omega

theorem primBase_step {g : Graph} {s : Int} {r : Records} (gok : GraphOk g) (s0 : 0 ≤ s)
    (s1 : s < g.numVertices) (inv : PrimBase g s r) (ne : r.heap.size ≠ 0) :
    ∃ r3, primIter g r = some (r.heap.arr 1, r3) ∧ PrimBase g s r3 ∧
      r3.heap.size = r.heap.size - 1 ∧
      r3.finished = Function.update r.finished (r.heap.arr 1).id true ∧ Grows r r3 ∧
      ((r.predecessors (r.heap.arr 1).id = NOTHING ∧ r3.numTreeEdges = r.numTreeEdges) ∨
       (r.predecessors (r.heap.arr 1).id ≠ NOTHING ∧ r3.numTreeEdges = r.numTreeEdges + 1 ∧
        r3.tree r.numTreeEdges =
          { fromVertex := (r.heap.arr 1).id
            toVertex := r.predecessors (r.heap.arr 1).id
            weight := (r.heap.arr 1).priority })) := by
  obtain ⟨h1, ex, su, umin, sf, inv1, sz1, st1⟩ := extract_step inv.recs ne
  obtain ⟨h1', ex', ieq⟩ := primIter_eq gok inv.recs ne
  have hh : h1' = h1 := by
    rw [ex] at ex'
    injection ex' with e
    injection e with _ e
    exact e.symm
  subst hh
  obtain ⟨u0, u1⟩ := inv.recs.id_range su
  have uf := inv.recs.unfinished su
  obtain ⟨mh, mf, mn, mp⟩ := primMid_fields r h1'
  have inv2 : RecInv g.numVertices (primMid r h1') := by
    refine ⟨by rw [mn]; exact inv.recs.nv, by rw [mh]; exact inv1.cap, by rw [mh]; exact inv1.ok,
      by rw [mh]; exact inv1.ho, by rw [mh]; exact inv1.size0, ?_⟩
    rw [mh, mf]
    exact inv1.fin
  obtain ⟨r3, run, inv3, f3, t3, k3, s3, st3, ns3⟩ :=
    relaxLoop_spec (n := g.numVertices) (fun w => w) (r.heap.arr 1).id
      (adjOf g (r.heap.arr 1).id) (primMid r h1') inv2 (gok.target _)
  have f3' : r3.finished = Function.update r.finished (r.heap.arr 1).id true := by rw [f3, mf]
  have s3' : r3.heap.size = r.heap.size - 1 := by rw [s3, mh]; exact sz1
  have hfu : r3.finished (r.heap.arr 1).id = true := by rw [f3', Function.update_same]
  have hne : ∀ x, r.finished x = true → x ≠ (r.heap.arr 1).id := by
    intro x hx e
    rw [e, uf] at hx
    exact absurd hx (by decide)
  have hfm : ∀ x, r.finished x = true → r3.finished x = true := by
    intro x hx
    rw [f3', Function.update_noteq (hne x hx)]
    exact hx
  have hst : ∀ v p, Stored r3.heap { priority := p, id := v } →
      ∃ p0, Stored r.heap { priority := p0, id := v } ∧
        ((p = p0 ∧ r3.predecessors v = r.predecessors v) ∨
         (IsEdge g (r.heap.arr 1).id v p ∧ r3.predecessors v = (r.heap.arr 1).id)) := by
    intro v p sp
    obtain ⟨p0, sp0, _, _, cs⟩ := stored_after_relax inv2 inv3 f3 st3 sp
    rw [mh] at sp0
    obtain ⟨spr, _⟩ := (st1 _).1 sp0
    refine ⟨p0, spr, ?_⟩
    rcases cs with ⟨a, b⟩ | ⟨e, he, ev, ee, _, b⟩
    · left
      rw [mp] at b
      exact ⟨a, b⟩
    · right
      exact ⟨⟨e, he, ev, ee.symm⟩, b⟩
  have hcase : (r.heap.arr 1).id = s ∨ ((r.heap.arr 1).id ≠ s ∧ r.finished s = true) := by
    by_cases c : (r.heap.arr 1).id = s
    · exact Or.inl c
    · right
      refine ⟨c, ?_⟩
      cases hs : r.finished s
      · exfalso
        have root := initPriority_root inv.recs s0 s1 ne
          (fun v v0 v1 => ((inv.start hs).2 v v0 v1).1)
        rw [root] at c
        exact c rfl
      · rfl
  have hfs : r3.finished s = true := by
    rcases hcase with c | ⟨_, c⟩
    · rw [← c]; exact hfu
    · exact hfm s c
  have hsz : 1 ≤ r.heap.size := by have := inv.recs.size0; omega
  have hmid : (r.predecessors (r.heap.arr 1).id = NOTHING ∧ r3.tree = r.tree ∧
        r3.numTreeEdges = r.numTreeEdges) ∨
      (r.predecessors (r.heap.arr 1).id ≠ NOTHING ∧ r.finished s = true ∧
        r3.tree = Function.update r.tree r.numTreeEdges
          { fromVertex := (r.heap.arr 1).id
            toVertex := r.predecessors (r.heap.arr 1).id
            weight := (r.heap.arr 1).priority } ∧
        r3.numTreeEdges = r.numTreeEdges + 1) := by
    by_cases c : r.predecessors (r.heap.arr 1).id = NOTHING
    · left
      rw [t3, k3, primMid_nothing c]
      exact ⟨c, rfl, rfl⟩
    · right
      have fs : r.finished s = true := by
        cases hs : r.finished s
        · exact absurd ((inv.start hs).2 _ u0 u1).2 c
        · rfl
      have := inv.cnt fs
      have k0 := inv.k0
      rw [t3, k3, primMid_recorded c k0 (by rw [inv.recs.nv]; omega)]
      exact ⟨c, fs, rfl, rfl⟩
  refine ⟨r3, by rw [ieq, run]; rfl, ?_, s3', f3', ?_, ?_⟩
  · refine ⟨inv3, by have := inv.sz; omega, ?_, ?_, ?_, ?_, ?_⟩
    · rcases hmid with ⟨_, _, k⟩ | ⟨_, _, _, k⟩ <;> rw [k] <;> have := inv.k0 <;> omega
    · intro _
      rcases hmid with ⟨_, _, k⟩ | ⟨_, fs, _, k⟩
      · rw [k, s3']
        cases hs : r.finished s
        · have := (inv.start hs).1
          have := inv.sz
          omega
        · have := inv.cnt hs
          omega
      · rw [k, s3']
        have := inv.cnt fs
        omega
    · intro h
      rw [hfs] at h
      exact absurd h (by decide)
    · intro v p sp pn
      obtain ⟨p0, sp0, cs⟩ := hst v p sp
      rcases cs with ⟨a, b⟩ | ⟨a, b⟩
      · rw [b] at pn ⊢
        rw [a]
        obtain ⟨x, y⟩ := inv.pedge v p0 sp0 pn
        exact ⟨hfm _ x, y⟩
      · rw [b]
        exact ⟨hfu, a⟩
    · intro i i0 i1
      rcases hmid with ⟨_, t, k⟩ | ⟨pn, fs, t, k⟩
      · rw [t]
        rw [k] at i1
        exact inv.edges i i0 i1
      · rw [t]
        rw [k] at i1
        by_cases c : i = r.numTreeEdges
        · subst c
          rw [Function.update_same]
          exact (inv.pedge _ _ su pn).2
        · rw [Function.update_noteq c]
          exact inv.edges i i0 (by omega)
  · rcases hmid with ⟨_, t, k⟩ | ⟨_, _, t, k⟩
    · exact ⟨by rw [k], fun i _ _ => by rw [t]⟩
    · refine ⟨by rw [k]; omega, fun i _ i1 => ?_⟩
      rw [t, Function.update_noteq (by omega)]
  · rcases hmid with ⟨pn, _, k⟩ | ⟨pn, _, t, k⟩
    · exact Or.inl ⟨pn, k⟩
    · refine Or.inr ⟨pn, k, ?_⟩
      rw [t, Function.update_same]

theorem prim_recorded_at {g : Graph} {s : Int} (gok : GraphOk g) (s0 : 0 ≤ s)
    (s1 : s < g.numVertices) (fuel : Nat) :
    ∀ r log last, PrimBase g s r → loopTrace (primIter g) fuel r = some (log, last) →
      ∀ i, r.numTreeEdges ≤ i → i < last.numTreeEdges →
        ∃ x ∈ log, x.1.numTreeEdges = i ∧ x.1.predecessors x.2.id ≠ NOTHING ∧
          last.tree i = { fromVertex := x.2.id, toVertex := x.1.predecessors x.2.id,
                          weight := x.2.priority } := by
  induction fuel with
  | zero => intro r log last _ h; cases h
  | succ fuel ih =>
    intro r log last inv h i i0 i1
    rcases loopTrace_inv h with ⟨_, _, h2⟩ | ⟨e, fuel', u, r3, log', hf, it, run, hl⟩
    · subst h2
      omega
    · obtain ⟨r3', it', inv3, _, _, _, hrec⟩ := primBase_step gok s0 s1 inv e
      rw [it] at it'
      injection it' with it'
      injection it' with hu hr
      subst hu hr
      have hf' : fuel' = fuel := by omega
      subst hf'
      subst hl
      obtain ⟨_, _, gl, _⟩ := loopTrace_pairwise (primIter g) (PrimBase g s) Grows Grows.same
        (fun _ _ _ => Grows.after)
        (by
          intro r inv ne
          obtain ⟨r3, it, inv3, _, _, gr, _⟩ := primBase_step gok s0 s1 inv ne
          exact ⟨r3, it, inv3, gr⟩)
        fuel' r3 log' last inv3 run
      have next : r3.numTreeEdges ≤ i →
          ∃ x ∈ (r, r.heap.arr 1) :: log', x.1.numTreeEdges = i ∧
            x.1.predecessors x.2.id ≠ NOTHING ∧
            last.tree i = { fromVertex := x.2.id, toVertex := x.1.predecessors x.2.id,
                            weight := x.2.priority } := by
        intro hi
        obtain ⟨x, hx, a⟩ := ih r3 log' last inv3 run i hi i1
        exact ⟨x, List.mem_cons_of_mem _ hx, a⟩
      rcases hrec with ⟨_, k⟩ | ⟨pn, k, t⟩
      · exact next (by omega)
      · by_cases c : i = r.numTreeEdges
        · subst c
          refine ⟨(r, r.heap.arr 1), List.mem_cons_self _ _, rfl, pn, ?_⟩
          rw [gl.2 _ inv.k0 (by omega), t]
        · exact next (by omega)

/-- C25. Prim records only genuine graph edges: on a well-formed graph and for
a valid source, whatever the weights and the fresh memory, at the start of
every iteration of the outer loop of `getMSTprim` every unfinished vertex `v`
with `predecessors[v] != NOTHING` has as heap priority the weight of an edge
`predecessors[v] -> v` of the graph, and that predecessor is finished; every
tree edge `(u, p, w)` recorded by the end of the run is a graph edge `p -> u`
of weight `w`, recorded by the iteration that extracted `u` with priority `w`
and predecessor `p`, at the start of which `p` was finished and `u` was
not. -/
theorem prim_records_graph_edges (g : Graph) (s : Int) (junk : Int → HeapNode)
    (junkTree : Int → Edge) (gok : GraphOk g) (s0 : 0 ≤ s) (s1 : s < g.numVertices) :
    ∃ log r, primTrace g s junk junkTree = some (log, r) ∧
      getMSTprim (some g) s junk junkTree = some (some r.tree) ∧
      (∀ x ∈ log, ∀ v, 0 ≤ v → v < g.numVertices → x.1.finished v = false →
        x.1.predecessors v ≠ NOTHING →
        ∃ p, getPriority x.1.heap v = some p ∧ IsEdge g (x.1.predecessors v) v p ∧
          x.1.finished (x.1.predecessors v) = true) ∧
      (∀ i, 0 ≤ i → i < r.numTreeEdges →
        IsEdge g (r.tree i).toVertex (r.tree i).fromVertex (r.tree i).weight ∧
        ∃ x ∈ log, x.2.id = (r.tree i).fromVertex ∧ x.2.priority = (r.tree i).weight ∧
          x.1.numTreeEdges = i ∧ x.1.predecessors x.2.id = (r.tree i).toVertex ∧
          x.1.finished (r.tree i).toVertex = true ∧
          x.1.finished (r.tree i).fromVertex = false) := by
  obtain ⟨r0, i0, inv0, sz, k, fin, pr, _, st⟩ :=
    initRecords_spec g s junk junkTree (by omega)
  have hs : ¬ (s < 0 ∨ s ≥ g.numVertices) := by omega
  have P0 := primBase_init inv0 sz k fin pr st
  obtain ⟨log, last, run, invl, hlog, _⟩ :=
    fullTraversal_of_step (primIter g) (PrimBase g s) (fun _ h => h.recs)
      (by
        intro r inv ne
        obtain ⟨r3, it, inv3, sz3, f3, _⟩ := primBase_step gok s0 s1 inv ne
        exact ⟨r3, it, inv3, sz3, f3⟩)
      s0 s1 P0 sz fin st
  have tr : primTrace g s junk junkTree = some (log, last) := by
    simp only [primTrace, i0, Option.bind_eq_bind, Option.some_bind]
    exact run
  have rn : primRun g s junk junkTree = some last := by
    rw [← primTrace_run, tr]
    rfl
  refine ⟨log, last, tr, by simp [getMSTprim, hs, rn], ?_, ?_⟩
  · intro x hx v v0 v1 fv pn
    obtain ⟨px, _, _⟩ := hlog x hx
    obtain ⟨p, sp⟩ := (px.recs.fin v v0 v1).1 fv
    obtain ⟨a, b⟩ := px.pedge v p sp pn
    exact ⟨p, getPriority_stored px.recs.ok sp, b, a⟩
  · intro i i0' i1
    refine ⟨invl.edges i i0' i1, ?_⟩
    obtain ⟨x, hx, xi, pn, te⟩ :=
      prim_recorded_at gok s0 s1 _ r0 log last P0 run i (by rw [k]; exact i0') i1
    obtain ⟨px, nex, ex⟩ := hlog x hx
    have hsz : 1 ≤ x.1.heap.size := by have := px.recs.size0; omega
    have su : Stored x.1.heap (x.1.heap.arr 1) := ⟨1, le_refl _, hsz, rfl⟩
    have uf := px.recs.unfinished su
    obtain ⟨a, _⟩ := px.pedge (x.1.heap.arr 1).id (x.1.heap.arr 1).priority su
      (by rw [← ex]; exact pn)
    rw [te]
    dsimp only
    refine ⟨x, hx, rfl, rfl, xi, rfl, ?_, ?_⟩
    · rw [ex]; exact a
    · rw [ex]; exact uf

theorem prim_records_graph_edges_witness :
    ∃ log r, primTrace splitGraph 1 zeroNodes zeroEdges = some (log, r) ∧
      getMSTprim (some splitGraph) 1 zeroNodes zeroEdges = some (some r.tree) ∧
      (∀ x ∈ log, ∀ v, 0 ≤ v → v < splitGraph.numVertices → x.1.finished v = false →
        x.1.predecessors v ≠ NOTHING →
        ∃ p, getPriority x.1.heap v = some p ∧ IsEdge splitGraph (x.1.predecessors v) v p ∧
          x.1.finished (x.1.predecessors v) = true) ∧
      (∀ i, 0 ≤ i → i < r.numTreeEdges →
        IsEdge splitGraph (r.tree i).toVertex (r.tree i).fromVertex (r.tree i).weight ∧
        ∃ x ∈ log, x.2.id = (r.tree i).fromVertex ∧ x.2.priority = (r.tree i).weight ∧
          x.1.numTreeEdges = i ∧ x.1.predecessors x.2.id = (r.tree i).toVertex ∧
          x.1.finished (r.tree i).toVertex = true ∧
          x.1.finished (r.tree i).fromVertex = false) :=
  prim_records_graph_edges splitGraph 1 zeroNodes zeroEdges splitGraph_ok (by decide)
    (by decide)

theorem dijkstra_stored_step {g : Graph} {s : Int} {r : Records} (gok : GraphOk g)
    (inv : RecInv g.numVertices r) (ne : r.heap.size ≠ 0) :
    ∃ r3, dijkstraIter g s r = some (r.heap.arr 1, r3) ∧
      ∀ v p, Stored r3.heap { priority := p, id := v } →
        ∃ p0, Stored r.heap { priority := p0, id := v } ∧
          (p = p0 ∨ ∃ e ∈ adjOf g (r.heap.arr 1).id, e.toVertex = v ∧
            p = wrap32 ((r.heap.arr 1).priority + e.weight)) := by
  obtain ⟨h1, ex, su, umin, sf, inv1, sz1, st1⟩ := extract_step inv ne
  obtain ⟨h1', ex', ieq⟩ := dijkstraIter_eq (s := s) gok inv ne
  have hh : h1' = h1 := by
    rw [ex] at ex'
    injection ex' with e
    injection e with _ e
    exact e.symm
  subst hh
  have inv2 : RecInv g.numVertices (dijRecorded s r h1') :=
    ⟨inv1.nv, inv1.cap, inv1.ok, inv1.ho, inv1.size0, inv1.fin⟩
  obtain ⟨r3, run, inv3, f3, _, _, _, st3, _⟩ :=
    relaxLoop_spec (n := g.numVertices) (fun w => wrap32 ((r.heap.arr 1).priority + w))
      (r.heap.arr 1).id (adjOf g (r.heap.arr 1).id) (dijRecorded s r h1') inv2 (gok.target _)
  refine ⟨r3, by rw [ieq, run]; rfl, ?_⟩
  intro v p sp
  obtain ⟨p0, sp0, _, _, cs⟩ := stored_after_relax inv2 inv3 f3 st3 sp
  have sp0' : Stored h1' { priority := p0, id := v } := sp0
  obtain ⟨spr, _⟩ := (st1 _).1 sp0'
  refine ⟨p0, spr, ?_⟩
  rcases cs with ⟨a, _⟩ | ⟨e, he, ev, ee, _⟩
  · exact Or.inl a
  · exact Or.inr ⟨e, he, ev, ee⟩

theorem dijkstra_sorted {g : Graph} {s : Int} (gok : GraphOk g) (s0 : 0 ≤ s)
    (s1 : s < g.numVertices) (hw : ∀ a b w, IsEdge g a b w → 0 ≤ w) (fuel : Nat) :
    ∀ r log last m, (∃ rank, DijTree g s rank r) →
      loopTrace (dijkstraIter g s) fuel r = some (log, last) → 0 ≤ m →
      (∀ x, Stored r.heap x → m ≤ x.priority) →
      (∀ u, 0 ≤ u → u < g.numVertices → r.finished u = true → (r.tree u).weight ≤ m) →
      (∀ x ∈ log, ∀ e ∈ adjOf g x.2.id, x.1.finished e.toVertex = false →
        e.toVertex ≠ x.2.id → x.2.priority + e.weight ≤ INT_MAX) →
      List.Chain (fun a b => a ≤ b) m (log.map fun x => x.2.priority) ∧
      ∀ x ∈ log, ∀ u, 0 ≤ u → u < g.numVertices → x.1.finished u = true →
        ∀ y, Stored x.1.heap y → (x.1.tree u).weight ≤ y.priority := by
  induction fuel with
  | zero => intro r log last m _ h; cases h
  | succ fuel ih =>
    intro r log last m inv h m0 hst hfin hno
    rcases loopTrace_inv h with ⟨_, h1, _⟩ | ⟨e, fuel', u, r3, log', hf, it, run, hl⟩
    · subst h1
      exact ⟨List.Chain.nil, fun x hx => (by cases hx)⟩
    · obtain ⟨rank, tinv⟩ := inv
      obtain ⟨r3', it', inv3, _, _, f3, t3, ew, _⟩ := dijTree_step gok s0 s1 tinv e
      obtain ⟨r3'', it'', st3⟩ := dijkstra_stored_step (s := s) gok tinv.recs e
      rw [it] at it' it''
      injection it' with it'
      injection it' with hu hr
      injection it'' with it''
      injection it'' with _ hr'
      subst hu hr hr'
      have hf' : fuel' = fuel := by omega
      subst hf'
      subst hl
      have hsz : 1 ≤ r.heap.size := by have := tinv.recs.size0; omega
      have su : Stored r.heap (r.heap.arr 1) := ⟨1, le_refl _, hsz, rfl⟩
      have umin : ∀ x, Stored r.heap x → (r.heap.arr 1).priority ≤ x.priority :=
        fun x sx => root_le_stored tinv.recs.ho sx
      have mu := hst _ su
      have hno0 := hno (r, r.heap.arr 1) (List.mem_cons_self _ _)
      dsimp only at hno0
      obtain ⟨rank3, tinv3⟩ := inv3
      obtain ⟨ch, rest⟩ := ih r3 log' last (r.heap.arr 1).priority ⟨rank3, tinv3⟩ run (by omega)
        (by
          intro x sx
          obtain ⟨p0, sp0, cs⟩ := st3 x.id x.priority sx
          rcases cs with a | ⟨e, he, ev, ee⟩
          · rw [a]
            exact umin _ sp0
          · have w0 := hw _ _ _ ⟨e, he, rfl, rfl⟩
            have unf := tinv.recs.unfinished sp0
            have unf3 := tinv3.recs.unfinished sx
            rw [f3] at unf3
            have ne : x.id ≠ (r.heap.arr 1).id := by
              intro c
              rw [c, Function.update_same] at unf3
              exact absurd unf3 (by decide)
            have w1 := hno0 e he (by rw [ev]; exact unf) (by rw [ev]; exact ne)
            rw [ee]
            unfold INT_MAX at w1
            unfold wrap32
            omega)
        (by
          intro v v0 v1 fv
          rw [t3]
          rw [f3] at fv
          by_cases c : v = (r.heap.arr 1).id
          · rw [c, Function.update_same, ew]
          · rw [Function.update_noteq c] at fv ⊢
            have := hfin v v0 v1 fv
            omega)
        (fun x hx => hno x (List.mem_cons_of_mem _ hx))
      refine ⟨?_, ?_⟩
      · simp only [List.map_cons]
        exact List.Chain.cons mu ch
      · intro x hx
        rcases List.mem_cons.1 hx with e' | e'
        · subst e'
          intro v v0 v1 fv y sy
          have := hfin v v0 v1 fv
          have := hst y sy
          show (r.tree v).weight ≤ y.priority
          omega
        · exact rest x e'

/-- Where every vertex is reachable from the source, no infinite priority is
ever extracted and the extraction order of Dijkstra is non-decreasing: for a
well-formed graph with non-negative weights in which every path from the
source without repeated vertices weighs less than `INT_MAX`. -/
theorem dijkstra_order_connected {g : Graph} {s : Int} (gok : GraphOk g) (s0 : 0 ≤ s)
    (s1 : s < g.numVertices) (hw : ∀ a b w, IsEdge g a b w → 0 ≤ w)
    (hsum : ∀ vs v d, Path g s vs v d → vs.Nodup → d < INT_MAX)
    (hall : ∀ v, 0 ≤ v → v < g.numVertices → Reach g s v)
    (junk : Int → HeapNode) (junkTree : Int → Edge) :
    ∃ log r, dijkstraTrace g s junk junkTree = some (log, r) ∧
      getDistanceTreeDijkstra (some g) s junk junkTree = some (some r.tree) ∧
      (log.map fun x => x.2.priority).Pairwise (fun a b => a ≤ b) ∧
      ∀ x ∈ log, ∀ u, 0 ≤ u → u < g.numVertices → x.1.finished u = true →
        ∀ v p, Stored x.1.heap { priority := p, id := v } → (x.1.tree u).weight ≤ p := by
  obtain ⟨r0, i0, inv0, sz, _, fin, pr, _, st⟩ :=
    initRecords_spec g s junk junkTree (by omega)
  have P0 : DijInv g s r0 ∧ (∃ rank, DijTree g s rank r0) ∧ DijPred g s r0 := by
    refine ⟨dijInv_init s0 s1 inv0 fin st, ⟨_, dijTree_init inv0 sz fin pr st⟩, ?_⟩
    intro v _ _ _ pn
    rw [pr] at pn
    exact absurd rfl pn
  obtain ⟨log, last, lt, _, z, _, _, hlog, _⟩ :=
    loopTrace_spec (n := g.numVertices) (dijkstraIter g s)
      (fun r => DijInv g s r ∧ (∃ rank, DijTree g s rank r) ∧ DijPred g s r)
      Keeps Keeps.self (fun _ _ _ => Keeps.compose) (fun r h => h.1.recs)
      (fun r inv ne => dijFull_step gok s0 s1 hw hsum inv ne)
      (g.numVertices.toNat + 1) r0 P0 (by omega)
  have tr : dijkstraTrace g s junk junkTree = some (log, last) := by
    simp only [dijkstraTrace, i0, Option.bind_eq_bind, Option.some_bind]
    exact lt
  have run : dijkstraRun g s junk junkTree = some last := by
    rw [← dijkstraTrace_run, tr]
    rfl
  have hs : ¬ (s < 0 ∨ s ≥ g.numVertices) := by omega
  have hno : ∀ x ∈ log, ∀ e ∈ adjOf g x.2.id, x.1.finished e.toVertex = false →
      e.toVertex ≠ x.2.id → x.2.priority + e.weight ≤ INT_MAX := by
    intro x hx e he fe ne
    obtain ⟨⟨dinv, _, _⟩, nz, xe, _⟩ := hlog x hx
    have hsz : 1 ≤ x.1.heap.size := by have := dinv.recs.size0; omega
    have su : Stored x.1.heap x.2 := ⟨1, le_refl _, hsz, xe.symm⟩
    obtain ⟨u0, u1⟩ := dinv.recs.id_range su
    have uf := dinv.recs.unfinished su
    have umin : ∀ y, Stored x.1.heap y → x.2.priority ≤ y.priority := by
      intro y sy
      rw [xe]
      exact root_le_stored dinv.recs.ho sy
    rcases dinv.phase with B | ⟨_, p2, p3, p4⟩
    · have := B x.2.id u0 u1 (hall _ u0 u1)
      rw [uf] at this
      exact absurd this (by decide)
    · rcases p2 x.2.id x.2.priority su with c | ⟨_, vs, pth, nd, hfin⟩
      · obtain ⟨vs, d, pv⟩ := (hall _ u0 u1).exists_path
        have := dij_all_reached gok s0 s1 hsum dinv p3 p4 (by rw [← c]; exact umin) pv
        rw [uf] at this
        exact absurd this (by decide)
      · have nin : e.toVertex ∉ vs := by
          intro hin
          have := hfin _ hin ne
          rw [fe] at this
          exact absurd this (by decide)
        have := hsum _ _ _ (Path.snoc pth ⟨e, he, rfl, rfl⟩) (List.nodup_cons.2 ⟨nin, nd⟩)
        omega
  obtain ⟨ch, rest⟩ := dijkstra_sorted gok s0 s1 hw _ r0 log last 0
    ⟨_, dijTree_init inv0 sz fin pr st⟩ lt (le_refl _)
    (by
      intro x sx
      obtain ⟨x0, x1⟩ := inv0.id_range sx
      have e := Stored.priority_unique inv0.ok sx (st x.id x0 x1) rfl
      rw [e]
      dsimp only
      unfold initPriority INT_MAX
      split_ifs <;> omega)
    (by
      intro u _ _ fu
      rw [fin] at fu
      exact absurd fu Bool.false_ne_true)
    hno
  refine ⟨log, last, tr, by simp [getDistanceTreeDijkstra, hs, run], ?_, ?_⟩
  · have := (List.chain_iff_pairwise (R := fun (a b : Int) => a ≤ b)).1 ch
    exact (List.pairwise_cons.1 this).2
  · intro x hx u u0 u1 fu v p sp
    exact rest x hx u u0 u1 fu _ sp

set_option maxRecDepth 100000 in
theorem splitGraph_trace_states :
    (dijkstraTrace splitGraph 0 zeroNodes zeroEdges).map
      (fun x => x.1.map fun y =>
        (y.2.priority, y.1.finished 0, (y.1.tree 0).weight, y.1.heap.size, y.1.heap.arr 1)) =
      some [(0, false, 0, 3, { priority := 0, id := 0 }),
        (2147483647, true, 0, 2, { priority := 2147483647, id := 2 }),
        (-2147483648, true, 0, 1, { priority := -2147483648, id := 1 })] := by
  decide

/-- C26, the run that shows the defect.  In the graph of three vertices where
vertex 0 has no edge and vertices 1 and 2 are joined by an edge of weight 1,
all weights are non-negative and every path from the source 0 without repeated
vertices weighs less than `INT_MAX`.  The successive `extractMin` calls of
`getDistanceTreeDijkstra` return the priorities `0`, `INT_MAX`, `-2147483648`,
which is not a non-decreasing sequence: the sum `INT_MAX + 1` wraps and lowers
the priority of vertex 1 to `-2147483648`, below the distance `0` of the
finished vertex 0. -/
theorem dijkstra_order_breaks_at_infinity :
    (∀ a b w, IsEdge splitGraph a b w → 0 ≤ w) ∧
    (∀ vs v d, Path splitGraph 0 vs v d → vs.Nodup → d < INT_MAX) ∧
    ∃ log r, dijkstraTrace splitGraph 0 zeroNodes zeroEdges = some (log, r) ∧
      getDistanceTreeDijkstra (some splitGraph) 0 zeroNodes zeroEdges = some (some r.tree) ∧
      (log.map fun x => x.2.priority) = [0, 2147483647, -2147483648] ∧
      ¬ (log.map fun x => x.2.priority).Pairwise (fun a b => a ≤ b) ∧
      ∃ x ∈ log, x.1.finished 0 = true ∧ (x.1.tree 0).weight = 0 ∧
        Stored x.1.heap { priority := -2147483648, id := 1 } := by
  refine ⟨fun a b w h => (splitGraph_weights a b w h).1,
    splitGraph_sums 0 (by decide) (by decide), ?_⟩
  have h := splitGraph_trace_states
  cases hr : dijkstraTrace splitGraph 0 zeroNodes zeroEdges with
  | none =>
    rw [hr] at h
    cases h
  | some x =>
    obtain ⟨log, r⟩ := x
    rw [hr, Option.map_some'] at h
    injection h with h
    dsimp only at h
    have run : dijkstraRun splitGraph 0 zeroNodes zeroEdges = some r := by
      rw [← dijkstraTrace_run, hr]
      rfl
    have hs : ¬ ((0 : Int) < 0 ∨ (0 : Int) ≥ splitGraph.numVertices) := by decide
    have hp : (log.map fun x => x.2.priority) = [0, 2147483647, -2147483648] := by
      have := congrArg (List.map fun (t : Int × Bool × Int × Int × HeapNode) => t.1) h
      simpa [List.map_map, Function.comp_def] using this
    refine ⟨log, r, rfl, ?_, hp, ?_, ?_⟩
    · simp only [getDistanceTreeDijkstra, hs, if_false, run, Option.bind_eq_bind,
        Option.some_bind]
      rfl
    · rw [hp]
      decide
    · have hm : ((-2147483648 : Int), true, (0 : Int), (1 : Int),
          ({ priority := -2147483648, id := 1 } : HeapNode)) ∈ log.map fun y =>
            (y.2.priority, y.1.finished 0, (y.1.tree 0).weight, y.1.heap.size,
              y.1.heap.arr 1) := by
        rw [h]
        simp
      obtain ⟨x, hx, e⟩ := List.mem_map.1 hm
      simp only [Prod.mk.injEq] at e
      obtain ⟨_, c2, c3, c4, c5⟩ := e
      exact ⟨x, hx, c2, c3, 1, le_refl _, by rw [c4], c5⟩

end CSCB63
